import Mathlib

/-! # Vampires: grid pursuit engine

A shallow embedding of `plugin/src/ms/vampires_nx_vms_plugin/vampires.{h,cpp}` and
`socket_reader.{h,cpp}`.

* The C++ objects of class `Item` live on the heap and are shared between the field cells,
  the pursuer list and the player handle.  Here the heap is the list `items`; an item is
  referred to by its index in that list, and a null pointer is `none`.
* `m_field[y][x]` is a list of rows.  Reading or writing outside of the field is undefined
  behaviour in C++; here such an access makes the operation return `none`.
* A failing `NX_KIT_ASSERT` and a null dereference also make the operation return `none`.
* `int` values are modelled by `Int`.  Where the source multiplies two values that depend on
  the size of the field (the squared distance `d` in `moveVampires`, the index of the next
  wall in `initGame`), the 32-bit arithmetic is explicit (`wrapInt`): a signed overflow,
  undefined in C++, is taken to wrap, as it does on the targets of the plugin.  The
  coordinates, their differences and the costs `dd` of `moveVampires` stay within `int` on
  every field with `width + height ≤ 2 ^ 30` (`CostFits`), where no cost reaches the sentinel
  `INT_MAX`; `IntFits` is the condition on the dimensions under which no `int` computed by
  `moveVampires` overflows, the squared distances included.
* The body of the main loop of `moveVampires` is the function `vampireStep`; `turns` lists the
  pursuers whose turn comes, each with the state at its turn.
* The constructor is `construct`.  The constant `RAND_MAX` of `<cstdlib>` and the values
  returned by the successive calls of `rand()` are parameters; `/` and `%` of C++ are
  `Int.tdiv` and `Int.tmod`.
* The states that calls of `movePlayer` and `moveVampires` lead to are given by the relation
  `Reachable`.
* `while` loops are given a fuel; running out of fuel yields `none`.
* `std::sort` does not specify the order of elements that compare equal, so the engine step is
  parameterised by the sorting function; `SortSpec` is what `std::sort` guarantees when it is
  called with the comparison of the source, `compareVampires`.
* The input channel, `socket_reader.{h,cpp}`, is embedded in the second part of the
  definitions; what the operating system answers to each call is a parameter, and a call that
  waits, has undefined behaviour or does not end is a value of `Outcome`.
-/

namespace Vampires

/-- The `enum class Direction` without its `count` terminator. -/
inductive Direction where
  | up | upRight | right | downRight | down | downLeft | left | upLeft
  deriving DecidableEq, Repr

/-- The `enum class PlayerResult`. -/
inductive PlayerResult where
  | ok | lost
  deriving DecidableEq, Repr

/-- The `enum class VampireResult`. -/
inductive VampireResult where
  | ok | lost | win
  deriving DecidableEq, Repr

/-- The `enum class Item::Kind`. -/
inductive Kind where
  | player | wall | vampire | border
  deriving DecidableEq, Repr

/-- The class `Item`: an immutable kind and a mutable stored position. -/
structure Item where
  kind : Kind
  x : Int
  y : Int
  deriving DecidableEq, Repr

/-- The `struct Distance` of vampires.cpp: a displacement. -/
structure Distance where
  x : Int := 0
  y : Int := 0
  deriving DecidableEq, Repr

/-- The `struct Vampire`: a reference to an item and the distance to the player. -/
structure Vampire where
  item : Nat
  d : Int
  deriving DecidableEq, Repr

/-- The field: rows of cells, a cell is empty or refers to an item. -/
abbrev Field := List (List (Option Nat))

/-- The constant `INT_MAX` of a 32-bit `int`. -/
def INT_MAX : Int := 2147483647

/-- The constant `INT_MIN` of a 32-bit `int`. -/
def INT_MIN : Int := -2147483648

/-- The value of a 32-bit `int` computation whose exact result is `n`: the result modulo
`2 ^ 32`, taken in the range of `int`. -/
def wrapInt (n : Int) : Int :=
  (n - INT_MIN) % 4294967296 + INT_MIN

/-- The directions in the order of the enumeration, as the loop `dir = 0 .. count - 1` visits
them. -/
def allDirections : List Direction :=
  [.up, .upRight, .right, .downRight, .down, .downLeft, .left, .upLeft]

/-- The function `directionToDistance`. -/
def directionToDistance : Direction → Distance
  | .up => { x := 0, y := -1 }
  | .upRight => { x := 1, y := -1 }
  | .right => { x := 1, y := 0 }
  | .downRight => { x := 1, y := 1 }
  | .down => { x := 0, y := 1 }
  | .downLeft => { x := -1, y := 1 }
  | .left => { x := -1, y := 0 }
  | .upLeft => { x := -1, y := -1 }

/-- Read `m_field[y][x]`; `none` when the access is out of range. -/
def cellAt (f : Field) (x y : Int) : Option (Option Nat) :=
  if 0 ≤ x ∧ 0 ≤ y then
    match f[y.toNat]? with
    | none => none
    | some row => row[x.toNat]?
  else none

/-- Write `m_field[y][x] = v`; `none` when the access is out of range. -/
def setCell (f : Field) (x y : Int) (v : Option Nat) : Option Field :=
  if 0 ≤ x ∧ 0 ≤ y then
    match f[y.toNat]? with
    | none => none
    | some row => if x.toNat < row.length then some (f.set y.toNat (row.set x.toNat v)) else none
  else none

end Vampires

/-- The state of an object of class `Vampires`: the constants, the heap of items, the field,
the pursuer list and the player handle. -/
structure Vampires where
  width : Int
  height : Int
  vampireCount : Int
  wallCount : Int
  items : List Vampires.Item
  m_field : Vampires.Field
  m_vampires : List Vampires.Vampire
  m_player : Nat
  deriving DecidableEq, Repr

namespace Vampires

/-- The method `fieldHas`: whether the cell holds an item of the given kind. -/
def fieldHas (g : Vampires) (x y : Int) (kind : Kind) : Option Bool :=
  match cellAt g.m_field x y with
  | none => none
  | some none => some false
  | some (some id) =>
    match g.items[id]? with
    | none => none
    | some it => some (decide (it.kind = kind))

/-- The method `moveItem`: both assertions, the swap of the two cells, and the update of the
stored position. -/
def moveItem (g : Vampires) (id : Nat) (x y : Int) : Option Vampires :=
  match cellAt g.m_field x y with
  | none => none
  | some target =>
    if target ≠ none then none
    else
      match g.items[id]? with
      | none => none
      | some it =>
        match cellAt g.m_field it.x it.y with
        | none => none
        | some source =>
          if source ≠ some id then none
          else
            match setCell g.m_field it.x it.y target with
            | none => none
            | some f1 =>
              match setCell f1 x y source with
              | none => none
              | some f2 =>
                some { g with m_field := f2, items := g.items.set id { it with x := x, y := y } }

/-- The first loop of `movePlayer`: skip the walls, return the cell after them. -/
def scanWalls (g : Vampires) (d : Distance) : Nat → Int → Int → Option (Int × Int)
  | 0, _, _ => none
  | fuel + 1, emptyX, emptyY =>
    match fieldHas g emptyX emptyY Kind.wall with
    | none => none
    | some true => scanWalls g d fuel (emptyX + d.x) (emptyY + d.y)
    | some false => some (emptyX, emptyY)

/-- The second loop of `movePlayer`: push the walls, starting with the last one in the row. -/
def pushWalls (d : Distance) (newX newY : Int) : Nat → Vampires → Int → Int → Option Vampires
  | 0, _, _, _ => none
  | fuel + 1, g, emptyX, emptyY =>
    if emptyX = newX ∧ emptyY = newY then some g
    else
      match cellAt g.m_field (emptyX - d.x) (emptyY - d.y) with
      | none => none
      | some none => none
      | some (some wall) =>
        match moveItem g wall emptyX emptyY with
        | none => none
        | some g1 => pushWalls d newX newY fuel g1 (emptyX - d.x) (emptyY - d.y)

/-- The number of iterations granted to each loop of `movePlayer`. -/
def loopFuel (g : Vampires) : Nat := (max g.width g.height).toNat

/-- The method `movePlayer`. -/
def movePlayer (direction : Direction) (g : Vampires) : Option (PlayerResult × Vampires) :=
  let d := directionToDistance direction
  match g.items[g.m_player]? with
  | none => none
  | some p =>
    let newX := p.x + d.x
    let newY := p.y + d.y
    match fieldHas g newX newY Kind.vampire with
    | none => none
    | some true => some (PlayerResult.lost, g)
    | some false =>
      match scanWalls g d (loopFuel g) newX newY with
      | none => none
      | some (emptyX, emptyY) =>
        match cellAt g.m_field emptyX emptyY with
        | none => none
        | some (some _) => some (PlayerResult.ok, g)
        | some none =>
          match pushWalls d newX newY (loopFuel g) g emptyX emptyY with
          | none => none
          | some g1 =>
            match moveItem g1 g1.m_player newX newY with
            | none => none
            | some g2 => some (PlayerResult.ok, g2)

/-- The comparison that `moveVampires` passes to `std::sort`, the lambda
`[](const Vampire& v1, const Vampire& v2) { return v1.d > v2.d; }`: whether `v1` is to come
before `v2`. -/
def compareVampires (v1 v2 : Vampire) : Bool :=
  decide (v1.d > v2.d)

/-- What `std::sort` called with the comparison `compareVampires` guarantees: the result is a
rearrangement of the input and no element is followed by one that the comparison puts before
it. -/
def SortSpec (sort : List Vampire → List Vampire) : Prop :=
  ∀ l, (sort l).Perm l ∧ (sort l).Pairwise (fun v1 v2 => compareVampires v2 v1 = false)

/-- The first loop of `moveVampires`: store `dx * dx + dy * dy`, computed in `int`, in each
entry: the squared distance to the player where it fits in an `int`. -/
def updateDistances (g : Vampires) : List Vampire → Option (List Vampire)
  | [] => some []
  | vampire :: rest =>
    match g.items[vampire.item]?, g.items[g.m_player]? with
    | some it, some p =>
      let dx := it.x - p.x
      let dy := it.y - p.y
      match updateDistances g rest with
      | none => none
      | some rest1 =>
        some ({ vampire with d := wrapInt (wrapInt (dx * dx) + wrapInt (dy * dy)) } :: rest1)
    | _, _ => none

/-- The value `dd` computed in `moveVampires` for a pursuer at `(vx, vy)`, the player at
`(px, py)` and the displacement `d`. -/
def cost (vx vy px py : Int) (d : Distance) : Int :=
  let cx := 2 * (vx - px)
  let cy := 2 * (vy - py)
  (if d.x ≠ 0 then (if d.x = 1 then 1 + cx else 1 - cx) else 0)
    + (if d.y ≠ 0 then (if d.y = 1 then 1 + cy else 1 - cy) else 0)

/-- The outcome of the loop over the directions for one pursuer: either the player was found in
a neighbouring cell, or the loop ended with the values of `minDd` and `minDistance`. -/
inductive DirScan where
  | caught
  | chosen (minDd : Int) (minDistance : Distance)
  deriving DecidableEq, Repr

/-- The loop over the directions in `moveVampires` for the pursuer `v`, with the player `p`. -/
def scanDirections (g : Vampires) (v p : Item) : List Direction → Int → Distance → Option DirScan
  | [], minDd, minDistance => some (DirScan.chosen minDd minDistance)
  | dir :: rest, minDd, minDistance =>
    let d := directionToDistance dir
    match fieldHas g (v.x + d.x) (v.y + d.y) Kind.player with
    | none => none
    | some true => some DirScan.caught
    | some false =>
      match cellAt g.m_field (v.x + d.x) (v.y + d.y) with
      | none => none
      | some (some _) => scanDirections g v p rest minDd minDistance
      | some none =>
        let dd := cost v.x v.y p.x p.y d
        if minDd > dd then scanDirections g v p rest dd d
        else scanDirections g v p rest minDd minDistance

/-- The outcome of the body of the main loop of `moveVampires` for one pursuer: `return lost`,
`continue` without a move, or the state after the pursuer was relocated. -/
inductive StepResult where
  | lost
  | skipped
  | moved (g1 : Vampires)
  deriving DecidableEq, Repr

/-- The body of the main loop of `moveVampires` for one pursuer. -/
def vampireStep (g : Vampires) (vampire : Vampire) : Option StepResult :=
  match g.items[vampire.item]?, g.items[g.m_player]? with
  | some it, some p =>
    match scanDirections g it p allDirections INT_MAX {} with
    | none => none
    | some DirScan.caught => some StepResult.lost
    | some (DirScan.chosen minDd minDistance) =>
      if minDd = INT_MAX then some StepResult.skipped
      else
        match moveItem g vampire.item (it.x + minDistance.x) (it.y + minDistance.y) with
        | none => none
        | some g1 => some (StepResult.moved g1)
  | _, _ => none

/-- The main loop of `moveVampires` over the sorted pursuers; `moved` is
`hasSomeVampiresMoved`. -/
def vampiresLoop : List Vampire → Vampires → Bool → Option (VampireResult × Vampires)
  | [], g, moved => some (if moved then VampireResult.ok else VampireResult.win, g)
  | vampire :: rest, g, moved =>
    match vampireStep g vampire with
    | none => none
    | some StepResult.lost => some (VampireResult.lost, g)
    | some StepResult.skipped => vampiresLoop rest g moved
    | some (StepResult.moved g1) => vampiresLoop rest g1 true

/-- The pursuers whose turn comes in the main loop of `moveVampires`, each with the state at
its turn. -/
def loopTurns : List Vampire → Vampires → List (Vampire × Vampires)
  | [], _ => []
  | vampire :: rest, g =>
    (vampire, g) ::
      match vampireStep g vampire with
      | some StepResult.skipped => loopTurns rest g
      | some (StepResult.moved g1) => loopTurns rest g1
      | _ => []

/-- The pursuer list after the first loop and the sort of `moveVampires`: the order in which
the main loop processes the pursuers. -/
def processingOrder (sort : List Vampire → List Vampire) (g : Vampires) : Option (List Vampire) :=
  (updateDistances g g.m_vampires).map sort

/-- The method `moveVampires`. -/
def moveVampires (sort : List Vampire → List Vampire) (g : Vampires) :
    Option (VampireResult × Vampires) :=
  match processingOrder sort g with
  | none => none
  | some sorted => vampiresLoop sorted { g with m_vampires := sorted } false

/-- The pursuers processed by `moveVampires`, each with the state at its turn. -/
def turns (sort : List Vampire → List Vampire) (g : Vampires) : List (Vampire × Vampires) :=
  match processingOrder sort g with
  | none => []
  | some sorted => loopTurns sorted { g with m_vampires := sorted }

/-- A sort meeting `SortSpec`: insertion sort, descending in `d`. -/
def sortByDistance (l : List Vampire) : List Vampire :=
  l.insertionSort (fun v1 v2 => v1.d ≥ v2.d)

/-- The cell `(x, y)` lies on the outermost ring of the field. -/
def onRing (g : Vampires) (x y : Int) : Prop :=
  x = 0 ∨ x = g.width - 1 ∨ y = 0 ∨ y = g.height - 1

/-- The consistency of a state of the engine, as the constructor establishes it and the
operations keep it: the field has `height` rows of `width` cells, every occupied cell refers
to an item stored at that cell, every item is referred to by the cell at its stored position,
the outer ring is filled with `border` items, the player handle refers to the only item of
kind `player`, and the pursuer list refers to distinct items of kind `vampire`. -/
structure Valid (g : Vampires) : Prop where
  bounds : ∀ x y, (cellAt g.m_field x y).isSome ↔ (0 ≤ x ∧ x < g.width ∧ 0 ≤ y ∧ y < g.height)
  cell_item : ∀ x y id, cellAt g.m_field x y = some (some id) →
    ∃ it, g.items[id]? = some it ∧ it.x = x ∧ it.y = y
  item_cell : ∀ id it, g.items[id]? = some it → cellAt g.m_field it.x it.y = some (some id)
  ring : ∀ x y, 0 ≤ x → x < g.width → 0 ≤ y → y < g.height → onRing g x y →
    fieldHas g x y Kind.border = some true
  player : ∃ p, g.items[g.m_player]? = some p ∧ p.kind = Kind.player
  player_unique : ∀ id it, g.items[id]? = some it → it.kind = Kind.player → id = g.m_player
  vampires : ∀ v ∈ g.m_vampires, ∃ it, g.items[v.item]? = some it ∧ it.kind = Kind.vampire
  vampires_nodup : (g.m_vampires.map (fun v => v.item)).Nodup

/-- Test of the shape of the field: `height` rows of `width` cells. -/
def checkShape (g : Vampires) : Bool :=
  decide (0 ≤ g.width) && decide (0 ≤ g.height)
  && decide (g.m_field.length = g.height.toNat)
  && g.m_field.all (fun row => decide (row.length = g.width.toNat))

/-- Test that every occupied cell refers to an item stored at that cell. -/
def checkCells (g : Vampires) : Bool :=
  (List.range g.height.toNat).all (fun j => (List.range g.width.toNat).all (fun i =>
    match cellAt g.m_field i j with
    | some (some id) =>
      (match g.items[id]? with
       | some it => decide (it.x = i) && decide (it.y = j)
       | none => false)
    | _ => true))

/-- Test that every item is referred to by the cell at its stored position, and that an item
of kind `player` is the one of the player handle. -/
def checkItems (g : Vampires) : Bool :=
  (List.range g.items.length).all (fun id =>
    match g.items[id]? with
    | some it => decide (cellAt g.m_field it.x it.y = some (some id))
        && (decide (it.kind ≠ Kind.player) || decide (id = g.m_player))
    | none => true)

/-- Test that the outer ring is filled with `border` items. -/
def checkRing (g : Vampires) : Bool :=
  (List.range g.height.toNat).all (fun j => (List.range g.width.toNat).all (fun i =>
    decide ((i : Int) ≠ 0 ∧ (i : Int) ≠ g.width - 1 ∧ (j : Int) ≠ 0 ∧ (j : Int) ≠ g.height - 1)
      || decide (fieldHas g i j Kind.border = some true)))

/-- Test of the player handle and of the pursuer list. -/
def checkHandles (g : Vampires) : Bool :=
  (match g.items[g.m_player]? with
   | some p => decide (p.kind = Kind.player)
   | none => false)
  && g.m_vampires.all (fun v =>
      match g.items[v.item]? with
      | some it => decide (it.kind = Kind.vampire)
      | none => false)
  && decide ((g.m_vampires.map (fun v => v.item)).Nodup)

/-- An executable test of `Valid`. -/
def validCheck (g : Vampires) : Bool :=
  checkShape g && checkCells g && checkItems g && checkRing g && checkHandles g

/-- The squared distance between two cells inside the border is at most `INT_MAX`: the
condition under which no `int` computed by `moveVampires` leaves the range of `int`. -/
def IntFits (g : Vampires) : Prop :=
  (g.width - 3) ^ 2 + (g.height - 3) ^ 2 ≤ INT_MAX

/-- The condition on the dimensions under which the differences of coordinates doubled and the
costs `dd` computed by `moveVampires` stay within `int`, and below the sentinel `INT_MAX`. -/
def CostFits (g : Vampires) : Prop :=
  g.width + g.height ≤ 1073741824

/-- The cells `(x1, y1)` and `(x2, y2)` are neighbours: their Chebyshev distance is 1. -/
def Adjacent (x1 y1 x2 y2 : Int) : Prop :=
  max |x1 - x2| |y1 - y2| = 1

/-- The item `id` stands in a cell neighbouring the cell of the player. -/
def NextToPlayer (g : Vampires) (id : Nat) : Prop :=
  ∃ it p : Item, g.items[id]? = some it ∧ g.items[g.m_player]? = some p ∧
    Adjacent it.x it.y p.x p.y

/-- The cell reached from `(x, y)` by one step in the direction `dir` is empty. -/
def EmptyAt (g : Vampires) (x y : Int) (dir : Direction) : Prop :=
  cellAt g.m_field (x + (directionToDistance dir).x) (y + (directionToDistance dir).y) = some none

/-- The direction `dir`, met after the directions `pre` and before the directions `post`, is
the first direction of least cost among those with an empty destination, for a pursuer at
`(x, y)` and the player at `(px, py)`. -/
def IsChoice (g : Vampires) (x y px py : Int) (pre : List Direction) (dir : Direction)
    (post : List Direction) : Prop :=
  EmptyAt g x y dir ∧
  (∀ dir1 ∈ pre, EmptyAt g x y dir1 →
    cost x y px py (directionToDistance dir) < cost x y px py (directionToDistance dir1)) ∧
  (∀ dir1 ∈ post, EmptyAt g x y dir1 →
    cost x y px py (directionToDistance dir) ≤ cost x y px py (directionToDistance dir1))

/-- The invariant of the main loop of `moveVampires`: the state is consistent and the pursuers
still to be processed refer to distinct items of kind `vampire`. -/
structure LoopInv (g : Vampires) (vs : List Vampire) : Prop where
  valid : Valid g
  kinds : ∀ v ∈ vs, ∃ it, g.items[v.item]? = some it ∧ it.kind = Kind.vampire
  nodup : (vs.map (fun v => v.item)).Nodup

/-- The cost of the displacement `(dx, dy)` in the words of the specification: with
`gx = 2 * (vx - px)` and `gy = 2 * (vy - py)`, moving by `+1` on an axis costs one plus the gap,
moving by `-1` costs one minus the gap, not moving costs nothing. -/
def specCost (vx vy px py dx dy : Int) : Int :=
  let gx := 2 * (vx - px)
  let gy := 2 * (vy - py)
  (if dx = 1 then 1 + gx else if dx = -1 then 1 - gx else 0)
    + (if dy = 1 then 1 + gy else if dy = -1 then 1 - gy else 0)

/-- The item `a` is strictly farther from the player than the item `b`, in squared Euclidean
distance. -/
def Farther (g : Vampires) (a b : Nat) : Prop :=
  ∃ ita itb p : Item, g.items[a]? = some ita ∧ g.items[b]? = some itb ∧
    g.items[g.m_player]? = some p ∧
    (ita.x - p.x) * (ita.x - p.x) + (ita.y - p.y) * (ita.y - p.y)
      > (itb.x - p.x) * (itb.x - p.x) + (itb.y - p.y) * (itb.y - p.y)

/-- All 8 cells neighbouring the cell of the item `id` are occupied. -/
def Surrounded (g : Vampires) (id : Nat) : Prop :=
  ∃ it, g.items[id]? = some it ∧
    ∀ dir : Direction, ∃ id1,
      cellAt g.m_field (it.x + (directionToDistance dir).x) (it.y + (directionToDistance dir).y)
        = some (some id1)

/-- No two items are stored at the same cell. -/
def NoOverlap (g : Vampires) : Prop :=
  ∀ (id1 id2 : Nat) (it1 it2 : Item), g.items[id1]? = some it1 → g.items[id2]? = some it2 → id1 ≠ id2 →
    ¬ (it1.x = it2.x ∧ it1.y = it2.y)

/-- The number of items of the given kind. -/
def countKind (g : Vampires) (kind : Kind) : Nat :=
  (g.items.map (fun it => it.kind)).count kind

/-- The stored position of the item `id`. -/
def positionOf (g : Vampires) (id : Nat) : Option (Int × Int) :=
  (g.items[id]?).map (fun it => (it.x, it.y))

/-- The state `g1` is `g` after the item `id`, stored as `it`, was relocated to `(x, y)`. -/
structure MovedTo (g g1 : Vampires) (id : Nat) (it : Item) (x y : Int) : Prop where
  width : g1.width = g.width
  height : g1.height = g.height
  vampireCount : g1.vampireCount = g.vampireCount
  wallCount : g1.wallCount = g.wallCount
  m_vampires : g1.m_vampires = g.m_vampires
  m_player : g1.m_player = g.m_player
  items : g1.items = g.items.set id { it with x := x, y := y }
  cells : ∀ x1 y1, cellAt g1.m_field x1 y1 =
    if x1 = x ∧ y1 = y then some (some id)
    else if x1 = it.x ∧ y1 = it.y then some none
    else cellAt g.m_field x1 y1

/-- A displacement by one cell in one of the 8 directions. -/
def IsStep (d : Distance) : Prop :=
  (d.x = -1 ∨ d.x = 0 ∨ d.x = 1) ∧ (d.y = -1 ∨ d.y = 0 ∨ d.y = 1) ∧ (d.x ≠ 0 ∨ d.y ≠ 0)

/-- The `k` cells starting at `(x, y)` in the direction `d` hold walls. -/
def WallsAhead (g : Vampires) (d : Distance) (x y : Int) (k : Nat) : Prop :=
  ∀ i : Nat, i < k → fieldHas g (x + i * d.x) (y + i * d.y) Kind.wall = some true

/-- The number of steps from `(x, y)` in the direction `d` to the outer ring. -/
def ringDistance (g : Vampires) (d : Distance) (x y : Int) : Int :=
  if d.x = 1 then g.width - 1 - x
  else if d.x = -1 then x
  else if d.y = 1 then g.height - 1 - y
  else y

/-- The state `g1` is `g` after each of the `k` walls that start at `(x, y)` and follow each other
in the direction `d` was relocated by `d`. -/
structure Pushed (g g1 : Vampires) (d : Distance) (x y : Int) (k : Nat) : Prop where
  width : g1.width = g.width
  height : g1.height = g.height
  vampireCount : g1.vampireCount = g.vampireCount
  wallCount : g1.wallCount = g.wallCount
  m_vampires : g1.m_vampires = g.m_vampires
  m_player : g1.m_player = g.m_player
  kinds : g1.items.map (fun i => i.kind) = g.items.map (fun i => i.kind)
  first : cellAt g1.m_field x y = some none
  moved : ∀ i : Nat, i < k →
    cellAt g1.m_field (x + ((i + 1 : Nat) : Int) * d.x) (y + ((i + 1 : Nat) : Int) * d.y)
      = cellAt g.m_field (x + (i : Int) * d.x) (y + (i : Int) * d.y)
  others : ∀ x1 y1, (∀ i : Nat, i ≤ k → ¬ (x1 = x + (i : Int) * d.x ∧ y1 = y + (i : Int) * d.y)) →
    cellAt g1.m_field x1 y1 = cellAt g.m_field x1 y1
  items_moved : ∀ i : Nat, i < k → ∀ id,
    cellAt g.m_field (x + (i : Int) * d.x) (y + (i : Int) * d.y) = some (some id) →
    ∃ it, g.items[id]? = some it ∧
      g1.items[id]? = some { it with x := x + ((i + 1 : Nat) : Int) * d.x,
                                     y := y + ((i + 1 : Nat) : Int) * d.y }
  items_others : ∀ id,
    (∀ i : Nat, i < k → cellAt g.m_field (x + (i : Int) * d.x) (y + (i : Int) * d.y) ≠ some (some id)) →
    g1.items[id]? = g.items[id]?

/-- A 7 x 7 field with two pursuers, the player at the centre and four walls:
```
()()()()()()()
()><          ()
()        ><()
()  []}{[]  ()
()    []    ()
()    []    ()
()()()()()()()
``` -/
def exampleGame : Vampires :=
  { width := 7, height := 7, vampireCount := 2, wallCount := 4,
    items := [
      ⟨Kind.border, 0, 0⟩, ⟨Kind.border, 0, 6⟩, ⟨Kind.border, 1, 0⟩, ⟨Kind.border, 1, 6⟩,
      ⟨Kind.border, 2, 0⟩, ⟨Kind.border, 2, 6⟩, ⟨Kind.border, 3, 0⟩, ⟨Kind.border, 3, 6⟩,
      ⟨Kind.border, 4, 0⟩, ⟨Kind.border, 4, 6⟩, ⟨Kind.border, 5, 0⟩, ⟨Kind.border, 5, 6⟩,
      ⟨Kind.border, 6, 0⟩, ⟨Kind.border, 6, 6⟩, ⟨Kind.border, 0, 1⟩, ⟨Kind.border, 6, 1⟩,
      ⟨Kind.border, 0, 2⟩, ⟨Kind.border, 6, 2⟩, ⟨Kind.border, 0, 3⟩, ⟨Kind.border, 6, 3⟩,
      ⟨Kind.border, 0, 4⟩, ⟨Kind.border, 6, 4⟩, ⟨Kind.border, 0, 5⟩, ⟨Kind.border, 6, 5⟩,
      ⟨Kind.vampire, 1, 1⟩, ⟨Kind.vampire, 5, 2⟩, ⟨Kind.player, 3, 3⟩,
      ⟨Kind.wall, 4, 3⟩, ⟨Kind.wall, 2, 3⟩, ⟨Kind.wall, 3, 4⟩, ⟨Kind.wall, 3, 5⟩],
    m_field := [
      [some 0, some 2, some 4, some 6, some 8, some 10, some 12],
      [some 14, some 24, none, none, none, none, some 15],
      [some 16, none, none, none, none, some 25, some 17],
      [some 18, none, some 28, some 26, some 27, none, some 19],
      [some 20, none, none, some 29, none, none, some 21],
      [some 22, none, none, some 30, none, none, some 23],
      [some 1, some 3, some 5, some 7, some 9, some 11, some 13]],
    m_vampires := [⟨24, 0⟩, ⟨25, 0⟩],
    m_player := 26 }

/-- The cell `(x, y)` holds an item of the given kind. -/
def Holds (g : Vampires) (x y : Int) (kind : Kind) : Prop :=
  ∃ id it, cellAt g.m_field x y = some (some id) ∧ g.items[id]? = some it ∧ it.kind = kind

/-- A 7 x 7 field with one pursuer that stands next to the player, and one wall:
```
()()()()()()()
()          ()
()      ><  ()
()  []}{    ()
()          ()
()          ()
()()()()()()()
``` -/
def caughtGame : Vampires :=
  { width := 7, height := 7, vampireCount := 1, wallCount := 1,
    items := [
      ⟨Kind.border, 0, 0⟩, ⟨Kind.border, 0, 6⟩, ⟨Kind.border, 1, 0⟩, ⟨Kind.border, 1, 6⟩,
      ⟨Kind.border, 2, 0⟩, ⟨Kind.border, 2, 6⟩, ⟨Kind.border, 3, 0⟩, ⟨Kind.border, 3, 6⟩,
      ⟨Kind.border, 4, 0⟩, ⟨Kind.border, 4, 6⟩, ⟨Kind.border, 5, 0⟩, ⟨Kind.border, 5, 6⟩,
      ⟨Kind.border, 6, 0⟩, ⟨Kind.border, 6, 6⟩, ⟨Kind.border, 0, 1⟩, ⟨Kind.border, 6, 1⟩,
      ⟨Kind.border, 0, 2⟩, ⟨Kind.border, 6, 2⟩, ⟨Kind.border, 0, 3⟩, ⟨Kind.border, 6, 3⟩,
      ⟨Kind.border, 0, 4⟩, ⟨Kind.border, 6, 4⟩, ⟨Kind.border, 0, 5⟩, ⟨Kind.border, 6, 5⟩,
      ⟨Kind.vampire, 4, 2⟩, ⟨Kind.player, 3, 3⟩, ⟨Kind.wall, 2, 3⟩],
    m_field := [
      [some 0, some 2, some 4, some 6, some 8, some 10, some 12],
      [some 14, none, none, none, none, none, some 15],
      [some 16, none, none, none, some 24, none, some 17],
      [some 18, none, some 26, some 25, none, none, some 19],
      [some 20, none, none, none, none, none, some 21],
      [some 22, none, none, none, none, none, some 23],
      [some 1, some 3, some 5, some 7, some 9, some 11, some 13]],
    m_vampires := [⟨24, 0⟩],
    m_player := 25 }

/-! ## The constructor -/

/-- The method `createItem`: the assertion that the cell is empty, the creation of the item by
the factory (a new entry of the heap) and the reference to it from the cell. -/
def createItem (g : Vampires) (kind : Kind) (x y : Int) : Option (Nat × Vampires) :=
  match cellAt g.m_field x y with
  | none => none
  | some (some _) => none
  | some none =>
    match setCell g.m_field x y (some g.items.length) with
    | none => none
    | some f =>
      some (g.items.length, { g with items := g.items ++ [⟨kind, x, y⟩], m_field := f })

/-- The values `lo, lo + 1, ..., hi - 1` taken by the variable of a loop
`for (int i = lo; i < hi; ++i)`. -/
def intRange (lo hi : Int) : List Int :=
  (List.range (hi - lo).toNat).map (fun (i : Nat) => lo + (i : Int))

/-- The first loop of `initGame`: the top and the bottom row of the border. -/
def drawBorderRows : List Int → Vampires → Option Vampires
  | [], g => some g
  | x :: xs, g =>
    match createItem g Kind.border x 0 with
    | none => none
    | some (_, g1) =>
      match createItem g1 Kind.border x (g1.height - 1) with
      | none => none
      | some (_, g2) => drawBorderRows xs g2

/-- The second loop of `initGame`: the left and the right column of the border. -/
def drawBorderColumns : List Int → Vampires → Option Vampires
  | [], g => some g
  | y :: ys, g =>
    match createItem g Kind.border 0 y with
    | none => none
    | some (_, g1) =>
      match createItem g1 Kind.border (g1.width - 1) y with
      | none => none
      | some (_, g2) => drawBorderColumns ys g2

/-- The cell of the inner ring for the value `position`, as chosen by the four branches
(top side, right side, bottom side, left side) in the loop that settles the pursuers. -/
def ringCell (width height position : Int) : Int × Int :=
  if position ≤ width - 3 then (position + 1, 1)
  else if position ≤ width + height - 6 then (width - 2, position - width + 4)
  else if position ≤ 2 * width + height - 9 then (2 * width + height - 8 - position, height - 2)
  else (1, 2 * width + 2 * height - 11 - position)

/-- The values of `position` and `accumulator` after one more passage of the loop that
settles the pursuers. -/
def advance (maxVampireCount vampireCount : Int) (pa : Int × Int) : Int × Int :=
  let position := pa.1 + Int.tdiv maxVampireCount vampireCount
  let accumulator := pa.2 + Int.tmod maxVampireCount vampireCount
  if accumulator ≥ vampireCount then (position + 1, accumulator - vampireCount)
  else (position, accumulator)

/-- The loop of `initGame` that settles the pursuers; the first argument is the number of
passages still to make, `pa` holds `position` and `accumulator`. -/
def settleVampires (maxVampireCount : Int) : Nat → Int × Int → Vampires → Option Vampires
  | 0, _, g => some g
  | k + 1, pa, g =>
    match createItem g Kind.vampire (ringCell g.width g.height pa.1).1
        (ringCell g.width g.height pa.1).2 with
    | none => none
    | some (id, g1) =>
      settleVampires maxVampireCount k (advance maxVampireCount g.vampireCount pa)
        { g1 with m_vampires := g1.m_vampires ++ [⟨id, 0⟩] }

/-- The inner loop that collects the candidate cells for the walls: the empty cells of the
row `y`. -/
def freeCellsRow (g : Vampires) (y : Int) : List Int → Option (List (Int × Int))
  | [] => some []
  | x :: xs =>
    match cellAt g.m_field x y, freeCellsRow g y xs with
    | some c, some rest => some (if c = none then (x, y) :: rest else rest)
    | _, _ => none

/-- The loops that collect the candidate cells for the walls, the vector `walls`. -/
def freeCells (g : Vampires) (xs : List Int) : List Int → Option (List (Int × Int))
  | [] => some []
  | y :: ys =>
    match freeCellsRow g y xs, freeCells g xs ys with
    | some row, some rest => some (row ++ rest)
    | _, _ => none

/-- The index `(2 * rand() * (spacesLeft - 1) + RAND_MAX) / (2 * RAND_MAX)` for the value `r`
of `rand()`; `none` stands for a division by zero. -/
def pickIndex (RAND_MAX r spacesLeft : Int) : Option Int :=
  if wrapInt (2 * RAND_MAX) = 0 then none
  else
    some (wrapInt (Int.tdiv
      (wrapInt (wrapInt (wrapInt (2 * r) * (spacesLeft - 1)) + RAND_MAX))
      (wrapInt (2 * RAND_MAX))))

/-- The loop of `initGame` that puts the walls; the first argument is the number of walls
still to put, `calls` counts the calls of `rand()` made so far. -/
def scatterWalls (RAND_MAX : Int) (rand : Nat → Int) :
    Nat → Nat → Vampires → List (Int × Int) → Int → Option Vampires
  | 0, _, g, _, _ => some g
  | wallsLeft + 1, calls, g, walls, spacesLeft =>
    match pickIndex RAND_MAX (rand calls) spacesLeft with
    | none => none
    | some i =>
      match (if 0 ≤ i then walls[i.toNat]? else none) with
      | none => none
      | some wall =>
        match createItem g Kind.wall wall.1 wall.2 with
        | none => none
        | some (_, g1) =>
          scatterWalls RAND_MAX rand wallsLeft (calls + 1) g1
            (if i ≠ spacesLeft - 1 then walls.eraseIdx i.toNat else walls) (spacesLeft - 1)

/-- The values of `rand()` in `0 .. RAND_MAX` for which the index computed for the next wall
is `i`. -/
def pickValues (RAND_MAX spacesLeft i : Int) : Finset Int :=
  (Finset.Icc 0 RAND_MAX).filter (fun r => pickIndex RAND_MAX r spacesLeft = some i)

/-- The least `r` with `(2 * j - 1) * RAND_MAX ≤ 2 * r * (spacesLeft - 1)`, for
`spacesLeft ≥ 2`: the quotient of `(2 * j - 1) * RAND_MAX` by `2 * (spacesLeft - 1)`, rounded
up. -/
def pickThreshold (RAND_MAX spacesLeft j : Int) : Int :=
  ((2 * j - 1) * RAND_MAX + 2 * (spacesLeft - 1) - 1) / (2 * (spacesLeft - 1))

/-- The values of the state, of the vector `walls` and of `spacesLeft` at the start of each
passage of the loop of `initGame` that puts the walls, and after the last passage; the list
ends early when a passage fails. -/
def scatterStates (RAND_MAX : Int) (rand : Nat → Int) :
    Nat → Nat → Vampires → List (Int × Int) → Int → List (Vampires × List (Int × Int) × Int)
  | 0, _, g, walls, spacesLeft => [(g, walls, spacesLeft)]
  | wallsLeft + 1, calls, g, walls, spacesLeft =>
    match pickIndex RAND_MAX (rand calls) spacesLeft with
    | none => [(g, walls, spacesLeft)]
    | some i =>
      match (if 0 ≤ i then walls[i.toNat]? else none) with
      | none => [(g, walls, spacesLeft)]
      | some wall =>
        match createItem g Kind.wall wall.1 wall.2 with
        | none => [(g, walls, spacesLeft)]
        | some (_, g1) =>
          (g, walls, spacesLeft) :: scatterStates RAND_MAX rand wallsLeft (calls + 1) g1
            (if i ≠ spacesLeft - 1 then walls.eraseIdx i.toNat else walls) (spacesLeft - 1)

/-- The method `initGame`. -/
def initGame (RAND_MAX : Int) (rand : Nat → Int) (g : Vampires) : Option Vampires :=
  match drawBorderRows (intRange 0 g.width) g with
  | none => none
  | some g1 =>
    match drawBorderColumns (intRange 1 (g.height - 1)) g1 with
    | none => none
    | some g2 =>
      match settleVampires (2 * (g.width - 2) + 2 * (g.height - 4)) g.vampireCount.toNat
          (0, 0) g2 with
      | none => none
      | some g3 =>
        if (g3.m_vampires.length : Int) ≠ g.vampireCount then none
        else
          match createItem g3 Kind.player (Int.tdiv g.width 2) (Int.tdiv g.height 2) with
          | none => none
          | some (id, g4) =>
            match freeCells { g4 with m_player := id } (intRange 2 (g.width - 2))
                (intRange 2 (g.height - 2)) with
            | none => none
            | some walls =>
              scatterWalls RAND_MAX rand g.wallCount.toNat 0 { g4 with m_player := id }
                walls walls.length

/-- The state in which the constructor calls `initGame`: the constants are set and the field
has `height` rows of `width` empty cells. -/
def emptyGame (width height vampireCount wallCount : Int) : Vampires :=
  { width := width, height := height, vampireCount := vampireCount, wallCount := wallCount,
    items := [], m_field := List.replicate height.toNat (List.replicate width.toNat none),
    m_vampires := [], m_player := 0 }

/-- The constructor of `Vampires`: the assertions on the parameters, the allocation of the
field and `initGame`. -/
def construct (width height vampireCount wallCount : Int) (RAND_MAX : Int) (rand : Nat → Int) :
    Option Vampires :=
  if width ≥ 7 ∧ height ≥ 7 ∧ vampireCount ≥ 1 ∧ wallCount ≥ 1
      ∧ wallCount ≤ (width - 4) * (height - 4) - 1 then
    initGame RAND_MAX rand (emptyGame width height vampireCount wallCount)
  else none

/-- The part of `Valid` that holds all through the construction: the field has `height` rows
of `width` cells, every occupied cell refers to an item stored at that cell, and every item is
referred to by the cell at its stored position. -/
structure Wf (g : Vampires) : Prop where
  bounds : ∀ x y, (cellAt g.m_field x y).isSome ↔ (0 ≤ x ∧ x < g.width ∧ 0 ≤ y ∧ y < g.height)
  cell_item : ∀ x y id, cellAt g.m_field x y = some (some id) →
    ∃ it, g.items[id]? = some it ∧ it.x = x ∧ it.y = y
  item_cell : ∀ id it, g.items[id]? = some it → cellAt g.m_field it.x it.y = some (some id)

/-- The state `g1` is `g` after an item of the given kind was created at the empty cell
`(x, y)`. -/
structure Created (g g1 : Vampires) (kind : Kind) (x y : Int) : Prop where
  width : g1.width = g.width
  height : g1.height = g.height
  vampireCount : g1.vampireCount = g.vampireCount
  wallCount : g1.wallCount = g.wallCount
  m_vampires : g1.m_vampires = g.m_vampires
  m_player : g1.m_player = g.m_player
  items : g1.items = g.items ++ [⟨kind, x, y⟩]
  empty : cellAt g.m_field x y = some none
  cells : ∀ x1 y1, cellAt g1.m_field x1 y1 =
    if x1 = x ∧ y1 = y then some (some g.items.length) else cellAt g.m_field x1 y1

/-- The state `g1` has the constants of the state `g`. -/
structure SameConsts (g g1 : Vampires) : Prop where
  width : g1.width = g.width
  height : g1.height = g.height
  vampireCount : g1.vampireCount = g.vampireCount
  wallCount : g1.wallCount = g.wallCount

/-- The items created by the first loop of `initGame`, in the order of their creation. -/
def borderRowItems (height : Int) : List Int → List Item
  | [] => []
  | x :: xs => ⟨Kind.border, x, 0⟩ :: ⟨Kind.border, x, height - 1⟩ :: borderRowItems height xs

/-- The items created by the second loop of `initGame`, in the order of their creation. -/
def borderColumnItems (width : Int) : List Int → List Item
  | [] => []
  | y :: ys => ⟨Kind.border, 0, y⟩ :: ⟨Kind.border, width - 1, y⟩ :: borderColumnItems width ys

/-- The successive values of `position` in `k` passages of the loop that settles the
pursuers, from the values `pa` of `position` and `accumulator`. -/
def ringPositions (maxVampireCount vampireCount : Int) : Nat → Int × Int → List Int
  | 0, _ => []
  | k + 1, pa =>
    pa.1 :: ringPositions maxVampireCount vampireCount k (advance maxVampireCount vampireCount pa)

/-- The item of a pursuer settled for the value `position`. -/
def vampireItem (width height position : Int) : Item :=
  ⟨Kind.vampire, (ringCell width height position).1, (ringCell width height position).2⟩

/-- The item of a wall put at the cell `p`. -/
def wallItem (p : Int × Int) : Item :=
  ⟨Kind.wall, p.1, p.2⟩

/-- The length of the inner ring, `maxVampireCount` in `initGame`. -/
def ringLength (width height : Int) : Int :=
  2 * (width - 2) + 2 * (height - 4)

/-- The items of the border, in the order of their creation by `initGame`. -/
def borderItems (width height : Int) : List Item :=
  borderRowItems height (intRange 0 width) ++ borderColumnItems width (intRange 1 (height - 1))

/-- The state `g` is the outcome of a construction with the given parameters in which the
walls were put at the cells `ps`, in this order: the heap holds the items of the border, of the
pursuers, of the player and of the walls in the order of their creation. -/
structure Built (width height vampireCount wallCount : Int) (ps : List (Int × Int))
    (g : Vampires) : Prop where
  width_ge : 7 ≤ width
  height_ge : 7 ≤ height
  vampireCount_ge : 1 ≤ vampireCount
  wallCount_ge : 1 ≤ wallCount
  wallCount_le : wallCount ≤ (width - 4) * (height - 4) - 1
  width_eq : g.width = width
  height_eq : g.height = height
  vampireCount_eq : g.vampireCount = vampireCount
  wallCount_eq : g.wallCount = wallCount
  wf : Wf g
  items : g.items = borderItems width height ++
    (ringPositions (ringLength width height) vampireCount vampireCount.toNat (0, 0)).map
      (vampireItem width height) ++
    [⟨Kind.player, Int.tdiv width 2, Int.tdiv height 2⟩] ++ ps.map wallItem
  m_vampires : g.m_vampires = (List.range vampireCount.toNat).map
    (fun i => (⟨(borderItems width height).length + i, 0⟩ : Vampire))
  m_player : g.m_player = (borderItems width height).length + vampireCount.toNat
  walls_length : ps.length = wallCount.toNat
  walls_interior : ∀ p ∈ ps, 2 ≤ p.1 ∧ p.1 < width - 2 ∧ 2 ≤ p.2 ∧ p.2 < height - 2

/-- The computations of the index of a wall stay within a 32-bit `int` on a field of the
given size: the largest value of `2 * rand() * (spacesLeft - 1) + RAND_MAX`, reached for
`rand() = RAND_MAX` when the first wall is put, does not exceed `INT_MAX`. -/
def RandFits (RAND_MAX width height : Int) : Prop :=
  0 < RAND_MAX ∧ 2 * RAND_MAX * ((width - 4) * (height - 4) - 2) + RAND_MAX ≤ INT_MAX

/-- The states reached from the state `g0` by calls of `movePlayer` and `moveVampires` that
return, whatever their results; the sort used by a call of `moveVampires` is any function
meeting `SortSpec`. -/
inductive Reachable (g0 : Vampires) : Vampires → Prop where
  | start : Reachable g0 g0
  | player {g g1 : Vampires} (direction : Direction) (r : PlayerResult) :
      Reachable g0 g → movePlayer direction g = some (r, g1) → Reachable g0 g1
  | vampires {g g1 : Vampires} (sort : List Vampire → List Vampire) (r : VampireResult) :
      Reachable g0 g → SortSpec sort → moveVampires sort g = some (r, g1) → Reachable g0 g1

/-- The state built by the constructor for a 7 x 7 field with one pursuer and one wall when
`RAND_MAX` is 32767 and `rand()` returns 32767: the wall is the last candidate cell, `(4, 4)`.
```
()()()()()()()
()><        ()
()          ()
()    }{    ()
()      []  ()
()          ()
()()()()()()()
``` -/
def builtGame : Vampires :=
  { width := 7, height := 7, vampireCount := 1, wallCount := 1,
    items := [
      ⟨Kind.border, 0, 0⟩, ⟨Kind.border, 0, 6⟩, ⟨Kind.border, 1, 0⟩, ⟨Kind.border, 1, 6⟩,
      ⟨Kind.border, 2, 0⟩, ⟨Kind.border, 2, 6⟩, ⟨Kind.border, 3, 0⟩, ⟨Kind.border, 3, 6⟩,
      ⟨Kind.border, 4, 0⟩, ⟨Kind.border, 4, 6⟩, ⟨Kind.border, 5, 0⟩, ⟨Kind.border, 5, 6⟩,
      ⟨Kind.border, 6, 0⟩, ⟨Kind.border, 6, 6⟩, ⟨Kind.border, 0, 1⟩, ⟨Kind.border, 6, 1⟩,
      ⟨Kind.border, 0, 2⟩, ⟨Kind.border, 6, 2⟩, ⟨Kind.border, 0, 3⟩, ⟨Kind.border, 6, 3⟩,
      ⟨Kind.border, 0, 4⟩, ⟨Kind.border, 6, 4⟩, ⟨Kind.border, 0, 5⟩, ⟨Kind.border, 6, 5⟩,
      ⟨Kind.vampire, 1, 1⟩, ⟨Kind.player, 3, 3⟩, ⟨Kind.wall, 4, 4⟩],
    m_field := [
      [some 0, some 2, some 4, some 6, some 8, some 10, some 12],
      [some 14, some 24, none, none, none, none, some 15],
      [some 16, none, none, none, none, none, some 17],
      [some 18, none, none, some 25, none, none, some 19],
      [some 20, none, none, none, some 26, none, some 21],
      [some 22, none, none, none, none, none, some 23],
      [some 1, some 3, some 5, some 7, some 9, some 11, some 13]],
    m_vampires := [⟨24, 0⟩],
    m_player := 25 }

/-- The state built by the constructor for a 7 x 7 field with one pursuer and one wall when
`RAND_MAX` is 32767 and `rand()` returns 0: the wall is the first candidate cell, `(2, 2)`.
```
()()()()()()()
()><        ()
()  []      ()
()    }{    ()
()          ()
()          ()
()()()()()()()
``` -/
def cornerGame : Vampires :=
  { width := 7, height := 7, vampireCount := 1, wallCount := 1,
    items := [
      ⟨Kind.border, 0, 0⟩, ⟨Kind.border, 0, 6⟩, ⟨Kind.border, 1, 0⟩, ⟨Kind.border, 1, 6⟩,
      ⟨Kind.border, 2, 0⟩, ⟨Kind.border, 2, 6⟩, ⟨Kind.border, 3, 0⟩, ⟨Kind.border, 3, 6⟩,
      ⟨Kind.border, 4, 0⟩, ⟨Kind.border, 4, 6⟩, ⟨Kind.border, 5, 0⟩, ⟨Kind.border, 5, 6⟩,
      ⟨Kind.border, 6, 0⟩, ⟨Kind.border, 6, 6⟩, ⟨Kind.border, 0, 1⟩, ⟨Kind.border, 6, 1⟩,
      ⟨Kind.border, 0, 2⟩, ⟨Kind.border, 6, 2⟩, ⟨Kind.border, 0, 3⟩, ⟨Kind.border, 6, 3⟩,
      ⟨Kind.border, 0, 4⟩, ⟨Kind.border, 6, 4⟩, ⟨Kind.border, 0, 5⟩, ⟨Kind.border, 6, 5⟩,
      ⟨Kind.vampire, 1, 1⟩, ⟨Kind.player, 3, 3⟩, ⟨Kind.wall, 2, 2⟩],
    m_field := [
      [some 0, some 2, some 4, some 6, some 8, some 10, some 12],
      [some 14, some 24, none, none, none, none, some 15],
      [some 16, none, some 26, none, none, none, some 17],
      [some 18, none, none, some 25, none, none, some 19],
      [some 20, none, none, none, none, none, some 21],
      [some 22, none, none, none, none, none, some 23],
      [some 1, some 3, some 5, some 7, some 9, some 11, some 13]],
    m_vampires := [⟨24, 0⟩],
    m_player := 25 }

/-! ## The input channel: `socket_reader.{h,cpp}`

The calls of the operating system (`socket`, `bind`, `listen`, `accept`, `ioctlsocket`, `recv`,
`closesocket`) and the background task `waitForConnection` are not part of the class: what they
return to one call of a method is a parameter of that call (`Listen`, `Env`).  The messages
printed by `NX_PRINT` and `error` are not modelled.  A `char` is a `UInt8`; only equality of
bytes is used. -/

/-- The state of `std::future<int> m_dataFdFuture`: without a shared state (as constructed by
default, and after `get()`), or sharing its state with the promise handed to a background task
by `startListening`. -/
inductive Future where
  | noState
  | waiting
  deriving DecidableEq, Repr

/-- What `m_dataFdFuture.wait_for(1us)`, and then `get()`, find in the shared state: not ready
within the timeout; ready with the descriptor set by `waitForConnection`; or ready without a
value, because `waitForConnection` returned after a failed `accept` and its promise was
destroyed (`get()` then throws `std::future_error`). -/
inductive Poll where
  | timeout
  | value (fd : Int)
  | broken
  deriving DecidableEq, Repr

/-- What one call of `recv` finds on the connection: some bytes (`r > 0`), the end of the
stream (`r == 0`), nothing for now, or an error that is not `WSAEWOULDBLOCK`.  The bound
`kBufferSize` on the number of bytes of one call is not modelled: a longer chunk stands for
several calls in a row. -/
inductive Incoming where
  | bytes (b : UInt8) (rest : List UInt8)
  | closed
  | nothing
  | failure
  deriving DecidableEq, Repr

/-- What the calls `socket`, `bind` and `listen` made by `startListening` return: the
descriptor (negative on failure), and whether `bind` and `listen` succeed. -/
structure Listen where
  socket : Int
  bindOk : Bool
  listenOk : Bool
  deriving DecidableEq, Repr

/-- What the operating system and the background task present to one call of `getChar`: the
state of the future, whether `ioctlsocket` succeeds, what the successive calls of `recv` find
(the call number `i` of this `getChar` finds `recv i`), and the results of the calls made by a
`startListening` that restarts the channel. -/
structure Env where
  poll : Poll
  ioctlOk : Bool
  recv : Nat → Incoming
  listen : Listen

/-- The fields of the class `SocketReader`, and one fact kept by the operating system about the
connection `m_dataFd`: whether it is in non-blocking mode.  A connection returned by `accept`
is in blocking mode until `ioctlsocket` with `FIONBIO` succeeds. -/
structure SocketReader where
  m_hasReceivedData : Bool
  m_port : Int
  m_socketFd : Int
  m_dataFdFuture : Future
  m_dataFd : Option Int
  m_buffer : List UInt8
  dataNonBlocking : Bool
  deriving DecidableEq, Repr

/-- How a call ends: it returns a value; it waits in a blocking call of the operating system;
its behaviour is undefined (`wait_for` on a future without shared state, `*m_dataFd` on an
empty optional); an exception leaves a `noexcept` function, which ends the program; or the
fuel given to the model of a loop ran out while the loop was still running. -/
inductive Outcome (α : Type) where
  | returned (a : α)
  | blocked
  | undefined
  | terminated
  | unfinished
  deriving DecidableEq, Repr

/-- The state after the constructor of `SocketReader`: the default member initialisers. -/
def newReader : SocketReader :=
  { m_hasReceivedData := false, m_port := -1, m_socketFd := -1,
    m_dataFdFuture := Future.noState, m_dataFd := none, m_buffer := [],
    dataNonBlocking := false }

/-- The method `closeSocket`. -/
def closeSocket (s : SocketReader) : SocketReader :=
  if s.m_socketFd ≥ 0 then
    { s with m_socketFd := -1, m_dataFd := none, m_hasReceivedData := false }
  else s

/-- The method `startListening`, with the value it returns.  `NX_KIT_ASSERT` is taken as the
code uses it here, as a test whose failure makes the method return `false`. -/
def startListening (l : Listen) (port : Int) (s : SocketReader) : Bool × SocketReader :=
  if ¬ (port > 0) ∨ ¬ (port ≤ 65535) then (false, s)
  else if ¬ (s.m_socketFd < 0) ∨ s.m_dataFd ≠ none then (false, s)
  else if l.socket < 0 then (false, { s with m_port := port, m_socketFd := l.socket })
  else if l.bindOk = false then (false, { s with m_port := port, m_socketFd := l.socket })
  else if l.listenOk = false then (false, { s with m_port := port, m_socketFd := l.socket })
  else
    (true, { s with m_port := port, m_socketFd := l.socket, m_dataFdFuture := Future.waiting })

/-- The method `receiveAvailableBytes`: the loop `for (;;)`, with the number `i` of the next
call of `recv` and the vector `bytes`; the first argument is the number of passages granted. -/
def receiveAvailableBytes (w : Env) :
    Nat → Nat → List UInt8 → SocketReader → Outcome (List UInt8 × SocketReader)
  | 0, _, _, _ => Outcome.unfinished
  | fuel + 1, i, bytes, s =>
    match s.m_dataFd with
    | none => Outcome.undefined
    | some _ =>
      match w.recv i with
      | Incoming.bytes b rest => receiveAvailableBytes w fuel (i + 1) (bytes ++ b :: rest) s
      | Incoming.closed =>
        Outcome.returned
          ([], (startListening w.listen (closeSocket s).m_port (closeSocket s)).2)
      | Incoming.nothing =>
        if s.dataNonBlocking then Outcome.returned (bytes, s) else Outcome.blocked
      | Incoming.failure => Outcome.returned ([], s)

/-- The initial value of `prevByte` in `getChar`. -/
def prevByte (buffer : List UInt8) : UInt8 :=
  match buffer.getLast? with
  | none => 0
  | some b => b

/-- The loop of `getChar` that copies the received bytes to the buffer. -/
def appendBytes : List UInt8 → UInt8 → List UInt8 → List UInt8
  | buffer, _, [] => buffer
  | buffer, prev, byte :: rest =>
    if byte = prev then appendBytes buffer prev rest
    else appendBytes (buffer ++ [byte]) byte rest

/-- The first statement of `getChar`: without a connection, poll the future and adopt the
connection it delivers; `none` stands for `return std::nullopt`. -/
def adoptConnection (w : Env) (s : SocketReader) : Outcome (Option SocketReader) :=
  match s.m_dataFd with
  | some _ => Outcome.returned (some s)
  | none =>
    match s.m_dataFdFuture with
    | Future.noState => Outcome.undefined
    | Future.waiting =>
      match w.poll with
      | Poll.timeout => Outcome.returned none
      | Poll.broken => Outcome.terminated
      | Poll.value fd =>
        Outcome.returned (some { s with m_dataFd := some fd, m_dataFdFuture := Future.noState,
                                        dataNonBlocking := w.ioctlOk })

/-- The end of `getChar`, from the copy of the received bytes to the buffer on. -/
def deliver (bytes : List UInt8) (s : SocketReader) : Option UInt8 × SocketReader :=
  match appendBytes s.m_buffer (prevByte s.m_buffer) bytes with
  | [] => (none, { s with m_buffer := [] })
  | c :: rest => (some c, { s with m_buffer := rest, m_hasReceivedData := true })

/-- The method `getChar`; `fuel` bounds the passages of the loop of
`receiveAvailableBytes`. -/
def getChar (w : Env) (fuel : Nat) (s : SocketReader) : Outcome (Option UInt8 × SocketReader) :=
  match adoptConnection w s with
  | Outcome.returned none => Outcome.returned (none, s)
  | Outcome.returned (some s1) =>
    match receiveAvailableBytes w fuel 0 [] s1 with
    | Outcome.returned (bytes, s2) => Outcome.returned (deliver bytes s2)
    | Outcome.blocked => Outcome.blocked
    | Outcome.undefined => Outcome.undefined
    | Outcome.terminated => Outcome.terminated
    | Outcome.unfinished => Outcome.unfinished
  | Outcome.blocked => Outcome.blocked
  | Outcome.undefined => Outcome.undefined
  | Outcome.terminated => Outcome.terminated
  | Outcome.unfinished => Outcome.unfinished

/-- The method `clear`. -/
def clear (s : SocketReader) : SocketReader :=
  { s with m_buffer := [] }

/-- An environment in which the calls of `recv` find the entries of `script`, one after the
other, and nothing after them; the future is not ready and the calls of `startListening`
succeed with the descriptor 3. -/
def scripted (script : List Incoming) : Env :=
  { poll := Poll.timeout, ioctlOk := true, recv := fun i => script.getD i Incoming.nothing,
    listen := { socket := 3, bindOk := true, listenOk := true } }

/-- Successive calls of `getChar`, one for each environment of the list, with the values
they return. -/
def getChars (fuel : Nat) : List Env → SocketReader → Outcome (List (Option UInt8) × SocketReader)
  | [], s => Outcome.returned ([], s)
  | w :: ws, s =>
    match getChar w fuel s with
    | Outcome.returned (c, s1) =>
      match getChars fuel ws s1 with
      | Outcome.returned (cs, s2) => Outcome.returned (c :: cs, s2)
      | Outcome.blocked => Outcome.blocked
      | Outcome.undefined => Outcome.undefined
      | Outcome.terminated => Outcome.terminated
      | Outcome.unfinished => Outcome.unfinished
    | Outcome.blocked => Outcome.blocked
    | Outcome.undefined => Outcome.undefined
    | Outcome.terminated => Outcome.terminated
    | Outcome.unfinished => Outcome.unfinished

/-- The bytes of a chunk found by `recv`. -/
def chunk : Incoming → List UInt8
  | Incoming.bytes b rest => b :: rest
  | _ => []

/-- The bytes found by the `k` calls of `recv` numbered `i, ..., i + k - 1`. -/
def delivered (w : Env) (i : Nat) : Nat → List UInt8
  | 0 => []
  | k + 1 => chunk (w.recv i) ++ delivered w (i + 1) k

/-- The calls of `recv` numbered `i, ..., i + k - 1` all find bytes. -/
def AllBytes (w : Env) (i k : Nat) : Prop :=
  ∀ j, j < k → ∃ b rest, w.recv (i + j) = Incoming.bytes b rest

/-- The bytes `bs` with every byte that repeats the byte just before it left out, `last`
being the byte before the first one, if there is one: every run of equal bytes is collapsed
into one occurrence. -/
def collapse : Option UInt8 → List UInt8 → List UInt8
  | _, [] => []
  | last, b :: bs => if last = some b then collapse last bs else b :: collapse (some b) bs

/-- A connected state of the channel: listening socket 3, port 8080, connection 4 in
non-blocking mode, with the given buffer. -/
def connectedReader (buffer : List UInt8) : SocketReader :=
  { m_hasReceivedData := false, m_port := 8080, m_socketFd := 3,
    m_dataFdFuture := Future.noState, m_dataFd := some 4, m_buffer := buffer,
    dataNonBlocking := true }

/-- The states of the channel reached from the constructed one by calls of `startListening`,
`getChar` (those that return) and `clear`, in any environments. -/
inductive ChannelReachable : SocketReader → Prop where
  | start : ChannelReachable newReader
  | listen {s : SocketReader} (l : Listen) (port : Int) :
      ChannelReachable s → ChannelReachable (startListening l port s).2
  | getChar {s s1 : SocketReader} (w : Env) (fuel : Nat) (c : Option UInt8) :
      ChannelReachable s → getChar w fuel s = Outcome.returned (c, s1) → ChannelReachable s1
  | clear {s : SocketReader} : ChannelReachable s → ChannelReachable (clear s)

/-- The squared Euclidean distance between the cells `(x, y)` and `(px, py)`. -/
def sqDist (x y px py : Int) : Int :=
  (x - px) ^ 2 + (y - py) ^ 2

/-- What the methods of the channel keep: a connection comes with a listening socket and a
remembered port in `1 .. 65535`, and so does a future that shares its state with a background
task, which moreover comes without a connection. -/
structure ChannelInv (s : SocketReader) : Prop where
  connected : s.m_dataFd ≠ none → 0 ≤ s.m_socketFd ∧ 0 < s.m_port ∧ s.m_port ≤ 65535
  waiting : s.m_dataFdFuture = Future.waiting →
    s.m_dataFd = none ∧ 0 ≤ s.m_socketFd ∧ 0 < s.m_port ∧ s.m_port ≤ 65535

/-- An environment like `scripted script` in which the future is ready with the
connection 4. -/
def arriving (script : List Incoming) : Env :=
  { scripted script with poll := Poll.value 4 }

/-- The channel after a successful `startListening` on the port 8080, with the listening
socket 3. -/
def listeningReader : SocketReader :=
  (startListening ⟨3, true, true⟩ 8080 newReader).2

/-! ## The field -/

theorem cellAt_setCell {f f1 : Field} {x y : Int} {v : Option Nat}
    (h : setCell f x y v = some f1) (x1 y1 : Int) :
    cellAt f1 x1 y1 = if x1 = x ∧ y1 = y then some v else cellAt f x1 y1 := by
  unfold setCell at h
  split at h
  · rename_i hxy
    split at h
    · simp at h
    · rename_i row hrow
      split at h
      · rename_i hlen
        injection h with h
        subst h
        have hy : y.toNat < f.length := by
          rcases List.getElem?_eq_some_iff.mp hrow with ⟨h1, _⟩
          exact h1
        unfold cellAt
        by_cases h1 : 0 ≤ x1 ∧ 0 ≤ y1
        · by_cases hy1 : y1 = y
          · subst hy1
            by_cases hx1 : x1 = x
            · subst hx1
              simp [h1, List.getElem?_set, hy, hlen]
            · have hne : ¬ (x.toNat = x1.toNat) := by omega
              simp [h1, hx1, List.getElem?_set, hy, hrow, hne]
          · have hne : ¬ (y.toNat = y1.toNat) := by omega
            simp [h1, hy1, List.getElem?_set, hne]
        · have h2 : ¬ (x1 = x ∧ y1 = y) := by
            rintro ⟨rfl, rfl⟩
            exact h1 hxy
          simp [h1, h2]
      · simp at h
  · simp at h

theorem setCell_isSome {f : Field} {x y : Int} (h : (cellAt f x y).isSome) (v : Option Nat) :
    ∃ f1, setCell f x y v = some f1 := by
  unfold cellAt at h
  unfold setCell
  split at h
  · rename_i hxy
    split at h
    · simp at h
    · rename_i row hrow
      have hlen : x.toNat < row.length := by
        rcases Option.isSome_iff_exists.mp h with ⟨a, ha⟩
        rcases List.getElem?_eq_some_iff.mp ha with ⟨h1, _⟩
        exact h1
      simp [hxy, hrow, hlen]
  · simp at h

/-! ## Relocating an item -/

theorem getElem?_set_item {items : List Item} {id : Nat} {it : Item}
    (h : items[id]? = some it) (it2 : Item) (id1 : Nat) :
    (items.set id it2)[id1]? = if id1 = id then some it2 else items[id1]? := by
  have hlt : id < items.length := by
    rcases List.getElem?_eq_some_iff.mp h with ⟨h1, _⟩
    exact h1
  by_cases h1 : id1 = id
  · subst h1
    simp [hlt]
  · have h2 : ¬ (id = id1) := fun e => h1 e.symm
    simp [List.getElem?_set, h1, h2]

theorem moveItem_eq {g : Vampires} (hv : Valid g) {id : Nat} {it : Item}
    (hit : g.items[id]? = some it) {x y : Int} (hxy : cellAt g.m_field x y = some none) :
    ∃ g1, moveItem g id x y = some g1 ∧ MovedTo g g1 id it x y := by
  have hsrc := hv.item_cell id it hit
  have h1 : (cellAt g.m_field it.x it.y).isSome := by simp [hsrc]
  obtain ⟨f1, hf1⟩ := setCell_isSome h1 none
  have h2 : (cellAt f1 x y).isSome := by
    rw [cellAt_setCell hf1]
    split <;> simp [hxy]
  obtain ⟨f2, hf2⟩ := setCell_isSome h2 (some id)
  refine ⟨{ g with m_field := f2, items := g.items.set id { it with x := x, y := y } }, ?_, ?_⟩
  · simp [moveItem, hxy, hit, hsrc, hf1, hf2]
  · refine ⟨rfl, rfl, rfl, rfl, rfl, rfl, rfl, ?_⟩
    intro x1 y1
    simp only [cellAt_setCell hf2, cellAt_setCell hf1]

theorem MovedTo.getItem {g g1 : Vampires} {id : Nat} {it : Item} {x y : Int}
    (hm : MovedTo g g1 id it x y) (hit : g.items[id]? = some it) (id1 : Nat) :
    g1.items[id1]? = if id1 = id then some { it with x := x, y := y } else g.items[id1]? := by
  rw [hm.items]
  exact getElem?_set_item hit _ id1

theorem MovedTo.kind_eq {g g1 : Vampires} {id : Nat} {it : Item} {x y : Int}
    (hm : MovedTo g g1 id it x y) (hit : g.items[id]? = some it) (id1 : Nat) :
    (g1.items[id1]?).map (fun i => i.kind) = (g.items[id1]?).map (fun i => i.kind) := by
  rw [hm.getItem hit]
  split
  · rename_i h
    subst h
    simp [hit]
  · rfl

theorem fieldHas_eq_true {g : Vampires} {x y : Int} {kind : Kind} :
    fieldHas g x y kind = some true ↔
      ∃ id it, cellAt g.m_field x y = some (some id) ∧ g.items[id]? = some it ∧ it.kind = kind := by
  unfold fieldHas
  constructor
  · intro h
    split at h
    · simp at h
    · simp at h
    · rename_i id hc
      split at h
      · simp at h
      · rename_i it hit
        refine ⟨id, it, hc, hit, ?_⟩
        simpa using h
  · rintro ⟨id, it, hc, hit, hk⟩
    simp [hc, hit, hk]

theorem MovedTo.valid {g g1 : Vampires} {id : Nat} {it : Item} {x y : Int}
    (hm : MovedTo g g1 id it x y) (hv : Valid g) (hit : g.items[id]? = some it)
    (hxy : cellAt g.m_field x y = some none) (hk : it.kind ≠ Kind.border) : Valid g1 := by
  have hsrc := hv.item_cell id it hit
  have hbxy := (hv.bounds x y).mp (by simp [hxy])
  have hbsrc := (hv.bounds it.x it.y).mp (by simp [hsrc])
  constructor
  · intro x1 y1
    rw [hm.cells, hm.width, hm.height]
    split
    · rename_i h
      obtain ⟨rfl, rfl⟩ := h
      simpa using hbxy
    · split
      · rename_i h
        obtain ⟨rfl, rfl⟩ := h
        simpa using hbsrc
      · exact hv.bounds x1 y1
  · intro x1 y1 id1 hc
    rw [hm.cells] at hc
    split at hc
    · rename_i h
      obtain ⟨rfl, rfl⟩ := h
      have : id1 = id := by simpa using hc.symm
      subst this
      exact ⟨{ it with x := x1, y := y1 }, by rw [hm.getItem hit]; simp, rfl, rfl⟩
    · split at hc
      · simp at hc
      · rename_i h1 h2
        obtain ⟨it1, hit1, hx1, hy1⟩ := hv.cell_item x1 y1 id1 hc
        have hne : id1 ≠ id := by
          rintro rfl
          rw [hit] at hit1
          injection hit1 with e
          subst e
          exact h2 ⟨hx1.symm, hy1.symm⟩
        exact ⟨it1, by rw [hm.getItem hit]; simp [hne, hit1], hx1, hy1⟩
  · intro id1 it1 hit1
    rw [hm.getItem hit] at hit1
    split at hit1
    · rename_i h
      subst h
      injection hit1 with e
      subst e
      rw [hm.cells]
      simp
    · rename_i hne
      have hc := hv.item_cell id1 it1 hit1
      rw [hm.cells]
      have h1 : ¬ (it1.x = x ∧ it1.y = y) := by
        rintro ⟨e1, e2⟩
        rw [e1, e2, hxy] at hc
        simp at hc
      have h2 : ¬ (it1.x = it.x ∧ it1.y = it.y) := by
        rintro ⟨e1, e2⟩
        rw [e1, e2, hsrc] at hc
        injection hc with hc
        injection hc with hc
        exact hne hc.symm
      simp [h1, h2, hc]
  · intro x1 y1 hx0 hx1 hy0 hy1 hr
    rw [hm.width] at hx1
    rw [hm.height] at hy1
    have hr0 : onRing g x1 y1 := by
      unfold onRing at hr ⊢
      rw [hm.width, hm.height] at hr
      exact hr
    have hb := hv.ring x1 y1 hx0 hx1 hy0 hy1 hr0
    obtain ⟨idb, itb, hcb, hitb, hkb⟩ := fieldHas_eq_true.mp hb
    have hne : idb ≠ id := by
      rintro rfl
      rw [hit] at hitb
      injection hitb with e
      subst e
      exact hk hkb
    have h1 : ¬ (x1 = x ∧ y1 = y) := by
      rintro ⟨rfl, rfl⟩
      rw [hxy] at hcb
      simp at hcb
    have h2 : ¬ (x1 = it.x ∧ y1 = it.y) := by
      rintro ⟨rfl, rfl⟩
      rw [hsrc] at hcb
      injection hcb with hcb
      injection hcb with hcb
      exact hne hcb.symm
    refine fieldHas_eq_true.mpr ⟨idb, itb, ?_, ?_, hkb⟩
    · rw [hm.cells]
      simp [h1, h2, hcb]
    · rw [hm.getItem hit]
      simp [hne, hitb]
  · obtain ⟨p, hp, hpk⟩ := hv.player
    rw [hm.m_player]
    by_cases h : g.m_player = id
    · rw [h] at hp
      rw [hit] at hp
      injection hp with e
      subst e
      exact ⟨{ it with x := x, y := y }, by rw [hm.getItem hit]; simp [h], hpk⟩
    · exact ⟨p, by rw [hm.getItem hit]; simp [h, hp], hpk⟩
  · intro id1 it1 hit1 hk1
    rw [hm.m_player]
    rw [hm.getItem hit] at hit1
    split at hit1
    · rename_i h
      subst h
      injection hit1 with e
      subst e
      exact hv.player_unique id1 it hit hk1
    · exact hv.player_unique id1 it1 hit1 hk1
  · intro v hvm
    rw [hm.m_vampires] at hvm
    obtain ⟨it1, hit1, hk1⟩ := hv.vampires v hvm
    by_cases h : v.item = id
    · rw [h] at hit1
      rw [hit] at hit1
      injection hit1 with e
      subst e
      exact ⟨{ it with x := x, y := y }, by rw [hm.getItem hit]; simp [h], hk1⟩
    · exact ⟨it1, by rw [hm.getItem hit]; simp [h, hit1], hk1⟩
  · rw [hm.m_vampires]
    exact hv.vampires_nodup

/-! ## Cells and kinds in a consistent state -/

theorem fieldHas_eq_false {g : Vampires} {x y : Int} {kind : Kind} :
    fieldHas g x y kind = some false ↔
      (cellAt g.m_field x y = some none ∨
        ∃ id it, cellAt g.m_field x y = some (some id) ∧ g.items[id]? = some it ∧ it.kind ≠ kind) := by
  unfold fieldHas
  constructor
  · intro h
    split at h
    · simp at h
    · rename_i hc
      exact Or.inl hc
    · rename_i id hc
      split at h
      · simp at h
      · rename_i it hit
        exact Or.inr ⟨id, it, hc, hit, by simpa using h⟩
  · rintro (hc | ⟨id, it, hc, hit, hk⟩)
    · simp [hc]
    · simp [hc, hit, hk]

theorem fieldHas_isSome {g : Vampires} (hv : Valid g) {x y : Int}
    (hx0 : 0 ≤ x) (hx1 : x < g.width) (hy0 : 0 ≤ y) (hy1 : y < g.height) (kind : Kind) :
    ∃ b, fieldHas g x y kind = some b := by
  have h := (hv.bounds x y).mpr ⟨hx0, hx1, hy0, hy1⟩
  obtain ⟨c, hc⟩ := Option.isSome_iff_exists.mp h
  unfold fieldHas
  cases c with
  | none => exact ⟨false, by simp [hc]⟩
  | some id =>
    obtain ⟨it, hit, _, _⟩ := hv.cell_item x y id hc
    exact ⟨decide (it.kind = kind), by simp [hc, hit]⟩

/-- A cell that holds an item of a kind other than `border` is not on the outer ring. -/
theorem interior_of_cell {g : Vampires} (hv : Valid g) {x y : Int} {id : Nat} {it : Item}
    (hc : cellAt g.m_field x y = some (some id)) (hit : g.items[id]? = some it)
    (hk : it.kind ≠ Kind.border) :
    1 ≤ x ∧ x ≤ g.width - 2 ∧ 1 ≤ y ∧ y ≤ g.height - 2 := by
  obtain ⟨hx0, hx1, hy0, hy1⟩ := (hv.bounds x y).mp (by simp [hc])
  by_contra hcon
  have hr : onRing g x y := by
    unfold onRing
    omega
  obtain ⟨idb, itb, hcb, hitb, hkb⟩ := fieldHas_eq_true.mp (hv.ring x y hx0 hx1 hy0 hy1 hr)
  rw [hc] at hcb
  injection hcb with hcb
  injection hcb with hcb
  subst hcb
  rw [hit] at hitb
  injection hitb with e
  subst e
  exact hk hkb

theorem interior_of_item {g : Vampires} (hv : Valid g) {id : Nat} {it : Item}
    (hit : g.items[id]? = some it) (hk : it.kind ≠ Kind.border) :
    1 ≤ it.x ∧ it.x ≤ g.width - 2 ∧ 1 ≤ it.y ∧ it.y ≤ g.height - 2 :=
  interior_of_cell hv (hv.item_cell id it hit) hit hk

theorem interior_of_fieldHas {g : Vampires} (hv : Valid g) {x y : Int} {kind : Kind}
    (h : fieldHas g x y kind = some true) (hk : kind ≠ Kind.border) :
    1 ≤ x ∧ x ≤ g.width - 2 ∧ 1 ≤ y ∧ y ≤ g.height - 2 := by
  obtain ⟨id, it, hc, hit, hki⟩ := fieldHas_eq_true.mp h
  exact interior_of_cell hv hc hit (by rw [hki]; exact hk)

/-- An empty cell is not on the outer ring. -/
theorem interior_of_empty {g : Vampires} (hv : Valid g) {x y : Int}
    (hc : cellAt g.m_field x y = some none) :
    1 ≤ x ∧ x ≤ g.width - 2 ∧ 1 ≤ y ∧ y ≤ g.height - 2 := by
  obtain ⟨hx0, hx1, hy0, hy1⟩ := (hv.bounds x y).mp (by simp [hc])
  by_contra hcon
  have hr : onRing g x y := by
    unfold onRing
    omega
  obtain ⟨idb, itb, hcb, _, _⟩ := fieldHas_eq_true.mp (hv.ring x y hx0 hx1 hy0 hy1 hr)
  rw [hc] at hcb
  simp at hcb

theorem directionToDistance_range (dir : Direction) :
    (let d := directionToDistance dir
     (d.x = -1 ∨ d.x = 0 ∨ d.x = 1) ∧ (d.y = -1 ∨ d.y = 0 ∨ d.y = 1) ∧ (d.x ≠ 0 ∨ d.y ≠ 0)) := by
  cases dir <;> simp [directionToDistance]

theorem isStep_directionToDistance (dir : Direction) : IsStep (directionToDistance dir) :=
  directionToDistance_range dir

theorem scanWalls_of_wallsAhead (g : Vampires) (d : Distance) (k : Nat) :
    ∀ (fuel : Nat) (x y : Int), WallsAhead g d x y k →
      fieldHas g (x + k * d.x) (y + k * d.y) Kind.wall = some false → k < fuel →
      scanWalls g d fuel x y = some (x + k * d.x, y + k * d.y) := by
  induction k with
  | zero =>
    intro fuel x y _ hend hf
    cases fuel with
    | zero => omega
    | succ fuel =>
      simp only [Nat.cast_zero, zero_mul, add_zero] at hend
      simp [scanWalls, hend]
  | succ k ih =>
    intro fuel x y hw hend hf
    cases fuel with
    | zero => omega
    | succ fuel =>
      have h0 := hw 0 (by omega)
      simp only [Nat.cast_zero, zero_mul, add_zero] at h0
      have hw1 : WallsAhead g d (x + d.x) (y + d.y) k := by
        intro i hi
        have := hw (i + 1) (by omega)
        rw [show x + d.x + (i : Int) * d.x = x + ((i + 1 : Nat) : Int) * d.x by push_cast; ring,
          show y + d.y + (i : Int) * d.y = y + ((i + 1 : Nat) : Int) * d.y by push_cast; ring]
        exact this
      have hend1 : fieldHas g (x + d.x + k * d.x) (y + d.y + k * d.y) Kind.wall = some false := by
        rw [show x + d.x + (k : Int) * d.x = x + ((k + 1 : Nat) : Int) * d.x by push_cast; ring,
          show y + d.y + (k : Int) * d.y = y + ((k + 1 : Nat) : Int) * d.y by push_cast; ring]
        exact hend
      have := ih fuel (x + d.x) (y + d.y) hw1 hend1 (by omega)
      simp only [scanWalls, h0, this]
      congr 2
      · push_cast; ring
      · push_cast; ring

theorem ringDistance_nonneg {g : Vampires} {d : Distance} {x y : Int}
    (hx0 : 0 ≤ x) (hx1 : x < g.width) (hy0 : 0 ≤ y) (hy1 : y < g.height) :
    0 ≤ ringDistance g d x y := by
  unfold ringDistance
  split
  · omega
  · split
    · omega
    · split <;> omega

theorem ringDistance_step {g : Vampires} {d : Distance} (hd : IsStep d) (x y : Int) :
    ringDistance g d (x + d.x) (y + d.y) = ringDistance g d x y - 1 := by
  obtain ⟨hx, hy, hxy⟩ := hd
  unfold ringDistance
  split
  · omega
  · split
    · omega
    · split
      · omega
      · omega

theorem wallsAhead_le {g : Vampires} (hv : Valid g) {d : Distance} (hd : IsStep d) {x y : Int}
    {k : Nat} (hw : WallsAhead g d x y (k + 1)) : ((k + 1 : Nat) : Int) ≤ ringDistance g d x y := by
  have h := interior_of_fieldHas hv (hw k (by omega)) (by decide)
  obtain ⟨hx, hy, hxy⟩ := hd
  unfold ringDistance
  push_cast
  split
  · rename_i h1
    rw [h1] at h
    omega
  · split
    · rename_i h1
      rw [h1] at h
      omega
    · split
      · rename_i h1
        rw [h1] at h
        omega
      · have : d.y = -1 := by omega
        rw [this] at h
        omega

theorem exists_wallsAhead {g : Vampires} (hv : Valid g) {d : Distance} (hd : IsStep d) :
    ∀ (n : Nat) (x y : Int), 0 ≤ x → x < g.width → 0 ≤ y → y < g.height →
      ringDistance g d x y ≤ n →
      ∃ k : Nat, (k : Int) ≤ ringDistance g d x y ∧ WallsAhead g d x y k ∧
        fieldHas g (x + k * d.x) (y + k * d.y) Kind.wall = some false := by
  intro n
  induction n with
  | zero =>
    intro x y hx0 hx1 hy0 hy1 hn
    obtain ⟨b, hb⟩ := fieldHas_isSome hv hx0 hx1 hy0 hy1 Kind.wall
    cases b with
    | false =>
      refine ⟨0, ?_, ?_, ?_⟩
      · simpa using ringDistance_nonneg (d := d) hx0 hx1 hy0 hy1
      · intro i hi
        omega
      · simpa using hb
    | true =>
      exfalso
      have hw : WallsAhead g d x y (0 + 1) := by
        intro i hi
        have : i = 0 := by omega
        subst this
        simpa using hb
      have := wallsAhead_le hv hd hw
      simp at this
      omega
  | succ n ih =>
    intro x y hx0 hx1 hy0 hy1 hn
    obtain ⟨b, hb⟩ := fieldHas_isSome hv hx0 hx1 hy0 hy1 Kind.wall
    cases b with
    | false =>
      refine ⟨0, ?_, ?_, ?_⟩
      · simpa using ringDistance_nonneg (d := d) hx0 hx1 hy0 hy1
      · intro i hi
        omega
      · simpa using hb
    | true =>
      have hin := interior_of_fieldHas hv hb (by decide)
      have hstep := ringDistance_step (g := g) hd x y
      obtain ⟨hdx, hdy, _⟩ := hd
      obtain ⟨k, hk, hw, hend⟩ := ih (x + d.x) (y + d.y) (by omega) (by omega) (by omega)
        (by omega) (by push_cast at hn; omega)
      refine ⟨k + 1, ?_, ?_, ?_⟩
      · push_cast
        omega
      · intro i hi
        cases i with
        | zero => simpa using hb
        | succ i =>
          have := hw i (by omega)
          rw [show x + ((i + 1 : Nat) : Int) * d.x = x + d.x + (i : Int) * d.x by push_cast; ring,
            show y + ((i + 1 : Nat) : Int) * d.y = y + d.y + (i : Int) * d.y by push_cast; ring]
          exact this
      · rw [show x + ((k + 1 : Nat) : Int) * d.x = x + d.x + (k : Int) * d.x by push_cast; ring,
          show y + ((k + 1 : Nat) : Int) * d.y = y + d.y + (k : Int) * d.y by push_cast; ring]
        exact hend

/-! ## Pushing a row of walls -/

theorem step_inj {d : Distance} (hd : IsStep d) {x y : Int} {i j : Nat}
    (h1 : x + (i : Int) * d.x = x + (j : Int) * d.x)
    (h2 : y + (i : Int) * d.y = y + (j : Int) * d.y) : i = j := by
  obtain ⟨hx, hy, hxy⟩ := hd
  rcases hx with hx | hx | hx
  · rw [hx] at h1
    omega
  · rcases hy with hy | hy | hy
    · rw [hy] at h2
      omega
    · exact absurd hy (by omega)
    · rw [hy] at h2
      omega
  · rw [hx] at h1
    omega

theorem MovedTo.kinds {g g1 : Vampires} {id : Nat} {it : Item} {x y : Int}
    (hm : MovedTo g g1 id it x y) (hit : g.items[id]? = some it) :
    g1.items.map (fun i => i.kind) = g.items.map (fun i => i.kind) := by
  apply List.ext_getElem?
  intro n
  rw [List.getElem?_map, List.getElem?_map]
  exact hm.kind_eq hit n

theorem pushWalls_eq {d : Distance} (hd : IsStep d) (x y : Int) (k : Nat) :
    ∀ (g : Vampires) (fuel : Nat), Valid g → WallsAhead g d x y k →
      cellAt g.m_field (x + (k : Int) * d.x) (y + (k : Int) * d.y) = some none → k < fuel →
      ∃ g1, pushWalls d x y fuel g (x + (k : Int) * d.x) (y + (k : Int) * d.y) = some g1 ∧
        Valid g1 ∧ Pushed g g1 d x y k := by
  induction k with
  | zero =>
    intro g fuel hv _ hempty hf
    cases fuel with
    | zero => omega
    | succ fuel =>
      refine ⟨g, by simp [pushWalls], hv, ?_⟩
      refine ⟨rfl, rfl, rfl, rfl, rfl, rfl, rfl, by simpa using hempty, ?_, ?_, ?_, ?_⟩
      · intro i hi
        omega
      · intro _ _ _
        rfl
      · intro i hi
        omega
      · intro _ _
        rfl
  | succ k ih =>
    intro g fuel hv hw hempty hf
    cases fuel with
    | zero => omega
    | succ fuel =>
      -- the last wall of the row
      obtain ⟨w, itw, hcw, hitw, hkw⟩ := fieldHas_eq_true.mp (hw k (by omega))
      obtain ⟨itw1, hitw1, hwx, hwy⟩ := hv.cell_item _ _ w hcw
      rw [hitw] at hitw1
      injection hitw1 with e
      subst e
      obtain ⟨g0, hg0, hm⟩ := moveItem_eq hv hitw hempty
      have hv0 : Valid g0 := hm.valid hv hitw hempty (by rw [hkw]; decide)
      have hne : ¬ (x + ((k + 1 : Nat) : Int) * d.x = x ∧ y + ((k + 1 : Nat) : Int) * d.y = y) := by
        rintro ⟨h1, h2⟩
        have h3 : x + ((k + 1 : Nat) : Int) * d.x = x + ((0 : Nat) : Int) * d.x := by
          rw [h1]; simp
        have h4 : y + ((k + 1 : Nat) : Int) * d.y = y + ((0 : Nat) : Int) * d.y := by
          rw [h2]; simp
        have := step_inj hd h3 h4
        omega
      have hsub1 : x + ((k + 1 : Nat) : Int) * d.x - d.x = x + (k : Int) * d.x := by
        push_cast; ring
      have hsub2 : y + ((k + 1 : Nat) : Int) * d.y - d.y = y + (k : Int) * d.y := by
        push_cast; ring
      -- cells before the last wall are untouched by the first relocation
      have hframe : ∀ i : Nat, i < k →
          cellAt g0.m_field (x + (i : Int) * d.x) (y + (i : Int) * d.y)
            = cellAt g.m_field (x + (i : Int) * d.x) (y + (i : Int) * d.y) := by
        intro i hi
        rw [hm.cells]
        have h1 : ¬ (x + (i : Int) * d.x = x + ((k + 1 : Nat) : Int) * d.x ∧
            y + (i : Int) * d.y = y + ((k + 1 : Nat) : Int) * d.y) := by
          rintro ⟨h1, h2⟩
          have := step_inj hd h1 h2
          omega
        have h2 : ¬ (x + (i : Int) * d.x = itw.x ∧ y + (i : Int) * d.y = itw.y) := by
          rintro ⟨h1, h2⟩
          rw [hwx] at h1
          rw [hwy] at h2
          have := step_inj hd h1 h2
          omega
        rw [if_neg h1, if_neg h2]
      have hitem : ∀ i : Nat, i < k → ∀ id,
          cellAt g.m_field (x + (i : Int) * d.x) (y + (i : Int) * d.y) = some (some id) →
          id ≠ w := by
        intro i hi id hc
        rintro rfl
        obtain ⟨it1, hit1, hx1, hy1⟩ := hv.cell_item _ _ id hc
        rw [hitw] at hit1
        injection hit1 with e
        subst e
        have := step_inj hd (hwx.symm.trans hx1).symm (hwy.symm.trans hy1).symm
        omega
      have hw0 : WallsAhead g0 d x y k := by
        intro i hi
        obtain ⟨id, it, hc, hit, hk⟩ := fieldHas_eq_true.mp (hw i (by omega))
        refine fieldHas_eq_true.mpr ⟨id, it, ?_, ?_, hk⟩
        · rw [hframe i hi]
          exact hc
        · rw [hm.getItem hitw, if_neg (hitem i hi id hc)]
          exact hit
      have hempty0 : cellAt g0.m_field (x + (k : Int) * d.x) (y + (k : Int) * d.y) = some none := by
        rw [hm.cells]
        have h1 : ¬ (x + (k : Int) * d.x = x + ((k + 1 : Nat) : Int) * d.x ∧
            y + (k : Int) * d.y = y + ((k + 1 : Nat) : Int) * d.y) := by
          rintro ⟨h1, h2⟩
          have := step_inj hd h1 h2
          omega
        rw [if_neg h1, if_pos ⟨hwx.symm, hwy.symm⟩]
      obtain ⟨g1, hg1, hv1, hp⟩ := ih g0 fuel hv0 hw0 hempty0 (by omega)
      refine ⟨g1, ?_, hv1, ?_⟩
      · rw [pushWalls]
        simp only [hne, if_false, hsub1, hsub2, hcw, hg0]
        exact hg1
      · refine ⟨hp.width.trans hm.width, hp.height.trans hm.height,
          hp.vampireCount.trans hm.vampireCount, hp.wallCount.trans hm.wallCount,
          hp.m_vampires.trans hm.m_vampires, hp.m_player.trans hm.m_player,
          hp.kinds.trans (hm.kinds hitw), hp.first, ?_, ?_, ?_, ?_⟩
        · intro i hi
          by_cases hik : i < k
          · rw [hp.moved i hik, hframe i hik]
          · have hik : i = k := by omega
            subst hik
            rw [hp.others, hm.cells]
            · rw [if_pos ⟨rfl, rfl⟩, hcw]
            · intro j hj
              rintro ⟨h1, h2⟩
              have := step_inj hd h1 h2
              omega
        · intro x1 y1 hx1
          rw [hp.others, hm.cells]
          · have h1 := hx1 (k + 1) (by omega)
            have h2 : ¬ (x1 = itw.x ∧ y1 = itw.y) := by
              rw [hwx, hwy]
              exact hx1 k (by omega)
            rw [if_neg h1, if_neg h2]
          · intro j hj
            exact hx1 j (by omega)
        · intro i hi id hc
          by_cases hik : i < k
          · have hc0 : cellAt g0.m_field (x + (i : Int) * d.x) (y + (i : Int) * d.y)
                = some (some id) := by
              rw [hframe i hik]
              exact hc
            obtain ⟨it, hit, hit1⟩ := hp.items_moved i hik id hc0
            rw [hm.getItem hitw] at hit
            rw [if_neg (hitem i hik id hc)] at hit
            exact ⟨it, hit, hit1⟩
          · have hik : i = k := by omega
            subst hik
            rw [hcw] at hc
            injection hc with hc
            injection hc with hc
            subst hc
            refine ⟨itw, hitw, ?_⟩
            rw [hp.items_others, hm.getItem hitw]
            · rw [if_pos rfl]
            · intro j hj
              rw [hframe j hj]
              intro hc
              exact hitem j hj w hc rfl
        · intro id hid
          have hidw : id ≠ w := by
            rintro rfl
            exact hid k (by omega) hcw
          rw [hp.items_others, hm.getItem hitw]
          · rw [if_neg hidw]
          · intro j hj
            rw [hframe j hj]
            exact hid j (by omega)

/-! ## The player's move -/

theorem wallsAhead_unique {g : Vampires} {d : Distance} {x y : Int} {k k1 : Nat}
    (hw : WallsAhead g d x y k)
    (hend : fieldHas g (x + (k : Int) * d.x) (y + (k : Int) * d.y) Kind.wall ≠ some true)
    (hw1 : WallsAhead g d x y k1)
    (hend1 : fieldHas g (x + (k1 : Int) * d.x) (y + (k1 : Int) * d.y) Kind.wall ≠ some true) :
    k = k1 := by
  rcases Nat.lt_trichotomy k k1 with h | h | h
  · exact absurd (hw1 k h) hend
  · exact h
  · exact absurd (hw k1 h) hend1

theorem lt_loopFuel {g : Vampires} (hv : Valid g) {d : Distance} (hd : IsStep d) {p : Item}
    (hp : g.items[g.m_player]? = some p) (hk : p.kind = Kind.player) {k : Nat}
    (hle : (k : Int) ≤ ringDistance g d (p.x + d.x) (p.y + d.y)) : k < loopFuel g := by
  have hin := interior_of_item hv hp (by rw [hk]; decide)
  rw [ringDistance_step hd] at hle
  have h1 : g.width ≤ max g.width g.height := le_max_left _ _
  have h2 : g.height ≤ max g.width g.height := le_max_right _ _
  have h3 : ringDistance g d p.x p.y ≤ max g.width g.height - 2 := by
    unfold ringDistance
    split
    · omega
    · split
      · omega
      · split <;> omega
  unfold loopFuel
  omega

/-- The outcome of `movePlayer` in a consistent state: the three cases of the code. -/
theorem movePlayer_cases {g : Vampires} (hv : Valid g) (dir : Direction) {p : Item}
    (hp : g.items[g.m_player]? = some p) :
    (fieldHas g (p.x + (directionToDistance dir).x) (p.y + (directionToDistance dir).y)
        Kind.vampire = some true ∧ movePlayer dir g = some (PlayerResult.lost, g)) ∨
    (fieldHas g (p.x + (directionToDistance dir).x) (p.y + (directionToDistance dir).y)
        Kind.vampire = some false ∧
      ∃ k : Nat,
        WallsAhead g (directionToDistance dir) (p.x + (directionToDistance dir).x)
          (p.y + (directionToDistance dir).y) k ∧
        fieldHas g (p.x + (directionToDistance dir).x + (k : Int) * (directionToDistance dir).x)
          (p.y + (directionToDistance dir).y + (k : Int) * (directionToDistance dir).y)
          Kind.wall = some false ∧
        (((∃ id, cellAt g.m_field
              (p.x + (directionToDistance dir).x + (k : Int) * (directionToDistance dir).x)
              (p.y + (directionToDistance dir).y + (k : Int) * (directionToDistance dir).y)
              = some (some id)) ∧
            movePlayer dir g = some (PlayerResult.ok, g)) ∨
         (cellAt g.m_field
              (p.x + (directionToDistance dir).x + (k : Int) * (directionToDistance dir).x)
              (p.y + (directionToDistance dir).y + (k : Int) * (directionToDistance dir).y)
              = some none ∧
            ∃ g1 g2, Valid g1 ∧
              Pushed g g1 (directionToDistance dir) (p.x + (directionToDistance dir).x)
                (p.y + (directionToDistance dir).y) k ∧
              g1.items[g.m_player]? = some p ∧
              MovedTo g1 g2 g.m_player p (p.x + (directionToDistance dir).x)
                (p.y + (directionToDistance dir).y) ∧
              Valid g2 ∧ movePlayer dir g = some (PlayerResult.ok, g2)))) := by
  have hd := isStep_directionToDistance dir
  generalize hde : directionToDistance dir = d at hd ⊢
  have hpk : p.kind = Kind.player := by
    obtain ⟨p1, hp1, hk1⟩ := hv.player
    rw [hp] at hp1
    injection hp1 with e
    subst e
    exact hk1
  have hin := interior_of_item hv hp (by rw [hpk]; decide)
  obtain ⟨hdx, hdy, _⟩ := id hd
  have hx0 : 0 ≤ p.x + d.x := by omega
  have hx1 : p.x + d.x < g.width := by omega
  have hy0 : 0 ≤ p.y + d.y := by omega
  have hy1 : p.y + d.y < g.height := by omega
  obtain ⟨b, hb⟩ := fieldHas_isSome hv hx0 hx1 hy0 hy1 Kind.vampire
  cases b with
  | true =>
    left
    refine ⟨hb, ?_⟩
    unfold movePlayer
    simp only [hde, hp, hb]
  | false =>
    right
    refine ⟨hb, ?_⟩
    obtain ⟨k, hkle, hw, hend⟩ := exists_wallsAhead hv hd
      (ringDistance g d (p.x + d.x) (p.y + d.y)).toNat (p.x + d.x) (p.y + d.y) hx0 hx1 hy0 hy1
      (by
        have := ringDistance_nonneg (g := g) (d := d) hx0 hx1 hy0 hy1
        omega)
    have hfuel := lt_loopFuel hv hd hp hpk hkle
    have hscan := scanWalls_of_wallsAhead g d k (loopFuel g) _ _ hw hend hfuel
    refine ⟨k, hw, hend, ?_⟩
    rcases fieldHas_eq_false.mp hend with hc | ⟨id, it, hc, hit, hk⟩
    · right
      refine ⟨hc, ?_⟩
      obtain ⟨g1, hg1, hv1, hpush⟩ := pushWalls_eq hd _ _ k g (loopFuel g) hv hw hc hfuel
      have hp1 : g1.items[g.m_player]? = some p := by
        rw [hpush.items_others, hp]
        intro i hi hci
        obtain ⟨idw, itw, hcw, hitw, hkw⟩ := fieldHas_eq_true.mp (hw i hi)
        rw [hci] at hcw
        injection hcw with hcw
        injection hcw with hcw
        subst hcw
        rw [hp] at hitw
        injection hitw with e
        subst e
        rw [hpk] at hkw
        exact absurd hkw (by decide)
      obtain ⟨g2, hg2, hm⟩ := moveItem_eq hv1 hp1 hpush.first
      have hv2 : Valid g2 := hm.valid hv1 hp1 hpush.first (by rw [hpk]; decide)
      refine ⟨g1, g2, hv1, hpush, hp1, hm, hv2, ?_⟩
      rw [← hpush.m_player] at hg2
      unfold movePlayer
      simp only [hde, hp, hb, hscan, hc, hg1, hg2]
    · left
      refine ⟨⟨id, hc⟩, ?_⟩
      unfold movePlayer
      simp only [hde, hp, hb, hscan, hc]

/-! ## The executable test of consistency is sound -/

theorem bounds_of_checkShape {g : Vampires} (h : checkShape g = true) (x y : Int) :
    (cellAt g.m_field x y).isSome ↔ (0 ≤ x ∧ x < g.width ∧ 0 ≤ y ∧ y < g.height) := by
  simp only [checkShape, Bool.and_eq_true, decide_eq_true_eq, List.all_eq_true] at h
  obtain ⟨⟨⟨hw, hh⟩, hlen⟩, hrows⟩ := h
  unfold cellAt
  constructor
  · intro hs
    split at hs
    · rename_i hxy
      split at hs
      · simp at hs
      · rename_i row hrow
        obtain ⟨hy, hrow1⟩ := List.getElem?_eq_some_iff.mp hrow
        have hmem : row ∈ g.m_field := by
          rw [← hrow1]
          exact List.getElem_mem hy
        have hrl := hrows row hmem
        obtain ⟨c, hc⟩ := Option.isSome_iff_exists.mp hs
        obtain ⟨hx, _⟩ := List.getElem?_eq_some_iff.mp hc
        omega
    · simp at hs
  · rintro ⟨hx0, hx1, hy0, hy1⟩
    have hy : y.toNat < g.m_field.length := by omega
    have hrow : g.m_field[y.toNat]? = some (g.m_field[y.toNat]) := List.getElem?_eq_getElem hy
    have hrl := hrows _ (List.getElem_mem hy)
    have hx : x.toNat < (g.m_field[y.toNat]).length := by omega
    simp [hx0, hy0, hrow, List.getElem?_eq_getElem hx]

theorem valid_of_validCheck {g : Vampires} (h : validCheck g = true) : Valid g := by
  simp only [validCheck, Bool.and_eq_true] at h
  obtain ⟨⟨⟨⟨hshape, hcells⟩, hitems⟩, hring⟩, hhandles⟩ := h
  have hb := bounds_of_checkShape hshape
  simp only [checkCells, List.all_eq_true, List.mem_range] at hcells
  simp only [checkItems, List.all_eq_true, List.mem_range] at hitems
  simp only [checkRing, List.all_eq_true, List.mem_range, Bool.or_eq_true,
    decide_eq_true_eq] at hring
  simp only [checkHandles, Bool.and_eq_true, List.all_eq_true, decide_eq_true_eq] at hhandles
  obtain ⟨⟨hplayer, hvamp⟩, hnodup⟩ := hhandles
  have hitem : ∀ id it, g.items[id]? = some it →
      cellAt g.m_field it.x it.y = some (some id) ∧ (it.kind ≠ Kind.player ∨ id = g.m_player) := by
    intro id it hit
    obtain ⟨hlt, _⟩ := List.getElem?_eq_some_iff.mp hit
    have := hitems id hlt
    rw [hit] at this
    simpa using this
  constructor
  · exact hb
  · intro x y id hc
    obtain ⟨hx0, hx1, hy0, hy1⟩ := (hb x y).mp (by simp [hc])
    have := hcells y.toNat (by omega) x.toNat (by omega)
    rw [show ((x.toNat : Nat) : Int) = x by omega, show ((y.toNat : Nat) : Int) = y by omega,
      hc] at this
    cases hit : g.items[id]? with
    | none =>
      simp [hit] at this
    | some it =>
      simp only [hit, Bool.and_eq_true, decide_eq_true_eq] at this
      exact ⟨it, rfl, this.1, this.2⟩
  · intro id it hit
    exact (hitem id it hit).1
  · intro x y hx0 hx1 hy0 hy1 hr
    have := hring y.toNat (by omega) x.toNat (by omega)
    rw [show ((x.toNat : Nat) : Int) = x by omega,
      show ((y.toNat : Nat) : Int) = y by omega] at this
    rcases this with h1 | h1
    · unfold onRing at hr
      omega
    · exact h1
  · split at hplayer
    · rename_i p hp
      exact ⟨p, hp, by simpa using hplayer⟩
    · simp at hplayer
  · intro id it hit hk
    rcases (hitem id it hit).2 with h1 | h1
    · exact absurd hk h1
    · exact h1
  · intro v hvm
    have := hvamp v hvm
    split at this
    · rename_i it hit
      exact ⟨it, hit, by simpa using this⟩
    · simp at this
  · exact hnodup

theorem exampleGame_valid : Valid exampleGame := valid_of_validCheck (by decide)

/-! ## Claims on `movePlayer` -/

theorem holds_iff_fieldHas {g : Vampires} {x y : Int} {kind : Kind} :
    Holds g x y kind ↔ fieldHas g x y kind = some true :=
  fieldHas_eq_true.symm

theorem wallsAhead_of_holds {g : Vampires} {d : Distance} {p : Item} {k : Nat}
    (hw : ∀ i : Nat, 1 ≤ i → i ≤ k →
      Holds g (p.x + (i : Int) * d.x) (p.y + (i : Int) * d.y) Kind.wall) :
    WallsAhead g d (p.x + d.x) (p.y + d.y) k := by
  intro i hi
  have := holds_iff_fieldHas.mp (hw (i + 1) (by omega) (by omega))
  rw [show p.x + d.x + (i : Int) * d.x = p.x + ((i + 1 : Nat) : Int) * d.x by push_cast; ring,
    show p.y + d.y + (i : Int) * d.y = p.y + ((i + 1 : Nat) : Int) * d.y by push_cast; ring]
  exact this

/-- C1: in a consistent state `movePlayer` returns a result; the result is `lost` exactly when
the cell one step from the player in the given direction holds a vampire, and `ok` otherwise;
when the result is `lost` the state (field, items, handles) is the state before the call. -/
theorem movePlayer_lost_iff (g : Vampires) (hv : Valid g) (dir : Direction) :
    ∃ r g1 p, movePlayer dir g = some (r, g1) ∧ g.items[g.m_player]? = some p ∧
      (r = PlayerResult.lost ↔
        Holds g (p.x + (directionToDistance dir).x) (p.y + (directionToDistance dir).y)
          Kind.vampire) ∧
      (r = PlayerResult.ok ↔
        ¬ Holds g (p.x + (directionToDistance dir).x) (p.y + (directionToDistance dir).y)
          Kind.vampire) ∧
      (r = PlayerResult.lost → g1 = g) := by
  obtain ⟨p, hp, _⟩ := hv.player
  rcases movePlayer_cases hv dir hp with ⟨hb, hm⟩ | ⟨hb, k, _, _, h⟩
  · refine ⟨PlayerResult.lost, g, p, hm, hp, ?_, ?_, fun _ => rfl⟩
    · simp [holds_iff_fieldHas, hb]
    · simp [holds_iff_fieldHas, hb]
  · rcases h with ⟨_, hm⟩ | ⟨_, g1, g2, _, _, _, _, _, hm⟩
    · refine ⟨PlayerResult.ok, g, p, hm, hp, ?_, ?_, fun _ => rfl⟩
      · simp [holds_iff_fieldHas, hb]
      · simp [holds_iff_fieldHas, hb]
    · refine ⟨PlayerResult.ok, g2, p, hm, hp, ?_, ?_, fun h => by cases h⟩
      · simp [holds_iff_fieldHas, hb]
      · simp [holds_iff_fieldHas, hb]

/-- Witness of C1 on the example field, for the direction `up`. -/
theorem movePlayer_lost_iff_witness :
    Valid exampleGame ∧
    ∃ r g1 p, movePlayer Direction.up exampleGame = some (r, g1) ∧
      exampleGame.items[exampleGame.m_player]? = some p ∧
      (r = PlayerResult.lost ↔
        Holds exampleGame (p.x + (directionToDistance Direction.up).x)
          (p.y + (directionToDistance Direction.up).y) Kind.vampire) ∧
      (r = PlayerResult.ok ↔
        ¬ Holds exampleGame (p.x + (directionToDistance Direction.up).x)
          (p.y + (directionToDistance Direction.up).y) Kind.vampire) ∧
      (r = PlayerResult.lost → g1 = exampleGame) :=
  ⟨exampleGame_valid, movePlayer_lost_iff exampleGame exampleGame_valid Direction.up⟩

theorem countKind_eq_of_kinds {g g1 : Vampires}
    (h : g1.items.map (fun i => i.kind) = g.items.map (fun i => i.kind)) (kind : Kind) :
    countKind g1 kind = countKind g kind := by
  unfold countKind
  rw [h]

/-- C2: in a consistent state, if the `k` cells ahead of the player in the direction of the move
hold walls and the cell after them is empty, then `movePlayer` returns `ok`; afterwards the
player is stored, and referred to by the field, one step further in that direction, each of
the `k` walls is stored, and referred to by the field, one step further in that direction, and
the number of walls is the same. -/
theorem movePlayer_push (g : Vampires) (hv : Valid g) (dir : Direction) (p : Item)
    (hp : g.items[g.m_player]? = some p) (k : Nat)
    (hwalls : ∀ i : Nat, 1 ≤ i → i ≤ k →
      Holds g (p.x + (i : Int) * (directionToDistance dir).x)
        (p.y + (i : Int) * (directionToDistance dir).y) Kind.wall)
    (hland : cellAt g.m_field (p.x + ((k + 1 : Nat) : Int) * (directionToDistance dir).x)
      (p.y + ((k + 1 : Nat) : Int) * (directionToDistance dir).y) = some none) :
    ∃ g2, movePlayer dir g = some (PlayerResult.ok, g2) ∧
      g2.m_player = g.m_player ∧
      g2.items[g.m_player]? = some { p with x := p.x + (directionToDistance dir).x,
                                            y := p.y + (directionToDistance dir).y } ∧
      cellAt g2.m_field (p.x + (directionToDistance dir).x) (p.y + (directionToDistance dir).y)
        = some (some g.m_player) ∧
      (∀ i : Nat, 1 ≤ i → i ≤ k → ∀ id it,
        cellAt g.m_field (p.x + (i : Int) * (directionToDistance dir).x)
          (p.y + (i : Int) * (directionToDistance dir).y) = some (some id) →
        g.items[id]? = some it →
        g2.items[id]? = some { it with x := it.x + (directionToDistance dir).x,
                                       y := it.y + (directionToDistance dir).y } ∧
        cellAt g2.m_field (it.x + (directionToDistance dir).x)
          (it.y + (directionToDistance dir).y) = some (some id)) ∧
      countKind g2 Kind.wall = countKind g Kind.wall := by
  have hd := isStep_directionToDistance dir
  have hw := wallsAhead_of_holds hwalls
  have hx : p.x + (directionToDistance dir).x + (k : Int) * (directionToDistance dir).x
      = p.x + ((k + 1 : Nat) : Int) * (directionToDistance dir).x := by push_cast; ring
  have hy : p.y + (directionToDistance dir).y + (k : Int) * (directionToDistance dir).y
      = p.y + ((k + 1 : Nat) : Int) * (directionToDistance dir).y := by push_cast; ring
  have hend : fieldHas g (p.x + (directionToDistance dir).x + (k : Int) * (directionToDistance dir).x)
      (p.y + (directionToDistance dir).y + (k : Int) * (directionToDistance dir).y) Kind.wall
      = some false := by
    rw [hx, hy]
    exact fieldHas_eq_false.mpr (Or.inl hland)
  rcases movePlayer_cases hv dir hp with ⟨hb, _⟩ | ⟨hb, k1, hw1, hend1, h⟩
  · -- the cell ahead is a wall or is empty, so it does not hold a vampire
    exfalso
    obtain ⟨idv, itv, hcv, hitv, hkv⟩ := fieldHas_eq_true.mp hb
    cases k with
    | zero =>
      simp only [Nat.cast_zero, zero_mul, add_zero] at hx hy
      simp only [zero_add, Nat.cast_one, one_mul] at hland
      rw [hland] at hcv
      simp at hcv
    | succ k =>
      obtain ⟨idw, itw, hcw, hitw, hkw⟩ := fieldHas_eq_true.mp (hw 0 (by omega))
      simp only [Nat.cast_zero, zero_mul, add_zero] at hcw
      rw [hcv] at hcw
      injection hcw with hcw
      injection hcw with hcw
      subst hcw
      rw [hitv] at hitw
      injection hitw with e
      subst e
      rw [hkv] at hkw
      exact absurd hkw (by decide)
  · have hk : k1 = k := wallsAhead_unique hw1 (by rw [hend1]; simp) hw (by rw [hend]; simp)
    subst hk
    rcases h with ⟨⟨id, hc⟩, _⟩ | ⟨_, g1, g2, hv1, hpush, hp1, hm, hv2, hmove⟩
    · rw [hx, hy, hland] at hc
      simp at hc
    · refine ⟨g2, hmove, hm.m_player.trans hpush.m_player, ?_, ?_, ?_, ?_⟩
      · rw [hm.getItem hp1, if_pos rfl]
      · rw [hm.cells, if_pos ⟨rfl, rfl⟩]
      · intro i hi1 hik id it hc hit
        obtain ⟨j, rfl⟩ : ∃ j, i = j + 1 := ⟨i - 1, by omega⟩
        have hxj : p.x + (directionToDistance dir).x + (j : Int) * (directionToDistance dir).x
            = p.x + ((j + 1 : Nat) : Int) * (directionToDistance dir).x := by push_cast; ring
        have hyj : p.y + (directionToDistance dir).y + (j : Int) * (directionToDistance dir).y
            = p.y + ((j + 1 : Nat) : Int) * (directionToDistance dir).y := by push_cast; ring
        obtain ⟨it1, hit1, hitx, hity⟩ := hv.cell_item _ _ id hc
        rw [hit] at hit1
        injection hit1 with e
        subst e
        have hcj : cellAt g.m_field
            (p.x + (directionToDistance dir).x + (j : Int) * (directionToDistance dir).x)
            (p.y + (directionToDistance dir).y + (j : Int) * (directionToDistance dir).y)
            = some (some id) := by
          rw [hxj, hyj]
          exact hc
        obtain ⟨it2, hit2, hit3⟩ := hpush.items_moved j (by omega) id hcj
        rw [hit] at hit2
        injection hit2 with e
        subst e
        have hnx : p.x + (directionToDistance dir).x
              + ((j + 1 : Nat) : Int) * (directionToDistance dir).x
            = it.x + (directionToDistance dir).x := by
          rw [hitx]; ring
        have hny : p.y + (directionToDistance dir).y
              + ((j + 1 : Nat) : Int) * (directionToDistance dir).y
            = it.y + (directionToDistance dir).y := by
          rw [hity]; ring
        rw [hnx, hny] at hit3
        have hidp : id ≠ g.m_player := by
          rintro rfl
          rw [hit] at hp
          injection hp with e
          subst e
          have := step_inj (i := j + 1) (j := 0) hd (x := it.x) (y := it.y)
            (by rw [← hitx]; simp) (by rw [← hity]; simp)
          omega
        constructor
        · rw [hm.getItem hp1, if_neg hidp]
          exact hit3
        · have hmv := hpush.moved j (by omega)
          rw [hnx, hny, hcj] at hmv
          rw [hm.cells]
          have h1 : ¬ (it.x + (directionToDistance dir).x = p.x + (directionToDistance dir).x ∧
              it.y + (directionToDistance dir).y = p.y + (directionToDistance dir).y) := by
            rintro ⟨h1, h2⟩
            have := step_inj (i := j + 1) (j := 0) hd (x := p.x) (y := p.y)
              (by rw [← hitx]; simp; omega) (by rw [← hity]; simp; omega)
            omega
          have h2 : ¬ (it.x + (directionToDistance dir).x = p.x ∧
              it.y + (directionToDistance dir).y = p.y) := by
            rintro ⟨h1, h2⟩
            rw [hitx] at h1
            rw [hity] at h2
            have := step_inj (i := j + 2) (j := 0) hd (x := p.x) (y := p.y)
              (by push_cast at h1 ⊢; linear_combination h1)
              (by push_cast at h2 ⊢; linear_combination h2)
            omega
          rw [if_neg h1, if_neg h2]
          exact hmv
      · exact countKind_eq_of_kinds ((hm.kinds hp1).trans hpush.kinds) Kind.wall

/-- Witness of C2 on the example field: the player moves right and pushes one wall. -/
theorem movePlayer_push_witness :
    Valid exampleGame ∧
    ∃ g2, movePlayer Direction.right exampleGame = some (PlayerResult.ok, g2) ∧
      g2.items[26]? = some ⟨Kind.player, 4, 3⟩ ∧
      g2.items[27]? = some ⟨Kind.wall, 5, 3⟩ ∧
      cellAt g2.m_field 5 3 = some (some 27) ∧
      countKind g2 Kind.wall = 4 := by
  obtain ⟨g2, h1, _, h3, _, h5, h6⟩ :=
    movePlayer_push exampleGame exampleGame_valid Direction.right ⟨Kind.player, 3, 3⟩
      (by decide) 1
      (by
        intro i hi1 hi2
        have : i = 1 := by omega
        subst this
        exact ⟨27, ⟨Kind.wall, 4, 3⟩, by decide, by decide, rfl⟩)
      (by decide)
  have h7 := h5 1 (by decide) (by decide) 27 ⟨Kind.wall, 4, 3⟩ (by decide) (by decide)
  exact ⟨exampleGame_valid, g2, h1, h3, h7.1, h7.2, h6⟩

/-- C3: in a consistent state, if the cell next to the player in the direction of the move holds
no vampire, the `k` cells ahead of the player hold walls and the cell after them, the landing
cell, is occupied by an item that is not a wall, then `movePlayer` returns `ok` and the state
(field, items, handles) is the state before the call. -/
theorem movePlayer_blocked (g : Vampires) (hv : Valid g) (dir : Direction) (p : Item)
    (hp : g.items[g.m_player]? = some p) (k : Nat)
    (hnv : ¬ Holds g (p.x + (directionToDistance dir).x) (p.y + (directionToDistance dir).y)
      Kind.vampire)
    (hwalls : ∀ i : Nat, 1 ≤ i → i ≤ k →
      Holds g (p.x + (i : Int) * (directionToDistance dir).x)
        (p.y + (i : Int) * (directionToDistance dir).y) Kind.wall)
    (hnw : ¬ Holds g (p.x + ((k + 1 : Nat) : Int) * (directionToDistance dir).x)
      (p.y + ((k + 1 : Nat) : Int) * (directionToDistance dir).y) Kind.wall)
    (hland : ∃ id, cellAt g.m_field (p.x + ((k + 1 : Nat) : Int) * (directionToDistance dir).x)
      (p.y + ((k + 1 : Nat) : Int) * (directionToDistance dir).y) = some (some id)) :
    movePlayer dir g = some (PlayerResult.ok, g) := by
  have hw := wallsAhead_of_holds hwalls
  have hx : p.x + (directionToDistance dir).x + (k : Int) * (directionToDistance dir).x
      = p.x + ((k + 1 : Nat) : Int) * (directionToDistance dir).x := by push_cast; ring
  have hy : p.y + (directionToDistance dir).y + (k : Int) * (directionToDistance dir).y
      = p.y + ((k + 1 : Nat) : Int) * (directionToDistance dir).y := by push_cast; ring
  rcases movePlayer_cases hv dir hp with ⟨hb, _⟩ | ⟨hb, k1, hw1, hend1, h⟩
  · exact absurd (holds_iff_fieldHas.mpr hb) hnv
  · have hk : k1 = k := by
      refine wallsAhead_unique hw1 (by rw [hend1]; simp) hw ?_
      rw [hx, hy]
      exact fun h => hnw (holds_iff_fieldHas.mpr h)
    subst hk
    rcases h with ⟨_, hmove⟩ | ⟨hc, _⟩
    · exact hmove
    · obtain ⟨id, hid⟩ := hland
      rw [hx, hy, hid] at hc
      simp at hc

/-- Witness of C3 on the example field: below the player two walls are followed by the
border. -/
theorem movePlayer_blocked_witness :
    Valid exampleGame ∧
    movePlayer Direction.down exampleGame = some (PlayerResult.ok, exampleGame) :=
  ⟨exampleGame_valid,
    movePlayer_blocked exampleGame exampleGame_valid Direction.down ⟨Kind.player, 3, 3⟩
      (by decide) 2
      (by
        rintro ⟨id, it, hc, hit, hk⟩
        have h1 : cellAt exampleGame.m_field 3 4 = some (some 29) := by decide
        have h2 : id = 29 := by
          have h3 : cellAt exampleGame.m_field 3 4 = some (some id) := hc
          rw [h1] at h3
          injection h3 with h3
          injection h3 with h3
          exact h3.symm
        subst h2
        have h4 : exampleGame.items[29]? = some ⟨Kind.wall, 3, 4⟩ := by decide
        rw [h4] at hit
        injection hit with e
        subst e
        exact absurd hk (by decide))
      (by
        intro i hi1 hi2
        have : i = 1 ∨ i = 2 := by omega
        rcases this with rfl | rfl
        · exact ⟨29, ⟨Kind.wall, 3, 4⟩, by decide, by decide, rfl⟩
        · exact ⟨30, ⟨Kind.wall, 3, 5⟩, by decide, by decide, rfl⟩)
      (by
        rintro ⟨id, it, hc, hit, hk⟩
        have h1 : cellAt exampleGame.m_field 3 6 = some (some 7) := by decide
        have h2 : id = 7 := by
          have h3 : cellAt exampleGame.m_field 3 6 = some (some id) := hc
          rw [h1] at h3
          injection h3 with h3
          injection h3 with h3
          exact h3.symm
        subst h2
        have h4 : exampleGame.items[7]? = some ⟨Kind.border, 3, 6⟩ := by decide
        rw [h4] at hit
        injection hit with e
        subst e
        exact absurd hk (by decide))
      ⟨7, by decide⟩⟩

/-! ## The loop over the directions -/

theorem scanDirections_spec {g : Vampires} (hv : Valid g) {v p : Item}
    (hin : 1 ≤ v.x ∧ v.x ≤ g.width - 2 ∧ 1 ≤ v.y ∧ v.y ≤ g.height - 2) :
    ∀ (dirs : List Direction) (m : Int) (md : Distance),
      ((∃ dir ∈ dirs, fieldHas g (v.x + (directionToDistance dir).x)
            (v.y + (directionToDistance dir).y) Kind.player = some true) ∧
          scanDirections g v p dirs m md = some DirScan.caught) ∨
      ((∀ dir ∈ dirs, fieldHas g (v.x + (directionToDistance dir).x)
            (v.y + (directionToDistance dir).y) Kind.player = some false) ∧
        (((∀ dir ∈ dirs, EmptyAt g v.x v.y dir →
              m ≤ cost v.x v.y p.x p.y (directionToDistance dir)) ∧
            scanDirections g v p dirs m md = some (DirScan.chosen m md)) ∨
          (∃ pre dir post, dirs = pre ++ dir :: post ∧
            cost v.x v.y p.x p.y (directionToDistance dir) < m ∧
            IsChoice g v.x v.y p.x p.y pre dir post ∧
            scanDirections g v p dirs m md
              = some (DirScan.chosen (cost v.x v.y p.x p.y (directionToDistance dir))
                  (directionToDistance dir))))) := by
  intro dirs
  induction dirs with
  | nil =>
    intro m md
    right
    refine ⟨by simp, Or.inl ⟨by simp, rfl⟩⟩
  | cons dir rest ih =>
    intro m md
    have hd := isStep_directionToDistance dir
    obtain ⟨hdx, hdy, _⟩ := id hd
    have hx0 : 0 ≤ v.x + (directionToDistance dir).x := by omega
    have hx1 : v.x + (directionToDistance dir).x < g.width := by omega
    have hy0 : 0 ≤ v.y + (directionToDistance dir).y := by omega
    have hy1 : v.y + (directionToDistance dir).y < g.height := by omega
    obtain ⟨b, hb⟩ := fieldHas_isSome hv hx0 hx1 hy0 hy1 Kind.player
    cases b with
    | true =>
      left
      exact ⟨⟨dir, by simp, hb⟩, by simp [scanDirections, hb]⟩
    | false =>
      obtain ⟨c, hc⟩ := Option.isSome_iff_exists.mp ((hv.bounds _ _).mpr ⟨hx0, hx1, hy0, hy1⟩)
      cases c with
      | some id1 =>
        -- the destination is occupied
        have hne : ¬ EmptyAt g v.x v.y dir := by
          unfold EmptyAt
          rw [hc]
          simp
        have hrec : scanDirections g v p (dir :: rest) m md = scanDirections g v p rest m md := by
          simp [scanDirections, hb, hc]
        rw [hrec]
        rcases ih m md with ⟨⟨dir1, hmem, hp1⟩, hres⟩ | ⟨hnp, h⟩
        · left
          exact ⟨⟨dir1, by simp [hmem], hp1⟩, hres⟩
        · right
          refine ⟨?_, ?_⟩
          · intro dir1 hmem
            rcases List.mem_cons.mp hmem with rfl | hmem
            · exact hb
            · exact hnp dir1 hmem
          · rcases h with ⟨hle, hres⟩ | ⟨pre, dir1, post, hsplit, hlt, hch, hres⟩
            · left
              refine ⟨?_, hres⟩
              intro dir1 hmem he
              rcases List.mem_cons.mp hmem with rfl | hmem
              · exact absurd he hne
              · exact hle dir1 hmem he
            · right
              refine ⟨dir :: pre, dir1, post, by simp [hsplit], hlt, ⟨hch.1, ?_, hch.2.2⟩, hres⟩
              intro dir2 hmem he
              rcases List.mem_cons.mp hmem with rfl | hmem
              · exact absurd he hne
              · exact hch.2.1 dir2 hmem he
      | none =>
        have he : EmptyAt g v.x v.y dir := hc
        by_cases hlt : m > cost v.x v.y p.x p.y (directionToDistance dir)
        · have hrec : scanDirections g v p (dir :: rest) m md
              = scanDirections g v p rest (cost v.x v.y p.x p.y (directionToDistance dir))
                  (directionToDistance dir) := by
            simp [scanDirections, hb, hc, hlt]
          rw [hrec]
          rcases ih (cost v.x v.y p.x p.y (directionToDistance dir)) (directionToDistance dir)
            with ⟨⟨dir1, hmem, hp1⟩, hres⟩ | ⟨hnp, h⟩
          · left
            exact ⟨⟨dir1, by simp [hmem], hp1⟩, hres⟩
          · right
            refine ⟨?_, Or.inr ?_⟩
            · intro dir1 hmem
              rcases List.mem_cons.mp hmem with rfl | hmem
              · exact hb
              · exact hnp dir1 hmem
            · rcases h with ⟨hle, hres⟩ | ⟨pre, dir1, post, hsplit, hlt1, hch, hres⟩
              · exact ⟨[], dir, rest, by simp, hlt, ⟨he, by simp, hle⟩, hres⟩
              · refine ⟨dir :: pre, dir1, post, by simp [hsplit], by omega,
                  ⟨hch.1, ?_, hch.2.2⟩, hres⟩
                intro dir2 hmem he2
                rcases List.mem_cons.mp hmem with rfl | hmem
                · exact hlt1
                · exact hch.2.1 dir2 hmem he2
        · have hrec : scanDirections g v p (dir :: rest) m md
              = scanDirections g v p rest m md := by
            simp [scanDirections, hb, hc, hlt]
          rw [hrec]
          rcases ih m md with ⟨⟨dir1, hmem, hp1⟩, hres⟩ | ⟨hnp, h⟩
          · left
            exact ⟨⟨dir1, by simp [hmem], hp1⟩, hres⟩
          · right
            refine ⟨?_, ?_⟩
            · intro dir1 hmem
              rcases List.mem_cons.mp hmem with rfl | hmem
              · exact hb
              · exact hnp dir1 hmem
            · rcases h with ⟨hle, hres⟩ | ⟨pre, dir1, post, hsplit, hlt1, hch, hres⟩
              · left
                refine ⟨?_, hres⟩
                intro dir1 hmem he1
                rcases List.mem_cons.mp hmem with rfl | hmem
                · omega
                · exact hle dir1 hmem he1
              · right
                refine ⟨dir :: pre, dir1, post, by simp [hsplit], hlt1,
                  ⟨hch.1, ?_, hch.2.2⟩, hres⟩
                intro dir2 hmem he2
                rcases List.mem_cons.mp hmem with rfl | hmem
                · omega
                · exact hch.2.1 dir2 hmem he2
/-! ## One pursuer's turn -/

theorem mem_allDirections (dir : Direction) : dir ∈ allDirections := by
  cases dir <;> simp [allDirections]

theorem adjacent_iff {x1 y1 x2 y2 : Int} :
    Adjacent x1 y1 x2 y2 ↔
      (-1 ≤ x1 - x2 ∧ x1 - x2 ≤ 1 ∧ -1 ≤ y1 - y2 ∧ y1 - y2 ≤ 1 ∧ (x1 ≠ x2 ∨ y1 ≠ y2)) := by
  unfold Adjacent
  rcases abs_cases (x1 - x2) with ⟨h1, h2⟩ | ⟨h1, h2⟩ <;>
    rcases abs_cases (y1 - y2) with ⟨h3, h4⟩ | ⟨h3, h4⟩ <;>
    rcases max_cases |x1 - x2| |y1 - y2| with ⟨h5, h6⟩ | ⟨h5, h6⟩ <;>
    rw [h5] <;> constructor <;> intro h <;> omega

theorem adjacent_iff_exists_dir {x1 y1 x2 y2 : Int} :
    Adjacent x1 y1 x2 y2 ↔
      ∃ dir : Direction, x1 + (directionToDistance dir).x = x2 ∧
        y1 + (directionToDistance dir).y = y2 := by
  rw [adjacent_iff]
  constructor
  · rintro ⟨h1, h2, h3, h4, h5⟩
    have hx : x2 = x1 - 1 ∨ x2 = x1 ∨ x2 = x1 + 1 := by omega
    have hy : y2 = y1 - 1 ∨ y2 = y1 ∨ y2 = y1 + 1 := by omega
    rcases hx with hx | hx | hx <;> rcases hy with hy | hy | hy
    · exact ⟨Direction.upLeft, by simp [directionToDistance]; omega, by
        simp [directionToDistance]; omega⟩
    · exact ⟨Direction.left, by simp [directionToDistance]; omega, by
        simp [directionToDistance]; omega⟩
    · exact ⟨Direction.downLeft, by simp [directionToDistance]; omega, by
        simp [directionToDistance]; omega⟩
    · exact ⟨Direction.up, by simp [directionToDistance]; omega, by
        simp [directionToDistance]; omega⟩
    · omega
    · exact ⟨Direction.down, by simp [directionToDistance]; omega, by
        simp [directionToDistance]; omega⟩
    · exact ⟨Direction.upRight, by simp [directionToDistance]; omega, by
        simp [directionToDistance]; omega⟩
    · exact ⟨Direction.right, by simp [directionToDistance]; omega, by
        simp [directionToDistance]; omega⟩
    · exact ⟨Direction.downRight, by simp [directionToDistance]; omega, by
        simp [directionToDistance]; omega⟩
  · rintro ⟨dir, h1, h2⟩
    cases dir <;> simp [directionToDistance] at h1 h2 <;> omega

/-- The cell that holds the player is the cell stored in the player's item. -/
theorem fieldHas_player_iff {g : Vampires} (hv : Valid g) {p : Item}
    (hp : g.items[g.m_player]? = some p) (x y : Int) :
    fieldHas g x y Kind.player = some true ↔ (x = p.x ∧ y = p.y) := by
  constructor
  · intro h
    obtain ⟨id, it, hc, hit, hk⟩ := fieldHas_eq_true.mp h
    have hid := hv.player_unique id it hit hk
    subst hid
    rw [hp] at hit
    injection hit with e
    subst e
    obtain ⟨it1, hit1, hx, hy⟩ := hv.cell_item x y _ hc
    rw [hp] at hit1
    injection hit1 with e
    subst e
    exact ⟨hx.symm, hy.symm⟩
  · rintro ⟨rfl, rfl⟩
    obtain ⟨p1, hp1, hk1⟩ := hv.player
    rw [hp] at hp1
    injection hp1 with e
    subst e
    exact fieldHas_eq_true.mpr ⟨g.m_player, p, hv.item_cell _ _ hp, hp, hk1⟩

theorem isStep_ne_zero {d : Distance} (hd : IsStep d) (x y : Int) :
    ¬ (x + d.x = x ∧ y + d.y = y) := by
  obtain ⟨_, _, h⟩ := hd
  omega

/-- The body of the loop for one pursuer, in a consistent state: the three cases of the code. -/
theorem vampireStep_spec {g : Vampires} (hv : Valid g) {v : Vampire} {it p : Item}
    (hit : g.items[v.item]? = some it) (hk : it.kind = Kind.vampire)
    (hp : g.items[g.m_player]? = some p) :
    (Adjacent it.x it.y p.x p.y ∧ vampireStep g v = some StepResult.lost) ∨
    (¬ Adjacent it.x it.y p.x p.y ∧
      (((∀ dir, EmptyAt g it.x it.y dir →
            INT_MAX ≤ cost it.x it.y p.x p.y (directionToDistance dir)) ∧
          vampireStep g v = some StepResult.skipped) ∨
        (∃ pre dir post g1, allDirections = pre ++ dir :: post ∧
          cost it.x it.y p.x p.y (directionToDistance dir) < INT_MAX ∧
          IsChoice g it.x it.y p.x p.y pre dir post ∧
          MovedTo g g1 v.item it (it.x + (directionToDistance dir).x)
            (it.y + (directionToDistance dir).y) ∧
          Valid g1 ∧ vampireStep g v = some (StepResult.moved g1)))) := by
  have hin := interior_of_item hv hit (by rw [hk]; decide)
  rcases scanDirections_spec hv (v := it) (p := p) hin allDirections INT_MAX {}
    with ⟨⟨dir, _, hpl⟩, hres⟩ | ⟨hnp, h⟩
  · left
    refine ⟨adjacent_iff_exists_dir.mpr ⟨dir, ?_⟩, ?_⟩
    · obtain ⟨h1, h2⟩ := (fieldHas_player_iff hv hp _ _).mp hpl
      exact ⟨h1, h2⟩
    · simp [vampireStep, hit, hp, hres]
  · right
    refine ⟨?_, ?_⟩
    · intro hadj
      obtain ⟨dir, h1, h2⟩ := adjacent_iff_exists_dir.mp hadj
      have := hnp dir (mem_allDirections dir)
      rw [(fieldHas_player_iff hv hp _ _).mpr ⟨h1, h2⟩] at this
      simp at this
    · rcases h with ⟨hle, hres⟩ | ⟨pre, dir, post, hsplit, hlt, hch, hres⟩
      · left
        refine ⟨fun dir he => hle dir (mem_allDirections dir) he, ?_⟩
        simp [vampireStep, hit, hp, hres]
      · right
        obtain ⟨g1, hg1, hm⟩ := moveItem_eq hv hit hch.1
        have hv1 : Valid g1 := hm.valid hv hit hch.1 (by rw [hk]; decide)
        refine ⟨pre, dir, post, g1, hsplit, hlt, hch, hm, hv1, ?_⟩
        have hne : ¬ (cost it.x it.y p.x p.y (directionToDistance dir) = INT_MAX) := by omega
        simp only [vampireStep, hit, hp, hres, hne, if_false, hg1]
/-! ## The main loop of `moveVampires` -/

theorem LoopInv.player_ne {g : Vampires} {vs : List Vampire} (hi : LoopInv g vs) {v : Vampire}
    (hmem : v ∈ vs) : g.m_player ≠ v.item := by
  intro h
  obtain ⟨it, hit, hk⟩ := hi.kinds v hmem
  obtain ⟨p, hp, hpk⟩ := hi.valid.player
  rw [h, hit] at hp
  injection hp with e
  subst e
  rw [hk] at hpk
  exact absurd hpk (by decide)

theorem LoopInv.tail {g : Vampires} {v : Vampire} {rest : List Vampire}
    (hi : LoopInv g (v :: rest)) : LoopInv g rest :=
  ⟨hi.valid, fun v1 h => hi.kinds v1 (List.mem_cons_of_mem _ h), (List.nodup_cons.mp hi.nodup).2⟩

theorem LoopInv.ne_head {g : Vampires} {v : Vampire} {rest : List Vampire}
    (hi : LoopInv g (v :: rest)) {v1 : Vampire} (hmem : v1 ∈ rest) : v1.item ≠ v.item := by
  intro h
  have := (List.nodup_cons.mp hi.nodup).1
  exact this (List.mem_map.mpr ⟨v1, hmem, h⟩)

/-- The invariant of the loop holds again after the pursuer at the head was relocated. -/
theorem LoopInv.after_move {g g1 : Vampires} {v : Vampire} {rest : List Vampire}
    (hi : LoopInv g (v :: rest)) {it : Item} (hit : g.items[v.item]? = some it) {x y : Int}
    (hm : MovedTo g g1 v.item it x y) (hv1 : Valid g1) : LoopInv g1 rest := by
  refine ⟨hv1, ?_, (List.nodup_cons.mp hi.nodup).2⟩
  intro v1 hmem
  obtain ⟨it1, hit1, hk1⟩ := hi.kinds v1 (List.mem_cons_of_mem _ hmem)
  refine ⟨it1, ?_, hk1⟩
  rw [hm.getItem hit, if_neg (hi.ne_head hmem)]
  exact hit1

theorem nextToPlayer_after_move {g g1 : Vampires} {v : Vampire} {rest : List Vampire}
    (hi : LoopInv g (v :: rest)) {it : Item} (hit : g.items[v.item]? = some it) {x y : Int}
    (hm : MovedTo g g1 v.item it x y) {id : Nat} (hne : id ≠ v.item) :
    NextToPlayer g1 id ↔ NextToPlayer g id := by
  unfold NextToPlayer
  rw [hm.getItem hit, hm.getItem hit, hm.m_player, if_neg hne,
    if_neg (hi.player_ne (List.mem_cons_self _ _))]

/-- The first pursuer of the loop: the three cases of the body and what the loop does next. -/
theorem vampiresLoop_cons {g : Vampires} {v : Vampire} {rest : List Vampire}
    (hi : LoopInv g (v :: rest)) (moved : Bool) :
    ∃ it p, g.items[v.item]? = some it ∧ it.kind = Kind.vampire ∧
      g.items[g.m_player]? = some p ∧
      ((NextToPlayer g v.item ∧ vampireStep g v = some StepResult.lost ∧
          vampiresLoop (v :: rest) g moved = some (VampireResult.lost, g)) ∨
       (¬ NextToPlayer g v.item ∧
          (∀ dir, EmptyAt g it.x it.y dir →
            INT_MAX ≤ cost it.x it.y p.x p.y (directionToDistance dir)) ∧
          vampireStep g v = some StepResult.skipped ∧
          vampiresLoop (v :: rest) g moved = vampiresLoop rest g moved) ∨
       (¬ NextToPlayer g v.item ∧
          ∃ pre dir post g1, allDirections = pre ++ dir :: post ∧
            IsChoice g it.x it.y p.x p.y pre dir post ∧
            MovedTo g g1 v.item it (it.x + (directionToDistance dir).x)
              (it.y + (directionToDistance dir).y) ∧
            LoopInv g1 rest ∧
            vampireStep g v = some (StepResult.moved g1) ∧
            vampiresLoop (v :: rest) g moved = vampiresLoop rest g1 true)) := by
  obtain ⟨it, hit, hk⟩ := hi.kinds v (List.mem_cons_self _ _)
  obtain ⟨p, hp, _⟩ := hi.valid.player
  have hnext : NextToPlayer g v.item ↔ Adjacent it.x it.y p.x p.y := by
    unfold NextToPlayer
    constructor
    · rintro ⟨it1, p1, h1, h2, h3⟩
      rw [hit] at h1
      rw [hp] at h2
      injection h1 with e1
      injection h2 with e2
      subst e1
      subst e2
      exact h3
    · intro h
      exact ⟨it, p, hit, hp, h⟩
  refine ⟨it, p, hit, hk, hp, ?_⟩
  rcases vampireStep_spec hi.valid hit hk hp with ⟨hadj, hs⟩ | ⟨hadj, h⟩
  · left
    exact ⟨hnext.mpr hadj, hs, by simp [vampiresLoop, hs]⟩
  · right
    rcases h with ⟨hle, hs⟩ | ⟨pre, dir, post, g1, hsplit, _, hch, hm, hv1, hs⟩
    · left
      exact ⟨fun h => hadj (hnext.mp h), hle, hs, by simp [vampiresLoop, hs]⟩
    · right
      exact ⟨fun h => hadj (hnext.mp h), pre, dir, post, g1, hsplit, hch, hm,
        hi.after_move hit hm hv1, hs, by simp [vampiresLoop, hs]⟩

/-- The loop returns, in a consistent state, and leaves alone the items that are not among the
pursuers it processes. -/
theorem vampiresLoop_total :
    ∀ (vs : List Vampire) (g : Vampires) (moved : Bool), LoopInv g vs →
      ∃ r g1, vampiresLoop vs g moved = some (r, g1) ∧ Valid g1 ∧
        g1.m_player = g.m_player ∧ g1.width = g.width ∧ g1.height = g.height ∧
        g1.m_vampires = g.m_vampires ∧
        g1.items.map (fun i => i.kind) = g.items.map (fun i => i.kind) ∧
        (∀ id, id ∉ vs.map (fun v => v.item) → g1.items[id]? = g.items[id]?) := by
  intro vs
  induction vs with
  | nil =>
    intro g moved hi
    exact ⟨_, g, rfl, hi.valid, rfl, rfl, rfl, rfl, rfl, fun _ _ => rfl⟩
  | cons v rest ih =>
    intro g moved hi
    obtain ⟨it, p, hit, hk, hp, h⟩ := vampiresLoop_cons hi moved
    rcases h with ⟨_, _, hl⟩ | ⟨_, _, _, hl⟩ | ⟨_, pre, dir, post, g1, _, _, hm, hi1, _, hl⟩
    · exact ⟨_, g, hl, hi.valid, rfl, rfl, rfl, rfl, rfl, fun _ _ => rfl⟩
    · obtain ⟨r, g2, h1, h2, h3, h4, h5, h6, h7, h8⟩ := ih g moved hi.tail
      refine ⟨r, g2, hl.trans h1, h2, h3, h4, h5, h6, h7, ?_⟩
      intro id hid
      exact h8 id (fun hmem => hid (by simp at hmem ⊢; exact Or.inr hmem))
    · obtain ⟨r, g2, h1, h2, h3, h4, h5, h6, h7, h8⟩ := ih g1 true hi1
      refine ⟨r, g2, hl.trans h1, h2, h3.trans hm.m_player, h4.trans hm.width,
        h5.trans hm.height, h6.trans hm.m_vampires, h7.trans (hm.kinds hit), ?_⟩
      intro id hid
      have hne : id ≠ v.item := by
        rintro rfl
        exact hid (by simp)
      rw [h8 id (fun hmem => hid (by simp at hmem ⊢; exact Or.inr hmem)), hm.getItem hit,
        if_neg hne]
theorem vampiresLoop_lost_iff :
    ∀ (vs : List Vampire) (g : Vampires) (moved : Bool), LoopInv g vs →
      ∀ r g1, vampiresLoop vs g moved = some (r, g1) →
        (r = VampireResult.lost ↔ ∃ v ∈ vs, NextToPlayer g v.item) := by
  intro vs
  induction vs with
  | nil =>
    intro g moved _ r g1 h
    simp only [vampiresLoop, Option.some.injEq, Prod.mk.injEq] at h
    obtain ⟨h1, _⟩ := h
    subst h1
    cases moved <;> simp
  | cons v rest ih =>
    intro g moved hi r g1 h
    obtain ⟨it, p, hit, hk, hp, hc⟩ := vampiresLoop_cons hi moved
    rcases hc with ⟨hn, _, hl⟩ | ⟨hn, _, _, hl⟩ | ⟨hn, pre, dir, post, g2, _, _, hm, hi1, _, hl⟩
    · rw [hl] at h
      simp only [Option.some.injEq, Prod.mk.injEq] at h
      obtain ⟨h1, _⟩ := h
      subst h1
      simp only [true_iff]
      exact ⟨v, List.mem_cons_self _ _, hn⟩
    · rw [hl] at h
      rw [ih g moved hi.tail r g1 h]
      constructor
      · rintro ⟨v1, hmem, h1⟩
        exact ⟨v1, List.mem_cons_of_mem _ hmem, h1⟩
      · rintro ⟨v1, hmem, h1⟩
        rcases List.mem_cons.mp hmem with rfl | hmem
        · exact absurd h1 hn
        · exact ⟨v1, hmem, h1⟩
    · rw [hl] at h
      rw [ih g2 true hi1 r g1 h]
      constructor
      · rintro ⟨v1, hmem, h1⟩
        exact ⟨v1, List.mem_cons_of_mem _ hmem,
          (nextToPlayer_after_move hi hit hm (hi.ne_head hmem)).mp h1⟩
      · rintro ⟨v1, hmem, h1⟩
        rcases List.mem_cons.mp hmem with rfl | hmem
        · exact absurd h1 hn
        · exact ⟨v1, hmem, (nextToPlayer_after_move hi hit hm (hi.ne_head hmem)).mpr h1⟩

theorem vampiresLoop_ok :
    ∀ (vs : List Vampire) (g : Vampires) (moved : Bool), LoopInv g vs →
      ∀ g1, vampiresLoop vs g moved = some (VampireResult.ok, g1) →
        moved = true ∨ ∃ v ∈ vs, positionOf g1 v.item ≠ positionOf g v.item := by
  intro vs
  induction vs with
  | nil =>
    intro g moved _ g1 h
    cases moved
    · simp [vampiresLoop] at h
    · exact Or.inl rfl
  | cons v rest ih =>
    intro g moved hi g1 h
    obtain ⟨it, p, hit, hk, hp, hc⟩ := vampiresLoop_cons hi moved
    rcases hc with ⟨_, _, hl⟩ | ⟨_, _, _, hl⟩ | ⟨_, pre, dir, post, g2, _, _, hm, hi1, _, hl⟩
    · rw [hl] at h
      simp at h
    · rw [hl] at h
      rcases ih g moved hi.tail g1 h with h1 | ⟨v1, hmem, h1⟩
      · exact Or.inl h1
      · exact Or.inr ⟨v1, List.mem_cons_of_mem _ hmem, h1⟩
    · rw [hl] at h
      right
      refine ⟨v, List.mem_cons_self _ _, ?_⟩
      obtain ⟨r, g3, h1, _, _, _, _, _, _, hframe⟩ := vampiresLoop_total rest g2 true hi1
      rw [h] at h1
      simp only [Option.some.injEq, Prod.mk.injEq] at h1
      obtain ⟨_, h2⟩ := h1
      subst h2
      have hnot : v.item ∉ rest.map (fun v => v.item) := (List.nodup_cons.mp hi.nodup).1
      unfold positionOf
      rw [hframe v.item hnot, hm.getItem hit, if_pos rfl, hit]
      simp only [Option.map_some', ne_eq, Option.some.injEq, Prod.mk.injEq]
      exact isStep_ne_zero (isStep_directionToDistance dir) it.x it.y

theorem updateDistances_eq {g : Vampires} {p : Item} (hp : g.items[g.m_player]? = some p) :
    ∀ l : List Vampire, (∀ v ∈ l, ∃ it, g.items[v.item]? = some it) →
      ∃ l1, updateDistances g l = some l1 ∧
        l1.map (fun v => v.item) = l.map (fun v => v.item) ∧
        ∀ v ∈ l1, ∃ it, g.items[v.item]? = some it ∧
          v.d = wrapInt (wrapInt ((it.x - p.x) * (it.x - p.x))
            + wrapInt ((it.y - p.y) * (it.y - p.y))) := by
  intro l
  induction l with
  | nil =>
    intro _
    exact ⟨[], rfl, rfl, by simp⟩
  | cons v rest ih =>
    intro h
    obtain ⟨it, hit⟩ := h v (List.mem_cons_self _ _)
    obtain ⟨l1, h1, h2, h3⟩ := ih (fun v1 hmem => h v1 (List.mem_cons_of_mem _ hmem))
    refine ⟨{ v with d := wrapInt (wrapInt ((it.x - p.x) * (it.x - p.x))
      + wrapInt ((it.y - p.y) * (it.y - p.y))) } :: l1, ?_, ?_, ?_⟩
    · simp [updateDistances, hit, hp, h1]
    · simp [h2]
    · intro v1 hmem
      rcases List.mem_cons.mp hmem with rfl | hmem
      · exact ⟨it, hit, rfl⟩
      · exact h3 v1 hmem

/-- The order of processing exists, rearranges the pursuer list, and carries the squared
distances to the player. -/
theorem processingOrder_eq {g : Vampires} (hv : Valid g) {sort : List Vampire → List Vampire}
    (hs : SortSpec sort) :
    ∃ sorted p, processingOrder sort g = some sorted ∧ g.items[g.m_player]? = some p ∧
      (sorted.map (fun v => v.item)).Perm (g.m_vampires.map (fun v => v.item)) ∧
      sorted.Pairwise (fun v1 v2 => ¬ (v2.d > v1.d)) ∧
      (∀ v ∈ sorted, ∃ it, g.items[v.item]? = some it ∧
        v.d = wrapInt (wrapInt ((it.x - p.x) * (it.x - p.x))
          + wrapInt ((it.y - p.y) * (it.y - p.y)))) := by
  obtain ⟨p, hp, _⟩ := hv.player
  obtain ⟨l1, h1, h2, h3⟩ := updateDistances_eq hp g.m_vampires (fun v hmem => by
    obtain ⟨it, hit, _⟩ := hv.vampires v hmem
    exact ⟨it, hit⟩)
  obtain ⟨hperm, hsorted⟩ := hs l1
  refine ⟨sort l1, p, by simp [processingOrder, h1], hp, ?_,
    hsorted.imp (fun h => by simpa [compareVampires] using h), ?_⟩
  · rw [← h2]
    exact hperm.map _
  · intro v hmem
    exact h3 v (hperm.mem_iff.mp hmem)

theorem mem_items_of_perm {l1 l2 : List Vampire}
    (h : (l1.map (fun v => v.item)).Perm (l2.map (fun v => v.item))) {P : Nat → Prop} :
    (∃ v ∈ l1, P v.item) ↔ (∃ v ∈ l2, P v.item) := by
  constructor
  · rintro ⟨v, hmem, hP⟩
    have : v.item ∈ l2.map (fun v => v.item) := h.mem_iff.mp (List.mem_map.mpr ⟨v, hmem, rfl⟩)
    obtain ⟨v2, hmem2, he⟩ := List.mem_map.mp this
    exact ⟨v2, hmem2, by rw [he]; exact hP⟩
  · rintro ⟨v, hmem, hP⟩
    have : v.item ∈ l1.map (fun v => v.item) := h.mem_iff.mpr (List.mem_map.mpr ⟨v, hmem, rfl⟩)
    obtain ⟨v2, hmem2, he⟩ := List.mem_map.mp this
    exact ⟨v2, hmem2, by rw [he]; exact hP⟩

/-- The state in which the main loop starts satisfies the invariant of the loop. -/
theorem loopInv_start {g : Vampires} (hv : Valid g) {sorted : List Vampire}
    (hperm : (sorted.map (fun v => v.item)).Perm (g.m_vampires.map (fun v => v.item))) :
    LoopInv { g with m_vampires := sorted } sorted := by
  have hkinds : ∀ v ∈ sorted, ∃ it, g.items[v.item]? = some it ∧ it.kind = Kind.vampire := by
    intro v hmem
    have : v.item ∈ g.m_vampires.map (fun v => v.item) :=
      hperm.mem_iff.mp (List.mem_map.mpr ⟨v, hmem, rfl⟩)
    obtain ⟨v2, hmem2, he⟩ := List.mem_map.mp this
    obtain ⟨it, hit, hk⟩ := hv.vampires v2 hmem2
    exact ⟨it, by rw [← he]; exact hit, hk⟩
  have hnodup : (sorted.map (fun v => v.item)).Nodup := hperm.nodup_iff.mpr hv.vampires_nodup
  exact ⟨⟨hv.bounds, hv.cell_item, hv.item_cell, hv.ring, hv.player, hv.player_unique,
    hkinds, hnodup⟩, hkinds, hnodup⟩

/-- In a consistent state `moveVampires` unfolds to its main loop, started in a state that
differs from the given one by the pursuer list only. -/
theorem moveVampires_eq {g : Vampires} (hv : Valid g) {sort : List Vampire → List Vampire}
    (hs : SortSpec sort) :
    ∃ sorted, processingOrder sort g = some sorted ∧
      (sorted.map (fun v => v.item)).Perm (g.m_vampires.map (fun v => v.item)) ∧
      LoopInv { g with m_vampires := sorted } sorted ∧
      moveVampires sort g = vampiresLoop sorted { g with m_vampires := sorted } false ∧
      turns sort g = loopTurns sorted { g with m_vampires := sorted } := by
  obtain ⟨sorted, p, h1, _, hperm, _, _⟩ := processingOrder_eq hv hs
  exact ⟨sorted, h1, hperm, loopInv_start hv hperm, by simp [moveVampires, h1],
    by simp [turns, h1]⟩
theorem sortSpec_sortByDistance : SortSpec sortByDistance := by
  intro l
  constructor
  · exact List.perm_insertionSort _ l
  · have htot : IsTotal Vampire (fun v1 v2 => v1.d ≥ v2.d) := ⟨fun a b => le_total b.d a.d⟩
    have htrans : IsTrans Vampire (fun v1 v2 => v1.d ≥ v2.d) :=
      ⟨fun a b c h1 h2 => le_trans h2 h1⟩
    have h : List.Pairwise (fun v1 v2 : Vampire => v1.d ≥ v2.d) (sortByDistance l) :=
      List.sorted_insertionSort (fun v1 v2 : Vampire => v1.d ≥ v2.d) l
    refine List.Pairwise.imp ?_ h
    intro a b hab
    simpa [compareVampires] using hab

theorem noOverlap_of_valid {g : Vampires} (hv : Valid g) : NoOverlap g := by
  intro id1 id2 it1 it2 h1 h2 hne
  rintro ⟨hx, hy⟩
  have c1 := hv.item_cell id1 it1 h1
  have c2 := hv.item_cell id2 it2 h2
  rw [hx, hy, c2] at c1
  injection c1 with c1
  injection c1 with c1
  exact hne c1.symm

theorem cost_eq_specCost (vx vy px py : Int) (dir : Direction) :
    cost vx vy px py (directionToDistance dir)
      = specCost vx vy px py (directionToDistance dir).x (directionToDistance dir).y := by
  cases dir <;> simp [cost, specCost, directionToDistance]

/-- At every turn of the loop the invariant of the loop holds, with the pursuer of that turn
at the head, and the dimensions are those of the start. -/
theorem loopTurns_inv :
    ∀ (vs : List Vampire) (g : Vampires), LoopInv g vs →
      ∀ t ∈ loopTurns vs g, ∃ rest, LoopInv t.2 (t.1 :: rest) ∧
        t.2.width = g.width ∧ t.2.height = g.height := by
  intro vs
  induction vs with
  | nil =>
    intro g _ t ht
    simp [loopTurns] at ht
  | cons v rest ih =>
    intro g hi t ht
    obtain ⟨it, p, hit, hk, hp, hc⟩ := vampiresLoop_cons hi false
    rw [loopTurns] at ht
    rcases List.mem_cons.mp ht with rfl | ht
    · exact ⟨rest, hi, rfl, rfl⟩
    · rcases hc with ⟨_, hs, _⟩ | ⟨_, _, hs, _⟩ | ⟨_, pre, dir, post, g1, _, _, hm, hi1, hs, _⟩
      · rw [hs] at ht
        simp at ht
      · rw [hs] at ht
        exact ih g hi.tail t ht
      · rw [hs] at ht
        obtain ⟨rest1, h1, h2, h3⟩ := ih g1 hi1 t ht
        exact ⟨rest1, h1, h2.trans hm.width, h3.trans hm.height⟩

/-- The pursuers whose turn comes are an initial segment of the list given to the loop. -/
theorem loopTurns_initial :
    ∀ (vs : List Vampire) (g : Vampires),
      ∃ rest, (loopTurns vs g).map (fun t => t.1) ++ rest = vs := by
  intro vs
  induction vs with
  | nil =>
    intro g
    exact ⟨[], rfl⟩
  | cons v rest ih =>
    intro g
    rw [loopTurns]
    cases hs : vampireStep g v with
    | none => exact ⟨rest, by simp⟩
    | some s =>
      cases s with
      | lost => exact ⟨rest, by simp⟩
      | skipped =>
        obtain ⟨r, hr⟩ := ih g
        exact ⟨r, by simp [hr]⟩
      | moved g1 =>
        obtain ⟨r, hr⟩ := ih g1
        exact ⟨r, by simp [hr]⟩

theorem turns_inv {g : Vampires} (hv : Valid g) {sort : List Vampire → List Vampire}
    (hs : SortSpec sort) :
    ∀ t ∈ turns sort g, ∃ rest, LoopInv t.2 (t.1 :: rest) ∧
      t.2.width = g.width ∧ t.2.height = g.height := by
  obtain ⟨sorted, _, _, hi, _, ht⟩ := moveVampires_eq hv hs
  rw [ht]
  intro t hmem
  exact loopTurns_inv sorted _ hi t hmem

theorem caughtGame_valid : Valid caughtGame := valid_of_validCheck (by decide)

/-- C4: in a consistent state `moveVampires` returns a result, and the result is `lost` exactly
when, at the start of the call, some pursuer of the pursuer list stands in one of the 8 cells
neighbouring the cell of the player. -/
theorem moveVampires_lost_iff (sort : List Vampire → List Vampire) (hs : SortSpec sort)
    (g : Vampires) (hv : Valid g) :
    ∃ r g1, moveVampires sort g = some (r, g1) ∧
      (r = VampireResult.lost ↔ ∃ v ∈ g.m_vampires, NextToPlayer g v.item) := by
  obtain ⟨sorted, _, hperm, hi, hmv, _⟩ := moveVampires_eq hv hs
  obtain ⟨r, g1, hl, _⟩ := vampiresLoop_total sorted _ false hi
  refine ⟨r, g1, hmv.trans hl, ?_⟩
  rw [vampiresLoop_lost_iff sorted _ false hi r g1 hl]
  exact mem_items_of_perm (P := fun id => NextToPlayer g id) hperm

/-- Witness of C4 on the example field, with insertion sort. -/
theorem moveVampires_lost_iff_witness :
    SortSpec sortByDistance ∧ Valid exampleGame ∧
    ∃ r g1, moveVampires sortByDistance exampleGame = some (r, g1) ∧
      (r = VampireResult.lost ↔ ∃ v ∈ exampleGame.m_vampires, NextToPlayer exampleGame v.item) :=
  ⟨sortSpec_sortByDistance, exampleGame_valid,
    moveVampires_lost_iff sortByDistance sortSpec_sortByDistance exampleGame exampleGame_valid⟩

/-- C5: at the turn of a pursuer that `moveVampires` relocates, the pursuer goes one step in a
direction whose destination is empty at that turn, whose cost is strictly below the cost of
every earlier direction of the enumeration with an empty destination, and at most the cost of
every later one; the cost is the one of the specification. -/
theorem moveVampires_choice (sort : List Vampire → List Vampire) (hs : SortSpec sort)
    (g : Vampires) (hv : Valid g) (t : Vampire × Vampires) (ht : t ∈ turns sort g)
    (g1 : Vampires) (hstep : vampireStep t.2 t.1 = some (StepResult.moved g1)) :
    ∃ (it p : Item) (pre : List Direction) (dir : Direction) (post : List Direction),
      t.2.items[t.1.item]? = some it ∧ t.2.items[t.2.m_player]? = some p ∧
      allDirections = pre ++ dir :: post ∧
      IsChoice t.2 it.x it.y p.x p.y pre dir post ∧
      g1.items[t.1.item]? = some { it with x := it.x + (directionToDistance dir).x,
                                           y := it.y + (directionToDistance dir).y } ∧
      cellAt g1.m_field (it.x + (directionToDistance dir).x) (it.y + (directionToDistance dir).y)
        = some (some t.1.item) ∧
      ∀ dir1 : Direction, cost it.x it.y p.x p.y (directionToDistance dir1)
        = specCost it.x it.y p.x p.y (directionToDistance dir1).x (directionToDistance dir1).y := by
  obtain ⟨rest, hi, _, _⟩ := turns_inv hv hs t ht
  obtain ⟨it, p, hit, hk, hp, hc⟩ := vampiresLoop_cons hi false
  rcases hc with ⟨_, hs1, _⟩ | ⟨_, _, hs1, _⟩ | ⟨_, pre, dir, post, g2, hsplit, hch, hm, _, hs1, _⟩
  · rw [hs1] at hstep
    simp at hstep
  · rw [hs1] at hstep
    simp at hstep
  · rw [hs1] at hstep
    simp only [Option.some.injEq, StepResult.moved.injEq] at hstep
    subst hstep
    refine ⟨it, p, pre, dir, post, hit, hp, hsplit, hch, ?_, ?_, fun dir1 => cost_eq_specCost _ _ _ _ dir1⟩
    · rw [hm.getItem hit, if_pos rfl]
    · rw [hm.cells, if_pos ⟨rfl, rfl⟩]

/-- Witness of C5 on the example field: the first pursuer processed is the one at `(1, 1)`; it
goes to `(2, 2)`. -/
theorem moveVampires_choice_witness :
    ∃ (t : Vampire × Vampires) (g1 : Vampires),
      t ∈ turns sortByDistance exampleGame ∧
      vampireStep t.2 t.1 = some (StepResult.moved g1) ∧
      ∃ (it p : Item) (pre : List Direction) (dir : Direction) (post : List Direction),
        t.2.items[t.1.item]? = some it ∧ t.2.items[t.2.m_player]? = some p ∧
        allDirections = pre ++ dir :: post ∧
        IsChoice t.2 it.x it.y p.x p.y pre dir post ∧
        g1.items[t.1.item]? = some { it with x := it.x + (directionToDistance dir).x,
                                             y := it.y + (directionToDistance dir).y } ∧
        cellAt g1.m_field (it.x + (directionToDistance dir).x)
          (it.y + (directionToDistance dir).y) = some (some t.1.item) ∧
        ∀ dir1 : Direction, cost it.x it.y p.x p.y (directionToDistance dir1)
          = specCost it.x it.y p.x p.y (directionToDistance dir1).x
              (directionToDistance dir1).y := by
  have ht : ((⟨24, 8⟩, { exampleGame with m_vampires := [⟨24, 8⟩, ⟨25, 5⟩] }) :
      Vampire × Vampires) ∈ turns sortByDistance exampleGame := by decide
  cases h : vampireStep { exampleGame with m_vampires := [⟨24, 8⟩, ⟨25, 5⟩] } ⟨24, 8⟩ with
  | none => exact absurd h (by decide)
  | some s =>
    cases s with
    | lost => exact absurd h (by decide)
    | skipped => exact absurd h (by decide)
    | moved g1 =>
      exact ⟨_, g1, ht, h,
        moveVampires_choice sortByDistance sortSpec_sortByDistance exampleGame exampleGame_valid
          _ ht g1 h⟩

/-- C7: in a consistent state `moveVampires` returns a result, so that no assertion of
`moveItem` fails; every relocation goes to a cell that is empty at the turn of the relocated
pursuer; the state after the call is consistent and no two items are stored at the same
cell. -/
theorem moveVampires_safe (sort : List Vampire → List Vampire) (hs : SortSpec sort)
    (g : Vampires) (hv : Valid g) :
    ∃ r g1, moveVampires sort g = some (r, g1) ∧ Valid g1 ∧ NoOverlap g1 ∧
      ∀ t ∈ turns sort g, ∀ g2, vampireStep t.2 t.1 = some (StepResult.moved g2) →
        ∃ (it : Item) (x y : Int), t.2.items[t.1.item]? = some it ∧
          cellAt t.2.m_field x y = some none ∧
          g2.items[t.1.item]? = some { it with x := x, y := y } ∧
          cellAt g2.m_field x y = some (some t.1.item) ∧
          cellAt g2.m_field it.x it.y = some none := by
  obtain ⟨sorted, _, hperm, hi, hmv, _⟩ := moveVampires_eq hv hs
  obtain ⟨r, g1, hl, hv1, _⟩ := vampiresLoop_total sorted _ false hi
  refine ⟨r, g1, hmv.trans hl, hv1, noOverlap_of_valid hv1, ?_⟩
  intro t ht g2 hstep
  obtain ⟨rest, hit, _, _⟩ := turns_inv hv hs t ht
  obtain ⟨it, p, hit1, hk, hp, hc⟩ := vampiresLoop_cons hit false
  rcases hc with ⟨_, hs1, _⟩ | ⟨_, _, hs1, _⟩ | ⟨_, pre, dir, post, g3, _, hch, hm, _, hs1, _⟩
  · rw [hs1] at hstep
    simp at hstep
  · rw [hs1] at hstep
    simp at hstep
  · rw [hs1] at hstep
    simp only [Option.some.injEq, StepResult.moved.injEq] at hstep
    subst hstep
    refine ⟨it, _, _, hit1, hch.1, ?_, ?_, ?_⟩
    · rw [hm.getItem hit1, if_pos rfl]
    · rw [hm.cells, if_pos ⟨rfl, rfl⟩]
    · rw [hm.cells, if_neg (fun h => isStep_ne_zero (isStep_directionToDistance dir) it.x it.y
        ⟨h.1.symm, h.2.symm⟩), if_pos ⟨rfl, rfl⟩]

/-- Witness of C7 on the example field, with insertion sort. -/
theorem moveVampires_safe_witness :
    SortSpec sortByDistance ∧ Valid exampleGame ∧
    ∃ r g1, moveVampires sortByDistance exampleGame = some (r, g1) ∧ Valid g1 ∧ NoOverlap g1 ∧
      ∀ t ∈ turns sortByDistance exampleGame, ∀ g2,
        vampireStep t.2 t.1 = some (StepResult.moved g2) →
        ∃ (it : Item) (x y : Int), t.2.items[t.1.item]? = some it ∧
          cellAt t.2.m_field x y = some none ∧
          g2.items[t.1.item]? = some { it with x := x, y := y } ∧
          cellAt g2.m_field x y = some (some t.1.item) ∧
          cellAt g2.m_field it.x it.y = some none :=
  ⟨sortSpec_sortByDistance, exampleGame_valid,
    moveVampires_safe sortByDistance sortSpec_sortByDistance exampleGame exampleGame_valid⟩

theorem forall_items_of_perm {l1 l2 : List Vampire}
    (h : (l1.map (fun v => v.item)).Perm (l2.map (fun v => v.item))) {P : Nat → Prop} :
    (∀ v ∈ l1, P v.item) ↔ (∀ v ∈ l2, P v.item) := by
  constructor
  · intro hall v hmem
    have : v.item ∈ l1.map (fun v => v.item) := h.mem_iff.mpr (List.mem_map.mpr ⟨v, hmem, rfl⟩)
    obtain ⟨v2, hmem2, he⟩ := List.mem_map.mp this
    have := hall v2 hmem2
    rw [he] at this
    exact this
  · intro hall v hmem
    have : v.item ∈ l2.map (fun v => v.item) := h.mem_iff.mp (List.mem_map.mpr ⟨v, hmem, rfl⟩)
    obtain ⟨v2, hmem2, he⟩ := List.mem_map.mp this
    have := hall v2 hmem2
    rw [he] at this
    exact this

/-- C8: in a consistent state, if `moveVampires` returns `ok` then the stored position of at
least one pursuer of the pursuer list after the call differs from its stored position before
the call. -/
theorem moveVampires_ok_moved (sort : List Vampire → List Vampire) (hs : SortSpec sort)
    (g : Vampires) (hv : Valid g) (g1 : Vampires)
    (hok : moveVampires sort g = some (VampireResult.ok, g1)) :
    ∃ v ∈ g.m_vampires, positionOf g1 v.item ≠ positionOf g v.item := by
  obtain ⟨sorted, _, hperm, hi, hmv, _⟩ := moveVampires_eq hv hs
  rw [hmv] at hok
  rcases vampiresLoop_ok sorted _ false hi g1 hok with h | h
  · simp at h
  · exact (mem_items_of_perm (P := fun id => positionOf g1 id ≠ positionOf g id) hperm).mp h

/-- Witness of C8 on the example field: the call returns `ok`. -/
theorem moveVampires_ok_moved_witness :
    ∃ g1, moveVampires sortByDistance exampleGame = some (VampireResult.ok, g1) ∧
      ∃ v ∈ exampleGame.m_vampires, positionOf g1 v.item ≠ positionOf exampleGame v.item := by
  cases h : moveVampires sortByDistance exampleGame with
  | none => exact absurd h (by decide)
  | some res =>
    obtain ⟨r, g1⟩ := res
    have hr : r = VampireResult.ok := by
      have h1 : (moveVampires sortByDistance exampleGame).map (fun x => x.1)
          = some VampireResult.ok := by decide
      rw [h] at h1
      simpa using h1
    subst hr
    exact ⟨g1, rfl,
      moveVampires_ok_moved sortByDistance sortSpec_sortByDistance exampleGame
        exampleGame_valid g1 h⟩

/-- C10, as stated, fails: on the field `caughtGame` the only pursuer is processed, finds the
player in a neighbouring cell and is left in place (the call returns `lost`), although the cell
above it is empty. -/
theorem moveVampires_stay_counterexample :
    ¬ ∀ t ∈ turns sortByDistance caughtGame,
      ((∀ g1, vampireStep t.2 t.1 ≠ some (StepResult.moved g1)) ↔ Surrounded t.2 t.1.item) := by
  intro hall
  have ht : ((⟨24, 2⟩, { caughtGame with m_vampires := [⟨24, 2⟩] }) : Vampire × Vampires)
      ∈ turns sortByDistance caughtGame := by decide
  have hstep : vampireStep { caughtGame with m_vampires := [⟨24, 2⟩] } ⟨24, 2⟩
      = some StepResult.lost := by decide
  have hs := (hall _ ht).mp (fun g1 h => by
    have h2 : vampireStep { caughtGame with m_vampires := [⟨24, 2⟩] } ⟨24, 2⟩
        = some (StepResult.moved g1) := h
    rw [hstep] at h2
    simp at h2)
  obtain ⟨it, hit, hsur⟩ := hs
  have hit1 : caughtGame.items[24]? = some it := hit
  have hit2 : caughtGame.items[24]? = some ⟨Kind.vampire, 4, 2⟩ := by decide
  rw [hit2] at hit1
  injection hit1 with e
  subst e
  obtain ⟨id1, h1⟩ := hsur Direction.up
  have h2 : cellAt caughtGame.m_field 4 1 = some (some id1) := h1
  have h3 : cellAt caughtGame.m_field 4 1 = some none := by decide
  rw [h3] at h2
  simp at h2

/-! ## Further claims on `moveVampires` -/

theorem vampiresLoop_lost :
    ∀ (vs : List Vampire) (g : Vampires) (moved : Bool), LoopInv g vs →
      ∀ g1, vampiresLoop vs g moved = some (VampireResult.lost, g1) →
        ∃ pre v post, vs = pre ++ v :: post ∧
          (loopTurns vs g).map (fun t => t.1) = pre ++ [v] ∧
          NextToPlayer g v.item ∧
          (∀ u ∈ pre, ¬ NextToPlayer g u.item) ∧
          (∀ u ∈ v :: post, g1.items[u.item]? = g.items[u.item]?) := by
  intro vs
  induction vs with
  | nil =>
    intro g moved _ g1 h
    cases moved <;> simp [vampiresLoop] at h
  | cons v rest ih =>
    intro g moved hi g1 h
    obtain ⟨it, p, hit, hk, hp, hc⟩ := vampiresLoop_cons hi moved
    rcases hc with ⟨hn, hs, hl⟩ | ⟨hn, _, hs, hl⟩ | ⟨hn, pre, dir, post, g2, _, _, hm, hi1, hs, hl⟩
    · rw [hl] at h
      simp only [Option.some.injEq, Prod.mk.injEq, true_and] at h
      subst h
      refine ⟨[], v, rest, rfl, ?_, hn, by simp, fun _ _ => rfl⟩
      rw [loopTurns, hs]
      rfl
    · rw [hl] at h
      obtain ⟨pre1, v1, post1, h1, h2, h3, h4, h5⟩ := ih g moved hi.tail g1 h
      refine ⟨v :: pre1, v1, post1, by rw [h1]; rfl, ?_, h3, ?_, h5⟩
      · rw [loopTurns, hs]
        simp [h2]
      · intro u hu
        rcases List.mem_cons.mp hu with rfl | hu
        · exact hn
        · exact h4 u hu
    · rw [hl] at h
      obtain ⟨pre1, v1, post1, h1, h2, h3, h4, h5⟩ := ih g2 true hi1 g1 h
      have hsub : ∀ u, u ∈ rest → u.item ≠ v.item := fun u hu => hi.ne_head hu
      have hv1 : v1 ∈ rest := by rw [h1]; simp
      refine ⟨v :: pre1, v1, post1, by rw [h1]; rfl, ?_,
        (nextToPlayer_after_move hi hit hm (hsub v1 hv1)).mp h3, ?_, ?_⟩
      · rw [loopTurns, hs]
        simp [h2]
      · intro u hu
        rcases List.mem_cons.mp hu with rfl | hu
        · exact hn
        · have hur : u ∈ rest := by rw [h1]; simp [hu]
          exact fun hnext => h4 u hu ((nextToPlayer_after_move hi hit hm (hsub u hur)).mpr hnext)
      · intro u hu
        have hur : u ∈ rest := by
          rw [h1]
          rcases List.mem_cons.mp hu with rfl | hu
          · simp
          · simp [hu]
        rw [h5 u hu, hm.getItem hit, if_neg (hsub u hur)]

theorem vampiresLoop_one_step :
    ∀ (vs : List Vampire) (g : Vampires) (moved : Bool), LoopInv g vs →
      ∀ r g1, vampiresLoop vs g moved = some (r, g1) →
        ∀ v ∈ vs, ∃ it it1 : Item, g.items[v.item]? = some it ∧ g1.items[v.item]? = some it1 ∧
          it1.kind = it.kind ∧ |it1.x - it.x| ≤ 1 ∧ |it1.y - it.y| ≤ 1 := by
  intro vs
  induction vs with
  | nil =>
    intro g moved _ r g1 _ v hv
    simp at hv
  | cons v rest ih =>
    intro g moved hi r g1 h u hu
    obtain ⟨it, p, hit, hk, hp, hc⟩ := vampiresLoop_cons hi moved
    have hnot : v.item ∉ rest.map (fun v => v.item) := (List.nodup_cons.mp hi.nodup).1
    rcases hc with ⟨_, _, hl⟩ | ⟨_, _, _, hl⟩ | ⟨_, pre, dir, post, g2, _, _, hm, hi1, _, hl⟩
    · rw [hl] at h
      simp only [Option.some.injEq, Prod.mk.injEq] at h
      obtain ⟨_, h2⟩ := h
      subst h2
      obtain ⟨itu, hitu, _⟩ := hi.kinds u hu
      exact ⟨itu, itu, hitu, hitu, rfl, by simp, by simp⟩
    · rw [hl] at h
      rcases List.mem_cons.mp hu with rfl | hu
      · obtain ⟨r1, g3, h1, _, _, _, _, _, _, hframe⟩ := vampiresLoop_total rest g moved hi.tail
        rw [h] at h1
        simp only [Option.some.injEq, Prod.mk.injEq] at h1
        obtain ⟨_, h2⟩ := h1
        subst h2
        exact ⟨it, it, hit, by rw [hframe _ hnot]; exact hit, rfl, by simp, by simp⟩
      · exact ih g moved hi.tail r g1 h u hu
    · rw [hl] at h
      obtain ⟨hdx, hdy, _⟩ := isStep_directionToDistance dir
      rcases List.mem_cons.mp hu with rfl | hu
      · obtain ⟨r1, g3, h1, _, _, _, _, _, _, hframe⟩ := vampiresLoop_total rest g2 true hi1
        rw [h] at h1
        simp only [Option.some.injEq, Prod.mk.injEq] at h1
        obtain ⟨_, h2⟩ := h1
        subst h2
        refine ⟨it, { it with x := it.x + (directionToDistance dir).x,
                              y := it.y + (directionToDistance dir).y }, hit, ?_, rfl, ?_, ?_⟩
        · rw [hframe _ hnot, hm.getItem hit, if_pos rfl]
        · simp only [add_sub_cancel_left]
          rw [abs_le]
          omega
        · simp only [add_sub_cancel_left]
          rw [abs_le]
          omega
      · obtain ⟨itu, itu1, h1, h2, h3, h4, h5⟩ := ih g2 true hi1 r g1 h u hu
        rw [hm.getItem hit, if_neg (hi.ne_head hu)] at h1
        exact ⟨itu, itu1, h1, h2, h3, h4, h5⟩

/-- C11: when `moveVampires` returns `lost`, the pursuers whose turn came are the pursuers up to
the first one, in the order of processing, that stands next to the player; that pursuer and
all later ones have the stored position they had before the call; hence a pursuer whose
stored position changed did not stand next to the player at the start of the call. -/
theorem moveVampires_lost_frame (sort : List Vampire → List Vampire) (hs : SortSpec sort)
    (g : Vampires) (hv : Valid g) (g1 : Vampires)
    (hlost : moveVampires sort g = some (VampireResult.lost, g1)) :
    ∃ sorted pre v post, processingOrder sort g = some sorted ∧ sorted = pre ++ v :: post ∧
      (turns sort g).map (fun t => t.1) = pre ++ [v] ∧
      NextToPlayer g v.item ∧
      (∀ u ∈ pre, ¬ NextToPlayer g u.item) ∧
      (∀ u ∈ v :: post, positionOf g1 u.item = positionOf g u.item) ∧
      (∀ u ∈ g.m_vampires, positionOf g1 u.item ≠ positionOf g u.item →
        ¬ NextToPlayer g u.item) := by
  obtain ⟨sorted, hpo, hperm, hi, hmv, hturns⟩ := moveVampires_eq hv hs
  rw [hmv] at hlost
  obtain ⟨pre, v, post, h1, h2, h3, h4, h5⟩ := vampiresLoop_lost sorted _ false hi g1 hlost
  have hpos : ∀ u ∈ v :: post, positionOf g1 u.item = positionOf g u.item := by
    intro u hu
    unfold positionOf
    rw [h5 u hu]
  refine ⟨sorted, pre, v, post, hpo, h1, by rw [hturns]; exact h2, h3, h4, hpos, ?_⟩
  have hall : ∀ u ∈ sorted, positionOf g1 u.item ≠ positionOf g u.item →
      ¬ NextToPlayer g u.item := by
    intro u hu hne
    rw [h1] at hu
    rcases List.mem_append.mp hu with hu | hu
    · exact h4 u hu
    · exact absurd (hpos u hu) hne
  exact (forall_items_of_perm
    (P := fun id => positionOf g1 id ≠ positionOf g id → ¬ NextToPlayer g id) hperm).mp hall

/-- Witness of C11 on the field `caughtGame`, where the call returns `lost`. -/
theorem moveVampires_lost_frame_witness :
    ∃ g1, moveVampires sortByDistance caughtGame = some (VampireResult.lost, g1) ∧
      ∃ sorted pre v post, processingOrder sortByDistance caughtGame = some sorted ∧
        sorted = pre ++ v :: post ∧
        (turns sortByDistance caughtGame).map (fun t => t.1) = pre ++ [v] ∧
        NextToPlayer caughtGame v.item ∧
        (∀ u ∈ pre, ¬ NextToPlayer caughtGame u.item) ∧
        (∀ u ∈ v :: post, positionOf g1 u.item = positionOf caughtGame u.item) ∧
        (∀ u ∈ caughtGame.m_vampires, positionOf g1 u.item ≠ positionOf caughtGame u.item →
          ¬ NextToPlayer caughtGame u.item) := by
  cases h : moveVampires sortByDistance caughtGame with
  | none => exact absurd h (by decide)
  | some res =>
    obtain ⟨r, g1⟩ := res
    have hr : r = VampireResult.lost := by
      have h1 : (moveVampires sortByDistance caughtGame).map (fun x => x.1)
          = some VampireResult.lost := by decide
      rw [h] at h1
      simpa using h1
    subst hr
    exact ⟨g1, rfl,
      moveVampires_lost_frame sortByDistance sortSpec_sortByDistance caughtGame
        caughtGame_valid g1 h⟩

/-- C12: in a consistent state (every state reached from a construction is one, by
`Reachable.inv`) `moveVampires` returns a result; afterwards the stored position
of every pursuer of the pursuer list differs from the one before the call by at most 1 in
each coordinate, and every item that is not of kind `vampire` (the player, the walls, the
border) is stored as before the call. -/
theorem moveVampires_one_step (sort : List Vampire → List Vampire) (hs : SortSpec sort)
    (g : Vampires) (hv : Valid g) :
    ∃ r g1, moveVampires sort g = some (r, g1) ∧
      (∀ v ∈ g.m_vampires, ∃ it it1 : Item, g.items[v.item]? = some it ∧
        g1.items[v.item]? = some it1 ∧ it1.kind = it.kind ∧
        |it1.x - it.x| ≤ 1 ∧ |it1.y - it.y| ≤ 1) ∧
      (∀ (id : Nat) (it : Item), g.items[id]? = some it → it.kind ≠ Kind.vampire →
        g1.items[id]? = some it) := by
  obtain ⟨sorted, _, hperm, hi, hmv, _⟩ := moveVampires_eq hv hs
  obtain ⟨r, g1, hl, _, _, _, _, _, _, hframe⟩ := vampiresLoop_total sorted _ false hi
  refine ⟨r, g1, hmv.trans hl, ?_, ?_⟩
  · exact (forall_items_of_perm
      (P := fun id => ∃ it it1 : Item, g.items[id]? = some it ∧
        g1.items[id]? = some it1 ∧ it1.kind = it.kind ∧
        |it1.x - it.x| ≤ 1 ∧ |it1.y - it.y| ≤ 1) hperm).mp
      (vampiresLoop_one_step sorted _ false hi r g1 hl)
  · intro id it hit hk
    have hnot : id ∉ sorted.map (fun v => v.item) := by
      intro hmem
      obtain ⟨u, hu, he⟩ := List.mem_map.mp hmem
      obtain ⟨itu, hitu, hku⟩ := hi.kinds u hu
      have hitu1 : g.items[u.item]? = some itu := hitu
      rw [he, hit] at hitu1
      injection hitu1 with e
      subst e
      exact hk hku
    rw [hframe id hnot]
    exact hit

/-- Witness of C12 on the example field, with insertion sort. -/
theorem moveVampires_one_step_witness :
    SortSpec sortByDistance ∧ Valid exampleGame ∧
    ∃ r g1, moveVampires sortByDistance exampleGame = some (r, g1) ∧
      (∀ v ∈ exampleGame.m_vampires, ∃ it it1 : Item, exampleGame.items[v.item]? = some it ∧
        g1.items[v.item]? = some it1 ∧ it1.kind = it.kind ∧
        |it1.x - it.x| ≤ 1 ∧ |it1.y - it.y| ≤ 1) ∧
      (∀ (id : Nat) (it : Item), exampleGame.items[id]? = some it → it.kind ≠ Kind.vampire →
        g1.items[id]? = some it) :=
  ⟨sortSpec_sortByDistance, exampleGame_valid,
    moveVampires_one_step sortByDistance sortSpec_sortByDistance exampleGame exampleGame_valid⟩

theorem updateDistances_congr (g1 g2 : Vampires) (hitems : g1.items = g2.items)
    (hplayer : g1.m_player = g2.m_player) :
    ∀ l1 l2 : List Vampire, l1.map (fun v => v.item) = l2.map (fun v => v.item) →
      updateDistances g1 l1 = updateDistances g2 l2 := by
  intro l1
  induction l1 with
  | nil =>
    intro l2 h
    cases l2 with
    | nil => rfl
    | cons _ _ => simp at h
  | cons v rest ih =>
    intro l2 h
    cases l2 with
    | nil => simp at h
    | cons v2 rest2 =>
      simp only [List.map_cons, List.cons.injEq] at h
      obtain ⟨h1, h2⟩ := h
      have hrec := ih rest2 h2
      simp only [updateDistances, hitems, hplayer, h1, hrec]

/-- C14: `moveVampires` is a function of the state, and of the state it uses only the field,
the items, the player handle and the order of the pursuer list: two states that agree on
these, whatever distances are left in their pursuer lists, have the same order of
processing, the same turns, the same result and the same resulting state. -/
theorem moveVampires_deterministic (sort : List Vampire → List Vampire) (g : Vampires)
    (vampires : List Vampire)
    (hsame : vampires.map (fun v => v.item) = g.m_vampires.map (fun v => v.item)) :
    processingOrder sort { g with m_vampires := vampires } = processingOrder sort g ∧
    turns sort { g with m_vampires := vampires } = turns sort g ∧
    moveVampires sort { g with m_vampires := vampires } = moveVampires sort g := by
  have hpo : processingOrder sort { g with m_vampires := vampires } = processingOrder sort g := by
    unfold processingOrder
    rw [updateDistances_congr { g with m_vampires := vampires } g rfl rfl
      vampires g.m_vampires hsame]
  refine ⟨hpo, ?_, ?_⟩
  · unfold turns
    rw [hpo]
  · unfold moveVampires
    rw [hpo]

/-- Witness of C14 on the example field: distances left from an earlier call do not matter. -/
theorem moveVampires_deterministic_witness :
    processingOrder sortByDistance { exampleGame with m_vampires := [⟨24, 8⟩, ⟨25, 5⟩] }
      = processingOrder sortByDistance exampleGame ∧
    turns sortByDistance { exampleGame with m_vampires := [⟨24, 8⟩, ⟨25, 5⟩] }
      = turns sortByDistance exampleGame ∧
    moveVampires sortByDistance { exampleGame with m_vampires := [⟨24, 8⟩, ⟨25, 5⟩] }
      = moveVampires sortByDistance exampleGame :=
  moveVampires_deterministic sortByDistance exampleGame [⟨24, 8⟩, ⟨25, 5⟩] (by decide)

/-! ## Creating an item -/

theorem createItem_some {g g1 : Vampires} {kind : Kind} {x y : Int} {id : Nat}
    (h : createItem g kind x y = some (id, g1)) :
    id = g.items.length ∧ Created g g1 kind x y := by
  unfold createItem at h
  split at h
  · simp at h
  · simp at h
  · rename_i hc
    split at h
    · simp at h
    · rename_i f hf
      simp only [Option.some.injEq, Prod.mk.injEq] at h
      obtain ⟨h1, h2⟩ := h
      subst h1
      subst h2
      refine ⟨rfl, rfl, rfl, rfl, rfl, rfl, rfl, rfl, hc, ?_⟩
      intro x1 y1
      exact cellAt_setCell hf x1 y1

theorem createItem_of_empty {g : Vampires} (kind : Kind) {x y : Int}
    (hc : cellAt g.m_field x y = some none) :
    ∃ g1, createItem g kind x y = some (g.items.length, g1) := by
  obtain ⟨f, hf⟩ := setCell_isSome (f := g.m_field) (x := x) (y := y) (by simp [hc])
    (some g.items.length)
  exact ⟨{ g with items := g.items ++ [⟨kind, x, y⟩], m_field := f },
    by simp [createItem, hc, hf]⟩

theorem Created.item_at {g g1 : Vampires} {kind : Kind} {x y : Int}
    (hc : Created g g1 kind x y) (id : Nat) :
    g1.items[id]? = if id < g.items.length then g.items[id]?
      else if id = g.items.length then some ⟨kind, x, y⟩ else none := by
  rw [hc.items]
  by_cases h1 : id < g.items.length
  · rw [if_pos h1, List.getElem?_append_left h1]
  · rw [if_neg h1]
    by_cases h2 : id = g.items.length
    · rw [if_pos h2, h2]
      simp
    · rw [if_neg h2]
      apply List.getElem?_eq_none
      simp
      omega

theorem Created.keeps_wf {g g1 : Vampires} {kind : Kind} {x y : Int}
    (hc : Created g g1 kind x y) (hw : Wf g) : Wf g1 := by
  have hb := (hw.bounds x y).mp (by simp [hc.empty])
  constructor
  · intro x1 y1
    rw [hc.cells, hc.width, hc.height]
    split
    · rename_i h
      obtain ⟨rfl, rfl⟩ := h
      simpa using hb
    · exact hw.bounds x1 y1
  · intro x1 y1 id h
    rw [hc.cells] at h
    split at h
    · rename_i h1
      obtain ⟨rfl, rfl⟩ := h1
      have : id = g.items.length := by simpa using h.symm
      subst this
      exact ⟨⟨kind, x1, y1⟩, by rw [hc.item_at]; simp, rfl, rfl⟩
    · obtain ⟨it, hit, hx, hy⟩ := hw.cell_item x1 y1 id h
      have hlt : id < g.items.length := (List.getElem?_eq_some_iff.mp hit).1
      exact ⟨it, by rw [hc.item_at, if_pos hlt]; exact hit, hx, hy⟩
  · intro id it hit
    rw [hc.item_at] at hit
    split at hit
    · have h1 := hw.item_cell id it hit
      rw [hc.cells]
      have hne : ¬ (it.x = x ∧ it.y = y) := by
        rintro ⟨rfl, rfl⟩
        rw [hc.empty] at h1
        simp at h1
      rw [if_neg hne]
      exact h1
    · split at hit
      · rename_i h2
        injection hit with e
        subst e
        rw [hc.cells, if_pos ⟨rfl, rfl⟩, h2]
      · simp at hit

theorem Valid.to_wf {g : Vampires} (hv : Valid g) : Wf g :=
  ⟨hv.bounds, hv.cell_item, hv.item_cell⟩

theorem wf_emptyGame (width height vampireCount wallCount : Int) :
    Wf (emptyGame width height vampireCount wallCount) := by
  have hcell : ∀ x y, cellAt (emptyGame width height vampireCount wallCount).m_field x y
      = if 0 ≤ x ∧ x < width ∧ 0 ≤ y ∧ y < height then some none else none := by
    intro x y
    unfold cellAt emptyGame
    simp only
    by_cases h : 0 ≤ x ∧ 0 ≤ y
    · rw [if_pos h]
      by_cases hy : y < height
      · have h1 : y.toNat < height.toNat := by omega
        rw [List.getElem?_eq_getElem (by simpa using h1)]
        simp only [List.getElem_replicate]
        by_cases hx : x < width
        · have h2 : x.toNat < width.toNat := by omega
          rw [List.getElem?_eq_getElem (by simpa using h2)]
          simp [h.1, h.2, hx, hy]
        · rw [List.getElem?_eq_none (by simp; omega)]
          simp [hx]
      · rw [List.getElem?_eq_none (by simp; omega)]
        simp [hy]
    · rw [if_neg h]
      have : ¬ (0 ≤ x ∧ x < width ∧ 0 ≤ y ∧ y < height) := by
        rintro ⟨h1, _, h2, _⟩
        exact h ⟨h1, h2⟩
      rw [if_neg this]
  constructor
  · intro x y
    rw [hcell]
    split <;> simp_all [emptyGame]
  · intro x y id h
    rw [hcell] at h
    split at h <;> simp at h
  · intro id it hit
    simp [emptyGame] at hit
/-! ## The loops of `initGame` -/

theorem SameConsts.refl (g : Vampires) : SameConsts g g := ⟨rfl, rfl, rfl, rfl⟩

theorem SameConsts.trans {g g1 g2 : Vampires} (h1 : SameConsts g g1) (h2 : SameConsts g1 g2) :
    SameConsts g g2 :=
  ⟨h2.width.trans h1.width, h2.height.trans h1.height, h2.vampireCount.trans h1.vampireCount,
    h2.wallCount.trans h1.wallCount⟩

theorem Created.sameConsts {g g1 : Vampires} {kind : Kind} {x y : Int}
    (hc : Created g g1 kind x y) : SameConsts g g1 :=
  ⟨hc.width, hc.height, hc.vampireCount, hc.wallCount⟩

theorem mem_intRange {lo hi x : Int} : x ∈ intRange lo hi ↔ (lo ≤ x ∧ x < hi) := by
  unfold intRange
  constructor
  · intro h
    obtain ⟨i, hi1, hi2⟩ := List.mem_map.mp h
    have h1 : i < (hi - lo).toNat := List.mem_range.mp hi1
    have h2 : (i : Int) < hi - lo := Int.lt_toNat.mp h1
    have h3 : lo + (i : Int) = x := hi2
    omega
  · rintro ⟨h1, h2⟩
    have h : ((x - lo).toNat : Int) = x - lo := Int.toNat_of_nonneg (by omega)
    refine List.mem_map.mpr ⟨(x - lo).toNat, List.mem_range.mpr ?_, ?_⟩
    · apply Int.lt_toNat.mpr
      rw [h]
      omega
    · show lo + ((x - lo).toNat : Int) = x
      rw [h]
      omega

theorem drawBorderRows_some :
    ∀ (xs : List Int) (g g1 : Vampires), drawBorderRows xs g = some g1 → Wf g →
      Wf g1 ∧ SameConsts g g1 ∧ g1.m_vampires = g.m_vampires ∧ g1.m_player = g.m_player ∧
        g1.items = g.items ++ borderRowItems g.height xs := by
  intro xs
  induction xs with
  | nil =>
    intro g g1 h hw
    simp only [drawBorderRows, Option.some.injEq] at h
    subst h
    exact ⟨hw, SameConsts.refl g, rfl, rfl, by simp [borderRowItems]⟩
  | cons x xs ih =>
    intro g g1 h hw
    rw [drawBorderRows] at h
    cases h1 : createItem g Kind.border x 0 with
    | none => simp [h1] at h
    | some r1 =>
      obtain ⟨id1, ga⟩ := r1
      simp only [h1] at h
      cases h2 : createItem ga Kind.border x (ga.height - 1) with
      | none => simp [h2] at h
      | some r2 =>
        obtain ⟨id2, gb⟩ := r2
        simp only [h2] at h
        obtain ⟨_, c1⟩ := createItem_some h1
        obtain ⟨_, c2⟩ := createItem_some h2
        obtain ⟨hw1, hs, hv, hp, hitems⟩ := ih gb g1 h (c2.keeps_wf (c1.keeps_wf hw))
        refine ⟨hw1, (c1.sameConsts.trans c2.sameConsts).trans hs,
          hv.trans (c2.m_vampires.trans c1.m_vampires),
          hp.trans (c2.m_player.trans c1.m_player), ?_⟩
        rw [hitems, c2.items, c1.items, c2.height, c1.height]
        simp [borderRowItems]

theorem drawBorderColumns_some :
    ∀ (ys : List Int) (g g1 : Vampires), drawBorderColumns ys g = some g1 → Wf g →
      Wf g1 ∧ SameConsts g g1 ∧ g1.m_vampires = g.m_vampires ∧ g1.m_player = g.m_player ∧
        g1.items = g.items ++ borderColumnItems g.width ys := by
  intro ys
  induction ys with
  | nil =>
    intro g g1 h hw
    simp only [drawBorderColumns, Option.some.injEq] at h
    subst h
    exact ⟨hw, SameConsts.refl g, rfl, rfl, by simp [borderColumnItems]⟩
  | cons y ys ih =>
    intro g g1 h hw
    rw [drawBorderColumns] at h
    cases h1 : createItem g Kind.border 0 y with
    | none => simp [h1] at h
    | some r1 =>
      obtain ⟨id1, ga⟩ := r1
      simp only [h1] at h
      cases h2 : createItem ga Kind.border (ga.width - 1) y with
      | none => simp [h2] at h
      | some r2 =>
        obtain ⟨id2, gb⟩ := r2
        simp only [h2] at h
        obtain ⟨_, c1⟩ := createItem_some h1
        obtain ⟨_, c2⟩ := createItem_some h2
        obtain ⟨hw1, hs, hv, hp, hitems⟩ := ih gb g1 h (c2.keeps_wf (c1.keeps_wf hw))
        refine ⟨hw1, (c1.sameConsts.trans c2.sameConsts).trans hs,
          hv.trans (c2.m_vampires.trans c1.m_vampires),
          hp.trans (c2.m_player.trans c1.m_player), ?_⟩
        rw [hitems, c2.items, c1.items, c2.width, c1.width]
        simp [borderColumnItems]

theorem settleVampires_some (maxVampireCount : Int) :
    ∀ (k : Nat) (pa : Int × Int) (g g1 : Vampires),
      settleVampires maxVampireCount k pa g = some g1 → Wf g →
      Wf g1 ∧ SameConsts g g1 ∧ g1.m_player = g.m_player ∧
        g1.items = g.items ++
          (ringPositions maxVampireCount g.vampireCount k pa).map
            (vampireItem g.width g.height) ∧
        g1.m_vampires = g.m_vampires ++
          (List.range k).map (fun i => (⟨g.items.length + i, 0⟩ : Vampire)) := by
  intro k
  induction k with
  | zero =>
    intro pa g g1 h hw
    simp only [settleVampires, Option.some.injEq] at h
    subst h
    exact ⟨hw, SameConsts.refl g, rfl, by simp [ringPositions], by simp⟩
  | succ k ih =>
    intro pa g g1 h hw
    rw [settleVampires] at h
    cases h1 : createItem g Kind.vampire (ringCell g.width g.height pa.1).1
        (ringCell g.width g.height pa.1).2 with
    | none => simp [h1] at h
    | some r1 =>
      obtain ⟨id1, ga⟩ := r1
      simp only [h1] at h
      obtain ⟨hid, c1⟩ := createItem_some h1
      have hwa : Wf { ga with m_vampires := ga.m_vampires ++ [⟨id1, 0⟩] } :=
        ⟨(c1.keeps_wf hw).bounds, (c1.keeps_wf hw).cell_item, (c1.keeps_wf hw).item_cell⟩
      obtain ⟨hw1, hs, hp, hitems, hvs⟩ := ih _ _ g1 h hwa
      refine ⟨hw1, ⟨hs.width.trans c1.width, hs.height.trans c1.height,
        hs.vampireCount.trans c1.vampireCount, hs.wallCount.trans c1.wallCount⟩,
        hp.trans c1.m_player, ?_, ?_⟩
      · rw [hitems]
        simp only [c1.items, c1.width, c1.height, c1.vampireCount, ringPositions, List.map_cons,
          vampireItem, List.append_assoc, List.singleton_append]
      · rw [hvs]
        simp only [c1.items, c1.m_vampires, hid, List.length_append, List.length_singleton,
          List.append_assoc, List.singleton_append]
        rw [List.range_succ_eq_map]
        simp only [List.map_cons, List.map_map, Nat.add_zero]
        congr 2
        apply List.map_congr_left
        intro i _
        simp only [Function.comp, Vampire.mk.injEq, and_true]
        omega
/-! ## The candidate cells and the walls -/

theorem freeCellsRow_some (g : Vampires) (y : Int) :
    ∀ (xs : List Int) (row : List (Int × Int)), freeCellsRow g y xs = some row →
      ∀ p : Int × Int, p ∈ row ↔ (p.1 ∈ xs ∧ p.2 = y ∧ cellAt g.m_field p.1 p.2 = some none) := by
  intro xs
  induction xs with
  | nil =>
    intro row h p
    simp only [freeCellsRow, Option.some.injEq] at h
    subst h
    simp
  | cons x xs ih =>
    intro row h p
    rw [freeCellsRow] at h
    cases hc : cellAt g.m_field x y with
    | none => simp [hc] at h
    | some c =>
      cases hr : freeCellsRow g y xs with
      | none => simp [hc, hr] at h
      | some rest =>
        simp only [hc, hr, Option.some.injEq] at h
        subst h
        have ih1 := ih rest hr p
        by_cases hcn : c = none
        · subst hcn
          simp only [if_true, List.mem_cons, ih1]
          constructor
          · rintro (h1 | ⟨h1, h2, h3⟩)
            · subst h1
              exact ⟨Or.inl rfl, rfl, hc⟩
            · exact ⟨Or.inr h1, h2, h3⟩
          · rintro ⟨h1 | h1, h2, h3⟩
            · left
              exact Prod.ext h1 h2
            · exact Or.inr ⟨h1, h2, h3⟩
        · simp only [if_neg hcn, List.mem_cons, ih1]
          constructor
          · rintro ⟨h1, h2, h3⟩
            exact ⟨Or.inr h1, h2, h3⟩
          · rintro ⟨h1 | h1, h2, h3⟩
            · exfalso
              rw [h1, h2, hc] at h3
              exact hcn (Option.some.inj h3)
            · exact ⟨h1, h2, h3⟩

theorem freeCellsRow_nodup (g : Vampires) (y : Int) :
    ∀ (xs : List Int) (row : List (Int × Int)), freeCellsRow g y xs = some row →
      xs.Nodup → row.Nodup := by
  intro xs
  induction xs with
  | nil =>
    intro row h _
    simp only [freeCellsRow, Option.some.injEq] at h
    subst h
    exact List.nodup_nil
  | cons x xs ih =>
    intro row h hn
    rw [freeCellsRow] at h
    cases hc : cellAt g.m_field x y with
    | none => simp [hc] at h
    | some c =>
      cases hr : freeCellsRow g y xs with
      | none => simp [hc, hr] at h
      | some rest =>
        simp only [hc, hr, Option.some.injEq] at h
        subst h
        have hn1 := List.nodup_cons.mp hn
        have ih1 := ih rest hr hn1.2
        by_cases hcn : c = none
        · rw [if_pos hcn]
          refine List.nodup_cons.mpr ⟨?_, ih1⟩
          intro hmem
          exact hn1.1 ((freeCellsRow_some g y xs rest hr (x, y)).mp hmem).1
        · rw [if_neg hcn]
          exact ih1

theorem freeCells_some (g : Vampires) (xs : List Int) :
    ∀ (ys : List Int) (walls : List (Int × Int)), freeCells g xs ys = some walls →
      ∀ p : Int × Int,
        p ∈ walls ↔ (p.1 ∈ xs ∧ p.2 ∈ ys ∧ cellAt g.m_field p.1 p.2 = some none) := by
  intro ys
  induction ys with
  | nil =>
    intro walls h p
    simp only [freeCells, Option.some.injEq] at h
    subst h
    simp
  | cons y ys ih =>
    intro walls h p
    rw [freeCells] at h
    cases hr : freeCellsRow g y xs with
    | none => simp [hr] at h
    | some row =>
      cases hrest : freeCells g xs ys with
      | none => simp [hr, hrest] at h
      | some rest =>
        simp only [hr, hrest, Option.some.injEq] at h
        subst h
        simp only [List.mem_append, freeCellsRow_some g y xs row hr p, ih rest hrest p,
          List.mem_cons]
        tauto

theorem freeCells_nodup (g : Vampires) (xs : List Int) (hxs : xs.Nodup) :
    ∀ (ys : List Int) (walls : List (Int × Int)), freeCells g xs ys = some walls →
      ys.Nodup → walls.Nodup := by
  intro ys
  induction ys with
  | nil =>
    intro walls h _
    simp only [freeCells, Option.some.injEq] at h
    subst h
    exact List.nodup_nil
  | cons y ys ih =>
    intro walls h hn
    rw [freeCells] at h
    cases hr : freeCellsRow g y xs with
    | none => simp [hr] at h
    | some row =>
      cases hrest : freeCells g xs ys with
      | none => simp [hr, hrest] at h
      | some rest =>
        simp only [hr, hrest, Option.some.injEq] at h
        subst h
        have hn1 := List.nodup_cons.mp hn
        refine List.nodup_append.mpr ⟨freeCellsRow_nodup g y xs row hr hxs,
          ih rest hrest hn1.2, ?_⟩
        intro p hp1 hp2
        have h1 := (freeCellsRow_some g y xs row hr p).mp hp1
        have h2 := (freeCells_some g xs ys rest hrest p).mp hp2
        exact hn1.1 (h1.2.1 ▸ h2.2.1)

theorem scatterWalls_some (RAND_MAX : Int) (rand : Nat → Int) :
    ∀ (k calls : Nat) (g g1 : Vampires) (walls : List (Int × Int)) (spacesLeft : Int),
      scatterWalls RAND_MAX rand k calls g walls spacesLeft = some g1 → Wf g →
      Wf g1 ∧ SameConsts g g1 ∧ g1.m_vampires = g.m_vampires ∧ g1.m_player = g.m_player ∧
        ∃ ps : List (Int × Int), ps.length = k ∧ (∀ p ∈ ps, p ∈ walls) ∧
          g1.items = g.items ++ ps.map wallItem := by
  intro k
  induction k with
  | zero =>
    intro calls g g1 walls s h hw
    simp only [scatterWalls, Option.some.injEq] at h
    subst h
    exact ⟨hw, SameConsts.refl g, rfl, rfl, [], rfl, by simp, by simp⟩
  | succ k ih =>
    intro calls g g1 walls s h hw
    rw [scatterWalls] at h
    cases hi : pickIndex RAND_MAX (rand calls) s with
    | none => simp [hi] at h
    | some i =>
      simp only [hi] at h
      cases hwall : (if 0 ≤ i then walls[i.toNat]? else none) with
      | none => simp [hwall] at h
      | some wall =>
        simp only [hwall] at h
        cases hc : createItem g Kind.wall wall.1 wall.2 with
        | none => simp [hc] at h
        | some r =>
          obtain ⟨id, ga⟩ := r
          simp only [hc] at h
          obtain ⟨_, c1⟩ := createItem_some hc
          obtain ⟨hw1, hs, hv, hp, ps, hlen, hmem, hitems⟩ := ih _ _ _ _ _ h (c1.keeps_wf hw)
          have hwmem : wall ∈ walls := by
            by_cases h0 : 0 ≤ i
            · rw [if_pos h0] at hwall
              exact List.getElem?_mem hwall
            · rw [if_neg h0] at hwall
              exact absurd hwall (by simp)
          refine ⟨hw1, c1.sameConsts.trans hs, hv.trans c1.m_vampires, hp.trans c1.m_player,
            wall :: ps, by simp [hlen], ?_, ?_⟩
          · intro p hp1
            rcases List.mem_cons.mp hp1 with h1 | h1
            · exact h1 ▸ hwmem
            · have h2 := hmem p h1
              by_cases hne : i ≠ s - 1
              · rw [if_pos hne] at h2
                exact List.mem_of_mem_eraseIdx h2
              · rw [if_neg hne] at h2
                exact h2
          · rw [hitems, c1.items]
            simp [wallItem]
/-! ## The outcome of the constructor -/

theorem length_ringPositions (maxVampireCount vampireCount : Int) :
    ∀ (k : Nat) (pa : Int × Int),
      (ringPositions maxVampireCount vampireCount k pa).length = k := by
  intro k
  induction k with
  | zero => intro pa; rfl
  | succ k ih => intro pa; simp [ringPositions, ih]

theorem initGame_built {RAND_MAX : Int} {rand : Nat → Int} {g0 g : Vampires}
    (h : initGame RAND_MAX rand g0 = some g) (hw : Wf g0) (hitems : g0.items = [])
    (hvs : g0.m_vampires = []) :
    SameConsts g0 g ∧ Wf g ∧ ∃ ps : List (Int × Int),
      g.items = borderItems g0.width g0.height ++
        (ringPositions (ringLength g0.width g0.height) g0.vampireCount g0.vampireCount.toNat
          (0, 0)).map (vampireItem g0.width g0.height) ++
        [⟨Kind.player, Int.tdiv g0.width 2, Int.tdiv g0.height 2⟩] ++ ps.map wallItem ∧
      g.m_vampires = (List.range g0.vampireCount.toNat).map
        (fun i => (⟨(borderItems g0.width g0.height).length + i, 0⟩ : Vampire)) ∧
      g.m_player = (borderItems g0.width g0.height).length + g0.vampireCount.toNat ∧
      ps.length = g0.wallCount.toNat ∧
      (∀ p ∈ ps, 2 ≤ p.1 ∧ p.1 < g0.width - 2 ∧ 2 ≤ p.2 ∧ p.2 < g0.height - 2) := by
  unfold initGame at h
  cases h1 : drawBorderRows (intRange 0 g0.width) g0 with
  | none => rw [h1] at h; exact absurd h (by simp)
  | some g1 =>
    rw [h1] at h; dsimp only at h
    cases h2 : drawBorderColumns (intRange 1 (g0.height - 1)) g1 with
    | none => rw [h2] at h; exact absurd h (by simp)
    | some g2 =>
      rw [h2] at h; dsimp only at h
      cases h3 : settleVampires (2 * (g0.width - 2) + 2 * (g0.height - 4))
          g0.vampireCount.toNat (0, 0) g2 with
      | none => rw [h3] at h; exact absurd h (by simp)
      | some g3 =>
        rw [h3] at h; dsimp only at h
        by_cases hcount : (g3.m_vampires.length : Int) ≠ g0.vampireCount
        · simp [hcount] at h
        · rw [if_neg hcount] at h
          cases h4 : createItem g3 Kind.player (Int.tdiv g0.width 2) (Int.tdiv g0.height 2) with
          | none => rw [h4] at h; exact absurd h (by simp)
          | some r =>
            obtain ⟨id, g4⟩ := r
            rw [h4] at h; dsimp only at h
            cases h5 : freeCells { g4 with m_player := id } (intRange 2 (g0.width - 2))
                (intRange 2 (g0.height - 2)) with
            | none => rw [h5] at h; exact absurd h (by simp)
            | some walls =>
              rw [h5] at h; dsimp only at h
              obtain ⟨w1, s1, v1, p1, i1⟩ := drawBorderRows_some _ _ _ h1 hw
              obtain ⟨w2, s2, v2, p2, i2⟩ := drawBorderColumns_some _ _ _ h2 w1
              obtain ⟨w3, s3, p3, i3, v3⟩ := settleVampires_some _ _ _ _ _ h3 w2
              obtain ⟨hid, c4⟩ := createItem_some h4
              have w4 : Wf { g4 with m_player := id } :=
                ⟨(c4.keeps_wf w3).bounds, (c4.keeps_wf w3).cell_item, (c4.keeps_wf w3).item_cell⟩
              obtain ⟨w5, s5, v5, p5, ps, hlen, hmem, i5⟩ := scatterWalls_some _ _ _ _ _ _ _ _ h w4
              have s4 : SameConsts g0 { g4 with m_player := id } :=
                ⟨c4.width.trans (s3.width.trans (s2.width.trans s1.width)),
                  c4.height.trans (s3.height.trans (s2.height.trans s1.height)),
                  c4.vampireCount.trans
                    (s3.vampireCount.trans (s2.vampireCount.trans s1.vampireCount)),
                  c4.wallCount.trans (s3.wallCount.trans (s2.wallCount.trans s1.wallCount))⟩
              have hB : g2.items = borderItems g0.width g0.height := by
                rw [i2, i1, hitems, s1.width]
                simp [borderItems]
              refine ⟨s4.trans s5, w5, ps, ?_, ?_, ?_, hlen, ?_⟩
              · rw [i5]
                show g4.items ++ _ = _
                rw [c4.items, i3, hB, s2.vampireCount, s1.vampireCount, s2.width, s1.width,
                  s2.height, s1.height]
                rfl
              · rw [v5]
                show g4.m_vampires = _
                rw [c4.m_vampires, v3, v2, v1, hvs, hB]
                simp
              · rw [p5]
                show id = _
                rw [hid, i3, hB]
                simp [length_ringPositions]
              · intro p hp
                have h6 := (freeCells_some _ _ _ _ h5 p).mp (hmem p hp)
                have h7 := mem_intRange.mp h6.1
                have h8 := mem_intRange.mp h6.2.1
                exact ⟨h7.1, h7.2, h8.1, h8.2⟩

theorem construct_built {width height vampireCount wallCount RAND_MAX : Int}
    {rand : Nat → Int} {g : Vampires}
    (h : construct width height vampireCount wallCount RAND_MAX rand = some g) :
    ∃ ps : List (Int × Int), Built width height vampireCount wallCount ps g := by
  unfold construct at h
  split at h
  · rename_i hp
    obtain ⟨hs, hw, ps, hi, hv, hpl, hlen, hint⟩ :=
      initGame_built h (wf_emptyGame width height vampireCount wallCount) rfl rfl
    exact ⟨ps, ⟨hp.1, hp.2.1, hp.2.2.1, hp.2.2.2.1, hp.2.2.2.2, hs.width, hs.height,
      hs.vampireCount, hs.wallCount, hw, hi, hv, hpl, hlen, hint⟩⟩
  · exact absurd h (by simp)
/-! ## The items of a constructed state -/

theorem mem_borderRowItems {height : Int} {it : Item} :
    ∀ xs : List Int, it ∈ borderRowItems height xs ↔
      (it.kind = Kind.border ∧ it.x ∈ xs ∧ (it.y = 0 ∨ it.y = height - 1)) := by
  intro xs
  induction xs with
  | nil => simp [borderRowItems]
  | cons x xs ih =>
    simp only [borderRowItems, List.mem_cons, ih]
    constructor
    · rintro (h | h | ⟨h1, h2, h3⟩)
      · subst h
        exact ⟨rfl, Or.inl rfl, Or.inl rfl⟩
      · subst h
        exact ⟨rfl, Or.inl rfl, Or.inr rfl⟩
      · exact ⟨h1, Or.inr h2, h3⟩
    · rintro ⟨h1, h2 | h2, h3⟩
      · obtain ⟨k, x1, y1⟩ := it
        simp only at h1 h2 h3
        subst h1 h2
        rcases h3 with h3 | h3
        · left; rw [h3]
        · right; left; rw [h3]
      · exact Or.inr (Or.inr ⟨h1, h2, h3⟩)

theorem mem_borderColumnItems {width : Int} {it : Item} :
    ∀ ys : List Int, it ∈ borderColumnItems width ys ↔
      (it.kind = Kind.border ∧ it.y ∈ ys ∧ (it.x = 0 ∨ it.x = width - 1)) := by
  intro ys
  induction ys with
  | nil => simp [borderColumnItems]
  | cons y ys ih =>
    simp only [borderColumnItems, List.mem_cons, ih]
    constructor
    · rintro (h | h | ⟨h1, h2, h3⟩)
      · subst h
        exact ⟨rfl, Or.inl rfl, Or.inl rfl⟩
      · subst h
        exact ⟨rfl, Or.inl rfl, Or.inr rfl⟩
      · exact ⟨h1, Or.inr h2, h3⟩
    · rintro ⟨h1, h2 | h2, h3⟩
      · obtain ⟨k, x1, y1⟩ := it
        simp only at h1 h2 h3
        subst h1 h2
        rcases h3 with h3 | h3
        · left; rw [h3]
        · right; left; rw [h3]
      · exact Or.inr (Or.inr ⟨h1, h2, h3⟩)

theorem mem_borderItems {width height : Int} (hw : 1 ≤ width) (hh : 1 ≤ height) {it : Item} :
    it ∈ borderItems width height ↔
      (it.kind = Kind.border ∧ 0 ≤ it.x ∧ it.x < width ∧ 0 ≤ it.y ∧ it.y < height ∧
        (it.x = 0 ∨ it.x = width - 1 ∨ it.y = 0 ∨ it.y = height - 1)) := by
  unfold borderItems
  simp only [List.mem_append, mem_borderRowItems, mem_borderColumnItems, mem_intRange]
  constructor
  · rintro (⟨h1, ⟨h2, h3⟩, h4⟩ | ⟨h1, ⟨h2, h3⟩, h4⟩)
    · refine ⟨h1, h2, h3, ?_, ?_, ?_⟩ <;> omega
    · refine ⟨h1, ?_, ?_, ?_, ?_, ?_⟩ <;> omega
  · rintro ⟨h1, h2, h3, h4, h5, h6⟩
    by_cases hy : it.y = 0 ∨ it.y = height - 1
    · exact Or.inl ⟨h1, ⟨h2, h3⟩, hy⟩
    · refine Or.inr ⟨h1, ⟨?_, ?_⟩, ?_⟩ <;> omega

theorem length_intRange (lo hi : Int) : (intRange lo hi).length = (hi - lo).toNat := by
  simp [intRange]

theorem length_borderRowItems (height : Int) :
    ∀ xs : List Int, (borderRowItems height xs).length = 2 * xs.length := by
  intro xs
  induction xs with
  | nil => rfl
  | cons x xs ih => simp only [borderRowItems, List.length_cons, ih]; omega

theorem length_borderColumnItems (width : Int) :
    ∀ ys : List Int, (borderColumnItems width ys).length = 2 * ys.length := by
  intro ys
  induction ys with
  | nil => rfl
  | cons y ys ih => simp only [borderColumnItems, List.length_cons, ih]; omega

theorem length_borderItems {width height : Int} (hw : 0 ≤ width) (hh : 2 ≤ height) :
    ((borderItems width height).length : Int) = 2 * width + 2 * (height - 2) := by
  unfold borderItems
  rw [List.length_append, length_borderRowItems, length_borderColumnItems, length_intRange,
    length_intRange]
  push_cast
  rw [Int.toNat_of_nonneg (by omega), Int.toNat_of_nonneg (by omega)]
  omega

theorem Wf.holds_iff {g : Vampires} (hw : Wf g) {x y : Int} {kind : Kind} :
    Holds g x y kind ↔ ∃ it ∈ g.items, it.kind = kind ∧ it.x = x ∧ it.y = y := by
  constructor
  · rintro ⟨id, it, hc, hi, hk⟩
    obtain ⟨it1, hi1, hx, hy⟩ := hw.cell_item x y id hc
    rw [hi] at hi1
    injection hi1 with hi1
    subst hi1
    exact ⟨it, List.getElem?_mem hi, hk, hx, hy⟩
  · rintro ⟨it, hmem, hk, hx, hy⟩
    obtain ⟨id, hid⟩ := List.mem_iff_getElem?.mp hmem
    have hc := hw.item_cell id it hid
    rw [hx, hy] at hc
    exact ⟨id, it, hc, hid, hk⟩

theorem Wf.empty_iff {g : Vampires} (hw : Wf g) {x y : Int} :
    cellAt g.m_field x y = some none ↔
      ((0 ≤ x ∧ x < g.width ∧ 0 ≤ y ∧ y < g.height) ∧
        ∀ it ∈ g.items, ¬ (it.x = x ∧ it.y = y)) := by
  constructor
  · intro h
    refine ⟨(hw.bounds x y).mp (by simp [h]), ?_⟩
    rintro it hmem ⟨hx, hy⟩
    obtain ⟨id, hid⟩ := List.mem_iff_getElem?.mp hmem
    have hc := hw.item_cell id it hid
    rw [hx, hy, h] at hc
    exact absurd hc (by simp)
  · rintro ⟨hb, hno⟩
    have h := (hw.bounds x y).mpr hb
    obtain ⟨c, hc⟩ := Option.isSome_iff_exists.mp h
    cases c with
    | none => exact hc
    | some id =>
      obtain ⟨it, hi, hx, hy⟩ := hw.cell_item x y id hc
      exact absurd ⟨hx, hy⟩ (hno it (List.getElem?_mem hi))

theorem Wf.noOverlap {g : Vampires} (hw : Wf g) : NoOverlap g := by
  intro id1 id2 it1 it2 h1 h2 hne
  rintro ⟨hx, hy⟩
  have c1 := hw.item_cell id1 it1 h1
  have c2 := hw.item_cell id2 it2 h2
  rw [hx, hy, c2] at c1
  injection c1 with c1
  injection c1 with c1
  exact hne c1.symm

theorem getElem?_middle {α : Type} (l1 l2 : List α) (a : α) :
    (l1 ++ [a] ++ l2)[l1.length]? = some a := by
  rw [List.append_assoc, List.getElem?_append_right (le_refl _)]
  simp

theorem index_of_middle {α : Type} {l1 l2 : List α} {a b : α} {P : α → Prop} {i : Nat}
    (h1 : ∀ x ∈ l1, ¬ P x) (h2 : ∀ x ∈ l2, ¬ P x)
    (hi : (l1 ++ [a] ++ l2)[i]? = some b) (hb : P b) : i = l1.length := by
  rcases Nat.lt_trichotomy i l1.length with h | h | h
  · rw [List.append_assoc, List.getElem?_append_left h] at hi
    exact absurd hb (h1 b (List.getElem?_mem hi))
  · exact h
  · rw [List.append_assoc, List.getElem?_append_right (le_of_lt h),
      List.getElem?_append_right (by simp; omega)] at hi
    exact absurd hb (h2 b (List.getElem?_mem hi))
theorem Built.length_prefix {width height vampireCount wallCount : Int}
    {ps : List (Int × Int)} {g : Vampires} (hb : Built width height vampireCount wallCount ps g) :
    (borderItems width height ++
      (ringPositions (ringLength width height) vampireCount vampireCount.toNat (0, 0)).map
        (vampireItem width height)).length = g.m_player := by
  rw [hb.m_player, List.length_append, List.length_map, length_ringPositions]

theorem Built.player_item {width height vampireCount wallCount : Int}
    {ps : List (Int × Int)} {g : Vampires} (hb : Built width height vampireCount wallCount ps g) :
    g.items[g.m_player]? = some ⟨Kind.player, Int.tdiv width 2, Int.tdiv height 2⟩ := by
  rw [hb.items, ← hb.length_prefix]
  exact getElem?_middle _ _ _

theorem Built.vampire_item {width height vampireCount wallCount : Int}
    {ps : List (Int × Int)} {g : Vampires} (hb : Built width height vampireCount wallCount ps g)
    {i : Nat} (hi : i < vampireCount.toNat) :
    g.items[(borderItems width height).length + i]? =
      ((ringPositions (ringLength width height) vampireCount vampireCount.toNat (0, 0)).map
        (vampireItem width height))[i]? := by
  rw [hb.items, List.append_assoc, List.append_assoc,
    List.getElem?_append_right (Nat.le_add_right _ _), Nat.add_sub_cancel_left,
    List.getElem?_append_left (by rw [List.length_map, length_ringPositions]; exact hi)]

theorem Built.mem_items {width height vampireCount wallCount : Int}
    {ps : List (Int × Int)} {g : Vampires} (hb : Built width height vampireCount wallCount ps g)
    {it : Item} :
    it ∈ g.items ↔
      (it ∈ borderItems width height ∨
        (∃ q ∈ ringPositions (ringLength width height) vampireCount vampireCount.toNat (0, 0),
          it = vampireItem width height q) ∨
        it = ⟨Kind.player, Int.tdiv width 2, Int.tdiv height 2⟩ ∨
        ∃ p ∈ ps, it = wallItem p) := by
  rw [hb.items]
  simp only [List.mem_append, List.mem_map, List.mem_singleton]
  constructor
  · rintro (((h | ⟨q, h1, h2⟩) | h) | ⟨p, h1, h2⟩)
    · exact Or.inl h
    · exact Or.inr (Or.inl ⟨q, h1, h2.symm⟩)
    · exact Or.inr (Or.inr (Or.inl h))
    · exact Or.inr (Or.inr (Or.inr ⟨p, h1, h2.symm⟩))
  · rintro (h | ⟨q, h1, h2⟩ | h | ⟨p, h1, h2⟩)
    · exact Or.inl (Or.inl (Or.inl h))
    · exact Or.inl (Or.inl (Or.inr ⟨q, h1, h2.symm⟩))
    · exact Or.inl (Or.inr h)
    · exact Or.inr ⟨p, h1, h2.symm⟩

theorem Built.consistent {width height vampireCount wallCount : Int}
    {ps : List (Int × Int)} {g : Vampires} (hb : Built width height vampireCount wallCount ps g) :
    Valid g := by
  have hw7 := hb.width_ge
  have hh7 := hb.height_ge
  refine ⟨hb.wf.bounds, hb.wf.cell_item, hb.wf.item_cell, ?_, ?_, ?_, ?_, ?_⟩
  · intro x y hx0 hx1 hy0 hy1 hr
    rw [← holds_iff_fieldHas, hb.wf.holds_iff]
    refine ⟨⟨Kind.border, x, y⟩, hb.mem_items.mpr (Or.inl ?_), rfl, rfl, rfl⟩
    rw [mem_borderItems (by omega) (by omega)]
    rw [hb.width_eq] at hx1
    rw [hb.height_eq] at hy1
    unfold onRing at hr
    rw [hb.width_eq, hb.height_eq] at hr
    exact ⟨rfl, hx0, hx1, hy0, hy1, hr⟩
  · exact ⟨_, hb.player_item, rfl⟩
  · intro id it hi hk
    rw [hb.items] at hi
    rw [← hb.length_prefix]
    refine index_of_middle (P := fun i : Item => i.kind = Kind.player) ?_ ?_ hi hk
    · intro i hmem
      show ¬ i.kind = Kind.player
      rcases List.mem_append.mp hmem with h | h
      · rw [((mem_borderItems (by omega) (by omega)).mp h).1]
        decide
      · obtain ⟨q, _, hq⟩ := List.mem_map.mp h
        rw [← hq]
        simp [vampireItem]
    · intro i hmem
      show ¬ i.kind = Kind.player
      obtain ⟨p, _, hp⟩ := List.mem_map.mp hmem
      rw [← hp]
      simp [wallItem]
  · intro v hv
    rw [hb.m_vampires] at hv
    obtain ⟨i, hi, rfl⟩ := List.mem_map.mp hv
    have hi1 := List.mem_range.mp hi
    show ∃ it, g.items[(borderItems width height).length + i]? = some it ∧ _
    rw [hb.vampire_item hi1]
    have hlen : i < ((ringPositions (ringLength width height) vampireCount vampireCount.toNat
        (0, 0)).map (vampireItem width height)).length := by
      rw [List.length_map, length_ringPositions]
      exact hi1
    refine ⟨_, List.getElem?_eq_getElem hlen, ?_⟩
    rw [List.getElem_map]
    rfl
  · rw [hb.m_vampires, List.map_map]
    refine List.Nodup.map ?_ (List.nodup_range _)
    intro a b hab
    simp only [Function.comp] at hab
    omega
/-! ## The constructor completes -/

theorem createItem_free {g : Vampires} (hw : Wf g) (kind : Kind) {x y : Int}
    (hb : 0 ≤ x ∧ x < g.width ∧ 0 ≤ y ∧ y < g.height)
    (hno : ∀ it ∈ g.items, ¬ (it.x = x ∧ it.y = y)) :
    ∃ g1, createItem g kind x y = some (g.items.length, g1) ∧ Created g g1 kind x y := by
  obtain ⟨g1, h1⟩ := createItem_of_empty kind (hw.empty_iff.mpr ⟨hb, hno⟩)
  exact ⟨g1, h1, (createItem_some h1).2⟩

theorem drawBorderRows_total :
    ∀ (xs : List Int) (g : Vampires), Wf g → xs.Nodup → (∀ x ∈ xs, 0 ≤ x ∧ x < g.width) →
      2 ≤ g.height → (∀ it ∈ g.items, it.x ∉ xs) → ∃ g1, drawBorderRows xs g = some g1 := by
  intro xs
  induction xs with
  | nil => intro g _ _ _ _ _; exact ⟨g, rfl⟩
  | cons x xs ih =>
    intro g hw hn hx hh hno
    have hn1 := List.nodup_cons.mp hn
    have hx1 := hx x (List.mem_cons_self _ _)
    obtain ⟨ga, ha, ca⟩ := createItem_free hw Kind.border (x := x) (y := 0)
      ⟨hx1.1, hx1.2, le_refl _, by omega⟩
      (fun it hit h => hno it hit (h.1 ▸ List.mem_cons_self _ _))
    obtain ⟨gb, hb, cb⟩ := createItem_free (ca.keeps_wf hw) Kind.border (x := x) (y := ga.height - 1)
      ⟨hx1.1, by rw [ca.width]; exact hx1.2, by rw [ca.height]; omega, by omega⟩
      (by
        intro it hit h
        rw [ca.items] at hit
        rcases List.mem_append.mp hit with h1 | h1
        · exact hno it h1 (h.1 ▸ List.mem_cons_self _ _)
        · rw [List.mem_singleton] at h1
          rw [h1, ca.height] at h
          have := h.2
          simp only at this
          omega)
    obtain ⟨g1, h1⟩ := ih gb (cb.keeps_wf (ca.keeps_wf hw)) hn1.2
      (fun x1 hx2 => by
        rw [cb.width, ca.width]
        exact hx x1 (List.mem_cons_of_mem _ hx2))
      (by rw [cb.height, ca.height]; exact hh)
      (by
        intro it hit
        rw [cb.items, ca.items] at hit
        rcases List.mem_append.mp hit with h1 | h1
        · rcases List.mem_append.mp h1 with h2 | h2
          · exact fun h => hno it h2 (List.mem_cons_of_mem _ h)
          · rw [List.mem_singleton] at h2
            rw [h2]
            exact hn1.1
        · rw [List.mem_singleton] at h1
          rw [h1]
          exact hn1.1)
    exact ⟨g1, by rw [drawBorderRows, ha]; dsimp only; rw [hb]; exact h1⟩

theorem drawBorderColumns_total :
    ∀ (ys : List Int) (g : Vampires), Wf g → ys.Nodup → (∀ y ∈ ys, 0 ≤ y ∧ y < g.height) →
      2 ≤ g.width → (∀ it ∈ g.items, it.y ∉ ys) → ∃ g1, drawBorderColumns ys g = some g1 := by
  intro ys
  induction ys with
  | nil => intro g _ _ _ _ _; exact ⟨g, rfl⟩
  | cons y ys ih =>
    intro g hw hn hy hh hno
    have hn1 := List.nodup_cons.mp hn
    have hy1 := hy y (List.mem_cons_self _ _)
    obtain ⟨ga, ha, ca⟩ := createItem_free hw Kind.border (x := 0) (y := y)
      ⟨le_refl _, by omega, hy1.1, hy1.2⟩
      (fun it hit h => hno it hit (h.2 ▸ List.mem_cons_self _ _))
    obtain ⟨gb, hb, cb⟩ := createItem_free (ca.keeps_wf hw) Kind.border (x := ga.width - 1) (y := y)
      ⟨by rw [ca.width]; omega, by omega, hy1.1, by rw [ca.height]; exact hy1.2⟩
      (by
        intro it hit h
        rw [ca.items] at hit
        rcases List.mem_append.mp hit with h1 | h1
        · exact hno it h1 (h.2 ▸ List.mem_cons_self _ _)
        · rw [List.mem_singleton] at h1
          rw [h1, ca.width] at h
          have := h.1
          simp only at this
          omega)
    obtain ⟨g1, h1⟩ := ih gb (cb.keeps_wf (ca.keeps_wf hw)) hn1.2
      (fun y1 hy2 => by
        rw [cb.height, ca.height]
        exact hy y1 (List.mem_cons_of_mem _ hy2))
      (by rw [cb.width, ca.width]; exact hh)
      (by
        intro it hit
        rw [cb.items, ca.items] at hit
        rcases List.mem_append.mp hit with h1 | h1
        · rcases List.mem_append.mp h1 with h2 | h2
          · exact fun h => hno it h2 (List.mem_cons_of_mem _ h)
          · rw [List.mem_singleton] at h2
            rw [h2]
            exact hn1.1
        · rw [List.mem_singleton] at h1
          rw [h1]
          exact hn1.1)
    exact ⟨g1, by rw [drawBorderColumns, ha]; dsimp only; rw [hb]; exact h1⟩

theorem nodup_intRange (lo hi : Int) : (intRange lo hi).Nodup := by
  unfold intRange
  refine List.Nodup.map ?_ (List.nodup_range _)
  intro a b hab
  simp only at hab
  omega
/-! ## The positions of the pursuers along the inner ring -/

/-- The invariant of the loop that settles the pursuers, before the passage `i`:
`position * vampireCount + accumulator = i * maxVampireCount`, with the accumulator a
remainder. -/
theorem advance_inv {maxVampireCount vampireCount i : Int} {pa : Int × Int}
    (hn : 1 ≤ vampireCount) (hP : 0 ≤ maxVampireCount)
    (h1 : pa.1 * vampireCount + pa.2 = i * maxVampireCount)
    (h2 : 0 ≤ pa.2) (h3 : pa.2 < vampireCount) :
    (advance maxVampireCount vampireCount pa).1 * vampireCount
        + (advance maxVampireCount vampireCount pa).2 = (i + 1) * maxVampireCount ∧
      0 ≤ (advance maxVampireCount vampireCount pa).2 ∧
      (advance maxVampireCount vampireCount pa).2 < vampireCount ∧
      pa.1 ≤ (advance maxVampireCount vampireCount pa).1 ∧
      (vampireCount ≤ maxVampireCount → pa.1 + 1 ≤ (advance maxVampireCount vampireCount pa).1) := by
  have hq : 0 ≤ maxVampireCount / vampireCount := Int.ediv_nonneg hP (by omega)
  have hq1 : vampireCount ≤ maxVampireCount → 1 ≤ maxVampireCount / vampireCount := by
    intro h
    exact (Int.le_ediv_iff_mul_le (by omega)).mpr (by omega)
  have hr0 : 0 ≤ maxVampireCount % vampireCount := Int.emod_nonneg _ (by omega)
  have hr1 : maxVampireCount % vampireCount < vampireCount := Int.emod_lt_of_pos _ (by omega)
  have hd := Int.ediv_add_emod maxVampireCount vampireCount
  unfold advance
  rw [Int.tdiv_eq_ediv hP (by omega), Int.tmod_eq_emod hP (by omega)]
  dsimp only
  split
  · refine ⟨?_, by omega, by omega, by omega, fun h => by have := hq1 h; omega⟩
    linear_combination h1 + hd
  · refine ⟨?_, by omega, by omega, by omega, fun h => by have := hq1 h; omega⟩
    linear_combination h1 + hd

theorem position_eq_div {vampireCount maxVampireCount i : Int} {pa : Int × Int}
    (hn : 1 ≤ vampireCount)
    (h1 : pa.1 * vampireCount + pa.2 = i * maxVampireCount)
    (h2 : 0 ≤ pa.2) (h3 : pa.2 < vampireCount) :
    pa.1 = i * maxVampireCount / vampireCount := by
  have h := (Int.ediv_emod_unique (a := i * maxVampireCount) (b := vampireCount) (r := pa.2)
    (q := pa.1) (by omega)).mpr ⟨by linear_combination h1, h2, h3⟩
  exact h.1.symm

theorem ringPositions_eq_aux {maxVampireCount vampireCount : Int} (hn : 1 ≤ vampireCount)
    (hP : 0 ≤ maxVampireCount) :
    ∀ (k : Nat) (i : Int) (pa : Int × Int),
      pa.1 * vampireCount + pa.2 = i * maxVampireCount → 0 ≤ pa.2 → pa.2 < vampireCount →
      ringPositions maxVampireCount vampireCount k pa =
        (List.range k).map (fun j : Nat => (i + (j : Int)) * maxVampireCount / vampireCount) := by
  intro k
  induction k with
  | zero => intro i pa _ _ _; rfl
  | succ k ih =>
    intro i pa h1 h2 h3
    obtain ⟨a1, a2, a3, _, _⟩ := advance_inv hn hP h1 h2 h3
    rw [ringPositions, ih (i + 1) _ a1 a2 a3, List.range_succ_eq_map, List.map_cons,
      List.map_map]
    congr 1
    · rw [position_eq_div hn h1 h2 h3]
      simp
    · apply List.map_congr_left
      intro j _
      simp only [Function.comp, Nat.succ_eq_add_one]
      push_cast
      ring_nf

/-- The value of `position` in the passage `i` of the loop is `floor (i * P / n)`. -/
theorem ringPositions_eq {maxVampireCount vampireCount : Int} (hn : 1 ≤ vampireCount)
    (hP : 0 ≤ maxVampireCount) (k : Nat) :
    ringPositions maxVampireCount vampireCount k (0, 0) =
      (List.range k).map (fun j : Nat => (j : Int) * maxVampireCount / vampireCount) := by
  rw [ringPositions_eq_aux hn hP k 0 (0, 0) (by simp) (le_refl _) (by simp; omega)]
  apply List.map_congr_left
  intro j _
  simp

theorem ringCell_bounds {width height q : Int} (hw : 7 ≤ width) (hh : 7 ≤ height)
    (hq0 : 0 ≤ q) (hq1 : q < ringLength width height) :
    1 ≤ (ringCell width height q).1 ∧ (ringCell width height q).1 ≤ width - 2 ∧
      1 ≤ (ringCell width height q).2 ∧ (ringCell width height q).2 ≤ height - 2 := by
  unfold ringLength at hq1
  unfold ringCell
  split_ifs <;> dsimp only <;> omega

theorem ringCell_inner (width height q : Int) :
    (ringCell width height q).1 = 1 ∨ (ringCell width height q).1 = width - 2 ∨
      (ringCell width height q).2 = 1 ∨ (ringCell width height q).2 = height - 2 := by
  unfold ringCell
  split_ifs <;> simp

theorem ringCell_inj {width height q1 q2 : Int} (hw : 7 ≤ width) (hh : 7 ≤ height)
    (h11 : q1 < ringLength width height) (h21 : q2 < ringLength width height)
    (h : ringCell width height q1 = ringCell width height q2) : q1 = q2 := by
  unfold ringLength at h11 h21
  unfold ringCell at h
  split_ifs at h <;> simp only [Prod.mk.injEq] at h <;> omega
theorem settleVampires_total :
    ∀ (k : Nat) (i : Int) (pa : Int × Int) (g : Vampires), Wf g →
      7 ≤ g.width → 7 ≤ g.height → 1 ≤ g.vampireCount →
      g.vampireCount ≤ ringLength g.width g.height →
      pa.1 * g.vampireCount + pa.2 = i * ringLength g.width g.height →
      0 ≤ pa.2 → pa.2 < g.vampireCount → 0 ≤ pa.1 → i + (k : Int) ≤ g.vampireCount →
      (∀ it ∈ g.items, ∀ q, pa.1 ≤ q → q < ringLength g.width g.height →
        (it.x, it.y) ≠ ringCell g.width g.height q) →
      ∃ g1, settleVampires (ringLength g.width g.height) k pa g = some g1 := by
  intro k
  induction k with
  | zero => intro i pa g _ _ _ _ _ _ _ _ _ _ _; exact ⟨g, rfl⟩
  | succ k ih =>
    intro i pa g hw hw7 hh7 hn hnP h1 h2 h3 h4 hik hno
    have hP : 0 ≤ ringLength g.width g.height := by unfold ringLength; omega
    have hlt : pa.1 < ringLength g.width g.height := by
      have hi : i + 1 ≤ g.vampireCount := by push_cast at hik; omega
      by_contra hge
      have hge1 : ringLength g.width g.height ≤ pa.1 := not_lt.mp hge
      have hm1 : ringLength g.width g.height * g.vampireCount ≤ pa.1 * g.vampireCount :=
        mul_le_mul_of_nonneg_right hge1 (by omega)
      have hm2 : (i + 1) * ringLength g.width g.height
          ≤ g.vampireCount * ringLength g.width g.height :=
        mul_le_mul_of_nonneg_right hi hP
      have hpos : 0 < ringLength g.width g.height := by unfold ringLength; omega
      nlinarith
    have hb := ringCell_bounds hw7 hh7 h4 hlt
    obtain ⟨ga, ha, ca⟩ := createItem_free hw Kind.vampire
      (x := (ringCell g.width g.height pa.1).1) (y := (ringCell g.width g.height pa.1).2)
      ⟨by omega, by omega, by omega, by omega⟩
      (fun it hit h => hno it hit pa.1 (le_refl _) hlt (Prod.ext h.1 h.2))
    obtain ⟨a1, a2, a3, a4, a5⟩ := advance_inv hn hP h1 h2 h3
    have hwa : Wf { ga with m_vampires := ga.m_vampires ++ [⟨g.items.length, 0⟩] } :=
      ⟨(ca.keeps_wf hw).bounds, (ca.keeps_wf hw).cell_item, (ca.keeps_wf hw).item_cell⟩
    have hrec := ih (i + 1) (advance (ringLength g.width g.height) g.vampireCount pa)
      { ga with m_vampires := ga.m_vampires ++ [⟨g.items.length, 0⟩] } hwa
      (by show 7 ≤ ga.width; rw [ca.width]; exact hw7)
      (by show 7 ≤ ga.height; rw [ca.height]; exact hh7)
      (by show 1 ≤ ga.vampireCount; rw [ca.vampireCount]; exact hn)
      (by
        show ga.vampireCount ≤ ringLength ga.width ga.height
        rw [ca.vampireCount, ca.width, ca.height]; exact hnP)
      (by
        show _ * ga.vampireCount + _ = (i + 1) * ringLength ga.width ga.height
        rw [ca.vampireCount, ca.width, ca.height]; exact a1)
      a2
      (by show _ < ga.vampireCount; rw [ca.vampireCount]; exact a3)
      (by omega)
      (by show i + 1 + (k : Int) ≤ ga.vampireCount; rw [ca.vampireCount]; push_cast at hik; omega)
      (by
        intro it hit q hq0 hq1
        have hit1 : it ∈ ga.items := hit
        have hq2 : q < ringLength g.width g.height := by
          have : q < ringLength ga.width ga.height := hq1
          rw [ca.width, ca.height] at this
          exact this
        show (it.x, it.y) ≠ ringCell ga.width ga.height q
        rw [ca.width, ca.height]
        have hq3 := a5 hnP
        rw [ca.items] at hit1
        rcases List.mem_append.mp hit1 with h5 | h5
        · exact hno it h5 q (by omega) hq2
        · rw [List.mem_singleton] at h5
          rw [h5]
          intro heq
          have := ringCell_inj hw7 hh7 hlt hq2 heq
          omega)
    obtain ⟨g1, hg1⟩ := hrec
    refine ⟨g1, ?_⟩
    rw [settleVampires, ha]
    dsimp only
    rw [← hg1, ca.width, ca.height]
/-! ## The index of a wall -/

theorem wrapInt_of_fits {n : Int} (h0 : INT_MIN ≤ n) (h1 : n ≤ INT_MAX) : wrapInt n = n := by
  unfold wrapInt
  unfold INT_MIN at h0 ⊢
  unfold INT_MAX at h1
  omega

/-- Without overflow the index is the exact quotient, rounded to the nearest, and it lies in
`0 .. spacesLeft - 1`. -/
theorem pickIndex_fits {RAND_MAX r spacesLeft : Int} (hM : 0 < RAND_MAX)
    (h2M : 2 * RAND_MAX ≤ INT_MAX)
    (hfit : 2 * RAND_MAX * (spacesLeft - 1) + RAND_MAX ≤ INT_MAX) (hs : 1 ≤ spacesLeft)
    (hr0 : 0 ≤ r) (hr1 : r ≤ RAND_MAX) :
    pickIndex RAND_MAX r spacesLeft
        = some ((2 * r * (spacesLeft - 1) + RAND_MAX) / (2 * RAND_MAX)) ∧
      0 ≤ (2 * r * (spacesLeft - 1) + RAND_MAX) / (2 * RAND_MAX) ∧
      (2 * r * (spacesLeft - 1) + RAND_MAX) / (2 * RAND_MAX) ≤ spacesLeft - 1 := by
  have hmin : INT_MIN ≤ 0 := by unfold INT_MIN; omega
  have hprod : 2 * r * (spacesLeft - 1) ≤ 2 * RAND_MAX * (spacesLeft - 1) :=
    mul_le_mul_of_nonneg_right (by omega) (by omega)
  have hprod0 : 0 ≤ 2 * r * (spacesLeft - 1) := mul_nonneg (by omega) (by omega)
  have w1 : wrapInt (2 * RAND_MAX) = 2 * RAND_MAX := wrapInt_of_fits (by omega) h2M
  have w2 : wrapInt (2 * r) = 2 * r := wrapInt_of_fits (by omega) (by omega)
  have w3 : wrapInt (2 * r * (spacesLeft - 1)) = 2 * r * (spacesLeft - 1) :=
    wrapInt_of_fits (by omega) (by omega)
  have w4 : wrapInt (2 * r * (spacesLeft - 1) + RAND_MAX) = 2 * r * (spacesLeft - 1) + RAND_MAX :=
    wrapInt_of_fits (by omega) (by omega)
  have hq0 : 0 ≤ (2 * r * (spacesLeft - 1) + RAND_MAX) / (2 * RAND_MAX) :=
    Int.ediv_nonneg (by omega) (by omega)
  have hq1 : (2 * r * (spacesLeft - 1) + RAND_MAX) / (2 * RAND_MAX) < spacesLeft := by
    apply Int.ediv_lt_of_lt_mul (by omega)
    have : spacesLeft * (2 * RAND_MAX) = 2 * RAND_MAX * (spacesLeft - 1) + 2 * RAND_MAX := by
      ring
    omega
  have hq2 : (2 * r * (spacesLeft - 1) + RAND_MAX) / (2 * RAND_MAX) ≤ INT_MAX := by
    have : spacesLeft - 1 ≤ 2 * RAND_MAX * (spacesLeft - 1) := by
      have := mul_le_mul_of_nonneg_right (show 1 ≤ 2 * RAND_MAX by omega)
        (show 0 ≤ spacesLeft - 1 by omega)
      omega
    omega
  refine ⟨?_, hq0, by omega⟩
  unfold pickIndex
  rw [w1, if_neg (by omega), w2, w3, w4, Int.tdiv_eq_ediv (by omega) (by omega),
    wrapInt_of_fits (by omega) hq2]

/-! ## Lists with an entry erased -/

theorem not_mem_eraseIdx_of_nodup {α : Type} :
    ∀ (l : List α) (i : Nat) (a : α), l.Nodup → l[i]? = some a → a ∉ l.eraseIdx i := by
  intro l
  induction l with
  | nil => intro i a _ h; simp at h
  | cons b l ih =>
    intro i a hn h
    have hn1 := List.nodup_cons.mp hn
    cases i with
    | zero =>
      simp only [List.getElem?_cons_zero, Option.some.injEq] at h
      subst h
      simpa using hn1.1
    | succ i =>
      simp only [List.getElem?_cons_succ] at h
      simp only [List.eraseIdx_cons_succ, List.mem_cons, not_or]
      refine ⟨?_, ih i a hn1.2 h⟩
      rintro rfl
      exact hn1.1 (List.getElem?_mem h)

theorem eq_eraseIdx_append_last {α : Type} :
    ∀ (l : List α) (i : Nat) (a : α), i + 1 = l.length → l[i]? = some a →
      l = l.eraseIdx i ++ [a] := by
  intro l
  induction l with
  | nil => intro i a h _; simp at h
  | cons b l ih =>
    intro i a hlen h
    cases i with
    | zero =>
      simp only [List.getElem?_cons_zero, Option.some.injEq] at h
      subst h
      have : l = [] := by
        simp only [List.length_cons, zero_add] at hlen
        exact List.length_eq_zero.mp (by omega)
      subst this
      rfl
    | succ i =>
      simp only [List.getElem?_cons_succ] at h
      simp only [List.eraseIdx_cons_succ, List.cons_append]
      rw [← ih i a (by simp at hlen; omega) h]
theorem scatterWalls_total {RAND_MAX : Int} {rand : Nat → Int} (hM : 0 < RAND_MAX)
    (h2M : 2 * RAND_MAX ≤ INT_MAX) (hrand : ∀ c, 0 ≤ rand c ∧ rand c ≤ RAND_MAX) :
    ∀ (k calls : Nat) (g : Vampires) (live rest : List (Int × Int)), Wf g → live.Nodup →
      (∀ p ∈ live, cellAt g.m_field p.1 p.2 = some none) → k ≤ live.length →
      2 * RAND_MAX * ((live.length : Int) - 1) + RAND_MAX ≤ INT_MAX →
      ∃ g1, scatterWalls RAND_MAX rand k calls g (live ++ rest) (live.length : Int)
        = some g1 := by
  intro k
  induction k with
  | zero => intro calls g live rest _ _ _ _ _; exact ⟨g, rfl⟩
  | succ k ih =>
    intro calls g live rest hw hn hempty hk hfit
    obtain ⟨hpick, hi0, hi1⟩ := pickIndex_fits hM h2M hfit (by omega) (hrand calls).1
      (hrand calls).2
    generalize hidef : (2 * rand calls * ((live.length : Int) - 1) + RAND_MAX) / (2 * RAND_MAX)
      = i at hpick hi0 hi1
    have hlt : i.toNat < live.length := by omega
    have hget : live[i.toNat]? = some (live[i.toNat]) := List.getElem?_eq_getElem hlt
    have hmem : live[i.toNat] ∈ live := List.getElem_mem hlt
    obtain ⟨ga, ha⟩ := createItem_of_empty Kind.wall (hempty _ hmem)
    obtain ⟨_, ca⟩ := createItem_some ha
    have hlen : ((live.eraseIdx i.toNat).length : Int) = (live.length : Int) - 1 := by
      rw [List.length_eraseIdx, if_pos hlt]
      omega
    have hwalls : ∃ rest1, (if i ≠ (live.length : Int) - 1
        then (live ++ rest).eraseIdx i.toNat else live ++ rest)
        = live.eraseIdx i.toNat ++ rest1 := by
      by_cases hne : i ≠ (live.length : Int) - 1
      · exact ⟨rest, by rw [if_pos hne, List.eraseIdx_append_of_lt_length hlt]⟩
      · refine ⟨live[i.toNat] :: rest, ?_⟩
        rw [if_neg hne]
        have hlast : i.toNat + 1 = live.length := by omega
        conv_lhs => rw [eq_eraseIdx_append_last live i.toNat _ hlast hget]
        simp
    obtain ⟨rest1, hrest1⟩ := hwalls
    obtain ⟨g1, hg1⟩ := ih (calls + 1) ga (live.eraseIdx i.toNat) rest1 (ca.keeps_wf hw)
      (List.Nodup.sublist (List.eraseIdx_sublist _ _) hn)
      (by
        intro p hp
        rw [ca.cells]
        have hne : p ≠ live[i.toNat] := by
          rintro rfl
          exact not_mem_eraseIdx_of_nodup live i.toNat _ hn hget hp
        rw [if_neg (fun h => hne (Prod.ext h.1 h.2))]
        exact hempty p (List.mem_of_mem_eraseIdx hp))
      (by
        have := List.length_eraseIdx live i.toNat
        rw [if_pos hlt] at this
        omega)
      (by
        rw [hlen]
        have : 2 * RAND_MAX * ((live.length : Int) - 1 - 1)
            = 2 * RAND_MAX * ((live.length : Int) - 1) - 2 * RAND_MAX := by ring
        omega)
    refine ⟨g1, ?_⟩
    rw [scatterWalls, hpick]
    dsimp only
    rw [if_pos hi0, List.getElem?_append_left hlt, hget]
    dsimp only
    rw [ha]
    dsimp only
    rw [hrest1, ← hlen]
    exact hg1
/-! ## The phases of `initGame` on the state prepared by the constructor -/

/-- The two loops that draw the border complete, for every field of width and height at
least 2, and create the items `borderItems`. -/
theorem drawBorder_total (width height vampireCount wallCount : Int)
    (hw : 2 ≤ width) (hh : 2 ≤ height) :
    ∃ g1 g2, drawBorderRows (intRange 0 width)
        (emptyGame width height vampireCount wallCount) = some g1 ∧
      drawBorderColumns (intRange 1 (height - 1)) g1 = some g2 ∧
      Wf g2 ∧ SameConsts (emptyGame width height vampireCount wallCount) g2 ∧
      g2.items = borderItems width height ∧ g2.m_vampires = [] := by
  have hw0 := wf_emptyGame width height vampireCount wallCount
  obtain ⟨g1, h1⟩ := drawBorderRows_total (intRange 0 width)
    (emptyGame width height vampireCount wallCount) hw0 (nodup_intRange _ _)
    (fun x hx => mem_intRange.mp hx) hh (fun it hit => absurd hit (by simp [emptyGame]))
  obtain ⟨w1, s1, v1, p1, i1⟩ := drawBorderRows_some _ _ _ h1 hw0
  obtain ⟨g2, h2⟩ := drawBorderColumns_total (intRange 1 (height - 1)) g1 w1
    (nodup_intRange _ _)
    (fun y hy => by
      have := mem_intRange.mp hy
      rw [s1.height]
      show 0 ≤ y ∧ y < height
      omega)
    (by rw [s1.width]; exact hw)
    (by
      intro it hit hy
      rw [i1] at hit
      have h3 : it ∈ borderRowItems height (intRange 0 width) := by
        simpa [emptyGame] using hit
      have h4 := (mem_borderRowItems _).mp h3
      have h5 := mem_intRange.mp hy
      omega)
  obtain ⟨w2, s2, v2, p2, i2⟩ := drawBorderColumns_some _ _ _ h2 w1
  refine ⟨g1, g2, h1, h2, w2, s1.trans s2, ?_, ?_⟩
  · rw [i2, i1, s1.width]
    simp [borderItems, emptyGame]
  · rw [v2, v1]
    rfl

theorem freeCellsRow_total (g : Vampires) (y : Int) :
    ∀ xs : List Int, (∀ x ∈ xs, (cellAt g.m_field x y).isSome) →
      ∃ row, freeCellsRow g y xs = some row := by
  intro xs
  induction xs with
  | nil => intro _; exact ⟨[], rfl⟩
  | cons x xs ih =>
    intro h
    obtain ⟨c, hc⟩ := Option.isSome_iff_exists.mp (h x (List.mem_cons_self _ _))
    obtain ⟨row, hrow⟩ := ih (fun x1 hx1 => h x1 (List.mem_cons_of_mem _ hx1))
    exact ⟨_, by rw [freeCellsRow, hc, hrow]⟩

theorem freeCells_total (g : Vampires) (xs : List Int) :
    ∀ ys : List Int, (∀ y ∈ ys, ∀ x ∈ xs, (cellAt g.m_field x y).isSome) →
      ∃ walls, freeCells g xs ys = some walls := by
  intro ys
  induction ys with
  | nil => intro _; exact ⟨[], rfl⟩
  | cons y ys ih =>
    intro h
    obtain ⟨row, hrow⟩ := freeCellsRow_total g y xs (h y (List.mem_cons_self _ _))
    obtain ⟨rest, hrest⟩ := ih (fun y1 hy1 => h y1 (List.mem_cons_of_mem _ hy1))
    exact ⟨_, by rw [freeCells, hrow, hrest]⟩

/-- A list without repetition that holds the cells of the inner region except one of them has
the length `(width - 4) * (height - 4) - 1`. -/
theorem length_of_interior {width height : Int} {walls : List (Int × Int)} {c : Int × Int}
    (hw : 4 ≤ width) (hh : 4 ≤ height) (hn : walls.Nodup)
    (hc : 2 ≤ c.1 ∧ c.1 < width - 2 ∧ 2 ≤ c.2 ∧ c.2 < height - 2)
    (hmem : ∀ p : Int × Int, p ∈ walls ↔
      (2 ≤ p.1 ∧ p.1 < width - 2 ∧ 2 ≤ p.2 ∧ p.2 < height - 2 ∧ p ≠ c)) :
    (walls.length : Int) = (width - 4) * (height - 4) - 1 := by
  have hset : walls.toFinset
      = (Finset.Icc 2 (width - 3) ×ˢ Finset.Icc 2 (height - 3)).erase c := by
    ext p
    simp only [List.mem_toFinset, hmem, Finset.mem_erase, Finset.mem_product, Finset.mem_Icc]
    constructor
    · rintro ⟨h1, h2, h3, h4, h5⟩
      exact ⟨h5, ⟨h1, by omega⟩, h3, by omega⟩
    · rintro ⟨h5, ⟨h1, h2⟩, h3, h4⟩
      exact ⟨h1, by omega, h3, by omega, h5⟩
  have hcmem : c ∈ Finset.Icc 2 (width - 3) ×ˢ Finset.Icc 2 (height - 3) := by
    simp only [Finset.mem_product, Finset.mem_Icc]
    omega
  have hcard := List.toFinset_card_of_nodup hn
  rw [hset, Finset.card_erase_of_mem hcmem, Finset.card_product, Int.card_Icc,
    Int.card_Icc] at hcard
  have h1 : ((width - 3 + 1 - 2).toNat : Int) = width - 4 := by
    rw [Int.toNat_of_nonneg (by omega)]; omega
  have h2 : ((height - 3 + 1 - 2).toNat : Int) = height - 4 := by
    rw [Int.toNat_of_nonneg (by omega)]; omega
  have hpos : 1 ≤ (width - 3 + 1 - 2).toNat * (height - 3 + 1 - 2).toNat := by
    have := Finset.card_pos.mpr ⟨c, hcmem⟩
    rw [Finset.card_product, Int.card_Icc, Int.card_Icc] at this
    exact this
  have h3 : (walls.length : Int)
      = ((width - 3 + 1 - 2).toNat : Int) * ((height - 3 + 1 - 2).toNat : Int) - 1 := by
    rw [← hcard]
    push_cast [Nat.cast_sub hpos]
    ring
  rw [h3, h1, h2]
theorem center_interior {width height : Int} (hw : 7 ≤ width) (hh : 7 ≤ height) :
    3 ≤ Int.tdiv width 2 ∧ Int.tdiv width 2 ≤ width - 4 ∧
      3 ≤ Int.tdiv height 2 ∧ Int.tdiv height 2 ≤ height - 4 := by
  rw [Int.tdiv_eq_ediv (by omega) (by omega), Int.tdiv_eq_ediv (by omega) (by omega)]
  omega

theorem randFits_double {RAND_MAX width height : Int} (hw : 7 ≤ width) (hh : 7 ≤ height)
    (hfit : RandFits RAND_MAX width height) : 2 * RAND_MAX ≤ INT_MAX := by
  obtain ⟨hM, h⟩ := hfit
  have h1 : 9 ≤ (width - 4) * (height - 4) := by nlinarith
  have h2 : 2 * RAND_MAX * 1 ≤ 2 * RAND_MAX * ((width - 4) * (height - 4) - 2) :=
    mul_le_mul_of_nonneg_left (by omega) (by omega)
  omega

/-- The constructor completes when the pursuers fit on the inner ring, the computations of
the wall indices fit in an `int` and `rand()` returns values in `0 .. RAND_MAX`. -/
theorem construct_total {width height vampireCount wallCount RAND_MAX : Int}
    {rand : Nat → Int} (hw : 7 ≤ width) (hh : 7 ≤ height) (hn : 1 ≤ vampireCount)
    (hnP : vampireCount ≤ ringLength width height) (hk : 1 ≤ wallCount)
    (hkL : wallCount ≤ (width - 4) * (height - 4) - 1) (hfit : RandFits RAND_MAX width height)
    (hrand : ∀ c, 0 ≤ rand c ∧ rand c ≤ RAND_MAX) :
    ∃ g, construct width height vampireCount wallCount RAND_MAX rand = some g := by
  obtain ⟨g1, g2, h1, h2, w2, s2, i2, v2⟩ :=
    drawBorder_total width height vampireCount wallCount
      (by omega) (by omega)
  have e1 : g2.width = width := s2.width
  have e2 : g2.height = height := s2.height
  have e3 : g2.vampireCount = vampireCount := s2.vampireCount
  -- the pursuers
  obtain ⟨g3, h3⟩ := settleVampires_total vampireCount.toNat 0 (0, 0) g2 w2
    (by rw [e1]; exact hw) (by rw [e2]; exact hh) (by rw [e3]; exact hn)
    (by rw [e1, e2, e3]; exact hnP) (by simp) (le_refl _) (by rw [e3]; show (0 : Int) < _; omega)
    (le_refl _) (by rw [e3, Int.toNat_of_nonneg (by omega)]; omega)
    (by
      intro it hit q hq0 hq1 heq
      rw [e1, e2] at hq1 heq
      rw [i2] at hit
      have hb := (mem_borderItems (by omega) (by omega)).mp hit
      have hr := ringCell_bounds hw hh hq0 hq1
      have hx : it.x = (ringCell width height q).1 := congrArg Prod.fst heq
      have hy : it.y = (ringCell width height q).2 := congrArg Prod.snd heq
      omega)
  rw [e1, e2] at h3
  obtain ⟨w3, s3, p3, i3, v3⟩ := settleVampires_some _ _ _ _ _ h3 w2
  have hcount : (g3.m_vampires.length : Int) = vampireCount := by
    rw [v3, v2]
    simp only [List.nil_append, List.length_map, List.length_range]
    exact Int.toNat_of_nonneg (by omega)
  -- the player
  have hc := center_interior hw hh
  have f1 : g3.width = width := s3.width.trans e1
  have f2 : g3.height = height := s3.height.trans e2
  obtain ⟨g4, h4, c4⟩ := createItem_free w3 Kind.player
    (x := Int.tdiv width 2) (y := Int.tdiv height 2)
    ⟨by omega, by omega, by omega, by omega⟩
    (by
      rintro it hit ⟨hx, hy⟩
      rw [i3, i2, e1, e2] at hit
      rcases List.mem_append.mp hit with h5 | h5
      · have hb := (mem_borderItems (by omega) (by omega)).mp h5
        omega
      · obtain ⟨q, _, hq⟩ := List.mem_map.mp h5
        have hin := ringCell_inner width height q
        rw [← hq] at hx hy
        simp only [vampireItem] at hx hy
        omega)
  have w4 : Wf { g4 with m_player := g3.items.length } :=
    ⟨(c4.keeps_wf w3).bounds, (c4.keeps_wf w3).cell_item, (c4.keeps_wf w3).item_cell⟩
  -- the candidate cells
  obtain ⟨walls, h5⟩ := freeCells_total { g4 with m_player := g3.items.length }
    (intRange 2 (width - 2)) (intRange 2 (height - 2))
    (by
      intro y hy x hx
      have hx1 := mem_intRange.mp hx
      have hy1 := mem_intRange.mp hy
      apply (w4.bounds x y).mpr
      show 0 ≤ x ∧ x < g4.width ∧ 0 ≤ y ∧ y < g4.height
      rw [c4.width, c4.height, f1, f2]
      omega)
  have hmem := freeCells_some _ _ _ _ h5
  have hnodup := freeCells_nodup _ _ (nodup_intRange _ _) _ _ h5 (nodup_intRange _ _)
  have hlen : (walls.length : Int) = (width - 4) * (height - 4) - 1 := by
    apply length_of_interior (c := (Int.tdiv width 2, Int.tdiv height 2)) (by omega)
      (by omega) hnodup ⟨by omega, by omega, by omega, by omega⟩
    intro p
    rw [hmem p, mem_intRange, mem_intRange, w4.empty_iff]
    show _ ∧ _ ∧ ((0 ≤ p.1 ∧ p.1 < g4.width ∧ 0 ≤ p.2 ∧ p.2 < g4.height) ∧
      ∀ it ∈ g4.items, ¬ (it.x = p.1 ∧ it.y = p.2)) ↔ _
    rw [c4.width, c4.height, f1, f2, c4.items, i3, i2, e1, e2]
    constructor
    · rintro ⟨⟨h6, h7⟩, ⟨h8, h9⟩, _, hno⟩
      refine ⟨h6, h7, h8, h9, ?_⟩
      intro hpc
      exact hno ⟨Kind.player, Int.tdiv width 2, Int.tdiv height 2⟩ (by simp)
        ⟨by rw [hpc], by rw [hpc]⟩
    · rintro ⟨h6, h7, h8, h9, hne⟩
      refine ⟨⟨h6, h7⟩, ⟨h8, h9⟩, ⟨by omega, by omega, by omega, by omega⟩, ?_⟩
      rintro it hit ⟨hx, hy⟩
      rcases List.mem_append.mp hit with h10 | h10
      · rcases List.mem_append.mp h10 with h11 | h11
        · have hb := (mem_borderItems (by omega) (by omega)).mp h11
          omega
        · obtain ⟨q, _, hq⟩ := List.mem_map.mp h11
          have hin := ringCell_inner width height q
          rw [← hq] at hx hy
          simp only [vampireItem] at hx hy
          omega
      · rw [List.mem_singleton] at h10
        rw [h10] at hx hy
        exact hne (Prod.ext hx.symm hy.symm)
  -- the walls
  have h2M := randFits_double hw hh hfit
  obtain ⟨g5, h6⟩ := scatterWalls_total hfit.1 h2M hrand wallCount.toNat 0
    { g4 with m_player := g3.items.length } walls [] w4 hnodup
    (fun p hp => ((hmem p).mp hp).2.2)
    (by omega)
    (by
      rw [hlen]
      have : (width - 4) * (height - 4) - 1 - 1 = (width - 4) * (height - 4) - 2 := by ring
      rw [this]
      exact hfit.2)
  rw [List.append_nil] at h6
  refine ⟨g5, ?_⟩
  unfold construct
  rw [if_pos ⟨hw, hh, hn, hk, hkL⟩]
  unfold initGame
  show (match drawBorderRows (intRange 0 width)
      (emptyGame width height vampireCount wallCount) with
    | none => none
    | some g1 => _) = some g5
  rw [h1]
  dsimp only
  show (match drawBorderColumns (intRange 1 (height - 1)) g1 with
    | none => none
    | some g2 => _) = some g5
  rw [h2]
  dsimp only
  show (match settleVampires (ringLength width height) vampireCount.toNat (0, 0) g2 with
    | none => none
    | some g3 => _) = some g5
  rw [h3]
  dsimp only
  rw [if_neg (show ¬ ((g3.m_vampires.length : Int)
    ≠ (emptyGame width height vampireCount wallCount).vampireCount) from not_not.mpr hcount)]
  show (match createItem g3 Kind.player (Int.tdiv width 2) (Int.tdiv height 2) with
    | none => none
    | some (id, g4) => _) = some g5
  rw [h4]
  dsimp only
  show (match freeCells { g4 with m_player := g3.items.length } (intRange 2 (width - 2))
      (intRange 2 (height - 2)) with
    | none => none
    | some walls => _) = some g5
  rw [h5]
  exact h6
/-! ## The census of a constructed state -/

theorem count_kind_of_forall {l : List Item} {kind c : Kind}
    (h : ∀ it ∈ l, it.kind = c) :
    (l.map (fun it => it.kind)).count kind = if c = kind then l.length else 0 := by
  induction l with
  | nil => simp
  | cons a l ih =>
    have ha := h a (List.mem_cons_self _ _)
    have ih1 := ih (fun it hit => h it (List.mem_cons_of_mem _ hit))
    rw [List.map_cons, List.count_cons, ih1, ha]
    by_cases hk : c = kind
    · simp [hk]
    · simp [hk]

theorem Built.countKind {width height vampireCount wallCount : Int}
    {ps : List (Int × Int)} {g : Vampires} (hb : Built width height vampireCount wallCount ps g)
    (kind : Kind) :
    countKind g kind =
      (if Kind.border = kind then (borderItems width height).length else 0)
      + (if Kind.vampire = kind then vampireCount.toNat else 0)
      + (if Kind.player = kind then 1 else 0)
      + (if Kind.wall = kind then wallCount.toNat else 0) := by
  have hw7 := hb.width_ge
  have hh7 := hb.height_ge
  unfold Vampires.countKind
  rw [hb.items, List.map_append, List.map_append, List.map_append, List.count_append,
    List.count_append, List.count_append,
    count_kind_of_forall (c := Kind.border)
      (fun it hit => ((mem_borderItems (by omega) (by omega)).mp hit).1),
    count_kind_of_forall (c := Kind.vampire) (l := List.map _ _)
      (fun it hit => by
        obtain ⟨q, _, hq⟩ := List.mem_map.mp hit
        rw [← hq]
        rfl),
    count_kind_of_forall (c := Kind.player) (l := [_])
      (fun it hit => by
        rw [List.mem_singleton] at hit
        rw [hit]),
    count_kind_of_forall (c := Kind.wall) (l := List.map _ _)
      (fun it hit => by
        obtain ⟨q, _, hq⟩ := List.mem_map.mp hit
        rw [← hq]
        rfl),
    List.length_map, length_ringPositions, List.length_map, hb.walls_length,
    List.length_singleton]

theorem Built.unique_item {width height vampireCount wallCount : Int}
    {ps : List (Int × Int)} {g : Vampires} (hb : Built width height vampireCount wallCount ps g)
    {x y : Int} {kind : Kind} (h : Holds g x y kind) :
    ∃! id : Nat, ∃ it : Item, g.items[id]? = some it ∧ it.x = x ∧ it.y = y := by
  obtain ⟨id, it, hc, hi, hk⟩ := h
  obtain ⟨it1, hi1, hx, hy⟩ := hb.wf.cell_item x y id hc
  refine ⟨id, ⟨it1, hi1, hx, hy⟩, ?_⟩
  rintro id2 ⟨it2, hi2, hx2, hy2⟩
  have hc2 := hb.wf.item_cell id2 it2 hi2
  rw [hx2, hy2, hc] at hc2
  injection hc2 with hc2
  injection hc2 with hc2
  exact hc2.symm

theorem Built.holds_border_iff {width height vampireCount wallCount : Int}
    {ps : List (Int × Int)} {g : Vampires} (hb : Built width height vampireCount wallCount ps g)
    (x y : Int) :
    Holds g x y Kind.border ↔
      (0 ≤ x ∧ x < width ∧ 0 ≤ y ∧ y < height ∧
        (x = 0 ∨ x = width - 1 ∨ y = 0 ∨ y = height - 1)) := by
  have hw7 := hb.width_ge
  have hh7 := hb.height_ge
  rw [hb.wf.holds_iff]
  constructor
  · rintro ⟨it, hmem, hk, hx, hy⟩
    rcases hb.mem_items.mp hmem with h | ⟨q, _, h⟩ | h | ⟨p, _, h⟩
    · have := (mem_borderItems (by omega) (by omega)).mp h
      rw [hx, hy] at this
      exact this.2
    · rw [h] at hk
      exact absurd hk (by simp [vampireItem])
    · rw [h] at hk
      exact absurd hk (by simp)
    · rw [h] at hk
      exact absurd hk (by simp [wallItem])
  · intro h
    exact ⟨⟨Kind.border, x, y⟩, hb.mem_items.mpr
      (Or.inl ((mem_borderItems (by omega) (by omega)).mpr ⟨rfl, h⟩)), rfl, rfl, rfl⟩
/-! ## The constructor: border and player -/

/-- C15: for every width and height of at least 7 the two loops that draw the border complete
and create the items `borderItems`; the constructor completes when moreover the pursuers fit
on the inner ring and the wall indices are computed without overflow from values of `rand()`
in `0 .. RAND_MAX`; and in every state the constructor returns, a cell holds an item of kind
`border` if and only if it is a cell of the field on the outer ring (`x = 0`, `x = width - 1`,
`y = 0` or `y = height - 1`), and exactly one item was created at each such cell. -/
theorem construct_border (width height vampireCount wallCount RAND_MAX : Int)
    (rand : Nat → Int) :
    (7 ≤ width → 7 ≤ height →
      ∃ g1 g2, drawBorderRows (intRange 0 width)
          (emptyGame width height vampireCount wallCount) = some g1 ∧
        drawBorderColumns (intRange 1 (height - 1)) g1 = some g2 ∧
        g2.items = borderItems width height) ∧
    (7 ≤ width → 7 ≤ height → 1 ≤ vampireCount → vampireCount ≤ ringLength width height →
      1 ≤ wallCount → wallCount ≤ (width - 4) * (height - 4) - 1 →
      RandFits RAND_MAX width height → (∀ c, 0 ≤ rand c ∧ rand c ≤ RAND_MAX) →
      ∃ g, construct width height vampireCount wallCount RAND_MAX rand = some g) ∧
    ∀ g, construct width height vampireCount wallCount RAND_MAX rand = some g →
      g.width = width ∧ g.height = height ∧
      (∀ x y, Holds g x y Kind.border ↔
        (0 ≤ x ∧ x < g.width ∧ 0 ≤ y ∧ y < g.height ∧ onRing g x y)) ∧
      (∀ x y, 0 ≤ x → x < g.width → 0 ≤ y → y < g.height → onRing g x y →
        ∃! id : Nat, ∃ it : Item, g.items[id]? = some it ∧ it.x = x ∧ it.y = y) := by
  refine ⟨?_, ?_, ?_⟩
  · intro hw hh
    obtain ⟨g1, g2, h1, h2, _, _, hi, _⟩ :=
      drawBorder_total width height vampireCount wallCount
        (by omega) (by omega)
    exact ⟨g1, g2, h1, h2, hi⟩
  · intro hw hh hn hnP hk hkL hfit hrand
    exact construct_total hw hh hn hnP hk hkL hfit hrand
  · intro g hg
    obtain ⟨ps, hb⟩ := construct_built hg
    have hiff : ∀ x y, Holds g x y Kind.border ↔
        (0 ≤ x ∧ x < g.width ∧ 0 ≤ y ∧ y < g.height ∧ onRing g x y) := by
      intro x y
      rw [hb.holds_border_iff]
      unfold onRing
      rw [hb.width_eq, hb.height_eq]
    refine ⟨hb.width_eq, hb.height_eq, hiff, ?_⟩
    intro x y hx0 hx1 hy0 hy1 hr
    exact hb.unique_item ((hiff x y).mpr ⟨hx0, hx1, hy0, hy1, hr⟩)

/-- Witness of C15: the 7 x 7 field with one pursuer and one wall, built with `RAND_MAX` 32767
and `rand()` returning 32767. -/
theorem construct_border_witness :
    (∃ g, construct 7 7 1 1 32767 (fun _ => 32767) = some g) ∧
      (∀ x y, Holds builtGame x y Kind.border ↔
        (0 ≤ x ∧ x < builtGame.width ∧ 0 ≤ y ∧ y < builtGame.height ∧ onRing builtGame x y)) :=
  ⟨(construct_border 7 7 1 1 32767 (fun _ => 32767)).2.1 (by decide) (by decide) (by decide)
      (by decide) (by decide) (by decide) (by unfold RandFits INT_MAX; norm_num)
      (fun _ => by decide),
    ((construct_border 7 7 1 1 32767 (fun _ => 32767)).2.2 builtGame (by decide)).2.2.1⟩

/-- C16: the constructor completes under the conditions stated for C15, and in every state
it returns there is exactly one item of kind `player`; it is the item of the player handle,
it is stored at the centre `(width / 2, height / 2)`, which is the only cell holding a player;
and the centre lies neither on the outer ring nor on the inner ring, the cells `ringCell` at
which the pursuers are created. -/
theorem construct_player (width height vampireCount wallCount RAND_MAX : Int)
    (rand : Nat → Int) :
    (7 ≤ width → 7 ≤ height → 1 ≤ vampireCount → vampireCount ≤ ringLength width height →
      1 ≤ wallCount → wallCount ≤ (width - 4) * (height - 4) - 1 →
      RandFits RAND_MAX width height → (∀ c, 0 ≤ rand c ∧ rand c ≤ RAND_MAX) →
      ∃ g, construct width height vampireCount wallCount RAND_MAX rand = some g) ∧
    ∀ g, construct width height vampireCount wallCount RAND_MAX rand = some g →
      countKind g Kind.player = 1 ∧
      g.items[g.m_player]? = some ⟨Kind.player, width / 2, height / 2⟩ ∧
      (∀ x y, Holds g x y Kind.player ↔ (x = width / 2 ∧ y = height / 2)) ∧
      ¬ onRing g (width / 2) (height / 2) ∧
      (∀ q, ringCell width height q ≠ (width / 2, height / 2)) := by
  refine ⟨?_, ?_⟩
  · intro hw hh hn hnP hk hkL hfit hrand
    exact construct_total hw hh hn hnP hk hkL hfit hrand
  · intro g hg
    obtain ⟨ps, hb⟩ := construct_built hg
    have hw7 := hb.width_ge
    have hh7 := hb.height_ge
    have hc := center_interior hw7 hh7
    have ex : Int.tdiv width 2 = width / 2 := Int.tdiv_eq_ediv (by omega) (by omega)
    have ey : Int.tdiv height 2 = height / 2 := Int.tdiv_eq_ediv (by omega) (by omega)
    rw [ex, ey] at hc
    have hpl := hb.player_item
    rw [ex, ey] at hpl
    refine ⟨?_, hpl, ?_, ?_, ?_⟩
    · rw [hb.countKind]
      simp
    · intro x y
      constructor
      · rintro ⟨id, it, hcell, hit, hk⟩
        have hid := hb.consistent.player_unique id it hit hk
        rw [hid, hpl] at hit
        obtain ⟨it1, hit1, hx, hy⟩ := hb.wf.cell_item x y id hcell
        rw [hid, hpl] at hit1
        injection hit1 with e
        rw [← e] at hx hy
        exact ⟨hx.symm, hy.symm⟩
      · rintro ⟨hx, hy⟩
        have hcell := hb.wf.item_cell _ _ hpl
        rw [hx, hy]
        exact ⟨g.m_player, _, hcell, hpl, rfl⟩
    · unfold onRing
      rw [hb.width_eq, hb.height_eq]
      omega
    · intro q heq
      have hin := ringCell_inner width height q
      rw [heq] at hin
      simp only at hin
      omega

/-- Witness of C16 on the same construction. -/
theorem construct_player_witness :
    (∃ g, construct 7 7 1 1 32767 (fun _ => 32767) = some g) ∧
      countKind builtGame Kind.player = 1 ∧
      builtGame.items[builtGame.m_player]? = some ⟨Kind.player, 7 / 2, 7 / 2⟩ :=
  ⟨(construct_player 7 7 1 1 32767 (fun _ => 32767)).1 (by decide) (by decide) (by decide)
      (by decide) (by decide) (by decide) (by unfold RandFits INT_MAX; norm_num)
      (fun _ => by decide),
    ((construct_player 7 7 1 1 32767 (fun _ => 32767)).2 builtGame (by decide)).1,
    ((construct_player 7 7 1 1 32767 (fun _ => 32767)).2 builtGame (by decide)).2.1⟩
/-! ## The spacing of the pursuers -/

theorem ediv_eq_of {a n q r : Int} (hn : 0 < n) (h : a = n * q + r) (h0 : 0 ≤ r)
    (h1 : r < n) : a / n = q :=
  ((Int.ediv_emod_unique (a := a) (b := n) (r := r) (q := q) hn).mpr
    ⟨by rw [h]; ring, h0, h1⟩).1

theorem gap_floor_or_ceil {P n i : Int} (hn : 0 < n) :
    (i + 1) * P / n - i * P / n = P / n ∨
      (i + 1) * P / n - i * P / n = (P + n - 1) / n := by
  have hx := Int.ediv_add_emod (i * P) n
  have hP := Int.ediv_add_emod P n
  have hx0 := Int.emod_nonneg (i * P) (show n ≠ 0 by omega)
  have hx1 := Int.emod_lt_of_pos (i * P) hn
  have hP0 := Int.emod_nonneg P (show n ≠ 0 by omega)
  have hP1 := Int.emod_lt_of_pos P hn
  by_cases hc : i * P % n + P % n < n
  · left
    rw [ediv_eq_of (q := i * P / n + P / n) (r := i * P % n + P % n) hn
      (by linear_combination (-1 : Int) * hx - hP) (by omega) hc]
    omega
  · right
    rw [ediv_eq_of (q := i * P / n + P / n + 1) (r := i * P % n + P % n - n) hn
      (by linear_combination (-1 : Int) * hx - hP) (by omega) (by omega),
      ediv_eq_of (a := P + n - 1) (q := P / n + 1) (r := P % n - 1) hn
      (by linear_combination (-1 : Int) * hP) (by omega) (by omega)]
    omega

theorem wrap_gap_floor_or_ceil {P n : Int} (hn : 0 < n) :
    P - (n - 1) * P / n = P / n ∨ P - (n - 1) * P / n = (P + n - 1) / n := by
  have hP := Int.ediv_add_emod P n
  have hP0 := Int.emod_nonneg P (show n ≠ 0 by omega)
  have hP1 := Int.emod_lt_of_pos P hn
  by_cases hc : P % n = 0
  · left
    rw [ediv_eq_of (a := (n - 1) * P) (q := P - P / n) (r := 0) hn
      (by linear_combination hP - hc) (le_refl _) hn]
    omega
  · right
    rw [ediv_eq_of (a := (n - 1) * P) (q := P - P / n - 1) (r := n - P % n) hn
      (by linear_combination hP) (by omega) (by omega),
      ediv_eq_of (a := P + n - 1) (q := P / n + 1) (r := P % n - 1) hn
      (by linear_combination (-1 : Int) * hP) (by omega) (by omega)]
    omega

/-- C19: with `P = ringLength width height = 2 * (width - 2) + 2 * (height - 4)` and
`n = vampireCount`, the values taken by `position` in the `n` passages of the loop that
settles the pursuers are `floor (i * P / n)` for `i = 0 .. n - 1`; the gap between two
consecutive values, and the gap `P - floor ((n - 1) * P / n)` from the last value around the
ring back to the first value 0, is `floor (P / n) = P / n` or
`ceil (P / n) = (P + n - 1) / n`; and in every state the constructor returns, the entry `i`
of the pursuer list refers to the item created `i`-th after the border, stored at the cell
`ringCell` of the index `floor (i * P / n)`; the constructor completes under the conditions
stated for C15. -/
theorem settle_spacing (width height vampireCount : Int) (hw : 7 ≤ width) (hh : 7 ≤ height)
    (hn : 1 ≤ vampireCount) :
    ringPositions (ringLength width height) vampireCount vampireCount.toNat (0, 0)
      = (List.range vampireCount.toNat).map
          (fun i : Nat => (i : Int) * ringLength width height / vampireCount) ∧
    (∀ i : Int, 0 ≤ i → i + 1 < vampireCount →
      (i + 1) * ringLength width height / vampireCount
          - i * ringLength width height / vampireCount
        = ringLength width height / vampireCount ∨
      (i + 1) * ringLength width height / vampireCount
          - i * ringLength width height / vampireCount
        = (ringLength width height + vampireCount - 1) / vampireCount) ∧
    (ringLength width height - (vampireCount - 1) * ringLength width height / vampireCount
        = ringLength width height / vampireCount ∨
      ringLength width height - (vampireCount - 1) * ringLength width height / vampireCount
        = (ringLength width height + vampireCount - 1) / vampireCount) ∧
    (∀ (wallCount RAND_MAX : Int) (rand : Nat → Int) (g : Vampires),
      construct width height vampireCount wallCount RAND_MAX rand = some g →
      ∀ i : Nat, i < vampireCount.toNat →
        g.m_vampires[i]? = some ⟨(borderItems width height).length + i, 0⟩ ∧
        g.items[(borderItems width height).length + i]?
          = some (vampireItem width height
              ((i : Int) * ringLength width height / vampireCount))) ∧
    ∀ (wallCount RAND_MAX : Int) (rand : Nat → Int),
      vampireCount ≤ ringLength width height → 1 ≤ wallCount →
      wallCount ≤ (width - 4) * (height - 4) - 1 → RandFits RAND_MAX width height →
      (∀ c, 0 ≤ rand c ∧ rand c ≤ RAND_MAX) →
      ∃ g, construct width height vampireCount wallCount RAND_MAX rand = some g := by
  have hP : 0 ≤ ringLength width height := by unfold ringLength; omega
  have hpos := ringPositions_eq hn hP vampireCount.toNat
  refine ⟨hpos, fun i _ _ => gap_floor_or_ceil (by omega), wrap_gap_floor_or_ceil (by omega),
    ?_, fun wallCount RAND_MAX rand hnP hk hkL hfit hrand =>
      construct_total hw hh hn hnP hk hkL hfit hrand⟩
  intro wallCount RAND_MAX rand g hg i hi
  obtain ⟨ps, hb⟩ := construct_built hg
  constructor
  · rw [hb.m_vampires, List.getElem?_map, List.getElem?_range hi]
    rfl
  · rw [hb.vampire_item hi, hpos, List.map_map, List.getElem?_map, List.getElem?_range hi]
    rfl

/-- Witness of C19: three pursuers on a 7 x 7 field, of ring length 16, are created at the
ring indices 0, 5 and 10. -/
theorem settle_spacing_witness :
    ringPositions (ringLength 7 7) 3 (3 : Int).toNat (0, 0)
        = (List.range (3 : Int).toNat).map (fun i : Nat => (i : Int) * ringLength 7 7 / 3) ∧
      ringPositions (ringLength 7 7) 3 (3 : Int).toNat (0, 0) = [0, 5, 10] :=
  ⟨(settle_spacing 7 7 3 (by decide) (by decide) (by decide)).1, by decide⟩
/-! ## The constructor: pursuers and walls -/

/-- C17 fails in the code: the constructor does not check `vampireCount` against the length
`ringLength width height` of the inner ring. With more pursuers than ring cells the first two
passages of the loop both have `position = 0`, so the second pursuer is created at the cell
of the first one and the assertion of `createItem` fails: the constructor does not complete,
for instance for 17 pursuers on a 7 x 7 field, whose ring has 16 cells. In every state that the
constructor does return there are `vampireCount` items of kind `vampire` and no two items
share a cell, and it returns one when `vampireCount ≤ ringLength width height` (and the
conditions on `rand()` stated for C15 hold). -/
theorem construct_pursuers (width height vampireCount wallCount RAND_MAX : Int)
    (rand : Nat → Int) :
    (ringLength width height < vampireCount →
      construct width height vampireCount wallCount RAND_MAX rand = none) ∧
    construct 7 7 17 1 RAND_MAX rand = none ∧
    ringPositions (ringLength 7 7) 17 2 (0, 0) = [0, 0] ∧
    (∀ g, construct width height vampireCount wallCount RAND_MAX rand = some g →
      countKind g Kind.vampire = vampireCount.toNat ∧ NoOverlap g) ∧
    (7 ≤ width → 7 ≤ height → 1 ≤ vampireCount → vampireCount ≤ ringLength width height →
      1 ≤ wallCount → wallCount ≤ (width - 4) * (height - 4) - 1 →
      RandFits RAND_MAX width height → (∀ c, 0 ≤ rand c ∧ rand c ≤ RAND_MAX) →
      ∃ g, construct width height vampireCount wallCount RAND_MAX rand = some g) := by
  have hgen : ∀ (w h n k : Int), ringLength w h < n → construct w h n k RAND_MAX rand = none := by
    intro w h n k hlt
    cases hc : construct w h n k RAND_MAX rand with
    | none => rfl
    | some g =>
      exfalso
      obtain ⟨ps, hb⟩ := construct_built hc
      have hw7 := hb.width_ge
      have hh7 := hb.height_ge
      have hP16 : 16 ≤ ringLength w h := by unfold ringLength; omega
      have hP : 0 ≤ ringLength w h := by omega
      have hn1 : 1 ≤ n := by omega
      have hpos := ringPositions_eq hn1 hP n.toNat
      have h0 : 0 < n.toNat := by omega
      have h1 : 1 < n.toNat := by omega
      have i0 := hb.vampire_item h0
      have i1 := hb.vampire_item h1
      rw [hpos, List.map_map, List.getElem?_map, List.getElem?_range h0] at i0
      rw [hpos, List.map_map, List.getElem?_map, List.getElem?_range h1] at i1
      simp only [Option.map_some', Function.comp, Nat.cast_zero, zero_mul, Int.zero_ediv,
        Nat.cast_one, one_mul] at i0 i1
      rw [Int.ediv_eq_zero_of_lt hP hlt] at i1
      exact hb.wf.noOverlap _ _ _ _ i0 i1 (by omega) ⟨rfl, rfl⟩
  refine ⟨hgen width height vampireCount wallCount, hgen 7 7 17 1 (by decide), by decide, ?_, ?_⟩
  · intro g hg
    obtain ⟨ps, hb⟩ := construct_built hg
    refine ⟨?_, hb.wf.noOverlap⟩
    rw [hb.countKind]
    simp
  · intro hw hh hn hnP hk hkL hfit hrand
    exact construct_total hw hh hn hnP hk hkL hfit hrand

/-! ## The states reachable from a construction -/

theorem movePlayer_frame {g g1 : Vampires} (hv : Valid g) {dir : Direction}
    {r : PlayerResult} (h : movePlayer dir g = some (r, g1)) :
    Valid g1 ∧ g1.width = g.width ∧ g1.height = g.height ∧
      g1.items.map (fun i => i.kind) = g.items.map (fun i => i.kind) ∧
      ∀ (id : Nat) (it : Item), g.items[id]? = some it → it.kind = Kind.border →
        g1.items[id]? = some it := by
  obtain ⟨p, hp, hpk⟩ := hv.player
  rcases movePlayer_cases hv dir hp with ⟨_, hl⟩ | ⟨_, k, hw, _, ⟨_, hl⟩ | ⟨_, ga, g2, _, hpush, hpa, hm, hv2, hl⟩⟩
  · rw [hl] at h
    injection h with h
    injection h with _ h
    subst h
    exact ⟨hv, rfl, rfl, rfl, fun _ _ hit _ => hit⟩
  · rw [hl] at h
    injection h with h
    injection h with _ h
    subst h
    exact ⟨hv, rfl, rfl, rfl, fun _ _ hit _ => hit⟩
  · rw [hl] at h
    injection h with h
    injection h with _ h
    subst h
    have hpa1 : ga.items[ga.m_player]? = some p := by rw [hpush.m_player]; exact hpa
    have hm1 : MovedTo ga g2 ga.m_player p (p.x + (directionToDistance dir).x)
        (p.y + (directionToDistance dir).y) := by rw [hpush.m_player]; exact hm
    refine ⟨hv2, hm.width.trans hpush.width, hm.height.trans hpush.height,
      (hm.kinds hpa).trans hpush.kinds, ?_⟩
    intro id it hit hk
    have hne : id ≠ g.m_player := by
      rintro rfl
      rw [hp] at hit
      injection hit with e
      rw [e] at hpk
      rw [hpk] at hk
      exact absurd hk (by decide)
    rw [hm.getItem hpa, if_neg hne, hpush.items_others id]
    · exact hit
    · intro i hi hc
      obtain ⟨idw, itw, hcw, hitw, hkw⟩ := fieldHas_eq_true.mp (hw i hi)
      rw [hc] at hcw
      injection hcw with hcw
      injection hcw with hcw
      subst hcw
      rw [hit] at hitw
      injection hitw with e
      rw [← e, hk] at hkw
      exact absurd hkw (by decide)

theorem movePlayer_total {g : Vampires} (hv : Valid g) (dir : Direction) :
    ∃ r g1, movePlayer dir g = some (r, g1) := by
  obtain ⟨p, hp, _⟩ := hv.player
  rcases movePlayer_cases hv dir hp with ⟨_, hl⟩ | ⟨_, k, _, _, ⟨_, hl⟩ | ⟨_, ga, g2, _, _, _, _, _, hl⟩⟩
  · exact ⟨_, _, hl⟩
  · exact ⟨_, _, hl⟩
  · exact ⟨_, _, hl⟩

theorem moveVampires_frame {g g1 : Vampires} (hv : Valid g)
    {sort : List Vampire → List Vampire} (hs : SortSpec sort) {r : VampireResult}
    (h : moveVampires sort g = some (r, g1)) :
    Valid g1 ∧ g1.width = g.width ∧ g1.height = g.height ∧
      g1.items.map (fun i => i.kind) = g.items.map (fun i => i.kind) ∧
      ∀ (id : Nat) (it : Item), g.items[id]? = some it → it.kind ≠ Kind.vampire →
        g1.items[id]? = some it := by
  obtain ⟨sorted, _, hperm, hi, hmv, _⟩ := moveVampires_eq hv hs
  obtain ⟨r1, g2, hl, hv2, _, hw, hh, _, hkinds, hframe⟩ := vampiresLoop_total sorted _ false hi
  rw [hmv, hl] at h
  injection h with h
  injection h with _ h
  subst h
  refine ⟨hv2, hw, hh, hkinds, ?_⟩
  intro id it hit hk
  have hnot : id ∉ sorted.map (fun v => v.item) := by
    intro hmem
    obtain ⟨u, hu, he⟩ := List.mem_map.mp hmem
    obtain ⟨itu, hitu, hku⟩ := hi.kinds u hu
    have hitu1 : g.items[u.item]? = some itu := hitu
    rw [he, hit] at hitu1
    injection hitu1 with e
    subst e
    exact hk hku
  rw [hframe id hnot]
  exact hit

theorem moveVampires_total {g : Vampires} (hv : Valid g)
    {sort : List Vampire → List Vampire} (hs : SortSpec sort) :
    ∃ r g1, moveVampires sort g = some (r, g1) := by
  obtain ⟨sorted, _, _, hi, hmv, _⟩ := moveVampires_eq hv hs
  obtain ⟨r1, g2, hl, _⟩ := vampiresLoop_total sorted _ false hi
  exact ⟨r1, g2, hmv.trans hl⟩

theorem Reachable.inv {g0 g : Vampires} (hv0 : Valid g0) (hr : Reachable g0 g) :
    Valid g ∧ g.width = g0.width ∧ g.height = g0.height ∧
      g.items.map (fun i => i.kind) = g0.items.map (fun i => i.kind) ∧
      ∀ (id : Nat) (it : Item), g0.items[id]? = some it → it.kind = Kind.border →
        g.items[id]? = some it := by
  induction hr with
  | start => exact ⟨hv0, rfl, rfl, rfl, fun _ _ hit _ => hit⟩
  | player dir r _ hstep ih =>
    obtain ⟨hv, hw, hh, hk, hf⟩ := ih
    obtain ⟨hv1, hw1, hh1, hk1, hf1⟩ := movePlayer_frame hv hstep
    exact ⟨hv1, hw1.trans hw, hh1.trans hh, hk1.trans hk,
      fun id it hit hkb => hf1 id it (hf id it hit hkb) hkb⟩
  | vampires sort r _ hs hstep ih =>
    obtain ⟨hv, hw, hh, hk, hf⟩ := ih
    obtain ⟨hv1, hw1, hh1, hk1, hf1⟩ := moveVampires_frame hv hs hstep
    exact ⟨hv1, hw1.trans hw, hh1.trans hh, hk1.trans hk,
      fun id it hit hkb => hf1 id it (hf id it hit hkb) (by rw [hkb]; decide)⟩

/-- C20: in every state `g` reached from a state `g0` returned by the constructor by calls
of `movePlayer` and `moveVampires` (with any sort meeting `SortSpec`), every cell of the
outer ring holds an item of kind `border`; every item of kind `border` is stored where the
constructor created it; every item of another kind is stored, and every cell holding an item
of another kind lies, off the outer ring; and every further call of `movePlayer` or
`moveVampires` returns. -/
theorem reachable_border {width height vampireCount wallCount RAND_MAX : Int}
    {rand : Nat → Int} {g0 g : Vampires}
    (h0 : construct width height vampireCount wallCount RAND_MAX rand = some g0)
    (hr : Reachable g0 g) :
    (∀ x y, 0 ≤ x → x < width → 0 ≤ y → y < height →
      (x = 0 ∨ x = width - 1 ∨ y = 0 ∨ y = height - 1) → Holds g x y Kind.border) ∧
    (∀ (id : Nat) (it : Item), g.items[id]? = some it → it.kind = Kind.border →
      g0.items[id]? = some it) ∧
    (∀ (id : Nat) (it : Item), g.items[id]? = some it → it.kind ≠ Kind.border →
      1 ≤ it.x ∧ it.x ≤ width - 2 ∧ 1 ≤ it.y ∧ it.y ≤ height - 2) ∧
    (∀ x y kind, Holds g x y kind → kind ≠ Kind.border →
      1 ≤ x ∧ x ≤ width - 2 ∧ 1 ≤ y ∧ y ≤ height - 2) ∧
    (∀ dir, ∃ r g1, movePlayer dir g = some (r, g1)) ∧
    (∀ sort, SortSpec sort → ∃ r g1, moveVampires sort g = some (r, g1)) := by
  obtain ⟨ps, hb⟩ := construct_built h0
  obtain ⟨hv, hw, hh, hk, hf⟩ := Reachable.inv hb.consistent hr
  rw [hb.width_eq] at hw
  rw [hb.height_eq] at hh
  refine ⟨?_, ?_, ?_, ?_, fun dir => movePlayer_total hv dir,
    fun sort hs => moveVampires_total hv hs⟩
  · intro x y hx0 hx1 hy0 hy1 hring
    rw [holds_iff_fieldHas]
    apply hv.ring x y hx0 (by rw [hw]; exact hx1) hy0 (by rw [hh]; exact hy1)
    unfold onRing
    rw [hw, hh]
    exact hring
  · intro id it hit hkb
    have h1 : (g.items.map (fun i => i.kind))[id]? = some Kind.border := by
      rw [List.getElem?_map, hit]
      simp [hkb]
    rw [hk, List.getElem?_map] at h1
    cases h2 : g0.items[id]? with
    | none => rw [h2] at h1; simp at h1
    | some it0 =>
      rw [h2] at h1
      simp only [Option.map_some', Option.some.injEq] at h1
      have h3 := hf id it0 h2 h1
      rw [hit] at h3
      rw [h3]
  · intro id it hit hkb
    have := interior_of_item hv hit hkb
    rw [hw, hh] at this
    exact this
  · rintro x y kind ⟨id, it, hc, hit, hki⟩ hkb
    have := interior_of_cell hv hc hit (by rw [hki]; exact hkb)
    rw [hw, hh] at this
    exact this

/-- Witness of C20: the state after the player moved to the right on the constructed 7 x 7
field. -/
theorem reachable_border_witness :
    ∃ r g, movePlayer Direction.right builtGame = some (r, g) ∧
      ∀ x y, 0 ≤ x → x < 7 → 0 ≤ y → y < 7 →
        (x = 0 ∨ x = 7 - 1 ∨ y = 0 ∨ y = 7 - 1) → Holds g x y Kind.border := by
  obtain ⟨r, g, h⟩ := movePlayer_total (g := builtGame) (valid_of_validCheck (by decide))
    Direction.right
  exact ⟨r, g, h, (reachable_border
    (show construct 7 7 1 1 32767 (fun _ => 32767) = some builtGame by decide)
    (Reachable.player Direction.right r Reachable.start h)).1⟩
/-! ## The first move of a single pursuer on a 7 x 7 field -/

theorem fieldHas_player_false {g : Vampires} (hv : Valid g) {p : Item}
    (hp : g.items[g.m_player]? = some p) {x y : Int}
    (hb : 0 ≤ x ∧ x < g.width ∧ 0 ≤ y ∧ y < g.height) (hne : ¬ (x = p.x ∧ y = p.y)) :
    fieldHas g x y Kind.player = some false := by
  obtain ⟨b, hb1⟩ := fieldHas_isSome hv hb.1 hb.2.1 hb.2.2.1 hb.2.2.2 Kind.player
  cases b with
  | false => exact hb1
  | true => exact absurd ((fieldHas_player_iff hv hp x y).mp hb1) hne

/-- The loop over the directions for a pursuer at `(1, 1)` with the player at `(3, 3)`, when
the cells `(2, 1)` and `(1, 2)` are empty and the five neighbouring cells of the outer ring
are occupied: the minimum is reached diagonally if `(2, 2)` is empty, and first to the right
otherwise. -/
theorem scanDirections_corner {g : Vampires}
    (f10 : fieldHas g 1 0 Kind.player = some false)
    (f20 : fieldHas g 2 0 Kind.player = some false)
    (f21 : fieldHas g 2 1 Kind.player = some false)
    (f22 : fieldHas g 2 2 Kind.player = some false)
    (f12 : fieldHas g 1 2 Kind.player = some false)
    (f02 : fieldHas g 0 2 Kind.player = some false)
    (f01 : fieldHas g 0 1 Kind.player = some false)
    (f00 : fieldHas g 0 0 Kind.player = some false)
    (c10 : ∃ id, cellAt g.m_field 1 0 = some (some id))
    (c20 : ∃ id, cellAt g.m_field 2 0 = some (some id))
    (c21 : cellAt g.m_field 2 1 = some none)
    (c12 : cellAt g.m_field 1 2 = some none)
    (c02 : ∃ id, cellAt g.m_field 0 2 = some (some id))
    (c01 : ∃ id, cellAt g.m_field 0 1 = some (some id))
    (c00 : ∃ id, cellAt g.m_field 0 0 = some (some id)) :
    (cellAt g.m_field 2 2 = some none →
      scanDirections g ⟨Kind.vampire, 1, 1⟩ ⟨Kind.player, 3, 3⟩ allDirections INT_MAX {}
        = some (DirScan.chosen (-6) ⟨1, 1⟩)) ∧
    ((∃ id, cellAt g.m_field 2 2 = some (some id)) →
      scanDirections g ⟨Kind.vampire, 1, 1⟩ ⟨Kind.player, 3, 3⟩ allDirections INT_MAX {}
        = some (DirScan.chosen (-3) ⟨1, 0⟩)) := by
  obtain ⟨i10, c10⟩ := c10
  obtain ⟨i20, c20⟩ := c20
  obtain ⟨i02, c02⟩ := c02
  obtain ⟨i01, c01⟩ := c01
  obtain ⟨i00, c00⟩ := c00
  constructor
  · intro c22
    simp [allDirections, scanDirections, directionToDistance, cost, INT_MAX, f10, f20, f21,
      f22, f12, f02, f01, f00, c10, c20, c21, c22, c12, c02, c01, c00]
  · rintro ⟨i22, c22⟩
    simp [allDirections, scanDirections, directionToDistance, cost, INT_MAX, f10, f20, f21,
      f22, f12, f02, f01, f00, c10, c20, c21, c22, c12, c02, c01, c00]
theorem moveVampires_corner {g : Vampires} (hv : Valid g)
    {sort : List Vampire → List Vampire} (hs : SortSpec sort)
    (hvs : g.m_vampires.map (fun v => v.item) = [24])
    (hvi : g.items[24]? = some ⟨Kind.vampire, 1, 1⟩)
    (hpl : g.items[g.m_player]? = some ⟨Kind.player, 3, 3⟩)
    (hw : g.width = 7) (hh : g.height = 7)
    (c21 : cellAt g.m_field 2 1 = some none)
    (c12 : cellAt g.m_field 1 2 = some none) :
    ∃ g1, moveVampires sort g = some (VampireResult.ok, g1) ∧
      (cellAt g.m_field 2 2 = some none → positionOf g1 24 = some (2, 2)) ∧
      ((∃ id, cellAt g.m_field 2 2 = some (some id)) → positionOf g1 24 = some (2, 1)) := by
  obtain ⟨sorted, _, hperm, hi, hmv, _⟩ := moveVampires_eq hv hs
  rw [hvs] at hperm
  have hmap : sorted.map (fun v => v.item) = [24] := List.perm_singleton.mp hperm
  obtain ⟨v, hsorted, hvitem⟩ : ∃ v, sorted = [v] ∧ v.item = 24 := by
    cases sorted with
    | nil => simp at hmap
    | cons v rest =>
      cases rest with
      | nil => exact ⟨v, rfl, by simpa using hmap⟩
      | cons u rest => simp at hmap
  subst hsorted
  have hv1 : Valid { g with m_vampires := [v] } := hi.valid
  have hit1 : ({ g with m_vampires := [v] } : Vampires).items[v.item]?
      = some ⟨Kind.vampire, 1, 1⟩ := by rw [hvitem]; exact hvi
  have hp1 : ({ g with m_vampires := [v] } : Vampires).items[
      ({ g with m_vampires := [v] } : Vampires).m_player]? = some ⟨Kind.player, 3, 3⟩ := hpl
  have hring : ∀ x y, 0 ≤ x → x < 7 → 0 ≤ y → y < 7 → (x = 0 ∨ y = 0) →
      ∃ id, cellAt g.m_field x y = some (some id) := by
    intro x y hx0 hx1 hy0 hy1 hr
    have := hv.ring x y hx0 (by rw [hw]; exact hx1) hy0 (by rw [hh]; exact hy1)
      (by unfold onRing; omega)
    obtain ⟨id, _, hc, _, _⟩ := fieldHas_eq_true.mp this
    exact ⟨id, hc⟩
  have hfalse : ∀ x y, 0 ≤ x → x < 3 → 0 ≤ y → y < 3 →
      fieldHas g x y Kind.player = some false := by
    intro x y hx0 hx1 hy0 hy1
    apply fieldHas_player_false hv hpl
    · rw [hw, hh]; omega
    · simp only; omega
  have hscan := scanDirections_corner (g := { g with m_vampires := [v] })
    (hfalse 1 0 (by decide) (by decide) (by decide) (by decide))
    (hfalse 2 0 (by decide) (by decide) (by decide) (by decide))
    (hfalse 2 1 (by decide) (by decide) (by decide) (by decide))
    (hfalse 2 2 (by decide) (by decide) (by decide) (by decide))
    (hfalse 1 2 (by decide) (by decide) (by decide) (by decide))
    (hfalse 0 2 (by decide) (by decide) (by decide) (by decide))
    (hfalse 0 1 (by decide) (by decide) (by decide) (by decide))
    (hfalse 0 0 (by decide) (by decide) (by decide) (by decide))
    (hring 1 0 (by decide) (by decide) (by decide) (by decide) (Or.inr rfl))
    (hring 2 0 (by decide) (by decide) (by decide) (by decide) (Or.inr rfl))
    c21 c12
    (hring 0 2 (by decide) (by decide) (by decide) (by decide) (Or.inl rfl))
    (hring 0 1 (by decide) (by decide) (by decide) (by decide) (Or.inl rfl))
    (hring 0 0 (by decide) (by decide) (by decide) (by decide) (Or.inl rfl))
  obtain ⟨b, hb⟩ := Option.isSome_iff_exists.mp
    ((hv.bounds 2 2).mpr ⟨by decide, by rw [hw]; decide, by decide, by rw [hh]; decide⟩)
  cases b with
  | none =>
    have hb1 : cellAt ({ g with m_vampires := [v] } : Vampires).m_field (1 + 1) (1 + 1)
        = some none := by simpa using hb
    obtain ⟨g1, hmove, hm⟩ := moveItem_eq hv1 hit1 hb1
    have hstep : vampireStep { g with m_vampires := [v] } v = some (StepResult.moved g1) := by
      simp only [vampireStep, hit1, hp1, hscan.1 hb]
      rw [if_neg (by decide)]
      simp only [hmove]
    refine ⟨g1, ?_, ?_, ?_⟩
    · rw [hmv]
      simp [vampiresLoop, hstep]
    · intro _
      unfold positionOf
      rw [← hvitem, hm.getItem hit1, if_pos rfl]
      rfl
    · rintro ⟨id, hid⟩
      rw [hb] at hid
      exact absurd hid (by simp)
  | some id =>
    have hb1 : cellAt ({ g with m_vampires := [v] } : Vampires).m_field (1 + 1) (1 + 0)
        = some none := by simpa using c21
    obtain ⟨g1, hmove, hm⟩ := moveItem_eq hv1 hit1 hb1
    have hstep : vampireStep { g with m_vampires := [v] } v = some (StepResult.moved g1) := by
      simp only [vampireStep, hit1, hp1, hscan.2 ⟨id, hb⟩]
      rw [if_neg (by decide)]
      simp only [hmove]
    refine ⟨g1, ?_, ?_, ?_⟩
    · rw [hmv]
      simp [vampiresLoop, hstep]
    · intro hid
      rw [hb] at hid
      exact absurd hid (by simp)
    · intro _
      unfold positionOf
      rw [← hvitem, hm.getItem hit1, if_pos rfl]
      rfl
/-- C13 as stated fails: on the 7 x 7 field built with one pursuer and one wall when `rand()`
returns 0, the wall is at `(2, 2)`, the cell diagonally ahead of the pursuer, and the first
call of `moveVampires` returns `ok` with the pursuer moved to the right, to `(2, 1)`. -/
theorem first_move_counterexample :
    construct 7 7 1 1 32767 (fun _ => 0) = some cornerGame ∧
      positionOf cornerGame 24 = some (1, 1) ∧
      positionOf cornerGame cornerGame.m_player = some (3, 3) ∧
      (moveVampires sortByDistance cornerGame).map (fun rg => (rg.1, positionOf rg.2 24))
        = some (VampireResult.ok, some (2, 1)) := by
  decide

/-- C13 (amended): in every state the constructor returns for a 7 x 7 field with one pursuer,
whatever the number of walls and the values of `rand()`, the pursuer list is the one item 24,
of kind `vampire` and stored at `(1, 1)`, and the player is stored at `(3, 3)`; the first call
of `moveVampires`, with any sort meeting `SortSpec`, returns `ok`, and it moves the pursuer
diagonally to `(2, 2)` if that cell holds no wall, and to the right, to `(2, 1)`, if it holds
a wall. -/
theorem first_move (wallCount RAND_MAX : Int) (rand : Nat → Int)
    (sort : List Vampire → List Vampire) (hs : SortSpec sort) (g : Vampires)
    (hg : construct 7 7 1 wallCount RAND_MAX rand = some g) :
    g.m_vampires = [⟨24, 0⟩] ∧ g.items[24]? = some ⟨Kind.vampire, 1, 1⟩ ∧
      g.items[g.m_player]? = some ⟨Kind.player, 3, 3⟩ ∧
      ∃ g1, moveVampires sort g = some (VampireResult.ok, g1) ∧
        (¬ Holds g 2 2 Kind.wall → positionOf g1 24 = some (2, 2)) ∧
        (Holds g 2 2 Kind.wall → positionOf g1 24 = some (2, 1)) := by
  obtain ⟨ps, hb⟩ := construct_built hg
  have hv := hb.consistent
  have hvs : g.m_vampires = [⟨24, 0⟩] := by
    rw [hb.m_vampires]
    decide
  have hvi : g.items[24]? = some ⟨Kind.vampire, 1, 1⟩ := by
    have h := hb.vampire_item (i := 0) (by decide)
    have h24 : (borderItems 7 7).length + 0 = 24 := by decide
    rw [h24] at h
    rw [h]
    decide
  have hpl : g.items[g.m_player]? = some ⟨Kind.player, 3, 3⟩ := hb.player_item
  have hitems : ∀ it ∈ g.items,
      (it.x = 0 ∨ it.x = 6 ∨ it.y = 0 ∨ it.y = 6) ∨ (it.x = 1 ∧ it.y = 1) ∨
        (it.x = 3 ∧ it.y = 3) ∨
        (it.kind = Kind.wall ∧ 2 ≤ it.x ∧ it.x ≤ 4 ∧ 2 ≤ it.y ∧ it.y ≤ 4) := by
    intro it hit
    rcases hb.mem_items.mp hit with h | ⟨q, hq, h⟩ | h | ⟨p, hp, h⟩
    · have := (mem_borderItems (by decide) (by decide)).mp h
      left
      omega
    · right; left
      have hq1 : q = 0 := by
        have : ringPositions (ringLength 7 7) 1 (1 : Int).toNat (0, 0) = [0] := by decide
        rw [this] at hq
        simpa using hq
      rw [h, hq1]
      decide
    · right; right; left
      rw [h]
      decide
    · right; right; right
      have := hb.walls_interior p hp
      rw [h]
      simp only [wallItem]
      refine ⟨trivial, ?_⟩
      omega
  have c21 : cellAt g.m_field 2 1 = some none := by
    rw [hb.wf.empty_iff, hb.width_eq, hb.height_eq]
    refine ⟨by decide, ?_⟩
    intro it hit
    have := hitems it hit
    omega
  have c12 : cellAt g.m_field 1 2 = some none := by
    rw [hb.wf.empty_iff, hb.width_eq, hb.height_eq]
    refine ⟨by decide, ?_⟩
    intro it hit
    have := hitems it hit
    omega
  obtain ⟨g1, hmv, h1, h2⟩ := moveVampires_corner hv hs (by rw [hvs]; rfl) hvi hpl
    hb.width_eq hb.height_eq c21 c12
  refine ⟨hvs, hvi, hpl, g1, hmv, ?_, ?_⟩
  · intro hno
    apply h1
    obtain ⟨b, hcell⟩ := Option.isSome_iff_exists.mp
      ((hv.bounds 2 2).mpr ⟨by decide, by rw [hb.width_eq]; decide, by decide,
        by rw [hb.height_eq]; decide⟩)
    cases b with
    | none => exact hcell
    | some id =>
      exfalso
      obtain ⟨it, hit, hx, hy⟩ := hv.cell_item 2 2 id hcell
      rcases hitems it (List.getElem?_mem hit) with h | h | h | h
      · omega
      · omega
      · omega
      · exact hno ⟨id, it, hcell, hit, h.1⟩
  · rintro ⟨id, it, hcell, _, _⟩
    exact h2 ⟨id, hcell⟩

/-- Witness of C13 (amended): the field built when `rand()` returns 32767 has its wall at
`(4, 4)`, and the pursuer moves to `(2, 2)`. -/
theorem first_move_witness :
    ∃ g1, moveVampires sortByDistance builtGame = some (VampireResult.ok, g1) ∧
      (¬ Holds builtGame 2 2 Kind.wall → positionOf g1 24 = some (2, 2)) ∧
      (Holds builtGame 2 2 Kind.wall → positionOf g1 24 = some (2, 1)) :=
  (first_move 1 32767 (fun _ => 32767) sortByDistance sortSpec_sortByDistance builtGame
    (by decide)).2.2.2
/-! ## Invariants of the reachable states -/

theorem moveItem_some {g g1 : Vampires} {id : Nat} {x y : Int}
    (h : moveItem g id x y = some g1) :
    cellAt g.m_field x y = some none ∧
      ∃ it, g.items[id]? = some it ∧ cellAt g.m_field it.x it.y = some (some id) := by
  unfold moveItem at h
  cases hc : cellAt g.m_field x y with
  | none => rw [hc] at h; exact absurd h (by simp)
  | some target =>
    rw [hc] at h
    dsimp only at h
    by_cases ht : target ≠ none
    · rw [if_pos ht] at h
      exact absurd h (by simp)
    · rw [if_neg ht] at h
      have ht1 : target = none := not_not.mp ht
      cases hi : g.items[id]? with
      | none => rw [hi] at h; exact absurd h (by simp)
      | some it =>
        rw [hi] at h
        dsimp only at h
        cases hs : cellAt g.m_field it.x it.y with
        | none => rw [hs] at h; exact absurd h (by simp)
        | some source =>
          rw [hs] at h
          dsimp only at h
          by_cases hsrc : source ≠ some id
          · rw [if_pos hsrc] at h
            exact absurd h (by simp)
          · have hsrc1 : source = some id := not_not.mp hsrc
            exact ⟨by rw [ht1], it, rfl, by rw [hs, hsrc1]⟩

/-- C21: in every state `g` reached from a state `g0` returned by the constructor by calls of
`movePlayer` and `moveVampires`, the heap holds the same items of the same kinds under the
same identifiers as in `g0`, so that the number of items of each kind is the one after the
construction: one player, `wallCount` walls, `vampireCount` pursuers and
`2 * width + 2 * (height - 2)` border items; exactly one cell holds a player; and the items
and the occupied cells correspond one to one: every item is referred to by the cell of its
stored position, every occupied cell refers to an item stored there, and no two items share
a cell. -/
theorem reachable_census {width height vampireCount wallCount RAND_MAX : Int}
    {rand : Nat → Int} {g0 g : Vampires}
    (h0 : construct width height vampireCount wallCount RAND_MAX rand = some g0)
    (hr : Reachable g0 g) :
    g.items.map (fun i => i.kind) = g0.items.map (fun i => i.kind) ∧
    (∀ kind, countKind g kind = countKind g0 kind) ∧
    countKind g Kind.player = 1 ∧
    countKind g Kind.wall = wallCount.toNat ∧
    countKind g Kind.vampire = vampireCount.toNat ∧
    (countKind g Kind.border : Int) = 2 * width + 2 * (height - 2) ∧
    (∃ px py, ∀ x y, Holds g x y Kind.player ↔ (x = px ∧ y = py)) ∧
    (∀ (id : Nat) (it : Item), g.items[id]? = some it →
      cellAt g.m_field it.x it.y = some (some id)) ∧
    (∀ x y id, cellAt g.m_field x y = some (some id) →
      ∃ it, g.items[id]? = some it ∧ it.x = x ∧ it.y = y) ∧
    NoOverlap g := by
  obtain ⟨ps, hb⟩ := construct_built h0
  obtain ⟨hv, _, _, hk, _⟩ := Reachable.inv hb.consistent hr
  have hcount : ∀ kind, countKind g kind = countKind g0 kind := countKind_eq_of_kinds hk
  have hw7 := hb.width_ge
  have hh7 := hb.height_ge
  refine ⟨hk, hcount, ?_, ?_, ?_, ?_, ?_, hv.item_cell, hv.cell_item, noOverlap_of_valid hv⟩
  · rw [hcount, hb.countKind]
    simp
  · rw [hcount, hb.countKind]
    simp
  · rw [hcount, hb.countKind]
    simp
  · rw [hcount, hb.countKind]
    simp only [if_true, if_false, add_zero, reduceCtorEq]
    exact length_borderItems (by omega) (by omega)
  · obtain ⟨p, hp, hpk⟩ := hv.player
    refine ⟨p.x, p.y, ?_⟩
    intro x y
    constructor
    · rintro ⟨id, it, hc, hit, hki⟩
      have hid := hv.player_unique id it hit hki
      obtain ⟨it1, hit1, hx, hy⟩ := hv.cell_item x y id hc
      rw [hid, hp] at hit1
      injection hit1 with e
      rw [← e] at hx hy
      exact ⟨hx.symm, hy.symm⟩
    · rintro ⟨hx, hy⟩
      rw [hx, hy]
      exact ⟨g.m_player, p, hv.item_cell _ _ hp, hp, hpk⟩

/-- Witness of C21: the state after the player moved to the right on the constructed 7 x 7
field. -/
theorem reachable_census_witness :
    ∃ r g, movePlayer Direction.right builtGame = some (r, g) ∧
      countKind g Kind.player = 1 ∧ countKind g Kind.wall = (1 : Int).toNat ∧
      countKind g Kind.vampire = (1 : Int).toNat := by
  obtain ⟨r, g, h⟩ := movePlayer_total (g := builtGame) (valid_of_validCheck (by decide))
    Direction.right
  have hc := reachable_census
    (show construct 7 7 1 1 32767 (fun _ => 32767) = some builtGame by decide)
    (Reachable.player Direction.right r Reachable.start h)
  exact ⟨r, g, h, hc.2.2.1, hc.2.2.2.1, hc.2.2.2.2.1⟩

/-- C22: in every state reached from a state returned by the constructor, every occupied cell
refers to an item whose stored position is that cell; the player handle refers to an item of
kind `player`, and every entry of the pursuer list to an item of kind `vampire`, that is
referred to by the cell of its stored position; `moveItem` returns a state only if the target
cell is empty and the cell of the stored position of the moved item refers to it (its two
assertions); and every call of `movePlayer` and of `moveVampires` returns a state, so that
the assertions hold at every relocation these calls make. -/
theorem reachable_consistent {width height vampireCount wallCount RAND_MAX : Int}
    {rand : Nat → Int} {g0 g : Vampires}
    (h0 : construct width height vampireCount wallCount RAND_MAX rand = some g0)
    (hr : Reachable g0 g) :
    (∀ x y id, cellAt g.m_field x y = some (some id) →
      ∃ it, g.items[id]? = some it ∧ it.x = x ∧ it.y = y) ∧
    (∃ p, g.items[g.m_player]? = some p ∧ p.kind = Kind.player ∧
      cellAt g.m_field p.x p.y = some (some g.m_player)) ∧
    (∀ v ∈ g.m_vampires, ∃ it, g.items[v.item]? = some it ∧ it.kind = Kind.vampire ∧
      cellAt g.m_field it.x it.y = some (some v.item)) ∧
    (∀ (id : Nat) (x y : Int) (g1 : Vampires), moveItem g id x y = some g1 →
      cellAt g.m_field x y = some none ∧
      ∃ it, g.items[id]? = some it ∧ cellAt g.m_field it.x it.y = some (some id)) ∧
    (∀ dir, ∃ r g1, movePlayer dir g = some (r, g1)) ∧
    (∀ sort, SortSpec sort → ∃ r g1, moveVampires sort g = some (r, g1)) := by
  obtain ⟨ps, hb⟩ := construct_built h0
  obtain ⟨hv, _, _, _, _⟩ := Reachable.inv hb.consistent hr
  refine ⟨hv.cell_item, ?_, ?_, fun id x y g1 h => moveItem_some h,
    fun dir => movePlayer_total hv dir, fun sort hs => moveVampires_total hv hs⟩
  · obtain ⟨p, hp, hpk⟩ := hv.player
    exact ⟨p, hp, hpk, hv.item_cell _ _ hp⟩
  · intro v hmem
    obtain ⟨it, hit, hk⟩ := hv.vampires v hmem
    exact ⟨it, hit, hk, hv.item_cell _ _ hit⟩

/-- Witness of C22: the state after the pursuer moved on the constructed 7 x 7 field. -/
theorem reachable_consistent_witness :
    ∃ r g, moveVampires sortByDistance builtGame = some (r, g) ∧
      ∃ p, g.items[g.m_player]? = some p ∧ p.kind = Kind.player ∧
        cellAt g.m_field p.x p.y = some (some g.m_player) := by
  obtain ⟨r, g, h⟩ := moveVampires_total (g := builtGame) (valid_of_validCheck (by decide))
    sortSpec_sortByDistance
  exact ⟨r, g, h, (reachable_consistent
    (show construct 7 7 1 1 32767 (fun _ => 32767) = some builtGame by decide)
    (Reachable.vampires sortByDistance r Reachable.start sortSpec_sortByDistance h)).2.1⟩
/-! ## The cost of a direction -/

theorem cost_eq_sqDist (vx vy px py : Int) (dir : Direction) :
    cost vx vy px py (directionToDistance dir)
      = sqDist (vx + (directionToDistance dir).x) (vy + (directionToDistance dir).y) px py
        - sqDist vx vy px py := by
  cases dir <;> simp only [cost, sqDist, directionToDistance] <;> ring_nf <;> simp <;> ring

/-- C30: for every pursuer position `(vx, vy)`, player position `(px, py)` and direction, the
cost `dd` computed by `moveVampires` is the squared Euclidean distance to the player after the
step minus the one before it; hence, at the turn of a pursuer that `moveVampires` relocates,
the pursuer goes to a neighbouring cell that is empty at that turn and whose squared distance
to the player is at most the one of every neighbouring cell empty at that turn. -/
theorem cost_distance_change :
    (∀ (vx vy px py : Int) (dir : Direction),
      cost vx vy px py (directionToDistance dir)
        = sqDist (vx + (directionToDistance dir).x) (vy + (directionToDistance dir).y) px py
          - sqDist vx vy px py) ∧
    ∀ (sort : List Vampire → List Vampire), SortSpec sort → ∀ g : Vampires, Valid g →
      ∀ t ∈ turns sort g, ∀ g1 : Vampires, vampireStep t.2 t.1 = some (StepResult.moved g1) →
        ∃ (it p it1 : Item) (dir : Direction),
          t.2.items[t.1.item]? = some it ∧ t.2.items[t.2.m_player]? = some p ∧
          g1.items[t.1.item]? = some it1 ∧ EmptyAt t.2 it.x it.y dir ∧
          it1.x = it.x + (directionToDistance dir).x ∧
          it1.y = it.y + (directionToDistance dir).y ∧
          ∀ dir1 : Direction, EmptyAt t.2 it.x it.y dir1 →
            sqDist it1.x it1.y p.x p.y
              ≤ sqDist (it.x + (directionToDistance dir1).x)
                  (it.y + (directionToDistance dir1).y) p.x p.y := by
  refine ⟨cost_eq_sqDist, ?_⟩
  intro sort hs g hv t ht g1 hstep
  obtain ⟨rest, hi, _, _⟩ := turns_inv hv hs t ht
  obtain ⟨it, p, hit, hk, hp, hc⟩ := vampiresLoop_cons hi false
  rcases hc with ⟨_, hs1, _⟩ | ⟨_, _, hs1, _⟩ | ⟨_, pre, dir, post, g2, hsplit, hch, hm, _, hs1, _⟩
  · rw [hs1] at hstep
    simp at hstep
  · rw [hs1] at hstep
    simp at hstep
  · rw [hs1] at hstep
    simp only [Option.some.injEq, StepResult.moved.injEq] at hstep
    subst hstep
    refine ⟨it, p, { it with x := it.x + (directionToDistance dir).x,
                             y := it.y + (directionToDistance dir).y }, dir, hit, hp, ?_,
      hch.1, rfl, rfl, ?_⟩
    · rw [hm.getItem hit, if_pos rfl]
    · intro dir1 he
      have hmem : dir1 ∈ pre ++ dir :: post := hsplit ▸ mem_allDirections dir1
      have hle : cost it.x it.y p.x p.y (directionToDistance dir)
          ≤ cost it.x it.y p.x p.y (directionToDistance dir1) := by
        rcases List.mem_append.mp hmem with h | h
        · exact le_of_lt (hch.2.1 dir1 h he)
        · rcases List.mem_cons.mp h with h | h
          · rw [h]
          · exact hch.2.2 dir1 h he
      rw [cost_eq_sqDist, cost_eq_sqDist] at hle
      show sqDist (it.x + (directionToDistance dir).x) (it.y + (directionToDistance dir).y)
        p.x p.y ≤ _
      omega

/-- Witness of C30 on the example field: the first pursuer processed is the one at `(1, 1)`. -/
theorem cost_distance_change_witness :
    ∃ (t : Vampire × Vampires) (g1 : Vampires),
      t ∈ turns sortByDistance exampleGame ∧
      vampireStep t.2 t.1 = some (StepResult.moved g1) ∧
      ∃ (it p it1 : Item) (dir : Direction),
        t.2.items[t.1.item]? = some it ∧ t.2.items[t.2.m_player]? = some p ∧
        g1.items[t.1.item]? = some it1 ∧ EmptyAt t.2 it.x it.y dir ∧
        it1.x = it.x + (directionToDistance dir).x ∧
        it1.y = it.y + (directionToDistance dir).y ∧
        ∀ dir1 : Direction, EmptyAt t.2 it.x it.y dir1 →
          sqDist it1.x it1.y p.x p.y
            ≤ sqDist (it.x + (directionToDistance dir1).x)
                (it.y + (directionToDistance dir1).y) p.x p.y := by
  have ht : ((⟨24, 8⟩, { exampleGame with m_vampires := [⟨24, 8⟩, ⟨25, 5⟩] }) :
      Vampire × Vampires) ∈ turns sortByDistance exampleGame := by decide
  cases h : vampireStep { exampleGame with m_vampires := [⟨24, 8⟩, ⟨25, 5⟩] } ⟨24, 8⟩ with
  | none => exact absurd h (by decide)
  | some s =>
    cases s with
    | lost => exact absurd h (by decide)
    | skipped => exact absurd h (by decide)
    | moved g1 =>
      exact ⟨_, g1, ht, h,
        cost_distance_change.2 sortByDistance sortSpec_sortByDistance exampleGame
          exampleGame_valid _ ht g1 h⟩
/-! ## The assertions of the constructor -/

theorem construct_none_of_crowded {width height vampireCount wallCount RAND_MAX : Int}
    {rand : Nat → Int} (hlt : ringLength width height < vampireCount) :
    construct width height vampireCount wallCount RAND_MAX rand = none := by
  cases hc : construct width height vampireCount wallCount RAND_MAX rand with
  | none => rfl
  | some g =>
    exfalso
    obtain ⟨ps, hb⟩ := construct_built hc
    have hw7 := hb.width_ge
    have hh7 := hb.height_ge
    have hP16 : 16 ≤ ringLength width height := by unfold ringLength; omega
    have hP : 0 ≤ ringLength width height := by omega
    have hn1 : 1 ≤ vampireCount := by omega
    have hpos := ringPositions_eq hn1 hP vampireCount.toNat
    have h0 : 0 < vampireCount.toNat := by omega
    have h1 : 1 < vampireCount.toNat := by omega
    have i0 := hb.vampire_item h0
    have i1 := hb.vampire_item h1
    rw [hpos, List.map_map, List.getElem?_map, List.getElem?_range h0] at i0
    rw [hpos, List.map_map, List.getElem?_map, List.getElem?_range h1] at i1
    simp only [Option.map_some', Function.comp, Nat.cast_zero, zero_mul, Int.zero_ediv,
      Nat.cast_one, one_mul] at i0 i1
    rw [Int.ediv_eq_zero_of_lt hP hlt] at i1
    exact hb.wf.noOverlap _ _ _ _ i0 i1 (by omega) ⟨rfl, rfl⟩

/-- C28 fails in the code, by the defect of C17: the parameters 7, 7, 17, 1 meet every bound
asserted by the constructor, and yet the assertion of `createItem` fails when the second
pursuer is created, as it does whenever `vampireCount` exceeds the length of the inner ring.
The other direction holds: the constructor does not complete when one of its five bounds is
violated; and it completes when the bounds hold, the pursuers fit on the inner ring, the
wall indices are computed without overflow and `rand()` returns values in
`0 .. RAND_MAX`. -/
theorem construct_assertions (width height vampireCount wallCount RAND_MAX : Int)
    (rand : Nat → Int) :
    ((7 : Int) ≤ 7 ∧ (7 : Int) ≤ 7 ∧ (1 : Int) ≤ 17 ∧ (1 : Int) ≤ 1
      ∧ (1 : Int) ≤ (7 - 4) * (7 - 4) - 1) ∧
    construct 7 7 17 1 RAND_MAX rand = none ∧
    (ringLength width height < vampireCount →
      construct width height vampireCount wallCount RAND_MAX rand = none) ∧
    (¬ (7 ≤ width ∧ 7 ≤ height ∧ 1 ≤ vampireCount ∧ 1 ≤ wallCount
        ∧ wallCount ≤ (width - 4) * (height - 4) - 1) →
      construct width height vampireCount wallCount RAND_MAX rand = none) ∧
    (7 ≤ width → 7 ≤ height → 1 ≤ vampireCount → vampireCount ≤ ringLength width height →
      1 ≤ wallCount → wallCount ≤ (width - 4) * (height - 4) - 1 →
      RandFits RAND_MAX width height → (∀ c, 0 ≤ rand c ∧ rand c ≤ RAND_MAX) →
      ∃ g, construct width height vampireCount wallCount RAND_MAX rand = some g) := by
  refine ⟨by decide, construct_none_of_crowded (by decide), construct_none_of_crowded, ?_, ?_⟩
  · intro hbad
    unfold construct
    split
    · rename_i hp
      exact absurd ⟨hp.1, hp.2.1, hp.2.2.1, hp.2.2.2.1, hp.2.2.2.2⟩ hbad
    · rfl
  · intro hw hh hn hnP hk hkL hfit hrand
    exact construct_total hw hh hn hnP hk hkL hfit hrand
/-! ## The input channel: the buffer -/

theorem appendBytes_eq :
    ∀ (bytes buffer : List UInt8) (prev : UInt8),
      appendBytes buffer prev bytes = buffer ++ collapse (some prev) bytes := by
  intro bytes
  induction bytes with
  | nil => intro buffer prev; simp [appendBytes, collapse]
  | cons b bs ih =>
    intro buffer prev
    by_cases h : b = prev
    · subst h
      rw [appendBytes, if_pos rfl, ih, collapse, if_pos rfl]
    · rw [appendBytes, if_neg h, ih, collapse, if_neg (fun he => h (Option.some.inj he).symm)]
      simp

theorem collapse_some_eq_none {p : UInt8} {bs : List UInt8} (h : bs.head? ≠ some p) :
    collapse (some p) bs = collapse none bs := by
  cases bs with
  | nil => rfl
  | cons b bs =>
    have hne : ¬ (some p = some b) := by
      intro he
      apply h
      rw [List.head?_cons, ← he]
    rw [collapse, if_neg hne, collapse, if_neg (by simp)]

theorem prevByte_of_ne_nil {buffer : List UInt8} (h : buffer ≠ []) :
    some (prevByte buffer) = buffer.getLast? := by
  unfold prevByte
  cases hl : buffer.getLast? with
  | none => exact absurd (List.getLast?_eq_none_iff.mp hl) h
  | some b => rfl

/-- A burst in which no byte repeats the byte before it is left as it is. -/
theorem collapse_of_chain : ∀ (bs : List UInt8) (last : Option UInt8),
    List.Chain' (fun a b => a ≠ b) bs → bs.head? ≠ last ∨ bs = [] → collapse last bs = bs := by
  intro bs
  induction bs with
  | nil => intro last _ _; rfl
  | cons b bs ih =>
    intro last hc hl
    have hne : ¬ (last = some b) := by
      rcases hl with h | h
      · intro he
        apply h
        rw [List.head?_cons, he]
      · exact absurd h (by simp)
    rw [collapse, if_neg hne, ih (some b) (List.Chain'.tail hc)]
    cases bs with
    | nil => exact Or.inr rfl
    | cons c cs =>
      left
      have := (List.chain'_cons.mp hc).1
      rw [List.head?_cons]
      intro he
      exact this (Option.some.inj he).symm


/-! ## The input channel: the loop of `receiveAvailableBytes` -/

theorem allBytes_succ {w : Env} {i k : Nat} (h : AllBytes w i (k + 1)) :
    (∃ b rest, w.recv i = Incoming.bytes b rest) ∧ AllBytes w (i + 1) k := by
  constructor
  · exact h 0 (by omega)
  · intro j hj
    have := h (j + 1) (by omega)
    rw [show i + 1 + j = i + (j + 1) by omega]
    exact this

theorem receive_bytes (w : Env) :
    ∀ (k fuel i : Nat) (acc : List UInt8) (s : SocketReader), s.m_dataFd ≠ none →
      AllBytes w i k →
      receiveAvailableBytes w (k + fuel) i acc s
        = receiveAvailableBytes w fuel (i + k) (acc ++ delivered w i k) s := by
  intro k
  induction k with
  | zero => intro fuel i acc s _ _; simp [delivered]
  | succ k ih =>
    intro fuel i acc s hfd hb
    obtain ⟨⟨b, rest, hr⟩, hb1⟩ := allBytes_succ hb
    obtain ⟨fd, hfd1⟩ := Option.ne_none_iff_exists'.mp hfd
    rw [show k + 1 + fuel = (k + fuel) + 1 by omega, receiveAvailableBytes, hfd1]
    dsimp only
    rw [hr]
    dsimp only
    rw [ih fuel (i + 1) _ s hfd hb1, delivered, hr, chunk, List.append_assoc]
    congr 1
    omega
/-! ## The input channel: `getChar` -/

theorem deliver_nil (s : SocketReader) :
    (deliver [] s).1 = s.m_buffer.head? ∧ (deliver [] s).2.m_buffer = s.m_buffer.tail ∧
      (deliver [] s).2.m_dataFd = s.m_dataFd ∧ (deliver [] s).2.m_socketFd = s.m_socketFd ∧
      (deliver [] s).2.m_port = s.m_port ∧
      (deliver [] s).2.m_dataFdFuture = s.m_dataFdFuture ∧
      (deliver [] s).2.dataNonBlocking = s.dataNonBlocking := by
  unfold deliver
  rw [appendBytes]
  cases h : s.m_buffer with
  | nil => simp
  | cons c rest => simp

theorem deliver_frame (bytes : List UInt8) (s : SocketReader) :
    (deliver bytes s).2.m_dataFd = s.m_dataFd ∧ (deliver bytes s).2.m_socketFd = s.m_socketFd ∧
      (deliver bytes s).2.m_port = s.m_port ∧
      (deliver bytes s).2.m_dataFdFuture = s.m_dataFdFuture ∧
      (deliver bytes s).2.dataNonBlocking = s.dataNonBlocking := by
  unfold deliver
  cases h : appendBytes s.m_buffer (prevByte s.m_buffer) bytes with
  | nil => simp
  | cons c rest => simp

theorem deliver_eq (bytes : List UInt8) (s : SocketReader) :
    (deliver bytes s).1 = (s.m_buffer ++ collapse (some (prevByte s.m_buffer)) bytes).head? ∧
      (deliver bytes s).2.m_buffer
        = (s.m_buffer ++ collapse (some (prevByte s.m_buffer)) bytes).tail := by
  unfold deliver
  rw [appendBytes_eq]
  cases h : s.m_buffer ++ collapse (some (prevByte s.m_buffer)) bytes with
  | nil => simp
  | cons c rest => simp

theorem adoptConnection_connected (w : Env) {s : SocketReader} (h : s.m_dataFd ≠ none) :
    adoptConnection w s = Outcome.returned (some s) := by
  obtain ⟨fd, hfd⟩ := Option.ne_none_iff_exists'.mp h
  unfold adoptConnection
  rw [hfd]

theorem adoptConnection_value {w : Env} {s : SocketReader} {fd : Int}
    (h1 : s.m_dataFd = none) (h2 : s.m_dataFdFuture = Future.waiting)
    (h3 : w.poll = Poll.value fd) :
    adoptConnection w s = Outcome.returned
      (some { s with m_dataFd := some fd, m_dataFdFuture := Future.noState,
                     dataNonBlocking := w.ioctlOk }) := by
  unfold adoptConnection
  rw [h1, h2, h3]

/-- A call of `getChar` on a connection, in which `k` calls of `recv` find bytes and the
next one finds nothing, the end of the stream or an error. -/
theorem getChar_connected {w : Env} {s : SocketReader} {k fuel : Nat}
    (hfd : s.m_dataFd ≠ none) (hb : AllBytes w 0 k) (hf : k < fuel) :
    (w.recv k = Incoming.nothing → s.dataNonBlocking = true →
      getChar w fuel s = Outcome.returned (deliver (delivered w 0 k) s)) ∧
    (w.recv k = Incoming.nothing → s.dataNonBlocking = false →
      getChar w fuel s = Outcome.blocked) ∧
    (w.recv k = Incoming.closed →
      getChar w fuel s = Outcome.returned
        (deliver [] (startListening w.listen (closeSocket s).m_port (closeSocket s)).2)) ∧
    (w.recv k = Incoming.failure → getChar w fuel s = Outcome.returned (deliver [] s)) := by
  obtain ⟨fd, hfd1⟩ := Option.ne_none_iff_exists'.mp hfd
  obtain ⟨f, rfl⟩ : ∃ f, fuel = k + (f + 1) := ⟨fuel - k - 1, by omega⟩
  have hloop := receive_bytes w k (f + 1) 0 [] s hfd hb
  simp only [List.nil_append, Nat.zero_add] at hloop
  refine ⟨?_, ?_, ?_, ?_⟩
  · intro hr hn
    unfold getChar
    rw [adoptConnection_connected w hfd]
    dsimp only
    rw [hloop, receiveAvailableBytes, hfd1]
    dsimp only
    rw [hr]
    dsimp only
    rw [hn, if_pos rfl]
  · intro hr hn
    unfold getChar
    rw [adoptConnection_connected w hfd]
    dsimp only
    rw [hloop, receiveAvailableBytes, hfd1]
    dsimp only
    rw [hr]
    dsimp only
    rw [hn, if_neg (by decide)]
  · intro hr
    unfold getChar
    rw [adoptConnection_connected w hfd]
    dsimp only
    rw [hloop, receiveAvailableBytes, hfd1]
    dsimp only
    rw [hr]
  · intro hr
    unfold getChar
    rw [adoptConnection_connected w hfd]
    dsimp only
    rw [hloop, receiveAvailableBytes, hfd1]
    dsimp only
    rw [hr]

/-- A call of `getChar` that adopts a connection goes on as a call on that connection. -/
theorem getChar_adopt {w : Env} {s : SocketReader} {fd : Int} (fuel : Nat)
    (h1 : s.m_dataFd = none) (h2 : s.m_dataFdFuture = Future.waiting)
    (h3 : w.poll = Poll.value fd) :
    getChar w fuel s
      = getChar w fuel { s with m_dataFd := some fd, m_dataFdFuture := Future.noState,
                                dataNonBlocking := w.ioctlOk } := by
  unfold getChar
  rw [adoptConnection_value h1 h2 h3, adoptConnection_connected w (by simp)]

theorem getChar_timeout {w : Env} {s : SocketReader} (fuel : Nat)
    (h1 : s.m_dataFd = none) (h2 : s.m_dataFdFuture = Future.waiting)
    (h3 : w.poll = Poll.timeout) :
    getChar w fuel s = Outcome.returned (none, s) := by
  unfold getChar adoptConnection
  rw [h1, h2, h3]
/-! ## The input channel: what the methods keep -/

theorem channelInv_newReader : ChannelInv newReader :=
  ⟨fun h => absurd rfl h, fun h => absurd h (by decide)⟩

theorem startListening_cases (l : Listen) (port : Int) (s : SocketReader) :
    (startListening l port s = (false, s)) ∨
    ((0 < port ∧ port ≤ 65535 ∧ s.m_socketFd < 0 ∧ s.m_dataFd = none) ∧
      ((¬ (0 ≤ l.socket ∧ l.bindOk = true ∧ l.listenOk = true) ∧
          startListening l port s
            = (false, { s with m_port := port, m_socketFd := l.socket })) ∨
        ((0 ≤ l.socket ∧ l.bindOk = true ∧ l.listenOk = true) ∧
          startListening l port s
            = (true, { s with m_port := port, m_socketFd := l.socket,
                              m_dataFdFuture := Future.waiting })))) := by
  unfold startListening
  by_cases h1 : ¬ (port > 0) ∨ ¬ (port ≤ 65535)
  · left
    rw [if_pos h1]
  · rw [if_neg h1]
    by_cases h2 : ¬ (s.m_socketFd < 0) ∨ s.m_dataFd ≠ none
    · left
      rw [if_pos h2]
    · rw [if_neg h2]
      right
      have h3 : s.m_socketFd < 0 ∧ s.m_dataFd = none := by
        constructor
        · by_contra hc
          exact h2 (Or.inl hc)
        · by_contra hc
          exact h2 (Or.inr hc)
      refine ⟨⟨by omega, by omega, h3.1, h3.2⟩, ?_⟩
      by_cases h4 : l.socket < 0
      · left
        rw [if_pos h4]
        exact ⟨fun h => by omega, rfl⟩
      · rw [if_neg h4]
        by_cases h5 : l.bindOk = false
        · left
          rw [if_pos h5]
          exact ⟨fun h => by rw [h5] at h; exact absurd h.2.1 (by decide), rfl⟩
        · rw [if_neg h5]
          by_cases h6 : l.listenOk = false
          · left
            rw [if_pos h6]
            exact ⟨fun h => by rw [h6] at h; exact absurd h.2.2 (by decide), rfl⟩
          · rw [if_neg h6]
            right
            exact ⟨⟨by omega, by simpa using h5, by simpa using h6⟩, rfl⟩

theorem channelInv_startListening {s : SocketReader} (hi : ChannelInv s) (l : Listen)
    (port : Int) : ChannelInv (startListening l port s).2 := by
  rcases startListening_cases l port s with h | ⟨⟨hp0, hp1, hs, hd⟩, ⟨hbad, h⟩ | ⟨hok, h⟩⟩
  · rw [h]
    exact hi
  · rw [h]
    constructor
    · intro hc
      exact absurd hd hc
    · intro hw
      have := (hi.waiting hw).2.1
      omega
  · rw [h]
    constructor
    · intro hc
      exact absurd hd hc
    · intro _
      exact ⟨hd, hok.1, hp0, hp1⟩

theorem channelInv_close_restart {s : SocketReader} (hi : ChannelInv s)
    (hfd : s.m_dataFd ≠ none) (l : Listen) :
    ChannelInv (startListening l (closeSocket s).m_port (closeSocket s)).2 := by
  apply channelInv_startListening
  have hc := hi.connected hfd
  unfold closeSocket
  rw [if_pos (by omega)]
  constructor
  · intro h
    exact absurd rfl h
  · intro hw
    exact absurd (hi.waiting hw).1 hfd

theorem channelInv_of_frame {s s1 : SocketReader} (hi : ChannelInv s)
    (h1 : s1.m_dataFd = s.m_dataFd) (h2 : s1.m_socketFd = s.m_socketFd)
    (h3 : s1.m_port = s.m_port) (h4 : s1.m_dataFdFuture = s.m_dataFdFuture) :
    ChannelInv s1 := by
  constructor
  · rw [h1, h2, h3]
    exact hi.connected
  · rw [h1, h2, h3, h4]
    exact hi.waiting

theorem channelInv_receive (w : Env) :
    ∀ (fuel i : Nat) (acc bytes : List UInt8) (s s1 : SocketReader), ChannelInv s →
      receiveAvailableBytes w fuel i acc s = Outcome.returned (bytes, s1) → ChannelInv s1 := by
  intro fuel
  induction fuel with
  | zero =>
    intro i acc bytes s s1 _ h
    rw [receiveAvailableBytes] at h
    exact absurd h (by simp)
  | succ fuel ih =>
    intro i acc bytes s s1 hi h
    rw [receiveAvailableBytes] at h
    cases hfd : s.m_dataFd with
    | none => rw [hfd] at h; exact absurd h (by simp)
    | some fd =>
      rw [hfd] at h
      dsimp only at h
      cases hr : w.recv i with
      | bytes b rest =>
        rw [hr] at h
        exact ih _ _ _ s s1 hi h
      | closed =>
        rw [hr] at h
        simp only [Outcome.returned.injEq, Prod.mk.injEq] at h
        rw [← h.2]
        exact channelInv_close_restart hi (by rw [hfd]; simp) w.listen
      | nothing =>
        rw [hr] at h
        dsimp only at h
        by_cases hn : s.dataNonBlocking = true
        · rw [if_pos hn] at h
          simp only [Outcome.returned.injEq, Prod.mk.injEq] at h
          rw [← h.2]
          exact hi
        · rw [if_neg hn] at h
          exact absurd h (by simp)
      | failure =>
        rw [hr] at h
        simp only [Outcome.returned.injEq, Prod.mk.injEq] at h
        rw [← h.2]
        exact hi

theorem channelInv_getChar {w : Env} {fuel : Nat} {s s1 : SocketReader} {c : Option UInt8}
    (hi : ChannelInv s) (h : getChar w fuel s = Outcome.returned (c, s1)) : ChannelInv s1 := by
  unfold getChar at h
  cases ha : adoptConnection w s with
  | returned o =>
    rw [ha] at h
    cases o with
    | none =>
      simp only [Outcome.returned.injEq, Prod.mk.injEq] at h
      rw [← h.2]
      exact hi
    | some s2 =>
      dsimp only at h
      have hi2 : ChannelInv s2 := by
        unfold adoptConnection at ha
        cases hfd : s.m_dataFd with
        | some fd =>
          rw [hfd] at ha
          simp only [Outcome.returned.injEq, Option.some.injEq] at ha
          rw [← ha]
          exact hi
        | none =>
          rw [hfd] at ha
          dsimp only at ha
          cases hfu : s.m_dataFdFuture with
          | noState => rw [hfu] at ha; exact absurd ha (by simp)
          | waiting =>
            rw [hfu] at ha
            dsimp only at ha
            cases hp : w.poll with
            | timeout => rw [hp] at ha; exact absurd ha (by simp)
            | broken => rw [hp] at ha; exact absurd ha (by simp)
            | value fd =>
              rw [hp] at ha
              simp only [Outcome.returned.injEq, Option.some.injEq] at ha
              rw [← ha]
              have hw := hi.waiting hfu
              exact ⟨fun _ => ⟨hw.2.1, hw.2.2.1, hw.2.2.2⟩, fun h => absurd h (by simp)⟩
      cases hr : receiveAvailableBytes w fuel 0 [] s2 with
      | returned r =>
        obtain ⟨bytes, s3⟩ := r
        rw [hr] at h
        simp only [Outcome.returned.injEq] at h
        have hi3 := channelInv_receive w fuel 0 [] bytes s2 s3 hi2 hr
        have hf := deliver_frame bytes s3
        rw [h] at hf
        exact channelInv_of_frame hi3 hf.1 hf.2.1 hf.2.2.1 hf.2.2.2.1
      | blocked => rw [hr] at h; exact absurd h (by simp)
      | undefined => rw [hr] at h; exact absurd h (by simp)
      | terminated => rw [hr] at h; exact absurd h (by simp)
      | unfinished => rw [hr] at h; exact absurd h (by simp)
  | blocked => rw [ha] at h; exact absurd h (by simp)
  | undefined => rw [ha] at h; exact absurd h (by simp)
  | terminated => rw [ha] at h; exact absurd h (by simp)
  | unfinished => rw [ha] at h; exact absurd h (by simp)

theorem ChannelReachable.channelInv {s : SocketReader} (hr : ChannelReachable s) :
    ChannelInv s := by
  induction hr with
  | start => exact channelInv_newReader
  | listen l port _ ih => exact channelInv_startListening ih l port
  | getChar w fuel c _ h ih => exact channelInv_getChar ih h
  | clear _ ih => exact channelInv_of_frame ih rfl rfl rfl rfl
/-! ## The input channel: successive calls -/

theorem closeSocket_frame (s : SocketReader) :
    (closeSocket s).m_buffer = s.m_buffer ∧ (closeSocket s).m_port = s.m_port ∧
      (closeSocket s).m_dataFdFuture = s.m_dataFdFuture := by
  unfold closeSocket
  split <;> exact ⟨rfl, rfl, rfl⟩

theorem startListening_frame (l : Listen) (port : Int) (s : SocketReader) :
    (startListening l port s).2.m_buffer = s.m_buffer ∧
      (startListening l port s).2.m_dataFd = s.m_dataFd := by
  rcases startListening_cases l port s with h | ⟨_, ⟨_, h⟩ | ⟨_, h⟩⟩ <;> rw [h] <;>
    exact ⟨rfl, rfl⟩

/-- With a valid port, no listening socket and no connection, `startListening` goes through
its assertions; it succeeds if and only if `socket`, `bind` and `listen` do. -/
theorem startListening_ready {l : Listen} {port : Int} {s : SocketReader}
    (hp0 : 0 < port) (hp1 : port ≤ 65535) (hs : s.m_socketFd < 0) (hd : s.m_dataFd = none) :
    ((0 ≤ l.socket ∧ l.bindOk = true ∧ l.listenOk = true) →
      startListening l port s
        = (true, { s with m_port := port, m_socketFd := l.socket,
                          m_dataFdFuture := Future.waiting })) ∧
    (¬ (0 ≤ l.socket ∧ l.bindOk = true ∧ l.listenOk = true) →
      startListening l port s = (false, { s with m_port := port, m_socketFd := l.socket })) := by
  have h1 : ¬ (¬ (port > 0) ∨ ¬ (port ≤ 65535)) := by omega
  have h2 : ¬ (¬ (s.m_socketFd < 0) ∨ s.m_dataFd ≠ none) := by
    rintro (h | h)
    · exact h hs
    · exact h hd
  unfold startListening
  rw [if_neg h1, if_neg h2]
  constructor
  · rintro ⟨h3, h4, h5⟩
    rw [if_neg (by omega), if_neg (by rw [h4]; decide), if_neg (by rw [h5]; decide)]
  · intro hbad
    by_cases h3 : l.socket < 0
    · rw [if_pos h3]
    · rw [if_neg h3]
      by_cases h4 : l.bindOk = false
      · rw [if_pos h4]
      · rw [if_neg h4]
        by_cases h5 : l.listenOk = false
        · rw [if_pos h5]
        · exfalso
          exact hbad ⟨by omega, by simpa using h4, by simpa using h5⟩
/-! ## The input channel: `startListening` and `clear` -/

/-- C27: `startListening` returns `false` and leaves the whole state as it is (no descriptor
stored, no background task, the remembered port unchanged) for every port that is at most 0
or above 65535, whatever the calls of the operating system would return; for a port in
`1 .. 65535` on a channel without listening socket and connection it remembers the port, and
it returns `true` exactly when `socket`, `bind` and `listen` succeed, then with a future that
waits for the background task; so a new channel on which these calls succeed accepts exactly
the ports `1 .. 65535`. -/
theorem startListening_port (l : Listen) (port : Int) (s : SocketReader) :
    ((port ≤ 0 ∨ 65535 < port) → startListening l port s = (false, s)) ∧
    (0 < port → port ≤ 65535 → s.m_socketFd < 0 → s.m_dataFd = none →
      (startListening l port s).2.m_port = port ∧
      ((startListening l port s).1 = true
        ↔ (0 ≤ l.socket ∧ l.bindOk = true ∧ l.listenOk = true)) ∧
      ((startListening l port s).1 = true →
        (startListening l port s).2.m_dataFdFuture = Future.waiting ∧
        (startListening l port s).2.m_socketFd = l.socket)) ∧
    (0 ≤ l.socket → l.bindOk = true → l.listenOk = true →
      ((startListening l port newReader).1 = true ↔ (0 < port ∧ port ≤ 65535))) := by
  refine ⟨?_, ?_, ?_⟩
  · intro h
    unfold startListening
    rw [if_pos (by omega)]
  · intro hp0 hp1 hs hd
    obtain ⟨hyes, hno⟩ := startListening_ready (l := l) hp0 hp1 hs hd
    by_cases hok : 0 ≤ l.socket ∧ l.bindOk = true ∧ l.listenOk = true
    · rw [hyes hok]
      exact ⟨rfl, ⟨fun _ => hok, fun _ => rfl⟩, fun _ => ⟨rfl, rfl⟩⟩
    · rw [hno hok]
      exact ⟨rfl, ⟨fun h => absurd h Bool.false_ne_true, fun h => absurd h hok⟩,
        fun h => absurd h Bool.false_ne_true⟩
  · intro h1 h2 h3
    constructor
    · intro h
      by_contra hbad
      have : startListening l port newReader = (false, newReader) := by
        unfold startListening
        rw [if_pos (by omega)]
      rw [this] at h
      exact absurd h (by decide)
    · rintro ⟨hp0, hp1⟩
      rw [(startListening_ready (l := l) (s := newReader) hp0 hp1 (by decide) rfl).1
        ⟨h1, h2, h3⟩]

/-- Witness of C27 on a new channel: the ports 0 and 65536 are refused, the port 65535 is
accepted. -/
theorem startListening_port_witness :
    startListening ⟨3, true, true⟩ 0 newReader = (false, newReader) ∧
      startListening ⟨3, true, true⟩ 65536 newReader = (false, newReader) ∧
      (startListening ⟨3, true, true⟩ 65535 newReader).2.m_port = 65535 :=
  ⟨(startListening_port ⟨3, true, true⟩ 0 newReader).1 (by decide),
    (startListening_port ⟨3, true, true⟩ 65536 newReader).1 (by decide),
    ((startListening_port ⟨3, true, true⟩ 65535 newReader).2.1 (by decide) (by decide)
      (by decide) rfl).1⟩

theorem receive_quiet {w : Env} (hq : ∀ b rest, w.recv 0 ≠ Incoming.bytes b rest)
    {fuel : Nat} {s s1 : SocketReader} {bytes : List UInt8}
    (h : receiveAvailableBytes w fuel 0 [] s = Outcome.returned (bytes, s1)) :
    bytes = [] ∧ s1.m_buffer = s.m_buffer := by
  cases fuel with
  | zero => rw [receiveAvailableBytes] at h; exact absurd h (by simp)
  | succ fuel =>
    rw [receiveAvailableBytes] at h
    cases hfd : s.m_dataFd with
    | none => rw [hfd] at h; exact absurd h (by simp)
    | some fd =>
      rw [hfd] at h
      dsimp only at h
      cases hr : w.recv 0 with
      | bytes b rest => exact absurd hr (hq b rest)
      | closed =>
        rw [hr] at h
        simp only [Outcome.returned.injEq, Prod.mk.injEq] at h
        refine ⟨h.1.symm, ?_⟩
        rw [← h.2, (startListening_frame _ _ _).1, (closeSocket_frame s).1]
      | nothing =>
        rw [hr] at h
        dsimp only at h
        by_cases hn : s.dataNonBlocking = true
        · rw [if_pos hn] at h
          simp only [Outcome.returned.injEq, Prod.mk.injEq] at h
          exact ⟨h.1.symm, by rw [← h.2]⟩
        · rw [if_neg hn] at h
          exact absurd h (by simp)
      | failure =>
        rw [hr] at h
        simp only [Outcome.returned.injEq, Prod.mk.injEq] at h
        exact ⟨h.1.symm, by rw [← h.2]⟩

theorem adoptConnection_buffer {w : Env} {s s1 : SocketReader}
    (h : adoptConnection w s = Outcome.returned (some s1)) : s1.m_buffer = s.m_buffer := by
  unfold adoptConnection at h
  cases hfd : s.m_dataFd with
  | some fd =>
    rw [hfd] at h
    simp only [Outcome.returned.injEq, Option.some.injEq] at h
    rw [h]
  | none =>
    rw [hfd] at h
    dsimp only at h
    cases hfu : s.m_dataFdFuture with
    | noState => rw [hfu] at h; exact absurd h (by simp)
    | waiting =>
      rw [hfu] at h
      dsimp only at h
      cases hp : w.poll with
      | timeout => rw [hp] at h; exact absurd h (by simp)
      | broken => rw [hp] at h; exact absurd h (by simp)
      | value fd =>
        rw [hp] at h
        simp only [Outcome.returned.injEq, Option.some.injEq] at h
        rw [← h]

/-- C24: `clear` empties the buffer and changes no other field; a call of `getChar` that
follows it and whose first `recv`, if it comes to one, finds no bytes returns no data
whenever it returns; and it does return, with the state as `clear` left it, on a connection
in non-blocking mode on which `recv` finds nothing, and on a channel that waits for a
connection when the future is not ready. -/
theorem clear_empties (s : SocketReader) :
    (clear s).m_buffer = [] ∧ (clear s).m_port = s.m_port ∧
    (clear s).m_socketFd = s.m_socketFd ∧ (clear s).m_dataFd = s.m_dataFd ∧
    (clear s).m_dataFdFuture = s.m_dataFdFuture ∧
    (clear s).m_hasReceivedData = s.m_hasReceivedData ∧
    (clear s).dataNonBlocking = s.dataNonBlocking ∧
    (∀ (w : Env) (fuel : Nat) (c : Option UInt8) (s1 : SocketReader),
      (∀ b rest, w.recv 0 ≠ Incoming.bytes b rest) →
      getChar w fuel (clear s) = Outcome.returned (c, s1) → c = none ∧ s1.m_buffer = []) ∧
    (∀ (w : Env) (fuel : Nat), 0 < fuel → s.m_dataFd ≠ none → s.dataNonBlocking = true →
      w.recv 0 = Incoming.nothing →
      getChar w fuel (clear s) = Outcome.returned (none, clear s)) ∧
    (∀ (w : Env) (fuel : Nat), s.m_dataFd = none → s.m_dataFdFuture = Future.waiting →
      w.poll = Poll.timeout → getChar w fuel (clear s) = Outcome.returned (none, clear s)) := by
  refine ⟨rfl, rfl, rfl, rfl, rfl, rfl, rfl, ?_, ?_, ?_⟩
  · intro w fuel c s1 hq h
    unfold getChar at h
    cases ha : adoptConnection w (clear s) with
    | returned o =>
      rw [ha] at h
      cases o with
      | none =>
        simp only [Outcome.returned.injEq, Prod.mk.injEq] at h
        exact ⟨h.1.symm, by rw [← h.2]; rfl⟩
      | some s2 =>
        dsimp only at h
        have hb2 : s2.m_buffer = [] := adoptConnection_buffer ha
        cases hr : receiveAvailableBytes w fuel 0 [] s2 with
        | returned r =>
          obtain ⟨bytes, s3⟩ := r
          rw [hr] at h
          simp only [Outcome.returned.injEq] at h
          obtain ⟨hbytes, hb3⟩ := receive_quiet hq hr
          rw [hb2] at hb3
          have hd := deliver_nil s3
          rw [hbytes] at h
          rw [h, hb3] at hd
          exact ⟨hd.1, hd.2.1⟩
        | blocked => rw [hr] at h; exact absurd h (by simp)
        | undefined => rw [hr] at h; exact absurd h (by simp)
        | terminated => rw [hr] at h; exact absurd h (by simp)
        | unfinished => rw [hr] at h; exact absurd h (by simp)
    | blocked => rw [ha] at h; exact absurd h (by simp)
    | undefined => rw [ha] at h; exact absurd h (by simp)
    | terminated => rw [ha] at h; exact absurd h (by simp)
    | unfinished => rw [ha] at h; exact absurd h (by simp)
  · intro w fuel hf hfd hn hr
    have h := (getChar_connected (w := w) (s := clear s) (k := 0)
      hfd (fun j hj => absurd hj (by omega)) hf).1 hr hn
    rw [h]
    rfl
  · intro w fuel hfd hfu hp
    exact getChar_timeout fuel hfd hfu hp

/-- Witness of C24: a connected channel with three bytes in its buffer. -/
theorem clear_empties_witness :
    (clear (connectedReader [97, 98, 99])).m_buffer = [] ∧
      getChar (scripted []) 1 (clear (connectedReader [97, 98, 99]))
        = Outcome.returned (none, clear (connectedReader [97, 98, 99])) :=
  ⟨(clear_empties (connectedReader [97, 98, 99])).1,
    (clear_empties (connectedReader [97, 98, 99])).2.2.2.2.2.2.2.2.1 (scripted []) 1
      (by decide) (by decide) rfl rfl⟩
/-! ## The input channel: the end of the stream and read errors -/

theorem reachable_listeningReader : ChannelReachable listeningReader :=
  ChannelReachable.listen ⟨3, true, true⟩ 8080 ChannelReachable.start

theorem reachable_connectedReader : ChannelReachable (connectedReader []) :=
  ChannelReachable.getChar (arriving []) 1 none reachable_listeningReader (by decide)

/-- C25 as stated fails: a channel that received the bytes 97 and 98 in one burst returned 97
and holds 98 in its buffer; the next call of `getChar`, whose `recv` finds the end of the
stream, returns 98, not no data (and restarts the channel). -/
theorem getChar_peer_closed_counterexample :
    getChars 10 [arriving [Incoming.bytes 97 [98]], scripted [Incoming.closed]] listeningReader
      = Outcome.returned ([some 97, some 98],
          { m_hasReceivedData := true, m_port := 8080, m_socketFd := 3,
            m_dataFdFuture := Future.waiting, m_dataFd := none, m_buffer := [],
            dataNonBlocking := true }) := by
  decide

/-- C25 (amended): on a reachable channel with a connection, a call of `getChar` in which `k`
calls of `recv` find bytes and the next one finds the end of the stream returns; the bytes
found in this call are dropped, and the call returns the byte at the front of the buffer,
which it removes, or no data if the buffer is empty; the connection is discarded and the port
is kept. If `socket`, `bind` and `listen` succeed in the restart, the channel has the new
listening socket and a future that waits for the background task, and a later call that finds
the future ready adopts the connection it delivers, without a call of `startListening` from
outside. If one of them fails, the channel is left without connection and with a future
without shared state, on which a call of `getChar` has undefined behaviour. -/
theorem getChar_peer_closed {s : SocketReader} (hr : ChannelReachable s)
    (hfd : s.m_dataFd ≠ none) {w : Env} {k fuel : Nat} (hb : AllBytes w 0 k)
    (hc : w.recv k = Incoming.closed) (hf : k < fuel) :
    ∃ s1, getChar w fuel s = Outcome.returned (s.m_buffer.head?, s1) ∧
      s1.m_buffer = s.m_buffer.tail ∧ s1.m_dataFd = none ∧ s1.m_port = s.m_port ∧
      ((0 ≤ w.listen.socket ∧ w.listen.bindOk = true ∧ w.listen.listenOk = true) →
        s1.m_socketFd = w.listen.socket ∧ s1.m_dataFdFuture = Future.waiting ∧
        ∀ (w2 : Env) (fd2 : Int), w2.poll = Poll.value fd2 →
          ∃ s2, adoptConnection w2 s1 = Outcome.returned (some s2) ∧
            s2.m_dataFd = some fd2 ∧ s2.m_port = s.m_port) ∧
      (¬ (0 ≤ w.listen.socket ∧ w.listen.bindOk = true ∧ w.listen.listenOk = true) →
        s1.m_dataFdFuture = Future.noState ∧
        ∀ (w2 : Env) (fuel2 : Nat), getChar w2 fuel2 s1 = Outcome.undefined) := by
  have hi := hr.channelInv
  obtain ⟨hs0, hp0, hp1⟩ := hi.connected hfd
  have hfu : s.m_dataFdFuture = Future.noState := by
    cases h : s.m_dataFdFuture with
    | noState => rfl
    | waiting => exact absurd (hi.waiting h).1 hfd
  have hclose : closeSocket s
      = { s with m_socketFd := -1, m_dataFd := none, m_hasReceivedData := false } := by
    unfold closeSocket
    rw [if_pos (by omega)]
  obtain ⟨hyes, hno⟩ := @startListening_ready w.listen (closeSocket s).m_port
    (closeSocket s) (by rw [hclose]; exact hp0) (by rw [hclose]; exact hp1)
    (by rw [hclose]; show (-1 : Int) < 0; decide) (by rw [hclose])
  have hget := (getChar_connected hfd hb hf).2.2.1 hc
  have hd := deliver_nil (startListening w.listen (closeSocket s).m_port (closeSocket s)).2
  have hbuf : (startListening w.listen (closeSocket s).m_port (closeSocket s)).2.m_buffer
      = s.m_buffer := by
    rw [(startListening_frame _ _ _).1, (closeSocket_frame s).1]
  have hfirst : (deliver [] (startListening w.listen (closeSocket s).m_port
      (closeSocket s)).2).1 = s.m_buffer.head? := by
    rw [hd.1, hbuf]
  refine ⟨(deliver [] (startListening w.listen (closeSocket s).m_port (closeSocket s)).2).2,
    by rw [hget, ← hfirst], ?_, ?_, ?_, ?_, ?_⟩
  · rw [hd.2.1, (startListening_frame _ _ _).1, (closeSocket_frame s).1]
  · rw [hd.2.2.1, (startListening_frame _ _ _).2, hclose]
  · rw [hd.2.2.2.2.1]
    by_cases hok : 0 ≤ w.listen.socket ∧ w.listen.bindOk = true ∧ w.listen.listenOk = true
    · rw [hyes hok]
      exact (closeSocket_frame s).2.1
    · rw [hno hok]
      exact (closeSocket_frame s).2.1
  · intro hok
    have h1 : (deliver [] (startListening w.listen (closeSocket s).m_port
        (closeSocket s)).2).2.m_dataFd = none := by
      rw [hd.2.2.1, (startListening_frame _ _ _).2, hclose]
    have h2 : (deliver [] (startListening w.listen (closeSocket s).m_port
        (closeSocket s)).2).2.m_dataFdFuture = Future.waiting := by
      rw [hd.2.2.2.2.2.1, hyes hok]
    refine ⟨by rw [hd.2.2.2.1, hyes hok], h2, ?_⟩
    intro w2 fd2 hp
    refine ⟨_, adoptConnection_value h1 h2 hp, rfl, ?_⟩
    show (deliver [] (startListening w.listen (closeSocket s).m_port
        (closeSocket s)).2).2.m_port = s.m_port
    rw [hd.2.2.2.2.1, hyes hok]
    exact (closeSocket_frame s).2.1
  · intro hbad
    have h1 : (deliver [] (startListening w.listen (closeSocket s).m_port
        (closeSocket s)).2).2.m_dataFd = none := by
      rw [hd.2.2.1, (startListening_frame _ _ _).2, hclose]
    have h2 : (deliver [] (startListening w.listen (closeSocket s).m_port
        (closeSocket s)).2).2.m_dataFdFuture = Future.noState := by
      rw [hd.2.2.2.2.2.1, hno hbad]
      show (closeSocket s).m_dataFdFuture = Future.noState
      rw [(closeSocket_frame s).2.2, hfu]
    refine ⟨h2, ?_⟩
    intro w2 fuel2
    unfold getChar adoptConnection
    rw [h1, h2]

/-- Witness of C25 (amended): the connected channel with an empty buffer. -/
theorem getChar_peer_closed_witness :
    ∃ s1, getChar (scripted [Incoming.closed]) 1 (connectedReader [])
        = Outcome.returned ((connectedReader []).m_buffer.head?, s1) ∧
      s1.m_buffer = (connectedReader []).m_buffer.tail ∧ s1.m_dataFd = none ∧
      s1.m_port = (connectedReader []).m_port := by
  obtain ⟨s1, h1, h2, h3, h4, _⟩ := getChar_peer_closed reachable_connectedReader
    (s := connectedReader []) (by decide) (w := scripted [Incoming.closed]) (k := 0)
    (fun j hj => absurd hj (by omega)) rfl (show (0 : Nat) < 1 by decide)
  exact ⟨s1, h1, h2, h3, h4⟩

/-- C26 as stated fails: with the byte 98 left in the buffer, a call of `getChar` whose
`recv` fails returns 98, not no data. -/
theorem getChar_read_error_counterexample :
    getChars 10 [arriving [Incoming.bytes 97 [98]], scripted [Incoming.failure]] listeningReader
      = Outcome.returned ([some 97, some 98],
          { m_hasReceivedData := true, m_port := 8080, m_socketFd := 3,
            m_dataFdFuture := Future.noState, m_dataFd := some 4, m_buffer := [],
            dataNonBlocking := true }) := by
  decide

/-- C26 (amended): on a channel with a connection, a call of `getChar` in which `k` calls of
`recv` find bytes and the next one fails with an error other than would-block returns, and
no error is passed on; the bytes found in this call are dropped, and the call returns the
byte at the front of the buffer, which it removes, or no data if the buffer is empty, in which
case the whole state is as before; the connection, the listening socket, the port, the future
and the mode of the connection are as before, so that the next call reads from the same
connection. -/
theorem getChar_read_error {s : SocketReader} (hfd : s.m_dataFd ≠ none) {w : Env}
    {k fuel : Nat} (hb : AllBytes w 0 k) (hc : w.recv k = Incoming.failure) (hf : k < fuel) :
    ∃ s1, getChar w fuel s = Outcome.returned (s.m_buffer.head?, s1) ∧
      s1.m_buffer = s.m_buffer.tail ∧ s1.m_dataFd = s.m_dataFd ∧
      s1.m_socketFd = s.m_socketFd ∧ s1.m_port = s.m_port ∧
      s1.m_dataFdFuture = s.m_dataFdFuture ∧ s1.dataNonBlocking = s.dataNonBlocking ∧
      (s.m_buffer = [] → s1 = s) ∧
      ∀ w2 : Env, adoptConnection w2 s1 = Outcome.returned (some s1) := by
  have hget := (getChar_connected hfd hb hf).2.2.2 hc
  have hd := deliver_nil s
  refine ⟨(deliver [] s).2, by rw [hget, ← hd.1], hd.2.1, hd.2.2.1, hd.2.2.2.1, hd.2.2.2.2.1,
    hd.2.2.2.2.2.1, hd.2.2.2.2.2.2, ?_, ?_⟩
  · intro hbuf
    unfold deliver
    rw [appendBytes, hbuf]
    dsimp only
    rw [← hbuf]
  · intro w2
    exact adoptConnection_connected w2 (by rw [hd.2.2.1]; exact hfd)

/-- Witness of C26 (amended): the connected channel with an empty buffer. -/
theorem getChar_read_error_witness :
    ∃ s1, getChar (scripted [Incoming.failure]) 1 (connectedReader [])
        = Outcome.returned ((connectedReader []).m_buffer.head?, s1) ∧
      s1.m_dataFd = (connectedReader []).m_dataFd := by
  obtain ⟨s1, h1, _, h3, _⟩ := getChar_read_error (s := connectedReader []) (by decide)
    (w := scripted [Incoming.failure]) (k := 0)
    (fun j hj => absurd hj (by omega)) rfl (show (0 : Nat) < 1 by decide)
  exact ⟨s1, h1, h3⟩
/-! ## The input channel: the bytes returned by successive calls -/

theorem getChar_quiet {w : Env} {s : SocketReader} {fuel : Nat} (hf : 0 < fuel)
    (hfd : s.m_dataFd ≠ none) (hn : s.dataNonBlocking = true)
    (hr : w.recv 0 = Incoming.nothing) :
    getChar w fuel s = Outcome.returned (deliver [] s) :=
  (getChar_connected (k := 0) hfd (fun j hj => absurd hj (by omega)) hf).1 hr hn

theorem head_cons_tail_get {α : Type} (l : List α) (n : Nat) :
    l.head? :: (List.range n).map (fun j => l.tail[j]?)
      = (List.range (n + 1)).map (fun j => l[j]?) := by
  rw [List.range_succ_eq_map, List.map_cons, List.map_map]
  cases l with
  | nil =>
    simp only [List.head?_nil, List.tail_nil, List.getElem?_nil, List.cons.injEq, true_and]
    apply List.map_congr_left
    intro j _
    rfl
  | cons a l =>
    simp only [List.head?_cons, List.tail_cons, List.getElem?_cons_zero, List.cons.injEq,
      true_and]
    apply List.map_congr_left
    intro j _
    simp

theorem getChars_quiet :
    ∀ (ws : List Env) (s : SocketReader) (fuel : Nat), 0 < fuel → s.m_dataFd ≠ none →
      s.dataNonBlocking = true → (∀ w ∈ ws, w.recv 0 = Incoming.nothing) →
      ∃ s1, getChars fuel ws s
        = Outcome.returned ((List.range ws.length).map (fun j => s.m_buffer[j]?), s1) := by
  intro ws
  induction ws with
  | nil => intro s fuel _ _ _ _; exact ⟨s, rfl⟩
  | cons w ws ih =>
    intro s fuel hf hfd hn hq
    have hget := getChar_quiet hf hfd hn (hq w (List.mem_cons_self _ _))
    have hd := deliver_nil s
    obtain ⟨s1, h1⟩ := ih (deliver [] s).2 fuel hf (by rw [hd.2.2.1]; exact hfd)
      (by rw [hd.2.2.2.2.2.2]; exact hn) (fun w1 hw1 => hq w1 (List.mem_cons_of_mem _ hw1))
    refine ⟨s1, ?_⟩
    rw [getChars, hget]
    dsimp only
    rw [h1]
    dsimp only
    rw [hd.1, hd.2.1, List.length_cons, head_cons_tail_get]

theorem destutter_eq_collapse : ∀ (bs : List UInt8) (a : UInt8),
    List.destutter' (fun x y => x ≠ y) a bs = a :: collapse (some a) bs := by
  intro bs
  induction bs with
  | nil => intro a; rfl
  | cons b bs ih =>
    intro a
    by_cases h : a = b
    · subst h
      rw [List.destutter'_cons_neg _ (by simp), ih, collapse, if_pos rfl]
    · rw [List.destutter'_cons_pos _ h, ih, collapse,
        if_neg (fun he => h (Option.some.inj he))]

/-- C23 as stated fails: a burst that starts with the byte 0 and arrives at an empty buffer
loses its zero bytes at the start, because the byte before the first one is taken to be 0.
The burst 0, 97 collapses to itself, and the channel returns 97 and then no data. -/
theorem getChar_collapse_counterexample :
    collapse none [0, 97] = [0, 97] ∧
      appendBytes [] (prevByte []) [0, 97] = [97] ∧
      getChars 10 [scripted [Incoming.bytes 0 [97]], scripted [], scripted []]
          (connectedReader [])
        = Outcome.returned ([some 97, none, none],
            { m_hasReceivedData := true, m_port := 8080, m_socketFd := 3,
              m_dataFdFuture := Future.noState, m_dataFd := some 4, m_buffer := [],
              dataNonBlocking := true }) := by
  decide

/-- C23 (amended): the loop of `getChar` that copies the received bytes `bs` to the buffer `q`
leaves `q` followed by `bs` without every byte equal to the byte just before it, the byte
before the first byte of `bs` being the back of `q`, or 0 if `q` is empty (`collapse` is the
run-collapsing `List.destutter` of the library), so that a zero byte at the start of a burst
that arrives at an empty buffer is dropped. With a connection in non-blocking mode and an
empty buffer, when `k` calls of `recv` find a burst that does not start with a zero byte and
the later calls of `getChar` find nothing, the successive calls return the bytes of the
collapsed burst in order and then no data. A burst in which no byte repeats the byte before
it is copied as it is. -/
theorem getChar_collapse :
    (∀ q bs : List UInt8,
      appendBytes q (prevByte q) bs = q ++ collapse (some (prevByte q)) bs) ∧
    (∀ q bs : List UInt8, q ≠ [] →
      appendBytes q (prevByte q) bs = q ++ collapse q.getLast? bs) ∧
    (∀ bs : List UInt8, bs.head? ≠ some 0 →
      appendBytes [] (prevByte []) bs = collapse none bs) ∧
    (∀ bs : List UInt8,
      appendBytes [] (prevByte []) (0 :: bs) = appendBytes [] (prevByte []) bs) ∧
    (∀ bs : List UInt8, collapse none bs = bs.destutter (fun x y => x ≠ y)) ∧
    (∀ (w : Env) (ws : List Env) (k fuel : Nat) (s : SocketReader), s.m_dataFd ≠ none →
      s.dataNonBlocking = true → s.m_buffer = [] → AllBytes w 0 k →
      w.recv k = Incoming.nothing → k < fuel → (delivered w 0 k).head? ≠ some 0 →
      (∀ w1 ∈ ws, w1.recv 0 = Incoming.nothing) →
      ∃ s1, getChars fuel (w :: ws) s
        = Outcome.returned
            ((List.range (ws.length + 1)).map
              (fun j => (collapse none (delivered w 0 k))[j]?), s1)) ∧
    (∀ (bs : List UInt8) (last : Option UInt8), List.Chain' (fun a b => a ≠ b) bs →
      bs.head? ≠ last ∨ bs = [] → collapse last bs = bs) := by
  refine ⟨fun q bs => appendBytes_eq bs q (prevByte q), ?_, ?_, ?_, ?_, ?_, collapse_of_chain⟩
  · intro q bs hq
    rw [appendBytes_eq, prevByte_of_ne_nil hq]
  · intro bs hbs
    rw [appendBytes_eq, List.nil_append]
    exact collapse_some_eq_none hbs
  · intro bs
    rw [appendBytes, if_pos (show (0 : UInt8) = prevByte [] from rfl)]
  · intro bs
    cases bs with
    | nil => rfl
    | cons b bs =>
      rw [List.destutter_cons', destutter_eq_collapse, collapse, if_neg (by simp)]
  · intro w ws k fuel s hfd hn hbuf hb hr hf hz hq
    have hget := (getChar_connected hfd hb hf).1 hr hn
    have hd := deliver_eq (delivered w 0 k) s
    have hfr := deliver_frame (delivered w 0 k) s
    rw [hbuf, List.nil_append] at hd
    have hprev : collapse (some (prevByte [])) (delivered w 0 k)
        = collapse none (delivered w 0 k) := collapse_some_eq_none hz
    rw [hprev] at hd
    obtain ⟨s1, h1⟩ := getChars_quiet ws (deliver (delivered w 0 k) s).2 fuel (by omega)
      (by rw [hfr.1]; exact hfd) (by rw [hfr.2.2.2.2]; exact hn) hq
    refine ⟨s1, ?_⟩
    rw [getChars, hget]
    dsimp only
    rw [h1]
    dsimp only
    rw [hd.1, hd.2, head_cons_tail_get]

/-- Witness of C23 (amended): the burst `"aabccc"`, the bytes 97, 97, 98, 99, 99, 99, yields
97, 98, 99 and then no data. -/
theorem getChar_collapse_witness :
    (∃ s1, getChars 10
        (scripted [Incoming.bytes 97 [97, 98, 99, 99, 99]] :: [scripted [], scripted [],
          scripted []]) (connectedReader [])
      = Outcome.returned
          ((List.range ([scripted [], scripted [], scripted []].length + 1)).map
            (fun j => (collapse none
              (delivered (scripted [Incoming.bytes 97 [97, 98, 99, 99, 99]]) 0 1))[j]?),
            s1)) ∧
      (List.range 4).map
          (fun j => (collapse none
            (delivered (scripted [Incoming.bytes 97 [97, 98, 99, 99, 99]]) 0 1))[j]?)
        = [some 97, some 98, some 99, none] :=
  ⟨getChar_collapse.2.2.2.2.2.1 (scripted [Incoming.bytes 97 [97, 98, 99, 99, 99]])
      [scripted [], scripted [], scripted []] 1 10 (connectedReader []) (by decide) rfl rfl
      (fun j hj => ⟨97, [97, 98, 99, 99, 99], by
        have : j = 0 := by omega
        subst this
        rfl⟩)
      rfl (by decide) (by decide)
      (fun w1 hw1 => by
        simp only [List.mem_cons, List.mem_singleton, List.not_mem_nil, or_false,
          or_self] at hw1
        rw [hw1]
        rfl),
    by decide⟩
/-! ## The input channel: does `getChar` return? -/

theorem receive_flood {w : Env} (hall : ∀ i, ∃ b rest, w.recv i = Incoming.bytes b rest) :
    ∀ (fuel i : Nat) (acc : List UInt8) (s : SocketReader), s.m_dataFd ≠ none →
      receiveAvailableBytes w fuel i acc s = Outcome.unfinished := by
  intro fuel
  induction fuel with
  | zero => intro i acc s _; rfl
  | succ fuel ih =>
    intro i acc s hfd
    obtain ⟨fd, hfd1⟩ := Option.ne_none_iff_exists'.mp hfd
    obtain ⟨b, rest, hr⟩ := hall i
    rw [receiveAvailableBytes, hfd1]
    dsimp only
    rw [hr]
    exact ih (i + 1) _ s hfd

/-- C29 fails in the code. When `ioctlsocket` fails at the adoption of a connection, `getChar`
only prints an error and goes on to `recv` on a connection that is still in blocking mode:
once the bytes that were sent are read, `recv` waits for the peer, and so does the call. And
as long as the peer keeps sending, so that every `recv` finds bytes, the loop of
`receiveAvailableBytes` goes on: no number of passages is enough. In the other cases the call
returns: at once when the future is not ready, and after `k + 1` calls of `recv` on a
connection in non-blocking mode when `k` calls find bytes and the next one does not. -/
theorem getChar_blocks :
    (∀ (w : Env) (s : SocketReader) (k fuel : Nat) (fd : Int), s.m_dataFd = none →
      s.m_dataFdFuture = Future.waiting → w.poll = Poll.value fd → w.ioctlOk = false →
      AllBytes w 0 k → w.recv k = Incoming.nothing → k < fuel →
      getChar w fuel s = Outcome.blocked) ∧
    (∀ fuel : Nat, 0 < fuel →
      getChar { arriving [] with ioctlOk := false } fuel listeningReader = Outcome.blocked) ∧
    (∀ (w : Env) (s : SocketReader) (fuel : Nat), s.m_dataFd ≠ none →
      (∀ i, ∃ b rest, w.recv i = Incoming.bytes b rest) →
      getChar w fuel s = Outcome.unfinished) ∧
    (∀ (w : Env) (s : SocketReader) (k : Nat), s.m_dataFd ≠ none →
      s.dataNonBlocking = true → AllBytes w 0 k →
      (∀ b rest, w.recv k ≠ Incoming.bytes b rest) →
      ∃ r, getChar w (k + 1) s = Outcome.returned r) ∧
    (∀ (w : Env) (s : SocketReader) (fuel : Nat), s.m_dataFd = none →
      s.m_dataFdFuture = Future.waiting → w.poll = Poll.timeout →
      getChar w fuel s = Outcome.returned (none, s)) := by
  have hblock : ∀ (w : Env) (s : SocketReader) (k fuel : Nat) (fd : Int), s.m_dataFd = none →
      s.m_dataFdFuture = Future.waiting → w.poll = Poll.value fd → w.ioctlOk = false →
      AllBytes w 0 k → w.recv k = Incoming.nothing → k < fuel →
      getChar w fuel s = Outcome.blocked := by
    intro w s k fuel fd h1 h2 h3 h4 hb hr hf
    rw [getChar_adopt fuel h1 h2 h3]
    exact (getChar_connected (by simp) hb hf).2.1 hr h4
  refine ⟨hblock, ?_, ?_, ?_, ?_⟩
  · intro fuel hf
    exact hblock _ listeningReader 0 fuel 4 rfl rfl rfl rfl (fun j hj => absurd hj (by omega))
      rfl hf
  · intro w s fuel hfd hall
    unfold getChar
    rw [adoptConnection_connected w hfd]
    dsimp only
    rw [receive_flood hall fuel 0 [] s hfd]
  · intro w s k hfd hn hb hq
    have h := getChar_connected (w := w) (s := s) (k := k) hfd hb (show k < k + 1 by omega)
    cases hr : w.recv k with
    | bytes b rest => exact absurd hr (hq b rest)
    | closed => exact ⟨_, h.2.2.1 hr⟩
    | nothing => exact ⟨_, h.1 hr hn⟩
    | failure => exact ⟨_, h.2.2.2 hr⟩
  · intro w s fuel h1 h2 h3
    exact getChar_timeout fuel h1 h2 h3
/-! ## The cells changed by `movePlayer` -/

theorem not_wall_of_kind {g : Vampires} {d : Distance} {x y : Int} {k : Nat}
    (hw : WallsAhead g d x y k) {id : Nat} {it : Item} (hit : g.items[id]? = some it)
    (hk : it.kind ≠ Kind.wall) (i : Nat) (hi : i < k) :
    cellAt g.m_field (x + (i : Int) * d.x) (y + (i : Int) * d.y) ≠ some (some id) := by
  intro hc
  obtain ⟨id1, it1, hc1, hit1, hk1⟩ := fieldHas_eq_true.mp (hw i hi)
  rw [hc] at hc1
  have hid : id = id1 := by simpa using hc1
  subst hid
  rw [hit] at hit1
  have : it = it1 := by simpa using hit1
  subst this
  exact hk hk1

/-- C31: when a call of `movePlayer` in a consistent state relocates the player (the item of
the player handle is no longer stored where it was), the call returned `ok`, and for some `k`
the `k` cells ahead of the player held walls and the cell after them, the landing cell, was
empty. After the call the old cell of the player is empty; the landing cell refers to the
player if `k = 0` and otherwise to the wall that stood just before it; every cell that is not
one of the cells `0, ..., k + 1` steps ahead of the old cell of the player is as before; and
every item of kind `vampire` or `border` is stored where it was. -/
theorem movePlayer_segment {g g2 : Vampires} (hv : Valid g) {dir : Direction}
    {r : PlayerResult} {p : Item} (hp : g.items[g.m_player]? = some p)
    (h : movePlayer dir g = some (r, g2)) (hmove : g2.items[g.m_player]? ≠ some p) :
    r = PlayerResult.ok ∧
    ∃ k : Nat,
      WallsAhead g (directionToDistance dir) (p.x + (directionToDistance dir).x)
        (p.y + (directionToDistance dir).y) k ∧
      cellAt g.m_field (p.x + ((k + 1 : Nat) : Int) * (directionToDistance dir).x)
        (p.y + ((k + 1 : Nat) : Int) * (directionToDistance dir).y) = some none ∧
      cellAt g2.m_field p.x p.y = some none ∧
      (k = 0 → cellAt g2.m_field (p.x + ((k + 1 : Nat) : Int) * (directionToDistance dir).x)
        (p.y + ((k + 1 : Nat) : Int) * (directionToDistance dir).y) = some (some g.m_player)) ∧
      (0 < k → ∃ id it,
        cellAt g.m_field (p.x + (k : Int) * (directionToDistance dir).x)
          (p.y + (k : Int) * (directionToDistance dir).y) = some (some id) ∧
        g.items[id]? = some it ∧ it.kind = Kind.wall ∧
        cellAt g2.m_field (p.x + ((k + 1 : Nat) : Int) * (directionToDistance dir).x)
          (p.y + ((k + 1 : Nat) : Int) * (directionToDistance dir).y) = some (some id)) ∧
      (∀ x1 y1 : Int,
        (∀ i : Nat, i ≤ k + 1 → ¬ (x1 = p.x + (i : Int) * (directionToDistance dir).x ∧
          y1 = p.y + (i : Int) * (directionToDistance dir).y)) →
        cellAt g2.m_field x1 y1 = cellAt g.m_field x1 y1) ∧
      (∀ (id : Nat) (it : Item), g.items[id]? = some it →
        it.kind = Kind.vampire ∨ it.kind = Kind.border → g2.items[id]? = some it) := by
  have hd := isStep_directionToDistance dir
  obtain ⟨p0, hp0, hpk⟩ := hv.player
  rw [hp] at hp0
  have hpp : p = p0 := by simpa using hp0
  subst hpp
  rcases movePlayer_cases hv dir hp with ⟨_, hl⟩ | ⟨_, k, hw, _, hcase⟩
  · rw [hl] at h
    simp only [Option.some.injEq, Prod.mk.injEq] at h
    obtain ⟨_, rfl⟩ := h
    exact absurd hp hmove
  rcases hcase with ⟨_, hb⟩ | ⟨hland, g1, g3, _, hpush, hp1, hm, _, hres⟩
  · rw [hb] at h
    simp only [Option.some.injEq, Prod.mk.injEq] at h
    obtain ⟨_, rfl⟩ := h
    exact absurd hp hmove
  rw [hres] at h
  simp only [Option.some.injEq, Prod.mk.injEq] at h
  obtain ⟨rfl, rfl⟩ := h
  generalize hdd : directionToDistance dir = d at *
  have hcoord : ∀ i : Nat, p.x + d.x + (i : Int) * d.x = p.x + ((i + 1 : Nat) : Int) * d.x ∧
      p.y + d.y + (i : Int) * d.y = p.y + ((i + 1 : Nat) : Int) * d.y := by
    intro i
    constructor <;> push_cast <;> ring
  have hne0 : ∀ i : Nat, ¬ (p.x = p.x + d.x + (i : Int) * d.x ∧
      p.y = p.y + d.y + (i : Int) * d.y) := by
    intro i ⟨h1, h2⟩
    rw [(hcoord i).1] at h1
    rw [(hcoord i).2] at h2
    have := step_inj (i := 0) (j := i + 1) hd (x := p.x) (y := p.y) (by simpa using h1)
      (by simpa using h2)
    omega
  have hwall_ne : ∀ id it, g.items[id]? = some it → it.kind ≠ Kind.player → id ≠ g.m_player := by
    intro id it hit hk hid
    rw [hid, hp] at hit
    have : p = it := by simpa using hit
    subst this
    exact hk hpk
  refine ⟨rfl, k, hw, ?_, ?_, ?_, ?_, ?_, ?_⟩
  · rw [← (hcoord k).1, ← (hcoord k).2]
    exact hland
  · rw [hm.cells, if_neg (fun hc => isStep_ne_zero hd p.x p.y ⟨hc.1.symm, hc.2.symm⟩),
      if_pos ⟨rfl, rfl⟩]
  · intro hk0
    subst hk0
    rw [hm.cells, if_pos]
    constructor <;> push_cast <;> ring
  · intro hk0
    obtain ⟨k1, rfl⟩ : ∃ k1, k = k1 + 1 := ⟨k - 1, by omega⟩
    obtain ⟨id, it, hc, hit, hkind⟩ := fieldHas_eq_true.mp (hw k1 (by omega))
    rw [(hcoord k1).1, (hcoord k1).2] at hc
    refine ⟨id, it, hc, hit, hkind, ?_⟩
    rw [hm.cells, if_neg, if_neg, ← (hcoord (k1 + 1)).1, ← (hcoord (k1 + 1)).2,
      hpush.moved k1 (by omega), (hcoord k1).1, (hcoord k1).2]
    · exact hc
    · intro hc1
      rw [← (hcoord (k1 + 1)).1, ← (hcoord (k1 + 1)).2] at hc1
      exact hne0 (k1 + 1) ⟨hc1.1.symm, hc1.2.symm⟩
    · intro hc1
      have := step_inj (i := k1 + 1 + 1) (j := 1) hd (x := p.x) (y := p.y)
        (by rw [hc1.1]; push_cast; ring) (by rw [hc1.2]; push_cast; ring)
      omega
  · intro x1 y1 hoff
    rw [hm.cells, if_neg, if_neg]
    · apply hpush.others
      intro i hi hc
      rw [(hcoord i).1, (hcoord i).2] at hc
      exact hoff (i + 1) (by omega) hc
    · intro hc
      exact hoff 0 (by omega) (by simpa using hc)
    · intro hc
      exact hoff 1 (by omega) (by simpa using hc)
  · intro id it hit hkind
    have hnp : it.kind ≠ Kind.player := by
      rcases hkind with hk | hk <;> rw [hk] <;> decide
    have hnw : it.kind ≠ Kind.wall := by
      rcases hkind with hk | hk <;> rw [hk] <;> decide
    rw [hm.getItem hp1 id, if_neg (hwall_ne id it hit hnp),
      hpush.items_others id (not_wall_of_kind hw hit hnw), hit]
/-- Witness of C31 on the example field: the player at `(3, 3)` moves right and pushes the
wall at `(4, 3)` to the empty cell `(5, 3)`. -/
theorem movePlayer_segment_witness :
    ∃ r g2, movePlayer Direction.right exampleGame = some (r, g2) ∧ r = PlayerResult.ok ∧
      cellAt g2.m_field 3 3 = some none ∧
      (∀ (id : Nat) (it : Item), exampleGame.items[id]? = some it →
        it.kind = Kind.vampire ∨ it.kind = Kind.border → g2.items[id]? = some it) := by
  have h : movePlayer Direction.right exampleGame
      = some (((movePlayer Direction.right exampleGame).getD (PlayerResult.lost, exampleGame)).1,
          ((movePlayer Direction.right exampleGame).getD (PlayerResult.lost, exampleGame)).2) := by
    decide
  have hm : ((movePlayer Direction.right exampleGame).getD
      (PlayerResult.lost, exampleGame)).2.items[exampleGame.m_player]?
      ≠ some ⟨Kind.player, 3, 3⟩ := by decide
  obtain ⟨hr, k, _, _, hc, _, _, _, hi⟩ :=
    movePlayer_segment exampleGame_valid (p := ⟨Kind.player, 3, 3⟩) (by decide) h hm
  exact ⟨_, _, h, hr, hc, hi⟩
/-! ## The loops of `movePlayer` end inside the field -/

theorem segment_in_field {g : Vampires} (hv : Valid g) {d : Distance} (hd : IsStep d)
    {x y : Int} (hx0 : 0 ≤ x) (hx1 : x < g.width) (hy0 : 0 ≤ y) (hy1 : y < g.height) {k : Nat}
    (hw : WallsAhead g d x y k) (i : Nat) (hi : i ≤ k) :
    0 ≤ x + (i : Int) * d.x ∧ x + (i : Int) * d.x < g.width ∧
      0 ≤ y + (i : Int) * d.y ∧ y + (i : Int) * d.y < g.height := by
  cases i with
  | zero => simpa using ⟨hx0, hx1, hy0, hy1⟩
  | succ j =>
    have hin := interior_of_fieldHas hv (hw j (by omega)) (by decide)
    obtain ⟨hdx, hdy, _⟩ := hd
    have e1 : ((j + 1 : Nat) : Int) * d.x = (j : Int) * d.x + d.x := by push_cast; ring
    have e2 : ((j + 1 : Nat) : Int) * d.y = (j : Int) * d.y + d.y := by push_cast; ring
    rw [e1, e2]
    generalize (j : Int) * d.x = a at hin ⊢
    generalize (j : Int) * d.y = b at hin ⊢
    omega

/-- C32: in every state reached from a state returned by the constructor, and for every
direction, the loop of `movePlayer` that skips the walls, started at the cell next to the
player, ends: for some `k` with `k + 1 ≤ max(width, height)` it tests the `k + 1` cells
`0, ..., k` steps from its start, all of them cells of the field, finds walls in the first `k`
and stops at the last one, whatever number of passages above `k` it is granted. The loop
that pushes the walls back, which runs when that last cell is empty, ends within the same
bound; and `movePlayer`, which grants `max(width, height)` passages to each loop, returns. -/
theorem movePlayer_loops_bounded {width height vampireCount wallCount RAND_MAX : Int}
    {rand : Nat → Int} {g0 g : Vampires}
    (h0 : construct width height vampireCount wallCount RAND_MAX rand = some g0)
    (hr : Reachable g0 g) (dir : Direction) :
    ∃ (p : Item) (k : Nat), g.items[g.m_player]? = some p ∧
      (k : Int) + 1 ≤ max g.width g.height ∧
      (∀ i : Nat, i ≤ k →
        0 ≤ p.x + (directionToDistance dir).x + (i : Int) * (directionToDistance dir).x ∧
        p.x + (directionToDistance dir).x + (i : Int) * (directionToDistance dir).x < g.width ∧
        0 ≤ p.y + (directionToDistance dir).y + (i : Int) * (directionToDistance dir).y ∧
        p.y + (directionToDistance dir).y + (i : Int) * (directionToDistance dir).y
          < g.height) ∧
      WallsAhead g (directionToDistance dir) (p.x + (directionToDistance dir).x)
        (p.y + (directionToDistance dir).y) k ∧
      (∀ fuel : Nat, k < fuel →
        scanWalls g (directionToDistance dir) fuel (p.x + (directionToDistance dir).x)
            (p.y + (directionToDistance dir).y)
          = some (p.x + (directionToDistance dir).x + (k : Int) * (directionToDistance dir).x,
              p.y + (directionToDistance dir).y + (k : Int) * (directionToDistance dir).y)) ∧
      (cellAt g.m_field
          (p.x + (directionToDistance dir).x + (k : Int) * (directionToDistance dir).x)
          (p.y + (directionToDistance dir).y + (k : Int) * (directionToDistance dir).y)
          = some none →
        ∀ fuel : Nat, k < fuel →
          ∃ g1, pushWalls (directionToDistance dir) (p.x + (directionToDistance dir).x)
            (p.y + (directionToDistance dir).y) fuel g
            (p.x + (directionToDistance dir).x + (k : Int) * (directionToDistance dir).x)
            (p.y + (directionToDistance dir).y + (k : Int) * (directionToDistance dir).y)
            = some g1) ∧
      loopFuel g = (max g.width g.height).toNat ∧
      ∃ r g1, movePlayer dir g = some (r, g1) := by
  obtain ⟨ps, hb⟩ := construct_built h0
  have hv : Valid g := (Reachable.inv hb.consistent hr).1
  have hd := isStep_directionToDistance dir
  obtain ⟨p, hp, hpk⟩ := hv.player
  have hin := interior_of_item hv hp (by rw [hpk]; decide)
  generalize directionToDistance dir = d at hd ⊢
  have hdx := hd.1
  have hdy := hd.2.1
  have hx0 : 0 ≤ p.x + d.x := by omega
  have hx1 : p.x + d.x < g.width := by omega
  have hy0 : 0 ≤ p.y + d.y := by omega
  have hy1 : p.y + d.y < g.height := by omega
  obtain ⟨k, hk, hw, hend⟩ := exists_wallsAhead hv hd
    (ringDistance g d (p.x + d.x) (p.y + d.y)).toNat (p.x + d.x) (p.y + d.y) hx0 hx1 hy0 hy1
    (by have := ringDistance_nonneg (g := g) (d := d) hx0 hx1 hy0 hy1; omega)
  have hfuel := lt_loopFuel hv hd hp hpk hk
  refine ⟨p, k, hp, ?_, ?_, hw, ?_, ?_, rfl, ?_⟩
  · unfold loopFuel at hfuel
    omega
  · intro i hi
    exact segment_in_field hv hd hx0 hx1 hy0 hy1 hw i hi
  · intro fuel hf
    exact scanWalls_of_wallsAhead g d k fuel _ _ hw hend hf
  · intro hland fuel hf
    obtain ⟨g1, h1, _⟩ := pushWalls_eq hd (p.x + d.x) (p.y + d.y) k g fuel hv hw hland hf
    exact ⟨g1, h1⟩
  · exact movePlayer_total hv dir

/-- Witness of C32: the constructed 7 x 7 field, the player at `(3, 3)` moving down and right
towards the wall at `(4, 4)`. -/
theorem movePlayer_loops_bounded_witness :
    ∃ (p : Item) (k : Nat), builtGame.items[builtGame.m_player]? = some p ∧
      (k : Int) + 1 ≤ max builtGame.width builtGame.height ∧
      ∃ r g1, movePlayer Direction.downRight builtGame = some (r, g1) := by
  obtain ⟨p, k, h1, h2, _, _, _, _, _, h3⟩ := movePlayer_loops_bounded
    (show construct 7 7 1 1 32767 (fun _ => 32767) = some builtGame by decide)
    Reachable.start Direction.downRight
  exact ⟨p, k, h1, h2, h3⟩
/-! ## The cells of the inner ring -/

/-- C34: for `width, height ≥ 7` and `P = 2 * (width - 2) + 2 * (height - 4)`, the function
`ringCell` that the loop settling the pursuers applies to `position` sends the values
`0, ..., P - 1` to pairwise different cells; it runs along the top side from left to right,
down the right side, along the bottom side from right to left and up the left side; each of
these cells lies on the inner ring, and each cell of the inner ring is the cell of one of these
values. Every pursuer of a state returned by the constructor is stored on the inner ring. -/
theorem ringCell_inner_ring (width height : Int) (hw : 7 ≤ width) (hh : 7 ≤ height) :
    (∀ q1 q2 : Int, 0 ≤ q1 → q1 < ringLength width height → 0 ≤ q2 →
      q2 < ringLength width height → ringCell width height q1 = ringCell width height q2 →
      q1 = q2) ∧
    (∀ q : Int, 0 ≤ q → q < ringLength width height →
      (q ≤ width - 3 → ringCell width height q = (q + 1, 1)) ∧
      (width - 2 ≤ q → q ≤ width + height - 6 →
        ringCell width height q = (width - 2, q - width + 4)) ∧
      (width + height - 5 ≤ q → q ≤ 2 * width + height - 9 →
        ringCell width height q = (2 * width + height - 8 - q, height - 2)) ∧
      (2 * width + height - 8 ≤ q →
        ringCell width height q = (1, 2 * width + 2 * height - 11 - q))) ∧
    (∀ q : Int, 0 ≤ q → q < ringLength width height →
      1 ≤ (ringCell width height q).1 ∧ (ringCell width height q).1 ≤ width - 2 ∧
      1 ≤ (ringCell width height q).2 ∧ (ringCell width height q).2 ≤ height - 2 ∧
      ((ringCell width height q).1 = 1 ∨ (ringCell width height q).1 = width - 2 ∨
        (ringCell width height q).2 = 1 ∨ (ringCell width height q).2 = height - 2)) ∧
    (∀ x y : Int, 1 ≤ x → x ≤ width - 2 → 1 ≤ y → y ≤ height - 2 →
      (x = 1 ∨ x = width - 2 ∨ y = 1 ∨ y = height - 2) →
      ∃ q : Int, 0 ≤ q ∧ q < ringLength width height ∧ ringCell width height q = (x, y)) ∧
    (∀ (vampireCount wallCount RAND_MAX : Int) (rand : Nat → Int) (g : Vampires),
      construct width height vampireCount wallCount RAND_MAX rand = some g →
      ∀ v ∈ g.m_vampires, ∃ it, g.items[v.item]? = some it ∧ it.kind = Kind.vampire ∧
        1 ≤ it.x ∧ it.x ≤ width - 2 ∧ 1 ≤ it.y ∧ it.y ≤ height - 2 ∧
        (it.x = 1 ∨ it.x = width - 2 ∨ it.y = 1 ∨ it.y = height - 2)) := by
  refine ⟨?_, ?_, ?_, ?_, ?_⟩
  · intro q1 q2 _ h1 _ h2 h
    exact ringCell_inj hw hh h1 h2 h
  · intro q hq0 hq1
    unfold ringLength at hq1
    refine ⟨?_, ?_, ?_, ?_⟩
    · intro h
      unfold ringCell
      rw [if_pos h]
    · intro h1 h2
      unfold ringCell
      rw [if_neg (by omega), if_pos h2]
    · intro h1 h2
      unfold ringCell
      rw [if_neg (by omega), if_neg (by omega), if_pos h2]
    · intro h1
      unfold ringCell
      rw [if_neg (by omega), if_neg (by omega), if_neg (by omega)]
  · intro q hq0 hq1
    obtain ⟨h1, h2, h3, h4⟩ := ringCell_bounds hw hh hq0 hq1
    exact ⟨h1, h2, h3, h4, ringCell_inner width height q⟩
  · intro x y hx0 hx1 hy0 hy1 hside
    unfold ringLength
    by_cases hy : y = 1
    · refine ⟨x - 1, by omega, by omega, ?_⟩
      unfold ringCell
      rw [if_pos (by omega), hy]
      congr 1
      omega
    by_cases hx : x = width - 2
    · refine ⟨y + width - 4, by omega, by omega, ?_⟩
      unfold ringCell
      rw [if_neg (by omega), if_pos (by omega), hx]
      congr 1
      omega
    by_cases hy2 : y = height - 2
    · refine ⟨2 * width + height - 8 - x, by omega, by omega, ?_⟩
      unfold ringCell
      rw [if_neg (by omega), if_neg (by omega), if_pos (by omega), hy2]
      congr 1
      omega
    · have hx2 : x = 1 := by omega
      refine ⟨2 * width + 2 * height - 11 - y, by omega, by omega, ?_⟩
      unfold ringCell
      rw [if_neg (by omega), if_neg (by omega), if_neg (by omega), hx2]
      congr 1
      omega
  · intro vampireCount wallCount RAND_MAX rand g hg v hv
    obtain ⟨ps, hb⟩ := construct_built hg
    have hn := hb.vampireCount_ge
    have hP : 0 ≤ ringLength width height := by unfold ringLength; omega
    rw [hb.m_vampires, List.mem_map] at hv
    obtain ⟨i, hi, rfl⟩ := hv
    rw [List.mem_range] at hi
    have hitem : g.items[(borderItems width height).length + i]?
        = some (vampireItem width height ((i : Int) * ringLength width height / vampireCount)) := by
      rw [hb.vampire_item hi, ringPositions_eq hn hP, List.map_map, List.getElem?_map,
        List.getElem?_range hi]
      rfl
    have hq0 : 0 ≤ (i : Int) * ringLength width height / vampireCount :=
      Int.ediv_nonneg (mul_nonneg (by omega) hP) (by omega)
    have hq1 : (i : Int) * ringLength width height / vampireCount < ringLength width height := by
      apply Int.ediv_lt_of_lt_mul (by omega)
      have hi1 : (i : Int) < vampireCount := by omega
      have hPpos : 0 < ringLength width height := by unfold ringLength; omega
      nlinarith
    obtain ⟨h1, h2, h3, h4⟩ := ringCell_bounds hw hh hq0 hq1
    exact ⟨_, hitem, rfl, h1, h2, h3, h4, ringCell_inner width height _⟩

/-- Witness of C34: the 16 cells of the inner ring of a 7 x 7 field; the value 5 is sent to
the cell `(5, 2)` of the right side. -/
theorem ringCell_inner_ring_witness :
    ringCell 7 7 5 = (5, 2) ∧
      ∃ q : Int, 0 ≤ q ∧ q < ringLength 7 7 ∧ ringCell 7 7 q = (1, 3) := by
  have h := ringCell_inner_ring 7 7 (by decide) (by decide)
  exact ⟨(h.2.1 5 (by decide) (by decide)).2.1 (by decide) (by decide),
    h.2.2.2.1 1 3 (by decide) (by decide) (by decide) (by decide) (Or.inl rfl)⟩
/-! ## The input channel: the buffer holds no byte twice in a row -/

theorem receive_buffer (w : Env) :
    ∀ (fuel i : Nat) (acc bytes : List UInt8) (s s1 : SocketReader),
      receiveAvailableBytes w fuel i acc s = Outcome.returned (bytes, s1) →
      s1.m_buffer = s.m_buffer := by
  intro fuel
  induction fuel with
  | zero =>
    intro i acc bytes s s1 h
    rw [receiveAvailableBytes] at h
    exact absurd h (by simp)
  | succ fuel ih =>
    intro i acc bytes s s1 h
    rw [receiveAvailableBytes] at h
    cases hfd : s.m_dataFd with
    | none => rw [hfd] at h; exact absurd h (by simp)
    | some fd =>
      rw [hfd] at h
      dsimp only at h
      cases hr : w.recv i with
      | bytes b rest =>
        rw [hr] at h
        exact ih _ _ _ s s1 h
      | closed =>
        rw [hr] at h
        simp only [Outcome.returned.injEq, Prod.mk.injEq] at h
        rw [← h.2, (startListening_frame _ _ _).1, (closeSocket_frame s).1]
      | nothing =>
        rw [hr] at h
        dsimp only at h
        by_cases hn : s.dataNonBlocking = true
        · rw [if_pos hn] at h
          simp only [Outcome.returned.injEq, Prod.mk.injEq] at h
          rw [← h.2]
        · rw [if_neg hn] at h
          exact absurd h (by simp)
      | failure =>
        rw [hr] at h
        simp only [Outcome.returned.injEq, Prod.mk.injEq] at h
        rw [← h.2]

theorem appendBytes_chain : ∀ (bytes buffer : List UInt8) (prev : UInt8),
    buffer.Chain' (fun a b => a ≠ b) → (∀ b, buffer.getLast? = some b → b = prev) →
    (appendBytes buffer prev bytes).Chain' (fun a b => a ≠ b) := by
  intro bytes
  induction bytes with
  | nil =>
    intro buffer prev hc _
    rw [appendBytes]
    exact hc
  | cons byte rest ih =>
    intro buffer prev hc hl
    rw [appendBytes]
    by_cases hb : byte = prev
    · rw [if_pos hb]
      exact ih buffer prev hc hl
    · rw [if_neg hb]
      apply ih (buffer ++ [byte]) byte
      · apply List.Chain'.append hc (List.chain'_singleton byte)
        intro x hx y hy
        have hx1 : buffer.getLast? = some x := hx
        have hy1 : y = byte := by simpa using hy.symm
        rw [hy1, hl x hx1]
        exact fun h => hb h.symm
      · intro b hlast
        rw [List.getLast?_append, List.getLast?_singleton] at hlast
        simpa using hlast.symm

theorem deliver_buffer (bytes : List UInt8) (s : SocketReader) :
    (deliver bytes s).2.m_buffer = (appendBytes s.m_buffer (prevByte s.m_buffer) bytes).tail := by
  rw [(deliver_eq bytes s).2, appendBytes_eq]

theorem getChar_buffer {w : Env} {fuel : Nat} {s s1 : SocketReader} {c : Option UInt8}
    (h : getChar w fuel s = Outcome.returned (c, s1)) :
    s1.m_buffer = s.m_buffer ∨
      ∃ bytes, s1.m_buffer = (appendBytes s.m_buffer (prevByte s.m_buffer) bytes).tail := by
  unfold getChar at h
  cases ha : adoptConnection w s with
  | returned o =>
    rw [ha] at h
    cases o with
    | none =>
      simp only [Outcome.returned.injEq, Prod.mk.injEq] at h
      left
      rw [← h.2]
    | some s2 =>
      dsimp only at h
      cases hr : receiveAvailableBytes w fuel 0 [] s2 with
      | returned r =>
        obtain ⟨bytes, s3⟩ := r
        rw [hr] at h
        simp only [Outcome.returned.injEq] at h
        have h3 := receive_buffer w fuel 0 [] bytes s2 s3 hr
        have h2 := adoptConnection_buffer ha
        have hd := deliver_buffer bytes s3
        rw [h, h3, h2] at hd
        exact Or.inr ⟨bytes, hd⟩
      | blocked => rw [hr] at h; exact absurd h (by simp)
      | undefined => rw [hr] at h; exact absurd h (by simp)
      | terminated => rw [hr] at h; exact absurd h (by simp)
      | unfinished => rw [hr] at h; exact absurd h (by simp)
  | blocked => rw [ha] at h; exact absurd h (by simp)
  | undefined => rw [ha] at h; exact absurd h (by simp)
  | terminated => rw [ha] at h; exact absurd h (by simp)
  | unfinished => rw [ha] at h; exact absurd h (by simp)

theorem chain_getElem (l : List UInt8) (hc : l.Chain' (fun a b => a ≠ b)) :
    ∀ (i : Nat) (a b : UInt8), l[i]? = some a → l[i + 1]? = some b → a ≠ b := by
  induction l with
  | nil => intro i a b h; simp at h
  | cons x l ih =>
    intro i a b h1 h2
    rw [List.chain'_cons'] at hc
    cases i with
    | zero =>
      have hxa : x = a := by simpa using h1
      have hb : l.head? = some b := by
        rw [List.head?_eq_getElem?]
        simpa using h2
      rw [← hxa]
      exact hc.1 b hb
    | succ j =>
      exact ih hc.2 j a b (by simpa using h1) (by simpa using h2)

/-- C36: in every state of the channel reached from the constructed one, with its empty
buffer, by calls of `startListening`, of `getChar`, whatever it receives, and of `clear`, no
byte of the buffer is equal to the byte that follows it. -/
theorem buffer_no_repeat {s : SocketReader} (hr : ChannelReachable s) :
    s.m_buffer.Chain' (fun a b => a ≠ b) ∧
    ∀ (i : Nat) (a b : UInt8), s.m_buffer[i]? = some a → s.m_buffer[i + 1]? = some b → a ≠ b := by
  have hc : s.m_buffer.Chain' (fun a b => a ≠ b) := by
    induction hr with
    | start => exact List.chain'_nil
    | listen l port _ ih =>
      rw [(startListening_frame l port _).1]
      exact ih
    | getChar w fuel c _ h ih =>
      rcases getChar_buffer h with h1 | ⟨bytes, h1⟩
      · rw [h1]
        exact ih
      · rw [h1]
        apply List.Chain'.tail
        apply appendBytes_chain bytes _ _ ih
        intro b hb
        unfold prevByte
        rw [hb]
    | clear _ _ => exact List.chain'_nil
  exact ⟨hc, chain_getElem s.m_buffer hc⟩

/-- Witness of C36: the connected channel receives the bytes 97, 97, 98, 98, 97 in one burst;
the call returns 97 and leaves 98, 97 in the buffer. -/
theorem buffer_no_repeat_witness :
    getChar (scripted [Incoming.bytes 97 [97, 98, 98, 97]]) 2 (connectedReader [])
      = Outcome.returned (some 97,
          { m_hasReceivedData := true, m_port := 8080, m_socketFd := 3,
            m_dataFdFuture := Future.noState, m_dataFd := some 4, m_buffer := [98, 97],
            dataNonBlocking := true }) ∧
    List.Chain' (fun a b : UInt8 => a ≠ b) [98, 97] := by
  have h : getChar (scripted [Incoming.bytes 97 [97, 98, 98, 97]]) 2 (connectedReader [])
      = Outcome.returned (some 97,
          { m_hasReceivedData := true, m_port := 8080, m_socketFd := 3,
            m_dataFdFuture := Future.noState, m_dataFd := some 4, m_buffer := [98, 97],
            dataNonBlocking := true }) := by decide
  exact ⟨h, (buffer_no_repeat (ChannelReachable.getChar _ 2 (some 97)
    reachable_connectedReader h)).1⟩
/-! ## The input channel: a drain that ends with the end of the stream or an error -/

theorem receive_dropped {w : Env} {s : SocketReader} {k fuel : Nat} (hfd : s.m_dataFd ≠ none)
    (hb : AllBytes w 0 k)
    (hend : w.recv k = Incoming.closed ∨ w.recv k = Incoming.failure) (hf : k < fuel) :
    ∃ s2, receiveAvailableBytes w fuel 0 [] s = Outcome.returned ([], s2) ∧
      s2.m_buffer = s.m_buffer := by
  have hloop : receiveAvailableBytes w fuel 0 [] s
      = receiveAvailableBytes w (fuel - k) k (delivered w 0 k) s := by
    have h := receive_bytes w k (fuel - k) 0 [] s hfd hb
    rw [show k + (fuel - k) = fuel by omega] at h
    simpa using h
  obtain ⟨f1, hf1⟩ : ∃ f1, fuel - k = f1 + 1 := ⟨fuel - k - 1, by omega⟩
  obtain ⟨fd, hfd1⟩ := Option.ne_none_iff_exists'.mp hfd
  rw [hloop, hf1, receiveAvailableBytes, hfd1]
  dsimp only
  rcases hend with hr | hr
  · rw [hr]
    exact ⟨_, rfl, by rw [(startListening_frame _ _ _).1, (closeSocket_frame s).1]⟩
  · rw [hr]
    exact ⟨_, rfl, rfl⟩

/-- C37: on a channel with a connection, when `k` calls of `recv` in one call of `getChar`
find bytes and the next one finds the end of the stream or fails with an error other than
would-block, `receiveAvailableBytes` returns no bytes, whatever the bytes found: none of them
reaches the buffer. The call of `getChar` returns the byte at the front of the buffer that it
found, or no data if that buffer is empty, and leaves that buffer without its first byte. -/
theorem getChar_drops_drain {s : SocketReader} (hfd : s.m_dataFd ≠ none) {w : Env}
    {k fuel : Nat} (hb : AllBytes w 0 k)
    (hend : w.recv k = Incoming.closed ∨ w.recv k = Incoming.failure) (hf : k < fuel) :
    (∃ s2, receiveAvailableBytes w fuel 0 [] s = Outcome.returned ([], s2) ∧
      s2.m_buffer = s.m_buffer) ∧
    ∃ s1, getChar w fuel s = Outcome.returned (s.m_buffer.head?, s1) ∧
      s1.m_buffer = s.m_buffer.tail ∧
      (s.m_buffer = [] → s1.m_buffer = []) ∧
      (∀ c rest, s.m_buffer = c :: rest → s1.m_buffer = rest) := by
  refine ⟨receive_dropped hfd hb hend hf, ?_⟩
  have hres : ∃ s1, getChar w fuel s = Outcome.returned (s.m_buffer.head?, s1) ∧
      s1.m_buffer = s.m_buffer.tail := by
    rcases hend with hr | hr
    · have hget := (getChar_connected hfd hb hf).2.2.1 hr
      have hd := deliver_nil (startListening w.listen (closeSocket s).m_port (closeSocket s)).2
      rw [(startListening_frame _ _ _).1, (closeSocket_frame s).1] at hd
      refine ⟨_, ?_, hd.2.1⟩
      rw [hget, ← hd.1]
    · have hget := (getChar_connected hfd hb hf).2.2.2 hr
      have hd := deliver_nil s
      refine ⟨_, ?_, hd.2.1⟩
      rw [hget, ← hd.1]
  obtain ⟨s1, h1, h2⟩ := hres
  refine ⟨s1, h1, h2, ?_, ?_⟩
  · intro h0
    rw [h2, h0]
    rfl
  · intro c rest h0
    rw [h2, h0]
    rfl

/-- Witness of C37: the connected channel holds 98; the call finds the bytes 97 and 99 and then
the end of the stream: it returns 98 and leaves an empty buffer. -/
theorem getChar_drops_drain_witness :
    ∃ s1, getChar (scripted [Incoming.bytes 97 [99], Incoming.closed]) 2 (connectedReader [98])
        = Outcome.returned ((connectedReader [98]).m_buffer.head?, s1) ∧
      s1.m_buffer = [] := by
  obtain ⟨_, s1, h1, _, _, h4⟩ := getChar_drops_drain (s := connectedReader [98])
    (w := scripted [Incoming.bytes 97 [99], Incoming.closed]) (k := 1) (by decide)
    (fun j hj => ⟨97, [99], by
      have : j = 0 := by omega
      subst this
      rfl⟩)
    (Or.inl rfl) (show 1 < 2 by decide)
  exact ⟨s1, h1, h4 98 [] rfl⟩
/-! ## The loop that puts the walls -/

theorem scatterStates_inv (RAND_MAX : Int) (rand : Nat → Int) :
    ∀ (k calls : Nat) (g : Vampires) (live rest : List (Int × Int)), live.Nodup →
      (∀ p ∈ live, cellAt g.m_field p.1 p.2 = some none) →
      (∀ p ∈ rest, cellAt g.m_field p.1 p.2 ≠ some none) →
      ∀ t ∈ scatterStates RAND_MAX rand k calls g (live ++ rest) (live.length : Int),
        ∃ live1 rest1 : List (Int × Int), t.2.1 = live1 ++ rest1 ∧
          t.2.2 = (live1.length : Int) ∧ live1.Nodup ∧
          (∀ p ∈ live1, cellAt t.1.m_field p.1 p.2 = some none) := by
  intro k
  induction k with
  | zero =>
    intro calls g live rest hn hempty _ t ht
    rw [scatterStates, List.mem_singleton] at ht
    subst ht
    exact ⟨live, rest, rfl, rfl, hn, hempty⟩
  | succ k ih =>
    intro calls g live rest hn hempty hocc t ht
    have hhere : t = (g, live ++ rest, (live.length : Int)) →
        ∃ live1 rest1 : List (Int × Int), t.2.1 = live1 ++ rest1 ∧
          t.2.2 = (live1.length : Int) ∧ live1.Nodup ∧
          (∀ p ∈ live1, cellAt t.1.m_field p.1 p.2 = some none) := by
      intro h
      subst h
      exact ⟨live, rest, rfl, rfl, hn, hempty⟩
    rw [scatterStates] at ht
    cases hpick : pickIndex RAND_MAX (rand calls) (live.length : Int) with
    | none =>
      rw [hpick] at ht
      exact hhere (List.mem_singleton.mp ht)
    | some i =>
      rw [hpick] at ht
      dsimp only at ht
      by_cases hi0 : 0 ≤ i
      · rw [if_pos hi0] at ht
        cases hget : (live ++ rest)[i.toNat]? with
        | none =>
          rw [hget] at ht
          exact hhere (List.mem_singleton.mp ht)
        | some wall =>
          rw [hget] at ht
          dsimp only at ht
          cases hcreate : createItem g Kind.wall wall.1 wall.2 with
          | none =>
            rw [hcreate] at ht
            exact hhere (List.mem_singleton.mp ht)
          | some r =>
            obtain ⟨id, g1⟩ := r
            rw [hcreate] at ht
            dsimp only at ht
            rcases List.mem_cons.mp ht with h | h
            · exact hhere h
            obtain ⟨_, ca⟩ := createItem_some hcreate
            have hlt : i.toNat < live.length := by
              by_contra hge
              rw [List.getElem?_append_right (by omega)] at hget
              exact hocc wall (List.getElem?_mem hget) ca.empty
            have hgetl : live[i.toNat]? = some wall := by
              rw [List.getElem?_append_left hlt] at hget
              exact hget
            have hlen : ((live.eraseIdx i.toNat).length : Int) = (live.length : Int) - 1 := by
              rw [List.length_eraseIdx, if_pos hlt]
              omega
            have hwalls : ∃ rest1, (if i ≠ (live.length : Int) - 1
                then (live ++ rest).eraseIdx i.toNat else live ++ rest)
                = live.eraseIdx i.toNat ++ rest1 ∧ ∀ p ∈ rest1, p ∈ rest ∨ p = wall := by
              by_cases hne : i ≠ (live.length : Int) - 1
              · exact ⟨rest, by rw [if_pos hne, List.eraseIdx_append_of_lt_length hlt],
                  fun p hp => Or.inl hp⟩
              · refine ⟨wall :: rest, ?_, ?_⟩
                · rw [if_neg hne]
                  have hlast : i.toNat + 1 = live.length := by omega
                  conv_lhs => rw [eq_eraseIdx_append_last live i.toNat _ hlast hgetl]
                  simp
                · intro p hp
                  rcases List.mem_cons.mp hp with h1 | h1
                  · exact Or.inr h1
                  · exact Or.inl h1
            obtain ⟨rest1, hrest1, hmem1⟩ := hwalls
            rw [hrest1, ← hlen] at h
            apply ih (calls + 1) g1 (live.eraseIdx i.toNat) rest1
              (List.Nodup.sublist (List.eraseIdx_sublist _ _) hn) ?_ ?_ t h
            · intro p hp
              rw [ca.cells]
              have hne : p ≠ wall := by
                rintro rfl
                exact not_mem_eraseIdx_of_nodup live i.toNat _ hn hgetl hp
              rw [if_neg (fun h => hne (Prod.ext h.1 h.2))]
              exact hempty p (List.mem_of_mem_eraseIdx hp)
            · intro p hp
              rw [ca.cells]
              by_cases hpw : p.1 = wall.1 ∧ p.2 = wall.2
              · rw [if_pos hpw]
                simp
              · rw [if_neg hpw]
                rcases hmem1 p hp with h1 | h1
                · exact hocc p h1
                · exact absurd (by rw [h1]; exact ⟨rfl, rfl⟩) hpw
      · rw [if_neg hi0] at ht
        exact hhere (List.mem_singleton.mp ht)
/-- C33 fails in the code, by the defect of C18. In exact integer arithmetic the index
`(2 * r * (spacesLeft - 1) + RAND_MAX) / (2 * RAND_MAX)` does lie in `0 .. spacesLeft - 1`,
but the code computes it in `int`: for `RAND_MAX = 2147483647` the value 0 of `rand()` with
`spacesLeft = 8`, as in the first passage on a 7 x 7 field, gives the index `-1073741823`, and
for `RAND_MAX = 32767` the value 32767 of `rand()` with `spacesLeft = 33123`, as on a
186 x 186 field, gives `-32415`: the vector `walls` is indexed out of range and the
construction does not complete. What holds: the index of the code is the exact one where no
`int` overflows; the candidate cells collected before the loop are pairwise different and
empty; at the start of every passage that the loop reaches, the first `spacesLeft` entries of
`walls` are pairwise different cells that are still empty; and where no `int` overflows the
loop completes, so that no passage indexes `walls` out of range or creates an item on an
occupied cell. -/
theorem pickIndex_in_range :
    (∀ RAND_MAX r spacesLeft : Int, 0 < RAND_MAX → 0 ≤ r → r ≤ RAND_MAX → 1 ≤ spacesLeft →
      0 ≤ (2 * r * (spacesLeft - 1) + RAND_MAX) / (2 * RAND_MAX) ∧
      (2 * r * (spacesLeft - 1) + RAND_MAX) / (2 * RAND_MAX) ≤ spacesLeft - 1) ∧
    pickIndex 2147483647 0 8 = some (-1073741823) ∧
    construct 7 7 1 1 2147483647 (fun _ => 0) = none ∧
    pickIndex 32767 32767 33123 = some (-32415) ∧
    (∀ RAND_MAX r spacesLeft : Int, 0 < RAND_MAX → 2 * RAND_MAX ≤ INT_MAX →
      2 * RAND_MAX * (spacesLeft - 1) + RAND_MAX ≤ INT_MAX → 1 ≤ spacesLeft → 0 ≤ r →
      r ≤ RAND_MAX →
      pickIndex RAND_MAX r spacesLeft
        = some ((2 * r * (spacesLeft - 1) + RAND_MAX) / (2 * RAND_MAX))) ∧
    (∀ (g : Vampires) (xs ys : List Int) (walls : List (Int × Int)),
      freeCells g xs ys = some walls → xs.Nodup → ys.Nodup →
      walls.Nodup ∧ ∀ p ∈ walls, cellAt g.m_field p.1 p.2 = some none) ∧
    (∀ (RAND_MAX : Int) (rand : Nat → Int) (k calls : Nat) (g : Vampires)
      (walls : List (Int × Int)), walls.Nodup →
      (∀ p ∈ walls, cellAt g.m_field p.1 p.2 = some none) →
      ∀ t ∈ scatterStates RAND_MAX rand k calls g walls (walls.length : Int),
        0 ≤ t.2.2 ∧ t.2.2 ≤ (t.2.1.length : Int) ∧ (t.2.1.take t.2.2.toNat).Nodup ∧
        ∀ p ∈ t.2.1.take t.2.2.toNat, cellAt t.1.m_field p.1 p.2 = some none) ∧
    (∀ (RAND_MAX : Int) (rand : Nat → Int) (k calls : Nat) (g : Vampires)
      (walls : List (Int × Int)), 0 < RAND_MAX → 2 * RAND_MAX ≤ INT_MAX →
      (∀ c, 0 ≤ rand c ∧ rand c ≤ RAND_MAX) → Wf g → walls.Nodup →
      (∀ p ∈ walls, cellAt g.m_field p.1 p.2 = some none) → k ≤ walls.length →
      2 * RAND_MAX * ((walls.length : Int) - 1) + RAND_MAX ≤ INT_MAX →
      ∃ g1, scatterWalls RAND_MAX rand k calls g walls (walls.length : Int) = some g1) := by
  refine ⟨?_, by decide, by decide, by decide, ?_, ?_, ?_, ?_⟩
  · intro RAND_MAX r spacesLeft hM hr0 hr1 hs
    have hprod : 2 * r * (spacesLeft - 1) ≤ 2 * RAND_MAX * (spacesLeft - 1) :=
      mul_le_mul_of_nonneg_right (by omega) (by omega)
    have hprod0 : 0 ≤ 2 * r * (spacesLeft - 1) := mul_nonneg (by omega) (by omega)
    refine ⟨Int.ediv_nonneg (by omega) (by omega), ?_⟩
    have hlt : (2 * r * (spacesLeft - 1) + RAND_MAX) / (2 * RAND_MAX) < spacesLeft := by
      apply Int.ediv_lt_of_lt_mul (by omega)
      have : spacesLeft * (2 * RAND_MAX) = 2 * RAND_MAX * (spacesLeft - 1) + 2 * RAND_MAX := by
        ring
      omega
    omega
  · intro RAND_MAX r spacesLeft hM h2M hfit hs hr0 hr1
    exact (pickIndex_fits hM h2M hfit hs hr0 hr1).1
  · intro g xs ys walls h hxs hys
    refine ⟨freeCells_nodup g xs hxs ys walls h hys, ?_⟩
    intro p hp
    exact ((freeCells_some g xs ys walls h p).mp hp).2.2
  · intro RAND_MAX rand k calls g walls hn hempty t ht
    have ht1 : t ∈ scatterStates RAND_MAX rand k calls g (walls ++ []) (walls.length : Int) := by
      rw [List.append_nil]
      exact ht
    obtain ⟨live1, rest1, h1, h2, h3, h4⟩ := scatterStates_inv RAND_MAX rand k calls g walls []
      hn hempty (fun p hp => absurd hp (List.not_mem_nil p)) t ht1
    have htake : t.2.1.take t.2.2.toNat = live1 := by
      rw [h1, h2, Int.toNat_ofNat, List.take_left]
    rw [htake]
    refine ⟨by omega, ?_, h3, h4⟩
    rw [h1, h2, List.length_append]
    omega
  · intro RAND_MAX rand k calls g walls hM h2M hrand hw hn hempty hk hfit
    have h := scatterWalls_total hM h2M hrand k calls g walls [] hw hn hempty hk hfit
    rw [List.append_nil] at h
    exact h
/-! ## The values of `rand()` that select an index -/

theorem lt_ceil_iff {a D r : Int} (hD : 0 < D) : r < (a + D - 1) / D ↔ r * D < a := by
  rw [← Int.add_one_le_iff, Int.le_ediv_iff_mul_le hD]
  have : (r + 1) * D = r * D + D := by ring
  rw [this]
  constructor <;> intro h <;> omega

theorem ceil_le_iff {a D r : Int} (hD : 0 < D) : (a + D - 1) / D ≤ r ↔ a ≤ r * D := by
  have h := lt_ceil_iff (a := a) (r := r) hD
  constructor
  · intro h1
    by_contra h2
    exact absurd (h.mpr (by omega)) (by omega)
  · intro h1
    by_contra h2
    exact absurd (h.mp (by omega)) (by omega)

theorem pickIndex_eq_iff {RAND_MAX r spacesLeft : Int} (hM : 0 < RAND_MAX)
    (h2M : 2 * RAND_MAX ≤ INT_MAX)
    (hfit : 2 * RAND_MAX * (spacesLeft - 1) + RAND_MAX ≤ INT_MAX) (hs : 1 ≤ spacesLeft)
    (hr0 : 0 ≤ r) (hr1 : r ≤ RAND_MAX) (i : Int) :
    pickIndex RAND_MAX r spacesLeft = some i ↔
      ((2 * i - 1) * RAND_MAX ≤ 2 * r * (spacesLeft - 1) ∧
        2 * r * (spacesLeft - 1) < (2 * i + 1) * RAND_MAX) := by
  rw [(pickIndex_fits hM h2M hfit hs hr0 hr1).1, Option.some.injEq]
  have h2 : (0 : Int) < 2 * RAND_MAX := by omega
  have e1 : (2 * i - 1) * RAND_MAX = i * (2 * RAND_MAX) - RAND_MAX := by ring
  have e2 : (2 * i + 1) * RAND_MAX = (i + 1) * (2 * RAND_MAX) - RAND_MAX := by ring
  rw [e1, e2]
  constructor
  · intro h
    subst h
    have h3 := Int.ediv_mul_le (2 * r * (spacesLeft - 1) + RAND_MAX) (ne_of_gt h2)
    have h4 := Int.lt_ediv_add_one_mul_self (2 * r * (spacesLeft - 1) + RAND_MAX) h2
    constructor <;> omega
  · rintro ⟨h3, h4⟩
    apply le_antisymm
    · rw [← Int.lt_add_one_iff, Int.ediv_lt_iff_lt_mul h2]
      omega
    · rw [Int.le_ediv_iff_mul_le h2]
      omega

theorem pickIndex_threshold {RAND_MAX r spacesLeft : Int} (hM : 0 < RAND_MAX)
    (h2M : 2 * RAND_MAX ≤ INT_MAX)
    (hfit : 2 * RAND_MAX * (spacesLeft - 1) + RAND_MAX ≤ INT_MAX) (hs : 2 ≤ spacesLeft)
    (hr0 : 0 ≤ r) (hr1 : r ≤ RAND_MAX) (i : Int) :
    pickIndex RAND_MAX r spacesLeft = some i ↔
      (pickThreshold RAND_MAX spacesLeft i ≤ r ∧ r < pickThreshold RAND_MAX spacesLeft (i + 1)) := by
  rw [pickIndex_eq_iff hM h2M hfit (by omega) hr0 hr1]
  have hD : (0 : Int) < 2 * (spacesLeft - 1) := by omega
  unfold pickThreshold
  rw [ceil_le_iff hD, lt_ceil_iff hD]
  have e1 : 2 * r * (spacesLeft - 1) = r * (2 * (spacesLeft - 1)) := by ring
  have e2 : (2 * (i + 1) - 1) * RAND_MAX = (2 * i + 1) * RAND_MAX := by ring
  rw [e1, e2]

theorem pickValues_eq {RAND_MAX spacesLeft : Int} (hM : 0 < RAND_MAX)
    (h2M : 2 * RAND_MAX ≤ INT_MAX)
    (hfit : 2 * RAND_MAX * (spacesLeft - 1) + RAND_MAX ≤ INT_MAX) (hs : 2 ≤ spacesLeft)
    (i : Int) :
    pickValues RAND_MAX spacesLeft i
      = Finset.Icc (max 0 (pickThreshold RAND_MAX spacesLeft i))
          (min RAND_MAX (pickThreshold RAND_MAX spacesLeft (i + 1) - 1)) := by
  ext r
  unfold pickValues
  rw [Finset.mem_filter, Finset.mem_Icc, Finset.mem_Icc]
  constructor
  · rintro ⟨⟨hr0, hr1⟩, h⟩
    rw [pickIndex_threshold hM h2M hfit hs hr0 hr1] at h
    omega
  · intro h
    have hr0 : 0 ≤ r := by omega
    have hr1 : r ≤ RAND_MAX := by omega
    refine ⟨⟨hr0, hr1⟩, ?_⟩
    rw [pickIndex_threshold hM h2M hfit hs hr0 hr1]
    omega

theorem card_pickValues {RAND_MAX spacesLeft : Int} (hM : 0 < RAND_MAX)
    (h2M : 2 * RAND_MAX ≤ INT_MAX)
    (hfit : 2 * RAND_MAX * (spacesLeft - 1) + RAND_MAX ≤ INT_MAX) (hs : 2 ≤ spacesLeft)
    (i : Int) :
    (pickValues RAND_MAX spacesLeft i).card
      = (min (RAND_MAX + 1) (pickThreshold RAND_MAX spacesLeft (i + 1))
          - max 0 (pickThreshold RAND_MAX spacesLeft i)).toNat := by
  rw [pickValues_eq hM h2M hfit hs, Int.card_Icc]
  congr 1
  omega
theorem pickThreshold_mul (RAND_MAX spacesLeft j : Int) (hs : 2 ≤ spacesLeft) :
    (2 * j - 1) * RAND_MAX ≤ pickThreshold RAND_MAX spacesLeft j * (2 * (spacesLeft - 1)) ∧
      pickThreshold RAND_MAX spacesLeft j * (2 * (spacesLeft - 1))
        ≤ (2 * j - 1) * RAND_MAX + 2 * (spacesLeft - 1) - 1 := by
  have hD : (0 : Int) < 2 * (spacesLeft - 1) := by omega
  unfold pickThreshold
  exact ⟨(ceil_le_iff hD).mp le_rfl, Int.ediv_mul_le _ (ne_of_gt hD)⟩

theorem pickThreshold_mono (RAND_MAX spacesLeft : Int) (hM : 0 < RAND_MAX)
    (hs : 2 ≤ spacesLeft) {i j : Int} (hij : i ≤ j) :
    pickThreshold RAND_MAX spacesLeft i ≤ pickThreshold RAND_MAX spacesLeft j := by
  have hD : (0 : Int) < 2 * (spacesLeft - 1) := by omega
  unfold pickThreshold
  apply Int.ediv_le_ediv hD
  have : (2 * i - 1) * RAND_MAX ≤ (2 * j - 1) * RAND_MAX :=
    mul_le_mul_of_nonneg_right (by omega) (by omega)
  omega

theorem card_pickValues_first {RAND_MAX spacesLeft : Int} (hM : 0 < RAND_MAX)
    (h2M : 2 * RAND_MAX ≤ INT_MAX)
    (hfit : 2 * RAND_MAX * (spacesLeft - 1) + RAND_MAX ≤ INT_MAX) (hs : 2 ≤ spacesLeft) :
    ((pickValues RAND_MAX spacesLeft 0).card : Int) = pickThreshold RAND_MAX spacesLeft 1 ∧
      0 < pickThreshold RAND_MAX spacesLeft 1 := by
  have hD : (0 : Int) < 2 * (spacesLeft - 1) := by omega
  have h0 : pickThreshold RAND_MAX spacesLeft 0 ≤ 0 := by
    unfold pickThreshold
    rw [ceil_le_iff hD]
    omega
  have h1 : 0 < pickThreshold RAND_MAX spacesLeft 1 := by
    unfold pickThreshold
    rw [lt_ceil_iff hD]
    omega
  have h2 : pickThreshold RAND_MAX spacesLeft 1 ≤ RAND_MAX + 1 := by
    unfold pickThreshold
    rw [ceil_le_iff hD]
    nlinarith
  rw [card_pickValues hM h2M hfit hs, show (0 : Int) + 1 = 1 from rfl]
  exact ⟨by omega, h1⟩

theorem card_pickValues_last {RAND_MAX spacesLeft : Int} (hM : 0 < RAND_MAX)
    (h2M : 2 * RAND_MAX ≤ INT_MAX)
    (hfit : 2 * RAND_MAX * (spacesLeft - 1) + RAND_MAX ≤ INT_MAX) (hs : 2 ≤ spacesLeft) :
    ((pickValues RAND_MAX spacesLeft (spacesLeft - 1)).card : Int)
        = RAND_MAX + 1 - pickThreshold RAND_MAX spacesLeft (spacesLeft - 1) ∧
      0 < pickThreshold RAND_MAX spacesLeft (spacesLeft - 1) ∧
      pickThreshold RAND_MAX spacesLeft (spacesLeft - 1) ≤ RAND_MAX := by
  have hD : (0 : Int) < 2 * (spacesLeft - 1) := by omega
  have h0 : 0 < pickThreshold RAND_MAX spacesLeft (spacesLeft - 1) := by
    unfold pickThreshold
    rw [lt_ceil_iff hD]
    nlinarith
  have h1 : pickThreshold RAND_MAX spacesLeft (spacesLeft - 1) ≤ RAND_MAX := by
    unfold pickThreshold
    rw [ceil_le_iff hD]
    nlinarith
  have h2 : RAND_MAX < pickThreshold RAND_MAX spacesLeft (spacesLeft - 1 + 1) := by
    unfold pickThreshold
    rw [lt_ceil_iff hD]
    nlinarith
  rw [card_pickValues hM h2M hfit hs]
  exact ⟨by omega, h0, h1⟩

theorem card_pickValues_inner {RAND_MAX spacesLeft : Int} (hM : 0 < RAND_MAX)
    (h2M : 2 * RAND_MAX ≤ INT_MAX)
    (hfit : 2 * RAND_MAX * (spacesLeft - 1) + RAND_MAX ≤ INT_MAX) (hs : 2 ≤ spacesLeft)
    {i : Int} (hi0 : 1 ≤ i) (hi1 : i ≤ spacesLeft - 2) :
    ((pickValues RAND_MAX spacesLeft i).card : Int)
        = pickThreshold RAND_MAX spacesLeft (i + 1) - pickThreshold RAND_MAX spacesLeft i := by
  have hlast := card_pickValues_last hM h2M hfit hs
  have hfirst := card_pickValues_first hM h2M hfit hs
  have h1 := pickThreshold_mono RAND_MAX spacesLeft hM hs (show (1 : Int) ≤ i from hi0)
  have h2 := pickThreshold_mono RAND_MAX spacesLeft hM hs (show i ≤ i + 1 by omega)
  have h3 := pickThreshold_mono RAND_MAX spacesLeft hM hs (show i + 1 ≤ spacesLeft - 1 by omega)
  rw [card_pickValues hM h2M hfit hs]
  omega
theorem pickValues_small_ends {RAND_MAX spacesLeft : Int} (hM : 0 < RAND_MAX)
    (h2M : 2 * RAND_MAX ≤ INT_MAX)
    (hfit : 2 * RAND_MAX * (spacesLeft - 1) + RAND_MAX ≤ INT_MAX) (hs : 3 ≤ spacesLeft)
    (hbig : 4 * (spacesLeft - 1) ≤ RAND_MAX) :
    (pickValues RAND_MAX spacesLeft 0).card < (pickValues RAND_MAX spacesLeft 1).card ∧
      (pickValues RAND_MAX spacesLeft (spacesLeft - 1)).card
        < (pickValues RAND_MAX spacesLeft (spacesLeft - 2)).card := by
  have hs2 : 2 ≤ spacesLeft := by omega
  have hD : (0 : Int) ≤ 2 * (spacesLeft - 1) := by omega
  obtain ⟨hc0, hpos⟩ := card_pickValues_first hM h2M hfit hs2
  obtain ⟨hcl, _, _⟩ := card_pickValues_last hM h2M hfit hs2
  have hc1 := card_pickValues_inner hM h2M hfit hs2 (i := 1) (by omega) (by omega)
  have hc2 := card_pickValues_inner hM h2M hfit hs2 (i := spacesLeft - 2) (by omega)
    (by omega)
  rw [show (1 : Int) + 1 = 2 from rfl] at hc1
  rw [show spacesLeft - 2 + 1 = spacesLeft - 1 by ring] at hc2
  have t1 := pickThreshold_mul RAND_MAX spacesLeft 1 hs2
  have t2 := pickThreshold_mul RAND_MAX spacesLeft 2 hs2
  have ta := pickThreshold_mul RAND_MAX spacesLeft (spacesLeft - 1) hs2
  have tb := pickThreshold_mul RAND_MAX spacesLeft (spacesLeft - 2) hs2
  constructor
  · have hlt : 2 * pickThreshold RAND_MAX spacesLeft 1 < pickThreshold RAND_MAX spacesLeft 2 := by
      by_contra hge
      have hmul := mul_le_mul_of_nonneg_right (not_lt.mp hge) hD
      nlinarith
    omega
  · have hlt : RAND_MAX + 1 + pickThreshold RAND_MAX spacesLeft (spacesLeft - 2)
        < 2 * pickThreshold RAND_MAX spacesLeft (spacesLeft - 1) := by
      by_contra hge
      have hmul := mul_le_mul_of_nonneg_right (not_lt.mp hge) hD
      nlinarith
    omega

/-- C35 as stated fails: for `RAND_MAX = 32767` and `spacesLeft = 3` the indices 0, 1 and 2
are selected by 8192, 16384 and 8192 of the 32768 values of `rand()`. -/
theorem pickValues_uniform_counterexample :
    (pickValues 32767 3 0).card = 8192 ∧ (pickValues 32767 3 1).card = 16384 ∧
      (pickValues 32767 3 2).card = 8192 ∧
      (pickValues 32767 3 0).card ≠ (pickValues 32767 3 1).card := by
  have h0 : (pickValues 32767 3 0).card = 8192 := by
    rw [card_pickValues (by decide) (by decide) (by decide) (by decide)]
    decide
  have h1 : (pickValues 32767 3 1).card = 16384 := by
    rw [card_pickValues (by decide) (by decide) (by decide) (by decide)]
    decide
  have h2 : (pickValues 32767 3 2).card = 8192 := by
    rw [card_pickValues (by decide) (by decide) (by decide) (by decide)]
    decide
  refine ⟨h0, h1, h2, ?_⟩
  rw [h0, h1]
  decide

/-- C35 (amended): where the index of the next wall is computed without overflow, the index
`i` is selected exactly by the values `r` of `rand()` with
`(2 * i - 1) * RAND_MAX ≤ 2 * r * (spacesLeft - 1) < (2 * i + 1) * RAND_MAX`: it is
`r * (spacesLeft - 1) / RAND_MAX` rounded to the nearest integer. Every index in
`0 .. spacesLeft - 1` is selected by some value when `RAND_MAX ≥ 2 * (spacesLeft - 1)`. For
`spacesLeft = 1` every value selects the index 0, and for `spacesLeft = 2` and odd `RAND_MAX`
the two indices are selected by the same number of values. For `spacesLeft ≥ 2` the number of
values that select `i` is the difference of two thresholds cut to `0 .. RAND_MAX + 1`, and
for `spacesLeft ≥ 3` and `RAND_MAX ≥ 4 * (spacesLeft - 1)` the first index is selected by
fewer values than the second, and the last by fewer than the one before it. -/
theorem pickIndex_nearest (RAND_MAX spacesLeft : Int) (hM : 0 < RAND_MAX)
    (h2M : 2 * RAND_MAX ≤ INT_MAX)
    (hfit : 2 * RAND_MAX * (spacesLeft - 1) + RAND_MAX ≤ INT_MAX) (hs : 1 ≤ spacesLeft) :
    (∀ r i : Int, 0 ≤ r → r ≤ RAND_MAX →
      (pickIndex RAND_MAX r spacesLeft = some i ↔
        ((2 * i - 1) * RAND_MAX ≤ 2 * r * (spacesLeft - 1) ∧
          2 * r * (spacesLeft - 1) < (2 * i + 1) * RAND_MAX))) ∧
    (2 * (spacesLeft - 1) ≤ RAND_MAX → ∀ i : Int, 0 ≤ i → i ≤ spacesLeft - 1 →
      ∃ r : Int, 0 ≤ r ∧ r ≤ RAND_MAX ∧ pickIndex RAND_MAX r spacesLeft = some i) ∧
    (spacesLeft = 1 → ∀ r : Int, 0 ≤ r → r ≤ RAND_MAX →
      pickIndex RAND_MAX r spacesLeft = some 0) ∧
    (spacesLeft = 2 → RAND_MAX % 2 = 1 →
      (pickValues RAND_MAX spacesLeft 0).card = (pickValues RAND_MAX spacesLeft 1).card) ∧
    (2 ≤ spacesLeft → ∀ i : Int,
      (pickValues RAND_MAX spacesLeft i).card
        = (min (RAND_MAX + 1) (pickThreshold RAND_MAX spacesLeft (i + 1))
            - max 0 (pickThreshold RAND_MAX spacesLeft i)).toNat) ∧
    (3 ≤ spacesLeft → 4 * (spacesLeft - 1) ≤ RAND_MAX →
      (pickValues RAND_MAX spacesLeft 0).card < (pickValues RAND_MAX spacesLeft 1).card ∧
      (pickValues RAND_MAX spacesLeft (spacesLeft - 1)).card
        < (pickValues RAND_MAX spacesLeft (spacesLeft - 2)).card) := by
  refine ⟨?_, ?_, ?_, ?_, ?_, ?_⟩
  · intro r i hr0 hr1
    exact pickIndex_eq_iff hM h2M hfit hs hr0 hr1 i
  · intro hbig i hi0 hi1
    by_cases hs1 : spacesLeft = 1
    · have hi : i = 0 := by omega
      subst hi
      subst hs1
      refine ⟨0, le_rfl, by omega, ?_⟩
      rw [pickIndex_eq_iff hM h2M hfit hs le_rfl (by omega)]
      constructor <;> omega
    · have hpos : (0 : Int) < spacesLeft - 1 := by omega
      have h1 := Int.ediv_mul_le (i * RAND_MAX) (ne_of_gt hpos)
      have h2 := Int.lt_ediv_add_one_mul_self (i * RAND_MAX) hpos
      have hr0 : 0 ≤ i * RAND_MAX / (spacesLeft - 1) :=
        Int.ediv_nonneg (mul_nonneg hi0 (by omega)) (by omega)
      have hr1 : i * RAND_MAX / (spacesLeft - 1) ≤ RAND_MAX := by
        by_contra hgt
        have hmul := mul_le_mul_of_nonneg_right
          (show RAND_MAX + 1 ≤ i * RAND_MAX / (spacesLeft - 1) by omega) (le_of_lt hpos)
        have hiM : i * RAND_MAX ≤ (spacesLeft - 1) * RAND_MAX :=
          mul_le_mul_of_nonneg_right hi1 (by omega)
        nlinarith
      refine ⟨i * RAND_MAX / (spacesLeft - 1), hr0, hr1, ?_⟩
      rw [pickIndex_eq_iff hM h2M hfit hs hr0 hr1]
      constructor <;> nlinarith
  · intro hs1 r hr0 hr1
    subst hs1
    rw [pickIndex_eq_iff hM h2M hfit hs hr0 hr1]
    constructor <;> omega
  · intro hs2 hodd
    subst hs2
    obtain ⟨hc0, _⟩ := card_pickValues_first hM h2M hfit le_rfl
    obtain ⟨hc1, _, _⟩ := card_pickValues_last hM h2M hfit le_rfl
    rw [show (2 : Int) - 1 = 1 from rfl] at hc1
    have ht : pickThreshold RAND_MAX 2 1 = (RAND_MAX + 1) / 2 := by
      unfold pickThreshold
      congr 1
      omega
    rw [ht] at hc0 hc1
    omega
  · intro hs2 i
    exact card_pickValues hM h2M hfit hs2 i
  · intro hs3 hbig
    exact pickValues_small_ends hM h2M hfit hs3 hbig

/-- Witness of C35 (amended): `RAND_MAX = 32767` and `spacesLeft = 3`; the value 8192 of
`rand()` selects the index 1. -/
theorem pickIndex_nearest_witness :
    pickIndex 32767 8192 3 = some 1 ∧
      (pickValues 32767 3 0).card < (pickValues 32767 3 1).card := by
  have h := pickIndex_nearest 32767 3 (by decide) (by decide) (by decide) (by decide)
  exact ⟨(h.1 8192 1 (by decide) (by decide)).mpr (by decide),
    (h.2.2.2.2.2 (by decide) (by decide)).1⟩
/-! ## What the call of `moveVampires` does to the pursuer of a turn -/

theorem loopTurns_mem :
    ∀ (vs : List Vampire) (g : Vampires), ∀ t ∈ loopTurns vs g, t.1 ∈ vs := by
  intro vs g t ht
  obtain ⟨rest, hr⟩ := loopTurns_initial vs g
  rw [← hr]
  exact List.mem_append_left _ (List.mem_map.mpr ⟨t, ht, rfl⟩)

theorem loopTurns_effect :
    ∀ (vs : List Vampire) (g : Vampires) (moved : Bool), LoopInv g vs →
      ∀ r gf, vampiresLoop vs g moved = some (r, gf) →
        ∀ t ∈ loopTurns vs g,
          t.2.items[t.1.item]? = g.items[t.1.item]? ∧
          ((vampireStep t.2 t.1 = some StepResult.lost ∧ r = VampireResult.lost ∧ gf = t.2) ∨
           (vampireStep t.2 t.1 = some StepResult.skipped ∧
              gf.items[t.1.item]? = t.2.items[t.1.item]?) ∨
           (∃ g1, vampireStep t.2 t.1 = some (StepResult.moved g1) ∧
              gf.items[t.1.item]? = g1.items[t.1.item]?)) := by
  intro vs
  induction vs with
  | nil =>
    intro g moved _ r gf _ t ht
    simp [loopTurns] at ht
  | cons v rest ih =>
    intro g moved hi r gf h t ht
    obtain ⟨it, p, hit, hk, hp, hc⟩ := vampiresLoop_cons hi moved
    have hnot : v.item ∉ rest.map (fun u => u.item) := by
      intro hmem
      obtain ⟨u, hu, he⟩ := List.mem_map.mp hmem
      exact hi.ne_head hu he
    rw [loopTurns] at ht
    rcases hc with ⟨_, hs, hl⟩ | ⟨_, _, hs, hl⟩ | ⟨_, pre, dir, post, g1, _, _, hm, hi1, hs, hl⟩
    · rw [hs] at ht
      have ht1 : t = (v, g) := by simpa using ht
      subst ht1
      rw [hl] at h
      simp only [Option.some.injEq, Prod.mk.injEq] at h
      exact ⟨rfl, Or.inl ⟨hs, h.1.symm, h.2.symm⟩⟩
    · rw [hs] at ht
      rw [hl] at h
      rcases List.mem_cons.mp ht with rfl | ht
      · obtain ⟨r1, g2, h1, _, _, _, _, _, _, hframe⟩ := vampiresLoop_total rest g moved hi.tail
        rw [h] at h1
        simp only [Option.some.injEq, Prod.mk.injEq] at h1
        obtain ⟨_, rfl⟩ := h1
        exact ⟨rfl, Or.inr (Or.inl ⟨hs, hframe v.item hnot⟩)⟩
      · exact ih g moved hi.tail r gf h t ht
    · rw [hs] at ht
      rw [hl] at h
      rcases List.mem_cons.mp ht with rfl | ht
      · obtain ⟨r1, g2, h1, _, _, _, _, _, _, hframe⟩ := vampiresLoop_total rest g1 true hi1
        rw [h] at h1
        simp only [Option.some.injEq, Prod.mk.injEq] at h1
        obtain ⟨_, rfl⟩ := h1
        exact ⟨rfl, Or.inr (Or.inr ⟨g1, hs, hframe v.item hnot⟩)⟩
      · obtain ⟨h1, h2⟩ := ih g1 true hi1 r gf h t ht
        refine ⟨?_, h2⟩
        rw [h1, hm.getItem hit, if_neg (hi.ne_head (loopTurns_mem rest g1 t ht))]

theorem cost_lt_of_costFits {g : Vampires} (hf : CostFits g) (vx vy px py : Int)
    (hvx : 1 ≤ vx ∧ vx ≤ g.width - 2) (hvy : 1 ≤ vy ∧ vy ≤ g.height - 2)
    (hpx : 1 ≤ px ∧ px ≤ g.width - 2) (hpy : 1 ≤ py ∧ py ≤ g.height - 2)
    (dir : Direction) : cost vx vy px py (directionToDistance dir) < INT_MAX := by
  unfold CostFits at hf
  unfold INT_MAX
  cases dir <;> simp [cost, directionToDistance] <;> omega

theorem costFits_of_intFits {g : Vampires} (hv : Valid g) (hf : IntFits g) : CostFits g := by
  obtain ⟨p, hp, hk⟩ := hv.player
  have hin := interior_of_item hv hp (by rw [hk]; decide)
  unfold IntFits INT_MAX at hf
  unfold CostFits
  have ha1 : g.width - 3 ≤ 46340 := by
    by_contra hcon
    have : 46341 ≤ g.width - 3 := by omega
    nlinarith [sq_nonneg (g.height - 3)]
  have hb1 : g.height - 3 ≤ 46340 := by
    by_contra hcon
    have : 46341 ≤ g.height - 3 := by omega
    nlinarith [sq_nonneg (g.width - 3)]
  omega

theorem surrounded_of_costFits {g : Vampires} (hv : Valid g) (hf : CostFits g) {id : Nat}
    {it p : Item} (hit : g.items[id]? = some it) (hk : it.kind = Kind.vampire)
    (hp : g.items[g.m_player]? = some p)
    (hle : ∀ dir, EmptyAt g it.x it.y dir →
      INT_MAX ≤ cost it.x it.y p.x p.y (directionToDistance dir)) :
    Surrounded g id := by
  have hin := interior_of_item hv hit (by rw [hk]; decide)
  have hpk : p.kind = Kind.player := by
    obtain ⟨p1, hp1, hk1⟩ := hv.player
    rw [hp] at hp1
    injection hp1 with e
    subst e
    exact hk1
  have hpin := interior_of_item hv hp (by rw [hpk]; decide)
  refine ⟨it, hit, ?_⟩
  intro dir
  obtain ⟨hdx, hdy, _⟩ := isStep_directionToDistance dir
  obtain ⟨c, hc⟩ := Option.isSome_iff_exists.mp
    ((hv.bounds (it.x + (directionToDistance dir).x) (it.y + (directionToDistance dir).y)).mpr
      ⟨by omega, by omega, by omega, by omega⟩)
  cases c with
  | some id1 => exact ⟨id1, hc⟩
  | none =>
    have h1 := hle dir hc
    have h2 := cost_lt_of_costFits hf it.x it.y p.x p.y ⟨hin.1, hin.2.1⟩ ⟨hin.2.2.1, hin.2.2.2⟩
      ⟨hpin.1, hpin.2.1⟩ ⟨hpin.2.2.1, hpin.2.2.2⟩ dir
    omega

/-- C10, amended: on a field with `width + height ≤ 2 ^ 30`, let a call of `moveVampires` in a
consistent state return the state `gf`, and take a pursuer whose turn comes in that call. At
its turn it stands where it stood at the start of the call. If it finds the player in a
neighbouring cell, the call returns `lost` with the state of that turn: the pursuer is not
moved. Otherwise it is left in place by the call exactly when all 8 of its neighbouring cells
are occupied at its turn, and this is when the loop passes on without a move; when one of
them is empty it is relocated, whatever the costs of the empty cells, and the call leaves it
in the cell it was relocated to, which is not the cell it stood in. -/
theorem moveVampires_stay_iff (sort : List Vampire → List Vampire) (hs : SortSpec sort)
    (g : Vampires) (hv : Valid g) (hf : CostFits g) (r : VampireResult) (gf : Vampires)
    (hcall : moveVampires sort g = some (r, gf)) (t : Vampire × Vampires)
    (ht : t ∈ turns sort g) :
    positionOf t.2 t.1.item = positionOf g t.1.item ∧
    (NextToPlayer t.2 t.1.item →
      vampireStep t.2 t.1 = some StepResult.lost ∧ r = VampireResult.lost ∧ gf = t.2 ∧
        positionOf gf t.1.item = positionOf g t.1.item) ∧
    (¬ NextToPlayer t.2 t.1.item →
      (positionOf gf t.1.item = positionOf g t.1.item ↔ Surrounded t.2 t.1.item) ∧
      (vampireStep t.2 t.1 = some StepResult.skipped ↔ Surrounded t.2 t.1.item) ∧
      (¬ Surrounded t.2 t.1.item →
        ∃ g1, vampireStep t.2 t.1 = some (StepResult.moved g1) ∧
          positionOf g1 t.1.item ≠ positionOf t.2 t.1.item ∧
          positionOf gf t.1.item = positionOf g1 t.1.item)) := by
  obtain ⟨sorted, _, _, hi0, hmv, hturns⟩ := moveVampires_eq hv hs
  rw [hmv] at hcall
  rw [hturns] at ht
  obtain ⟨hsame, heff⟩ := loopTurns_effect sorted _ false hi0 r gf hcall t ht
  have hsame1 : t.2.items[t.1.item]? = g.items[t.1.item]? := hsame
  have hpos0 : positionOf t.2 t.1.item = positionOf g t.1.item := by
    unfold positionOf
    rw [hsame1]
  obtain ⟨rest, hi, hw, hh⟩ := loopTurns_inv sorted _ hi0 t ht
  have hf1 : CostFits t.2 := by
    unfold CostFits at hf ⊢
    rw [hw, hh]
    exact hf
  obtain ⟨it, p, hit, hk, hp, hc⟩ := vampiresLoop_cons hi false
  refine ⟨hpos0, ?_, ?_⟩
  · intro hnext
    rcases hc with ⟨_, hs1, _⟩ | ⟨hn1, _⟩ | ⟨hn1, _⟩
    · rcases heff with ⟨_, hr, hg⟩ | ⟨hs2, _⟩ | ⟨g1, hs2, _⟩
      · exact ⟨hs1, hr, hg, by rw [hg]; exact hpos0⟩
      · rw [hs1] at hs2
        simp at hs2
      · rw [hs1] at hs2
        simp at hs2
    · exact absurd hnext hn1
    · exact absurd hnext hn1
  · intro hn
    rcases hc with ⟨hn1, _, _⟩ | ⟨_, hle, hs1, _⟩ | ⟨_, pre, dir, post, g2, _, hch, hm, _, hs1, _⟩
    · exact absurd hn1 hn
    · have hsur := surrounded_of_costFits hi.valid hf1 hit hk hp hle
      have hstay : positionOf gf t.1.item = positionOf g t.1.item := by
        rcases heff with ⟨hs2, _⟩ | ⟨_, hg⟩ | ⟨g1, hs2, _⟩
        · rw [hs1] at hs2
          simp at hs2
        · unfold positionOf
          rw [hg, hsame1]
        · rw [hs1] at hs2
          simp at hs2
      exact ⟨⟨fun _ => hsur, fun _ => hstay⟩, ⟨fun _ => hsur, fun _ => hs1⟩,
        fun h => absurd hsur h⟩
    · have hnot : ¬ Surrounded t.2 t.1.item := by
        rintro ⟨it1, hit1, hsur⟩
        rw [hit] at hit1
        injection hit1 with e
        subst e
        obtain ⟨id1, h1⟩ := hsur dir
        have h2 : cellAt t.2.m_field (it.x + (directionToDistance dir).x)
            (it.y + (directionToDistance dir).y) = some none := hch.1
        rw [h1] at h2
        simp at h2
      have hmoved : positionOf g2 t.1.item ≠ positionOf t.2 t.1.item := by
        unfold positionOf
        rw [hm.getItem hit, if_pos rfl, hit]
        simp only [Option.map_some', ne_eq, Option.some.injEq, Prod.mk.injEq]
        exact isStep_ne_zero (isStep_directionToDistance dir) it.x it.y
      have hfinal : positionOf gf t.1.item = positionOf g2 t.1.item := by
        rcases heff with ⟨hs2, _⟩ | ⟨hs2, _⟩ | ⟨g1, hs2, hg⟩
        · rw [hs1] at hs2
          simp at hs2
        · rw [hs1] at hs2
          simp at hs2
        · rw [hs1] at hs2
          simp only [Option.some.injEq, StepResult.moved.injEq] at hs2
          subst hs2
          unfold positionOf
          rw [hg]
      refine ⟨⟨fun h => ?_, fun h => absurd h hnot⟩, ⟨fun h => ?_, fun h => absurd h hnot⟩,
        fun _ => ⟨g2, hs1, hmoved, hfinal⟩⟩
      · rw [hfinal, ← hpos0] at h
        exact absurd h hmoved
      · rw [hs1] at h
        simp at h
/-- Witness of the amended C10: on the example field the first pursuer processed does not
stand next to the player; on the field `caughtGame` the pursuer processed stands next to the
player, and the call returns `lost` with the state of its turn. -/
theorem moveVampires_stay_iff_witness :
    (∃ (r : VampireResult) (gf : Vampires) (t : Vampire × Vampires),
      moveVampires sortByDistance exampleGame = some (r, gf) ∧
      t ∈ turns sortByDistance exampleGame ∧ ¬ NextToPlayer t.2 t.1.item ∧
      (positionOf gf t.1.item = positionOf exampleGame t.1.item ↔ Surrounded t.2 t.1.item)) ∧
    (∃ (r : VampireResult) (gf : Vampires) (t : Vampire × Vampires),
      moveVampires sortByDistance caughtGame = some (r, gf) ∧
      t ∈ turns sortByDistance caughtGame ∧ NextToPlayer t.2 t.1.item ∧
      r = VampireResult.lost ∧ gf = t.2) := by
  constructor
  · obtain ⟨r, gf, hcall⟩ := moveVampires_total exampleGame_valid sortSpec_sortByDistance
    have ht : ((⟨24, 8⟩, { exampleGame with m_vampires := [⟨24, 8⟩, ⟨25, 5⟩] }) :
        Vampire × Vampires) ∈ turns sortByDistance exampleGame := by decide
    have hn : ¬ NextToPlayer { exampleGame with m_vampires := [⟨24, 8⟩, ⟨25, 5⟩] } 24 := by
      rintro ⟨it, p, hit, hp, hadj⟩
      have hit1 : exampleGame.items[24]? = some it := hit
      have hp1 : exampleGame.items[26]? = some p := hp
      have hit2 : exampleGame.items[24]? = some ⟨Kind.vampire, 1, 1⟩ := by decide
      have hp2 : exampleGame.items[26]? = some ⟨Kind.player, 3, 3⟩ := by decide
      rw [hit2] at hit1
      rw [hp2] at hp1
      injection hit1 with e1
      injection hp1 with e2
      subst e1
      subst e2
      have := (adjacent_iff.mp hadj).1
      norm_num at this
    have h := moveVampires_stay_iff sortByDistance sortSpec_sortByDistance exampleGame
      exampleGame_valid (by unfold CostFits exampleGame; decide) r gf hcall _ ht
    exact ⟨r, gf, _, hcall, ht, hn, (h.2.2 hn).1⟩
  · obtain ⟨r, gf, hcall⟩ := moveVampires_total (g := caughtGame)
      (valid_of_validCheck (by decide)) sortSpec_sortByDistance
    have ht : ((⟨24, 2⟩, { caughtGame with m_vampires := [⟨24, 2⟩] }) : Vampire × Vampires)
        ∈ turns sortByDistance caughtGame := by decide
    have hn : NextToPlayer { caughtGame with m_vampires := [⟨24, 2⟩] } 24 :=
      ⟨⟨Kind.vampire, 4, 2⟩, ⟨Kind.player, 3, 3⟩, by decide, by decide,
        adjacent_iff.mpr (by decide)⟩
    have h := moveVampires_stay_iff sortByDistance sortSpec_sortByDistance caughtGame
      (valid_of_validCheck (by decide)) (by unfold CostFits caughtGame; decide) r gf hcall _ ht
    exact ⟨r, gf, _, hcall, ht, hn, (h.2.1 hn).2.1, (h.2.1 hn).2.2.1⟩
/-! ## The constructor up to the loop that puts the walls -/

theorem construct_scatter {width height vampireCount wallCount : Int}
    (hw : 7 ≤ width) (hh : 7 ≤ height) (hn : 1 ≤ vampireCount)
    (hnP : vampireCount ≤ ringLength width height) (hk : 1 ≤ wallCount)
    (hkL : wallCount ≤ (width - 4) * (height - 4) - 1) :
    ∃ (g : Vampires) (walls : List (Int × Int)), Wf g ∧ walls.Nodup ∧
      (∀ p ∈ walls, cellAt g.m_field p.1 p.2 = some none) ∧
      (walls.length : Int) = (width - 4) * (height - 4) - 1 ∧
      ∀ (RAND_MAX : Int) (rand : Nat → Int),
        construct width height vampireCount wallCount RAND_MAX rand
          = scatterWalls RAND_MAX rand wallCount.toNat 0 g walls (walls.length : Int) := by
  obtain ⟨g1, g2, h1, h2, w2, s2, i2, v2⟩ :=
    drawBorder_total width height vampireCount wallCount
      (by omega) (by omega)
  have e1 : g2.width = width := s2.width
  have e2 : g2.height = height := s2.height
  have e3 : g2.vampireCount = vampireCount := s2.vampireCount
  obtain ⟨g3, h3⟩ := settleVampires_total vampireCount.toNat 0 (0, 0) g2 w2
    (by rw [e1]; exact hw) (by rw [e2]; exact hh) (by rw [e3]; exact hn)
    (by rw [e1, e2, e3]; exact hnP) (by simp) (le_refl _) (by rw [e3]; show (0 : Int) < _; omega)
    (le_refl _) (by rw [e3, Int.toNat_of_nonneg (by omega)]; omega)
    (by
      intro it hit q hq0 hq1 heq
      rw [e1, e2] at hq1 heq
      rw [i2] at hit
      have hb := (mem_borderItems (by omega) (by omega)).mp hit
      have hr := ringCell_bounds hw hh hq0 hq1
      have hx : it.x = (ringCell width height q).1 := congrArg Prod.fst heq
      have hy : it.y = (ringCell width height q).2 := congrArg Prod.snd heq
      omega)
  rw [e1, e2] at h3
  obtain ⟨w3, s3, p3, i3, v3⟩ := settleVampires_some _ _ _ _ _ h3 w2
  have hcount : (g3.m_vampires.length : Int) = vampireCount := by
    rw [v3, v2]
    simp only [List.nil_append, List.length_map, List.length_range]
    exact Int.toNat_of_nonneg (by omega)
  have hc := center_interior hw hh
  have f1 : g3.width = width := s3.width.trans e1
  have f2 : g3.height = height := s3.height.trans e2
  obtain ⟨g4, h4, c4⟩ := createItem_free w3 Kind.player
    (x := Int.tdiv width 2) (y := Int.tdiv height 2)
    ⟨by omega, by omega, by omega, by omega⟩
    (by
      rintro it hit ⟨hx, hy⟩
      rw [i3, i2, e1, e2] at hit
      rcases List.mem_append.mp hit with h5 | h5
      · have hb := (mem_borderItems (by omega) (by omega)).mp h5
        omega
      · obtain ⟨q, _, hq⟩ := List.mem_map.mp h5
        have hin := ringCell_inner width height q
        rw [← hq] at hx hy
        simp only [vampireItem] at hx hy
        omega)
  have w4 : Wf { g4 with m_player := g3.items.length } :=
    ⟨(c4.keeps_wf w3).bounds, (c4.keeps_wf w3).cell_item, (c4.keeps_wf w3).item_cell⟩
  obtain ⟨walls, h5⟩ := freeCells_total { g4 with m_player := g3.items.length }
    (intRange 2 (width - 2)) (intRange 2 (height - 2))
    (by
      intro y hy x hx
      have hx1 := mem_intRange.mp hx
      have hy1 := mem_intRange.mp hy
      apply (w4.bounds x y).mpr
      show 0 ≤ x ∧ x < g4.width ∧ 0 ≤ y ∧ y < g4.height
      rw [c4.width, c4.height, f1, f2]
      omega)
  have hmem := freeCells_some _ _ _ _ h5
  have hnodup := freeCells_nodup _ _ (nodup_intRange _ _) _ _ h5 (nodup_intRange _ _)
  have hlen : (walls.length : Int) = (width - 4) * (height - 4) - 1 := by
    apply length_of_interior (c := (Int.tdiv width 2, Int.tdiv height 2)) (by omega)
      (by omega) hnodup ⟨by omega, by omega, by omega, by omega⟩
    intro p
    rw [hmem p, mem_intRange, mem_intRange, w4.empty_iff]
    show _ ∧ _ ∧ ((0 ≤ p.1 ∧ p.1 < g4.width ∧ 0 ≤ p.2 ∧ p.2 < g4.height) ∧
      ∀ it ∈ g4.items, ¬ (it.x = p.1 ∧ it.y = p.2)) ↔ _
    rw [c4.width, c4.height, f1, f2, c4.items, i3, i2, e1, e2]
    constructor
    · rintro ⟨⟨h6, h7⟩, ⟨h8, h9⟩, _, hno⟩
      refine ⟨h6, h7, h8, h9, ?_⟩
      intro hpc
      exact hno ⟨Kind.player, Int.tdiv width 2, Int.tdiv height 2⟩ (by simp)
        ⟨by rw [hpc], by rw [hpc]⟩
    · rintro ⟨h6, h7, h8, h9, hne⟩
      refine ⟨⟨h6, h7⟩, ⟨h8, h9⟩, ⟨by omega, by omega, by omega, by omega⟩, ?_⟩
      rintro it hit ⟨hx, hy⟩
      rcases List.mem_append.mp hit with h10 | h10
      · rcases List.mem_append.mp h10 with h11 | h11
        · have hb := (mem_borderItems (by omega) (by omega)).mp h11
          omega
        · obtain ⟨q, _, hq⟩ := List.mem_map.mp h11
          have hin := ringCell_inner width height q
          rw [← hq] at hx hy
          simp only [vampireItem] at hx hy
          omega
      · rw [List.mem_singleton] at h10
        rw [h10] at hx hy
        exact hne (Prod.ext hx.symm hy.symm)
  refine ⟨{ g4 with m_player := g3.items.length }, walls, w4, hnodup,
    fun p hp => ((hmem p).mp hp).2.2, hlen, ?_⟩
  intro RAND_MAX rand
  unfold construct
  rw [if_pos ⟨hw, hh, hn, hk, hkL⟩]
  unfold initGame
  show (match drawBorderRows (intRange 0 width)
      (emptyGame width height vampireCount wallCount) with
    | none => none
    | some g1 => _) = _
  rw [h1]
  dsimp only
  show (match drawBorderColumns (intRange 1 (height - 1)) g1 with
    | none => none
    | some g2 => _) = _
  rw [h2]
  dsimp only
  show (match settleVampires (ringLength width height) vampireCount.toNat (0, 0) g2 with
    | none => none
    | some g3 => _) = _
  rw [h3]
  dsimp only
  rw [if_neg (show ¬ ((g3.m_vampires.length : Int)
    ≠ (emptyGame width height vampireCount wallCount).vampireCount) from not_not.mpr hcount)]
  show (match createItem g3 Kind.player (Int.tdiv width 2) (Int.tdiv height 2) with
    | none => none
    | some (id, g4) => _) = _
  rw [h4]
  dsimp only
  show (match freeCells { g4 with m_player := g3.items.length } (intRange 2 (width - 2))
      (intRange 2 (height - 2)) with
    | none => none
    | some walls => _) = _
  rw [h5]
  rfl

/-! ## The walls of the constructed field -/

/-- C18 fails in the code on a large field: the index of the next wall is computed in `int`,
and with `RAND_MAX = 32767` the product `2 * rand() * (spacesLeft - 1)` overflows once there
are more than 32768 candidate cells. On a 186 x 186 field with one pursuer and one wall,
parameters that meet every assertion of the constructor, there are 33123 candidate cells;
when the first `rand()` returns 32767 the index is `-32415`, outside of the vector `walls`,
and the constructor does not complete: no wall is put. On a 185 x 185 field the same values
give a state. In every state that the constructor does return there are `wallCount` items
of kind `wall`, each stored in the inner region `2 ≤ x ≤ width - 3`, `2 ≤ y ≤ height - 3`,
and no two items share a cell; and it returns one when the computations fit (`RandFits`),
`rand()` returns values in `0 .. RAND_MAX` and the pursuers fit on the ring. -/
theorem construct_walls (width height vampireCount wallCount RAND_MAX : Int)
    (rand : Nat → Int) :
    ((7 : Int) ≤ 186 ∧ (1 : Int) ≤ 1 ∧ (1 : Int) ≤ (186 - 4) * (186 - 4) - 1) ∧
    pickIndex 32767 32767 33123 = some (-32415) ∧
    (∀ rand1 : Nat → Int, rand1 0 = 32767 → construct 186 186 1 1 32767 rand1 = none) ∧
    (∃ g, construct 185 185 1 1 32767 (fun _ => 32767) = some g) ∧
    (∀ g, construct width height vampireCount wallCount RAND_MAX rand = some g →
      countKind g Kind.wall = wallCount.toNat ∧
      (∀ (id : Nat) (it : Item), g.items[id]? = some it → it.kind = Kind.wall →
        2 ≤ it.x ∧ it.x ≤ width - 3 ∧ 2 ≤ it.y ∧ it.y ≤ height - 3) ∧
      NoOverlap g) ∧
    (7 ≤ width → 7 ≤ height → 1 ≤ vampireCount → vampireCount ≤ ringLength width height →
      1 ≤ wallCount → wallCount ≤ (width - 4) * (height - 4) - 1 →
      RandFits RAND_MAX width height → (∀ c, 0 ≤ rand c ∧ rand c ≤ RAND_MAX) →
      ∃ g, construct width height vampireCount wallCount RAND_MAX rand = some g) := by
  refine ⟨by decide, by decide, ?_, ?_, ?_, ?_⟩
  · intro rand1 hr
    obtain ⟨g, walls, _, _, _, hlen, hc⟩ := @construct_scatter 186 186 1 1 (by decide) (by decide) (by decide) (by decide)
      (by decide) (by decide)
    rw [hc 32767 rand1, hlen, show (1 : Int).toNat = 0 + 1 from rfl, scatterWalls, hr,
      show ((186 : Int) - 4) * (186 - 4) - 1 = 33123 from by decide,
      show pickIndex 32767 32767 33123 = some (-32415) from by decide]
    rfl
  · exact construct_total (by decide) (by decide) (by decide) (by decide) (by decide)
      (by decide) (by unfold RandFits INT_MAX; decide) (fun _ => by decide)
  · intro g hg
    obtain ⟨ps, hb⟩ := construct_built hg
    have hw7 := hb.width_ge
    have hh7 := hb.height_ge
    refine ⟨?_, ?_, hb.wf.noOverlap⟩
    · rw [hb.countKind]
      simp
    · intro id it hit hk
      rcases hb.mem_items.mp (List.getElem?_mem hit) with h | ⟨q, _, h⟩ | h | ⟨p, hp, h⟩
      · have := (mem_borderItems (by omega) (by omega)).mp h
        rw [this.1] at hk
        exact absurd hk (by decide)
      · rw [h] at hk
        exact absurd hk (by simp [vampireItem])
      · rw [h] at hk
        exact absurd hk (by simp)
      · have := hb.walls_interior p hp
        rw [h]
        simp only [wallItem]
        omega
  · intro hw hh hn hnP hk hkL hfit hrand
    exact construct_total hw hh hn hnP hk hkL hfit hrand
/-! ## The order in which `moveVampires` takes the pursuers -/

theorem sort_pair {sort : List Vampire → List Vampire} (hs : SortSpec sort) {a b : Vampire}
    (h : a.d < b.d) : sort [a, b] = [b, a] := by
  obtain ⟨hperm, hsorted⟩ := hs [a, b]
  have hne : a ≠ b := by
    rintro rfl
    omega
  generalize sort [a, b] = l at hperm hsorted
  have hlen := hperm.length_eq
  have ha : a ∈ l := hperm.mem_iff.mpr (by simp)
  have hb : b ∈ l := hperm.mem_iff.mpr (by simp)
  rcases l with _ | ⟨x, _ | ⟨y, _ | ⟨z, l⟩⟩⟩
  · simp at hlen
  · simp at hlen
  · have hx : x ∈ [a, b] := hperm.mem_iff.mp (by simp)
    have hy : y ∈ [a, b] := hperm.mem_iff.mp (by simp)
    simp only [List.mem_cons, List.mem_singleton, List.not_mem_nil, or_false] at hx hy ha hb
    have hxy : compareVampires y x = false := by
      have := (List.pairwise_cons.mp hsorted).1 y (by simp)
      exact this
    rcases hx with rfl | rfl <;> rcases hy with rfl | rfl
    · rcases hb with hb | hb <;> exact absurd hb.symm hne
    · simp only [compareVampires, decide_eq_false_iff_not] at hxy
      omega
    · rfl
    · rcases ha with ha | ha <;> exact absurd ha hne
  · simp at hlen

theorem sqDistance_fits {g : Vampires} (hv : Valid g) (hf : IntFits g) {id : Nat} {it p : Item}
    (hit : g.items[id]? = some it) (hk : it.kind = Kind.vampire)
    (hp : g.items[g.m_player]? = some p) :
    wrapInt (wrapInt ((it.x - p.x) * (it.x - p.x)) + wrapInt ((it.y - p.y) * (it.y - p.y)))
      = (it.x - p.x) * (it.x - p.x) + (it.y - p.y) * (it.y - p.y) := by
  have hin := interior_of_item hv hit (by rw [hk]; decide)
  have hpk : p.kind = Kind.player := by
    obtain ⟨p1, hp1, hk1⟩ := hv.player
    rw [hp] at hp1
    injection hp1 with e
    subst e
    exact hk1
  have hpin := interior_of_item hv hp (by rw [hpk]; decide)
  unfold IntFits INT_MAX at hf
  have hx0 : 0 ≤ (it.x - p.x) * (it.x - p.x) := mul_self_nonneg _
  have hy0 : 0 ≤ (it.y - p.y) * (it.y - p.y) := mul_self_nonneg _
  have hx1 : (it.x - p.x) * (it.x - p.x) ≤ (g.width - 3) ^ 2 := by nlinarith
  have hy1 : (it.y - p.y) * (it.y - p.y) ≤ (g.height - 3) ^ 2 := by nlinarith
  have hw0 : 0 ≤ (g.width - 3) ^ 2 := sq_nonneg _
  have hh0 : 0 ≤ (g.height - 3) ^ 2 := sq_nonneg _
  have hmin : INT_MIN ≤ 0 := by unfold INT_MIN; omega
  have e1 : wrapInt ((it.x - p.x) * (it.x - p.x)) = (it.x - p.x) * (it.x - p.x) :=
    wrapInt_of_fits (by omega) (by unfold INT_MAX; omega)
  have e2 : wrapInt ((it.y - p.y) * (it.y - p.y)) = (it.y - p.y) * (it.y - p.y) :=
    wrapInt_of_fits (by omega) (by unfold INT_MAX; omega)
  rw [e1, e2]
  exact wrapInt_of_fits (by omega) (by unfold INT_MAX; omega)

theorem wide_field {rand : Nat → Int} {g : Vampires}
    (hg : construct 92684 7 2 1 32767 rand = some g) :
    g.m_vampires = [⟨185378, 0⟩, ⟨185379, 0⟩] ∧
      g.items[185378]? = some ⟨Kind.vampire, 1, 1⟩ ∧
      g.items[185379]? = some ⟨Kind.vampire, 92682, 5⟩ ∧
      g.items[g.m_player]? = some ⟨Kind.player, 46342, 3⟩ := by
  obtain ⟨ps, hb⟩ := construct_built hg
  have hlen : (borderItems 92684 7).length = 185378 := by
    have h := @length_borderItems 92684 7 (by decide) (by decide)
    omega
  have h0 := hb.vampire_item (i := 0) (by decide)
  have h1 := hb.vampire_item (i := 1) (by decide)
  rw [hlen] at h0 h1
  refine ⟨?_, ?_, ?_, ?_⟩
  · rw [hb.m_vampires, hlen]
    rfl
  · rw [show 185378 = 185378 + 0 from rfl, h0]
    decide
  · rw [show 185379 = 185378 + 1 from rfl, h1]
    decide
  · rw [hb.player_item]
    decide

theorem wide_field_exists : ∃ g, construct 92684 7 2 1 32767 (fun _ => 41) = some g := by
  obtain ⟨g, walls, _, _, hempty, hlen, hc⟩ := @construct_scatter 92684 7 2 1 (by decide)
    (by decide) (by decide) (by decide) (by decide) (by decide)
  have hlen1 : walls.length = 278039 := by
    have : ((92684 : Int) - 4) * (7 - 4) - 1 = 278039 := by decide
    omega
  have hlt : 348 < walls.length := by omega
  obtain ⟨g1, h1⟩ := createItem_of_empty Kind.wall (hempty _ (List.getElem_mem hlt))
  refine ⟨g1, ?_⟩
  rw [hc 32767 (fun _ => 41), hlen1, show (1 : Int).toNat = 0 + 1 from rfl, scatterWalls,
    show pickIndex 32767 41 ((278039 : Nat) : Int) = some 348 from by decide]
  dsimp only
  rw [if_pos (by decide), show (348 : Int).toNat = 348 from rfl, List.getElem?_eq_getElem hlt]
  dsimp only
  rw [h1]
  rfl
/-- C6 fails in the code on a wide field: the distance `d` is computed in `int`, and
`dx * dx + dy * dy` overflows when a pursuer stands more than about 46340 columns from the
player. On the field built for width 92684, height 7, two pursuers and one wall (it is built,
for instance, when `RAND_MAX` is 32767 and `rand()` returns 41), the pursuers stand at
`(1, 1)` and `(92682, 5)` and the player at `(46342, 3)`. The first pursuer is strictly
farther from the player, but its `d` wraps to `-2147479011`, below the `d` of the second,
`2147395604`: with the comparison `v1.d > v2.d` the sorted list starts with the second
pursuer, which is processed first. What holds: where the squared distances fit in an `int`
(`IntFits`), the main loop runs over a rearrangement of the pursuer list in which no pursuer
comes before a pursuer that is strictly farther from the player, in squared Euclidean distance
at the start of the call, and the pursuers whose turn comes are an initial segment of it. -/
theorem moveVampires_order :
    (∃ g, construct 92684 7 2 1 32767 (fun _ => 41) = some g) ∧
    (∀ (rand : Nat → Int) (g : Vampires) (sort : List Vampire → List Vampire),
      construct 92684 7 2 1 32767 rand = some g → SortSpec sort →
      g.m_vampires = [⟨185378, 0⟩, ⟨185379, 0⟩] ∧
      g.items[185378]? = some ⟨Kind.vampire, 1, 1⟩ ∧
      g.items[185379]? = some ⟨Kind.vampire, 92682, 5⟩ ∧
      g.items[g.m_player]? = some ⟨Kind.player, 46342, 3⟩ ∧
      Farther g 185378 185379 ∧
      updateDistances g g.m_vampires
        = some [⟨185378, -2147479011⟩, ⟨185379, 2147395604⟩] ∧
      processingOrder sort g = some [⟨185379, 2147395604⟩, ⟨185378, -2147479011⟩] ∧
      ∃ rest, turns sort g
        = (⟨185379, 2147395604⟩,
            { g with m_vampires := [⟨185379, 2147395604⟩, ⟨185378, -2147479011⟩] }) :: rest) ∧
    (∀ (sort : List Vampire → List Vampire) (g : Vampires), SortSpec sort → Valid g →
      IntFits g →
      ∃ sorted, processingOrder sort g = some sorted ∧
        moveVampires sort g = vampiresLoop sorted { g with m_vampires := sorted } false ∧
        (∃ rest, (turns sort g).map (fun t => t.1) ++ rest = sorted) ∧
        (sorted.map (fun v => v.item)).Perm (g.m_vampires.map (fun v => v.item)) ∧
        sorted.Pairwise (fun v1 v2 => ¬ Farther g v2.item v1.item)) := by
  refine ⟨wide_field_exists, ?_, ?_⟩
  · intro rand g sort hg hs
    obtain ⟨hmv, h0, h1, hp⟩ := wide_field hg
    have hud : updateDistances g g.m_vampires
        = some [⟨185378, -2147479011⟩, ⟨185379, 2147395604⟩] := by
      rw [hmv, updateDistances, h0, hp]
      dsimp only
      rw [updateDistances, h1, hp]
      dsimp only
      rw [updateDistances]
      decide
    have hpo : processingOrder sort g
        = some [⟨185379, 2147395604⟩, ⟨185378, -2147479011⟩] := by
      unfold processingOrder
      rw [hud, Option.map_some', sort_pair hs (by decide)]
    refine ⟨hmv, h0, h1, hp, ⟨_, _, _, h0, h1, hp, by decide⟩, hud, hpo, ?_⟩
    unfold turns
    rw [hpo]
    dsimp only
    rw [loopTurns]
    exact ⟨_, rfl⟩
  · intro sort g hs hv hf
    obtain ⟨sorted, p, h1, hp, hperm, hsorted, hd⟩ := processingOrder_eq hv hs
    have hkinds := (loopInv_start hv hperm).kinds
    refine ⟨sorted, h1, by simp [moveVampires, h1], ?_, hperm, ?_⟩
    · have : turns sort g = loopTurns sorted { g with m_vampires := sorted } := by
        simp [turns, h1]
      rw [this]
      exact loopTurns_initial sorted _
    · refine List.Pairwise.imp_of_mem ?_ hsorted
      intro v1 v2 hm1 hm2 hle
      rintro ⟨ita, itb, p1, ha, hb, hp1, hgt⟩
      obtain ⟨it1, hit1, hd1⟩ := hd v1 hm1
      obtain ⟨it2, hit2, hd2⟩ := hd v2 hm2
      obtain ⟨it3, hit3, hk1⟩ := hkinds v1 hm1
      obtain ⟨it4, hit4, hk2⟩ := hkinds v2 hm2
      have hit3a : g.items[v1.item]? = some it3 := hit3
      have hit4a : g.items[v2.item]? = some it4 := hit4
      rw [hit1] at hit3a
      rw [hit2] at hit4a
      injection hit3a with e4
      injection hit4a with e5
      subst e4
      subst e5
      rw [sqDistance_fits hv hf hit1 hk1 hp] at hd1
      rw [sqDistance_fits hv hf hit2 hk2 hp] at hd2
      rw [hit2] at ha
      rw [hit1] at hb
      rw [hp] at hp1
      injection ha with e1
      injection hb with e2
      injection hp1 with e3
      subst e1
      subst e2
      subst e3
      apply hle
      rw [hd1, hd2]
      exact hgt

end Vampires
